import Mathlib

/-!
Verification of aetherg: wire protocol, parser, keyspace, snapshot and event loop.

A shallow embedding of the Go sources (`source.go`, `tokenizer.go`, `parser.go`,
`sink.go`, `command.go`, `hashmap.go`, `response.go`, `error.go`, `stats.go`,
`client.go`, `event.go`, `server.go`) and theorems about them.

Conventions of the embedding
* a byte is a `Nat` (real input has values below 256), a Go `string` or `[]byte` is a
  `List Nat`;
* a Go `int` is an `Int`; arithmetic that can leave the 64-bit range is wrapped by
  `wrapInt64`;
* a Go panic (index out of range, nil dereference, explicit `panic`) is `none` in
  `Option`, or `Result.panicked` for the two loops;
* the two `for { ... }` loops run on fuel; `tokenizer.next` and `parser.next` supply a
  fuel computed from the bytes still to be read;
* a pointer to a client is the id of the client, the channel of its responses is a
  queue, and the event loop is a function over the list of the events that arrive.
-/

namespace Aetherg

/-! ## Go library pieces -/

/-- The bytes of an ASCII string literal. -/
def bytesOf (s : String) : List Nat := s.toList.map Char.toNat

/-- Two's complement wrap-around of a 64-bit Go `int`. -/
def wrapInt64 (x : Int) : Int := (x + 2 ^ 63) % 2 ^ 64 - 2 ^ 63

/-- The value fits a 64-bit Go `int`. -/
def isInt64 (x : Int) : Prop := -(2 ^ 63) ≤ x ∧ x < 2 ^ 63

instance (x : Int) : Decidable (isInt64 x) := by unfold isInt64; infer_instance

/-- Decimal digits of a natural number, most significant first, as ASCII bytes
(fuel-driven so that it evaluates; `natToDec` supplies enough fuel). -/
def decDigits : Nat → Nat → List Nat
  | 0, _ => []
  | f + 1, n => if n < 10 then [48 + n] else decDigits f (n / 10) ++ [48 + n % 10]

/-- Decimal rendering of a natural number (`%v` of a non-negative `int`). -/
def natToDec (n : Nat) : List Nat := decDigits (n + 1) n

/-- Decimal rendering of an integer: `strconv.Itoa`, and `%v` of an `int`. -/
def itoa (x : Int) : List Nat :=
  if x < 0 then 45 :: natToDec x.natAbs else natToDec x.natAbs

/-- Value of a run of ASCII digits, `none` when a byte is not a digit. -/
def digitsValue : Nat → List Nat → Option Nat
  | acc, [] => some acc
  | acc, c :: cs => if 48 ≤ c ∧ c ≤ 57 then digitsValue (acc * 10 + (c - 48)) cs else none

/-- Function `strconv.Atoi` on a 64-bit platform: an optional sign, then at least one
decimal digit, and the value has to fit an `int` (9223372036854775808 is 2^63); `none` is
the error result. -/
def atoi (s : List Nat) : Option Int :=
  let body : List Nat := match s with
    | 43 :: r => r
    | 45 :: r => r
    | _ => s
  let neg : Bool := match s with
    | 45 :: _ => true
    | _ => false
  match body with
  | [] => none
  | _ :: _ =>
    match digitsValue 0 body with
    | none => none
    | some v =>
      if neg then (if v ≤ 9223372036854775808 then some (-(v : Int)) else none)
      else (if v < 9223372036854775808 then some (v : Int) else none)

/-- ASCII upper-casing of one byte. -/
def asciiUpperByte (b : Nat) : Nat := if 97 ≤ b ∧ b ≤ 122 then b - 32 else b

/-- Function `strings.ToUpper`. A string of ASCII bytes takes the library's fast path and
has its letters `a..z` replaced; a string with a byte of 128 or more is mapped rune by
rune through the Unicode tables, which are not part of this repository: `U` stands for
that library path. -/
def toUpper (U : List Nat → List Nat) (s : List Nat) : List Nat :=
  if s.all (fun b => decide (b < 128)) then s.map asciiUpperByte else U s

/-- Errors of the Go `error` interface that reach the parser. -/
inductive GoError where
  | EOF
  | other (msg : List Nat)
  deriving DecidableEq, Repr

/-- Outcome of a loop of the program. -/
inductive Result (α : Type) where
  | done (a : α)
  | panicked
  | outOfFuel
  deriving DecidableEq, Repr

/-! ## stats.go: ioData -/

structure ioData where
  bytes : Nat
  calls : Nat
  deriving DecidableEq, Repr

def newIoData : ioData := ⟨0, 0⟩

def ioData.add (i : ioData) (bytes : Nat) : ioData :=
  { bytes := i.bytes + bytes, calls := if bytes > 0 then i.calls + 1 else i.calls }

def ioData.merge (i : ioData) (other : ioData) : ioData :=
  { bytes := i.bytes + other.bytes, calls := i.calls + other.calls }

/-! ## error.go -/

structure parsingError where
  message : List Nat
  fatal : Bool
  technical : Bool
  cause : Option GoError
  deriving DecidableEq, Repr

def parsingError.isFatal (e : parsingError) : Bool := e.fatal

def parsingError.isTechnical (e : parsingError) : Bool := e.technical

def parsingError.getCause (e : parsingError) : Option GoError := e.cause

def parsingError.isEOF (e : parsingError) : Bool := decide (e.cause = some GoError.EOF)

/-- The message is the already formatted text. -/
def newParsingError (message : List Nat) : parsingError :=
  { message := message, fatal := false, technical := false, cause := none }

def newTokenizationError (message : List Nat) : parsingError :=
  { message := message, fatal := true, technical := false, cause := none }

def newReadingError (err : GoError) : parsingError :=
  { message := bytesOf "error reading from master", fatal := true, technical := true,
    cause := some err }

/-! ## source.go -/

/-- The reader behind a source: the chunks it will hand out, one per `Read` call, then
`io.EOF`. A chunk longer than the caller's buffer is handed out in pieces. -/
structure inputStream where
  chunks : List (List Nat)
  deriving DecidableEq, Repr

/-- One `Read(buff)` call with `len(buff) = cap`: the bytes stored at the front of the
buffer, the error, and the reader afterwards. -/
def inputStream.Read (fd : inputStream) (cap : Nat) : List Nat × Option GoError × inputStream :=
  match fd.chunks with
  | [] => ([], some GoError.EOF, fd)
  | c :: rest =>
    if c.length ≤ cap then (c, none, ⟨rest⟩)
    else (c.take cap, none, ⟨c.drop cap :: rest⟩)

structure source where
  fd : inputStream
  buff : List Nat
  pos : Nat
  size : Nat
  reads : Nat
  in_ : Nat
  deriving DecidableEq, Repr

def newBufferedSource (fd : inputStream) (buffSize : Nat) : source :=
  { fd := fd, buff := List.replicate buffSize 0, pos := 0, size := 0, reads := 0, in_ := 0 }

def source.hasUnreadInput (src : source) : Bool :=
  decide (src.size > 0) && decide (src.pos < src.size)

/-- Indexing past the buffer panics. -/
def source.peekByte (src : source) : Option Nat := src.buff[src.pos]?

def source.removeByte (src : source) : Option (Nat × source) :=
  match src.buff[src.pos]? with
  | none => none
  | some b => some (b, { src with pos := src.pos + 1 })

def source.loadData (src : source) : Nat × Option GoError × source :=
  match src.fd.Read src.buff.length with
  | (got, some err, fd') => (got.length, some err, { src with fd := fd' })
  | (got, none, fd') =>
    (got.length, none,
      { src with
        fd := fd'
        buff := got ++ src.buff.drop got.length
        size := got.length
        pos := 0
        reads := src.reads + 1
        in_ := src.in_ + got.length })

/-- Result: the byte, the number of bytes loaded, the error, the source afterwards. -/
def source.readChar (src : source) (remove : Bool) : Option (Nat × Nat × Option GoError × source) :=
  if src.hasUnreadInput then
    if remove then
      match src.removeByte with
      | none => none
      | some (b, s) => some (b, 0, none, s)
    else
      match src.peekByte with
      | none => none
      | some b => some (b, 0, none, src)
  else
    match src.loadData with
    | (bytes, some err, s) => some (0, bytes, some err, s)
    | (bytes, none, s) =>
      if remove then
        match s.removeByte with
        | none => none
        | some (b, s') => some (b, bytes, none, s')
      else
        match s.peekByte with
        | none => none
        | some b => some (b, bytes, none, s)

def source.peek (src : source) : Option (Nat × Nat × Option GoError × source) :=
  src.readChar false

/-- The three results of `readChar(true)` are dropped. -/
def source.rm (src : source) : Option source :=
  match src.readChar true with
  | none => none
  | some (_, _, _, s) => some s

def source.numOfReads (src : source) : Nat := src.reads

def source.bytesIn (src : source) : Nat := src.in_

/-! ## tokenizer.go -/

inductive tokenType where
  | tokenComment
  | tokenIdentifier
  | tokenString
  | tokenEol
  | tokenArray
  | tokenBinString
  deriving DecidableEq, Repr

/-- The string value of a token type (`tokenType` is a Go string type). -/
def tokenType.str : tokenType → List Nat
  | .tokenComment => bytesOf "COMMENT"
  | .tokenIdentifier => bytesOf "IDENTIFIER"
  | .tokenString => bytesOf "STRING"
  | .tokenEol => bytesOf "EOL"
  | .tokenArray => bytesOf "ARRAY"
  | .tokenBinString => bytesOf "BIN_STRING"

inductive tokenizerState where
  | tokenizerWaitingForToken
  | tokenizerReadingIdentifier
  | tokenizerReadingString
  | tokenizerWaitingSpaceForEos
  | tokenizerWaitingEol
  | tokenizerReadingComment
  | tokenizerReadingSize
  | tokenizerReadingBinStringSeparator
  | tokenizerWaitingEobs
  | tokenizerReadingBinString
  | tokenizerScape
  deriving DecidableEq, Repr

abbrev carryReturn : Nat := 13
abbrev lineFeed : Nat := 10
abbrev doubleQuote : Nat := 34
abbrev singleQuote : Nat := 39
abbrev space : Nat := 32
abbrev tab : Nat := 9
abbrev numberSign : Nat := 35
abbrev dollar : Nat := 36
abbrev asterisk : Nat := 42
abbrev del : Nat := 127
abbrev scape : Nat := 92

structure token where
  ttype : tokenType
  data : List Nat
  delimiter : Nat
  size : Int
  deriving DecidableEq, Repr

/-- The field `token` is a pointer: `none` is nil, and using it through nil panics. -/
structure tokenizer where
  src : source
  state : tokenizerState
  token : Option token
  lines : Nat
  allowedTokenSize : Int
  deriving DecidableEq, Repr

def tokenizer.getNumberOfReads (t : tokenizer) : Nat := t.src.numOfReads

def tokenizer.getBytesRead (t : tokenizer) : Nat := t.src.bytesIn

def newTokenizer (src : source) (allowedTokenSize : Int) : tokenizer :=
  { src := src, state := .tokenizerWaitingForToken, token := none, lines := 0,
    allowedTokenSize := allowedTokenSize }

def realPrintable (ch : Nat) : Bool := decide (ch > space) && decide (ch < del)

abbrev zeroChar : Nat := 48
abbrev nineChar : Nat := 57

def asciiDigit (ch : Nat) : Bool := decide (ch ≥ zeroChar) && decide (ch ≤ nineChar)

/-- Any byte that is not a digit panics. -/
def ascii2int (ch : Nat) : Option Int :=
  if 48 ≤ ch ∧ ch ≤ 57 then some ((ch - 48 : Nat) : Int) else none

def token.is (tk : token) (ttype : tokenType) : Bool := decide (tk.ttype = ttype)

def token.getSize (tk : token) : Int := tk.size

def token.getType (tk : token) : tokenType := tk.ttype

def token.value (tk : token) : List Nat := tk.data

def token.getData (tk : token) : List Nat := tk.data

def token.expectedSizeAndDataLenghtIsMatching (tk : token) : Bool :=
  decide ((tk.data.length : Int) = tk.getSize)

/-- The size of an IDENTIFIER or STRING token counts its bytes, so it stays far below
2^63 and is not wrapped. -/
def token.append (tk : token) (ch : Nat) : token :=
  { tk with
    data := tk.data ++ [ch]
    size := match tk.ttype with
      | .tokenIdentifier => tk.size + 1
      | .tokenString => tk.size + 1
      | _ => tk.size }

abbrev stringSizeRadix : Int := 10

def token.increaseSize (tk : token) (ch : Nat) : Option token :=
  match ascii2int ch with
  | none => none
  | some value => some { tk with size := wrapInt64 ((tk.size * stringSizeRadix) + value) }

def tokenizer.illegalChar (_t : tokenizer) (ch : Nat) : parsingError :=
  newTokenizationError (bytesOf "Illegal char " ++ natToDec ch)

def tokenizer.unexpectedCharEos (_t : tokenizer) (ch : Nat) : parsingError :=
  newTokenizationError (bytesOf "Unexpected '" ++ natToDec ch ++ bytesOf "' next to EOS")

def tokenizer.unexpectedEol (_t : tokenizer) : parsingError :=
  newTokenizationError (bytesOf "Unexpected end of line")

def tokenizer.missingLineFeed (_t : tokenizer) : parsingError :=
  newTokenizationError (bytesOf "Missing line feed after carry return to proper end a line")

def tokenizer.unexpectedQuote (_t : tokenizer) : parsingError :=
  newTokenizationError (bytesOf "Unexpected quote")

def tokenizer.tokenTooBig (t : tokenizer) : parsingError :=
  newTokenizationError
    (bytesOf "Token is too big (max size allowed is " ++ itoa t.allowedTokenSize ++ bytesOf " bytes)")

def tokenizer.reachedSizeLimit (t : tokenizer) : Option Bool :=
  match t.token with
  | none => none
  | some tk => some (decide (tk.getSize ≥ t.allowedTokenSize))

def tokenizer.new (t : tokenizer) (ttype : tokenType) : tokenizer :=
  { t with token := some { ttype := ttype, data := [], delimiter := 0, size := 0 } }

def tokenizer.increaseSize (t : tokenizer) (ch : Nat) : Option tokenizer :=
  match t.token with
  | none => none
  | some tk =>
    match tk.increaseSize ch with
    | none => none
    | some tk' => some { t with token := some tk' }

def tokenizer.consume (t : tokenizer) : Option tokenizer :=
  match t.src.rm with
  | none => none
  | some s => some { t with src := s }

def tokenizer.peek (t : tokenizer) : Option (Nat × Nat × Option GoError × tokenizer) :=
  match t.src.peek with
  | none => none
  | some (ch, bytes, err, s) => some (ch, bytes, err, { t with src := s })

def tokenizer.yield (t : tokenizer) : Option (Aetherg.token × tokenizer) :=
  match t.token with
  | none => none
  | some tk => some (tk, if tk.is .tokenEol then { t with lines := t.lines + 1 } else t)

def tokenizer.append (t : tokenizer) (ch : Nat) : Option tokenizer :=
  match t.token with
  | none => none
  | some tk => some { t with token := some (tk.append ch) }

def tokenizer.delimiter (t : tokenizer) : Option Nat :=
  match t.token with
  | none => none
  | some tk => some tk.delimiter

def tokenizer.setDelimiter (t : tokenizer) (ch : Nat) : Option tokenizer :=
  match t.token with
  | none => none
  | some tk => some { t with token := some { tk with delimiter := ch } }

def tokenizer.reachedExpectedSizeOfBinaryString (t : tokenizer) : Option Bool :=
  match t.token with
  | none => none
  | some tk => some tk.expectedSizeAndDataLenghtIsMatching

def tokenizer.tokenIs (t : tokenizer) (ttype : tokenType) : Option Bool :=
  match t.token with
  | none => none
  | some tk => some (tk.is ttype)

/-- What one pass through the body of the loop of `tokenizer.next` does after the peek:
go round again, or return a token or an error. -/
inductive Step where
  | again (t : tokenizer)
  | ret (tok : Option token) (err : Option parsingError) (t : tokenizer)
  deriving DecidableEq, Repr

open tokenizerState tokenType

/-- Case `tokenizerWaitingForToken` of the switch in `tokenizer.next`. -/
def tokenizer.caseWaitingForToken (t : tokenizer) (ch : Nat) : Option Step :=
  if ch = dollar then do
    let t := t.new tokenBinString
    let t ← t.consume
    pure (Step.again { t with state := tokenizerReadingSize })
  else if ch = asterisk then do
    let t := t.new tokenArray
    let t ← t.consume
    pure (Step.again { t with state := tokenizerReadingSize })
  else if ch = numberSign then do
    let t := t.new tokenComment
    let t ← t.consume
    pure (Step.again { t with state := tokenizerReadingComment })
  else if ch = space ∨ ch = tab then do
    let t ← t.consume
    pure (Step.again { t with state := tokenizerWaitingForToken })
  else if ch = carryReturn then do
    let t := t.new tokenEol
    let t ← t.consume
    pure (Step.again { t with state := tokenizerWaitingEol })
  else if ch = lineFeed then do
    let t := t.new tokenEol
    let t ← t.consume
    let (tok, t) ← tokenizer.yield { t with state := tokenizerWaitingForToken }
    pure (Step.ret (some tok) none t)
  else if ch = singleQuote ∨ ch = doubleQuote then do
    let t := t.new tokenString
    let t ← t.setDelimiter ch
    let t ← t.consume
    pure (Step.again { t with state := tokenizerReadingString })
  else if realPrintable ch then do
    let t := t.new tokenIdentifier
    let t ← t.append ch
    let t ← t.consume
    pure (Step.again { t with state := tokenizerReadingIdentifier })
  else
    pure (Step.ret none (some (t.illegalChar ch)) t)

/-- Case `tokenizerReadingIdentifier`. -/
def tokenizer.caseReadingIdentifier (t : tokenizer) (ch : Nat) : Option Step :=
  if ch = carryReturn ∨ ch = lineFeed ∨ ch = space ∨ ch = tab then do
    let (tok, t) ← tokenizer.yield { t with state := tokenizerWaitingForToken }
    pure (Step.ret (some tok) none t)
  else if ch = doubleQuote ∨ ch = singleQuote then
    pure (Step.ret none (some t.unexpectedQuote) t)
  else if realPrintable ch then do
    if (← t.reachedSizeLimit) then
      pure (Step.ret none (some t.tokenTooBig) t)
    else
      let t ← t.append ch
      let t ← t.consume
      pure (Step.again { t with state := tokenizerReadingIdentifier })
  else
    pure (Step.ret none (some (t.illegalChar ch)) t)

/-- Case `tokenizerReadingString`. -/
def tokenizer.caseReadingString (t : tokenizer) (ch : Nat) : Option Step :=
  if ch = carryReturn ∨ ch = lineFeed then
    pure (Step.ret none (some t.unexpectedEol) t)
  else if ch = scape then do
    if (← t.reachedSizeLimit) then
      pure (Step.ret none (some t.tokenTooBig) t)
    else
      let t ← t.append ch
      let t ← t.consume
      pure (Step.again { t with state := tokenizerScape })
  else do
    let d ← t.delimiter
    if ch = d then
      let t ← t.consume
      let (tok, t) ← tokenizer.yield { t with state := tokenizerWaitingSpaceForEos }
      pure (Step.ret (some tok) none t)
    else
      let t ← (if ch = doubleQuote then t.append scape else some t)
      if (← t.reachedSizeLimit) then
        pure (Step.ret none (some t.tokenTooBig) t)
      else
        let t ← t.append ch
        let t ← t.consume
        pure (Step.again { t with state := tokenizerReadingString })

/-- Case `tokenizerWaitingSpaceForEos`. -/
def tokenizer.caseWaitingSpaceForEos (t : tokenizer) (ch : Nat) : Option Step :=
  if ch = lineFeed ∨ ch = carryReturn ∨ ch = space then
    pure (Step.again { t with state := tokenizerWaitingForToken })
  else
    pure (Step.ret none (some (t.unexpectedCharEos ch)) t)

/-- Case `tokenizerWaitingEol`. -/
def tokenizer.caseWaitingEol (t : tokenizer) (ch : Nat) : Option Step :=
  if ch ≠ lineFeed then
    pure (Step.ret none (some t.missingLineFeed) t)
  else do
    let t ← t.consume
    let (tok, t) ← tokenizer.yield { t with state := tokenizerWaitingForToken }
    pure (Step.ret (some tok) none t)

/-- Case `tokenizerReadingComment`. -/
def tokenizer.caseReadingComment (t : tokenizer) (ch : Nat) : Option Step :=
  if ch = carryReturn ∨ ch = lineFeed then do
    let (tok, t) ← tokenizer.yield { t with state := tokenizerWaitingForToken }
    pure (Step.ret (some tok) none t)
  else do
    let t ← t.consume
    pure (Step.again { t with state := tokenizerReadingComment })

/-- Case `tokenizerReadingSize`. -/
def tokenizer.caseReadingSize (t : tokenizer) (ch : Nat) : Option Step :=
  if asciiDigit ch then do
    let t ← t.increaseSize ch
    let t ← t.consume
    pure (Step.again { t with state := tokenizerReadingSize })
  else if ch = carryReturn ∨ ch = lineFeed then do
    if (← t.tokenIs tokenArray) then
      let (tok, t) ← tokenizer.yield { t with state := tokenizerWaitingForToken }
      pure (Step.ret (some tok) none t)
    else
      if (← t.reachedSizeLimit) then
        pure (Step.ret none (some t.tokenTooBig) t)
      else
        pure (Step.again { t with state := tokenizerReadingBinStringSeparator })
  else
    pure (Step.ret none (some (t.illegalChar ch)) t)

/-- Case `tokenizerReadingBinStringSeparator`. -/
def tokenizer.caseReadingBinStringSeparator (t : tokenizer) (ch : Nat) : Option Step :=
  if ch = carryReturn then do
    let t ← t.consume
    pure (Step.again { t with state := tokenizerReadingBinStringSeparator })
  else if ch = lineFeed then do
    let t ← t.consume
    pure (Step.again { t with state := tokenizerReadingBinString, lines := t.lines + 1 })
  else
    pure (Step.ret none (some (t.illegalChar ch)) t)

/-- Case `tokenizerWaitingEobs`. -/
def tokenizer.caseWaitingEobs (t : tokenizer) (ch : Nat) : Option Step :=
  if ch = carryReturn then do
    let t ← t.consume
    pure (Step.again { t with state := tokenizerWaitingEobs })
  else if ch = lineFeed then do
    let t ← t.consume
    let (tok, t) ← tokenizer.yield { t with state := tokenizerWaitingForToken, lines := t.lines + 1 }
    pure (Step.ret (some tok) none t)
  else
    pure (Step.ret none (some (t.illegalChar ch)) t)

/-- Case `tokenizerReadingBinString`. -/
def tokenizer.caseReadingBinString (t : tokenizer) (ch : Nat) : Option Step := do
  if (← t.reachedExpectedSizeOfBinaryString) then
    pure (Step.again { t with state := tokenizerWaitingEobs })
  else
    let t ← t.append ch
    let t ← t.consume
    pure (Step.again { t with state := tokenizerReadingBinString })

/-- Case `tokenizerScape`. -/
def tokenizer.caseScape (t : tokenizer) (ch : Nat) : Option Step := do
  if (← t.reachedSizeLimit) then
    pure (Step.ret none (some t.tokenTooBig) t)
  else
    let t ← t.append ch
    let t ← t.consume
    pure (Step.again { t with state := tokenizerReadingString })

/-- The switch on the tokenizer state in the loop of `tokenizer.next` (every state is
one of the eleven constants, so the panicking default case is not reached). -/
def tokenizer.dispatch (t : tokenizer) (ch : Nat) : Option Step :=
  match t.state with
  | tokenizerWaitingForToken => t.caseWaitingForToken ch
  | tokenizerReadingIdentifier => t.caseReadingIdentifier ch
  | tokenizerReadingString => t.caseReadingString ch
  | tokenizerWaitingSpaceForEos => t.caseWaitingSpaceForEos ch
  | tokenizerWaitingEol => t.caseWaitingEol ch
  | tokenizerReadingComment => t.caseReadingComment ch
  | tokenizerReadingSize => t.caseReadingSize ch
  | tokenizerReadingBinStringSeparator => t.caseReadingBinStringSeparator ch
  | tokenizerWaitingEobs => t.caseWaitingEobs ch
  | tokenizerReadingBinString => t.caseReadingBinString ch
  | tokenizerScape => t.caseScape ch

/-- What `tokenizer.next` returns, with the tokenizer as it is left. -/
structure tokenizerResult where
  tok : Option token
  in_ : ioData
  err : Option parsingError
  t : tokenizer
  deriving DecidableEq, Repr

/-- The loop of `tokenizer.next`, on fuel. -/
def tokenizer.nextLoop : Nat → tokenizer → ioData → Result tokenizerResult
  | 0, _, _ => Result.outOfFuel
  | fuel + 1, t, io =>
    match t.peek with
    | none => Result.panicked
    | some (ch, bytes, some err, t1) =>
      let _ := ch
      Result.done ⟨none, io.add bytes, some (newReadingError err), t1⟩
    | some (ch, bytes, none, t1) =>
      match t1.dispatch ch with
      | none => Result.panicked
      | some (Step.again t2) => tokenizer.nextLoop fuel t2 (io.add bytes)
      | some (Step.ret tok err t2) => Result.done ⟨tok, io.add bytes, err, t2⟩

/-- The bytes a source still holds unread in its buffer. -/
def source.unread (src : source) : List Nat := (src.buff.take src.size).drop src.pos

/-- Bound on the passes of the tokenizer loop left for a source: one for every unread
byte, one for every pending `Read`, and five more. -/
def source.fuel (src : source) : Nat :=
  src.unread.length + (src.fd.chunks.map (fun c => c.length + 1)).sum + 5

def tokenizer.next (t : tokenizer) : Result tokenizerResult :=
  tokenizer.nextLoop t.src.fuel t newIoData

/-! ## command.go -/

inductive commandCode where
  | commandSet
  | commandGet
  | commandRm
  | commandRmall
  | commandStats
  | commandList
  | commandPing
  | commandSync
  | commandExit
  deriving DecidableEq, Repr

open commandCode

/-- The string value of a command code (`commandCode` is a Go string type). -/
def commandCode.str : commandCode → List Nat
  | commandSet => [83, 69, 84]
  | commandGet => [71, 69, 84]
  | commandRm => [82, 77]
  | commandRmall => [82, 77, 65, 76, 76]
  | commandStats => [83, 84, 65, 84, 83]
  | commandList => [76, 73, 83, 84]
  | commandPing => [80, 73, 78, 71]
  | commandSync => [83, 89, 78, 67]
  | commandExit => [69, 88, 73, 84]

def commandCodes : List commandCode :=
  [commandSet, commandGet, commandRm, commandRmall, commandStats, commandList, commandPing,
    commandSync, commandExit]

def writeCommands : List commandCode := [commandSet, commandRm, commandRmall]

def readCommands : List commandCode := [commandGet, commandList]

def controlCommands : List commandCode := [commandPing, commandStats, commandExit]

structure command where
  code : commandCode
  key : List Nat
  value : List Nat
  expiration : Int
  deriving DecidableEq, Repr

def newCommand (code : commandCode) (key : List Nat) (value : List Nat) (expiration : Int) :
    command :=
  { code := code, key := key, value := value, expiration := expiration }

def command.getCode (c : command) : commandCode := c.code

def command.getKey (c : command) : List Nat := c.key

def command.getValue (c : command) : List Nat := c.value

def command.getExpiration (c : command) : Int := c.expiration

def command.isWriteCommand (c : command) : Bool := writeCommands.any (fun x => decide (x = c.getCode))

def command.hasExpirationTime (c : command) : Bool := decide (c.expiration ≠ 0)

def command.isFinal (c : command) : Bool := decide (c.code = commandExit)

def command.isReadCommand (c : command) : Bool := readCommands.any (fun x => decide (x = c.getCode))

def command.isControlCommand (c : command) : Bool :=
  controlCommands.any (fun x => decide (x = c.getCode))

def command.canRunOnAReplica (c : command) : Bool := c.isControlCommand || c.isReadCommand

/-- Modelled from the spec: `bprintf` is not among the sources; it formats like
`fmt.Sprintf` and returns the bytes. The model covers the shapes the sources use: a
literal text, then optionally the `%v` of an `int` followed by a literal rest. -/
def bprintf (before : List Nat) (v : Option Int) (after : List Nat) : List Nat :=
  before ++ (match v with
    | none => []
    | some x => itoa x) ++ after

/-- The keyword `EXP`. -/
abbrev expKeyword : List Nat := [69, 88, 80]

/-- A code outside SET, RM and RMALL ends the process through `log.Fatal`: `none`. -/
def command.toPieces (c : command) : Option (List (List Nat)) :=
  let pieces : List (List Nat) := [c.code.str]
  match c.code with
  | commandRm => some (pieces ++ [c.key])
  | commandSet =>
    let pieces := pieces ++ [c.key] ++ [c.value]
    if c.hasExpirationTime then
      some (pieces ++ [bprintf expKeyword none []] ++ [bprintf [] (some c.expiration) []])
    else some pieces
  | commandRmall => some pieces
  | _ => none

/-! ## parser.go -/

inductive parserState where
  | parserInit
  | parserReadingCommand
  | parserReadingArray
  deriving DecidableEq, Repr

open parserState

structure parser where
  state : parserState
  tokenizer : tokenizer
  args : List token
  expectedArgs : Int
  in_ : ioData
  deriving DecidableEq, Repr

def parser.getNumberOfReads (p : parser) : Nat := p.tokenizer.getNumberOfReads

def parser.getBytesRead (p : parser) : Nat := p.tokenizer.getBytesRead

abbrev maxTokenSize : Int := 1024 * 4

def newParser (src : source) : parser :=
  { state := parserInit, tokenizer := newTokenizer src maxTokenSize, args := [],
    expectedArgs := 0, in_ := newIoData }

/-- What `parser.next` and `parser.parseArgs` return, with the parser as it is left. -/
structure parserResult where
  cmd : Option command
  in_ : ioData
  err : Option parsingError
  p : parser
  deriving DecidableEq, Repr

def parser.addArgs (p : parser) (tk : token) : parser := { p with args := p.args ++ [tk] }

def parser.cleanArgs (p : parser) : parser := { p with args := [] }

/-- An index past the arguments panics. -/
def parser.getArg (p : parser) (index : Nat) : Option (List Nat) :=
  match p.args[index]? with
  | none => none
  | some tk => some tk.value

def parser.getArgData (p : parser) (index : Nat) : Option (List Nat) :=
  match p.args[index]? with
  | none => none
  | some tk => some tk.getData

def parser.binStringBeforeArray (_p : parser) : parsingError :=
  newParsingError (bytesOf "binary string before and array")

def parser.arrayInsideArray (_p : parser) : parsingError :=
  newParsingError (bytesOf "array inside an array")

def parser.invalidTokenMiddleOfArray (_p : parser) (tk : token) : parsingError :=
  newParsingError (bytesOf "unexpected token " ++ tk.getType.str ++ bytesOf " while reading an array")

def parser.arrayMiddleOfLine (_p : parser) : parsingError :=
  newParsingError (bytesOf "unexpected array in the middle of a command line")

def parser.invalidCommand (_p : parser) (code : List Nat) : parsingError :=
  newParsingError (bytesOf "invalid command \"" ++ code ++ bytesOf "\"")

/-- The code found, or the error. -/
def parser.readCommand (U : List Nat → List Nat) (p : parser) :
    Option (Except parsingError commandCode) :=
  match p.getArg 0 with
  | none => none
  | some arg0 =>
    match commandCodes.find? (fun code => decide (toUpper U arg0 = code.str)) with
    | some code => some (Except.ok code)
    | none => some (Except.error (p.invalidCommand arg0))

/-- The deferred `cleanArgs` empties the arguments of the parser that is left. -/
def parser.parseArgs (U : List Nat → List Nat) (p : parser) : Option parserResult :=
  let q := p.cleanArgs
  match p.readCommand U with
  | none => none
  | some (Except.error err) => some ⟨none, p.in_, some err, q⟩
  | some (Except.ok code) =>
    let nparams : Int := (p.args.length : Int) - 1
    match code with
    | commandSet =>
      if nparams < 2 then
        some ⟨none, p.in_, some (newParsingError (bytesOf "to few args, expected as least 2")), q⟩
      else if nparams > 4 then
        some ⟨none, p.in_, some (newParsingError
          (bytesOf "unknow args, expected max " ++ itoa 4 ++ bytesOf " given " ++ itoa nparams)), q⟩
      else do
        let key ← p.getArg 1
        let value ← p.getArgData 2
        if nparams > 2 then
          let arg3 ← p.getArg 3
          if toUpper U arg3 = expKeyword then
            let arg4 ← p.getArg 4
            match atoi arg4 with
            | none =>
              pure ⟨none, p.in_, some (newParsingError
                (bytesOf "invalid expiration lastMeasurement \"" ++ arg4 ++ bytesOf "\"")), q⟩
            | some expiration => pure ⟨some (newCommand code key value expiration), p.in_, none, q⟩
          else
            pure ⟨none, p.in_, some (newParsingError
              (bytesOf "unknown argument \"" ++ arg3 ++ bytesOf "\"")), q⟩
        else
          pure ⟨some (newCommand code key value 0), p.in_, none, q⟩
    | commandGet | commandRm =>
      if nparams < 1 then
        some ⟨none, p.in_, some (newParsingError (bytesOf "to few args, expected as least 1")), q⟩
      else if nparams > 1 then
        some ⟨none, p.in_, some (newParsingError
          (bytesOf "unknow args, expected max " ++ itoa 1 ++ bytesOf " given " ++ itoa nparams)), q⟩
      else do
        let key ← p.getArg 1
        pure ⟨some (newCommand code key [] 0), p.in_, none, q⟩
    | _ =>
      if nparams > 0 then
        some ⟨none, p.in_, some (newParsingError
          (bytesOf "unknow args, expcted 0 but " ++ itoa nparams ++ bytesOf " was given")), q⟩
      else
        some ⟨some (newCommand code [] [] 0), p.in_, none, q⟩

/-- Lift the result of `parseArgs` into the outcome of the loop. -/
def parser.finish (r : Option parserResult) : Result parserResult :=
  match r with
  | none => Result.panicked
  | some x => Result.done x

/-- The loop of `parser.next`, on fuel. -/
def parser.nextLoop (U : List Nat → List Nat) : Nat → parser → Result parserResult
  | 0, _ => Result.outOfFuel
  | fuel + 1, p =>
    match p.tokenizer.next with
    | Result.panicked => Result.panicked
    | Result.outOfFuel => Result.outOfFuel
    | Result.done r =>
      let p1 : parser := { p with tokenizer := r.t, in_ := p.in_.merge r.in_ }
      match r.err with
      | some err => Result.done ⟨none, p1.in_, some err, p1⟩
      | none =>
        match r.tok with
        | none => Result.panicked
        | some tk =>
          match p1.state with
          | parserInit =>
            match tk.getType with
            | .tokenEol => parser.nextLoop U fuel { p1 with state := parserInit }
            | .tokenComment => parser.nextLoop U fuel { p1 with state := parserInit }
            | .tokenBinString => Result.done ⟨none, p1.in_, some p1.binStringBeforeArray, p1⟩
            | .tokenString => parser.nextLoop U fuel { p1.addArgs tk with state := parserReadingCommand }
            | .tokenIdentifier =>
              parser.nextLoop U fuel { p1.addArgs tk with state := parserReadingCommand }
            | .tokenArray =>
              parser.nextLoop U fuel { p1 with state := parserReadingArray, expectedArgs := tk.getSize }
          | parserReadingCommand =>
            match tk.getType with
            | .tokenEol => parser.finish (parser.parseArgs U { p1 with state := parserInit })
            | .tokenString => parser.nextLoop U fuel { p1.addArgs tk with state := parserReadingCommand }
            | .tokenIdentifier =>
              parser.nextLoop U fuel { p1.addArgs tk with state := parserReadingCommand }
            | .tokenComment => parser.nextLoop U fuel { p1 with state := parserReadingCommand }
            | .tokenBinString => Result.done ⟨none, p1.in_, some p1.binStringBeforeArray, p1⟩
            | .tokenArray => Result.done ⟨none, p1.in_, some p1.arrayMiddleOfLine, p1⟩
          | parserReadingArray =>
            match tk.getType with
            | .tokenEol => parser.nextLoop U fuel { p1 with state := parserReadingArray }
            | .tokenString => Result.done ⟨none, p1.in_, some (p1.invalidTokenMiddleOfArray tk), p1⟩
            | .tokenIdentifier =>
              Result.done ⟨none, p1.in_, some (p1.invalidTokenMiddleOfArray tk), p1⟩
            | .tokenComment => Result.done ⟨none, p1.in_, some (p1.invalidTokenMiddleOfArray tk), p1⟩
            | .tokenBinString =>
              let p2 : parser := { p1.addArgs tk with state := parserReadingArray }
              if (p2.args.length : Int) = p2.expectedArgs then
                parser.finish (parser.parseArgs U { p2 with state := parserInit })
              else parser.nextLoop U fuel p2
            | .tokenArray => Result.done ⟨none, p1.in_, some p1.arrayInsideArray, p1⟩

/-- Every pass of the loop of `parser.next` that goes round again has taken a token from
the source, so the fuel of the tokenizer bounds the passes as well. -/
def parser.next (U : List Nat → List Nat) (p : parser) : Result parserResult :=
  parser.nextLoop U p.tokenizer.src.fuel { p with in_ := newIoData }

/-! ## sink.go -/

/-- The writer behind a sink: the byte strings its `Write` has taken, oldest first, and
what the coming calls of `Write` do: `none` takes the whole slice, `some (n, e)` takes at
most `n` bytes of it and returns the error `e`; once the list is used up every call
takes the whole slice. -/
structure outputStream where
  written : List (List Nat)
  failures : List (Option (Nat × GoError))
  deriving DecidableEq, Repr

/-- Method `Write`: the count, the error and the writer afterwards. -/
def outputStream.Write (o : outputStream) (b : List Nat) : Nat × Option GoError × outputStream :=
  match o.failures with
  | [] => (b.length, none, { o with written := o.written ++ [b] })
  | none :: rest => (b.length, none, { written := o.written ++ [b], failures := rest })
  | some (n, e) :: rest =>
    ((b.take n).length, some e, { written := o.written ++ [b.take n], failures := rest })

structure sink where
  output : outputStream
  buffer : List Nat
  threshold : Int
  writes : Nat
  written : Nat
  deriving DecidableEq, Repr

def newSink (output : outputStream) (writeThreshold : Int) : sink :=
  { output := output, buffer := [], threshold := writeThreshold, writes := 0, written := 0 }

def sink.write (s : sink) (chunks : List (List Nat)) : sink :=
  chunks.foldl (fun acc chunk => { acc with buffer := acc.buffer ++ chunk }) s

def sink.writeAsProtocolString (s : sink) (data : List Nat) : sink :=
  let size : List Nat := [dollar] ++ itoa data.length ++ [carryReturn, lineFeed]
  s.write [size, data, [carryReturn, lineFeed]]

def sink.writeArrayOfProtocolStrings (s : sink) (pieces : List (List Nat)) : sink :=
  let arrayToken := bprintf [asterisk] (some pieces.length) [carryReturn, lineFeed]
  pieces.foldl (fun acc chunk => acc.writeAsProtocolString chunk) (s.write [arrayToken])

def sink.full (s : sink) : Bool := decide ((s.buffer.length : Int) ≥ s.threshold)

def sink.empty (s : sink) : Bool := decide (s.buffer.length = 0)

def sink.resetBuffer (s : sink) : sink := { s with buffer := [] }

/-- The deferred `resetBuffer` runs only on the path that registered it, after a `Write`
without an error. -/
def sink.flush (s : sink) : (ioData × Option GoError) × sink :=
  if s.empty then ((newIoData, none), s)
  else
    match s.output.Write s.buffer with
    | (count, some e, out) => ((newIoData.add count, some e), { s with output := out })
    | (count, none, out) => ((newIoData.add count, none), { s with output := out }.resetBuffer)

def sink.flushWrite (s : sink) (chunks : List (List Nat)) : (ioData × Option GoError) × sink :=
  (s.write chunks).flush

def sink.flushAsProtocolString (s : sink) (data : List Nat) : (ioData × Option GoError) × sink :=
  (s.writeAsProtocolString data).flush

def sink.getBytesWritten (s : sink) : Nat := s.written

def sink.getNumberOfWrites (s : sink) : Nat := s.writes

def sink.flushArrayOfProtocolStrings (s : sink) (pieces : List (List Nat)) :
    (ioData × Option GoError) × sink :=
  (s.writeArrayOfProtocolStrings pieces).flush

def sink.writeAsRawBytes (s : sink) (str : List Nat) : sink := s.write [str]

def sink.flushAsRawBytes (s : sink) (str : List Nat) : (ioData × Option GoError) × sink :=
  (s.writeAsRawBytes str).flush

/-! ## hashmap.go -/

structure item where
  key : List Nat
  value : List Nat
  expiration : Int
  creation : Int
  deriving DecidableEq, Repr

/-- A Go `map[string]*item` as the list of its entries; a well-formed map holds a key
once. Field `creation` of an item is the Unix second of the instant, the only part of
the `time.Time` the program reads. -/
abbrev itemMap := List (List Nat × item)

def itemMap.getItem (m : itemMap) (key : List Nat) : Option item :=
  match m with
  | [] => none
  | e :: rest => if e.1 = key then some e.2 else itemMap.getItem rest key

/-- Statement `m[key] = v`. -/
def itemMap.put (m : itemMap) (key : List Nat) (v : item) : itemMap :=
  match m.getItem key with
  | some _ => m.map (fun e => if e.1 = key then (key, v) else e)
  | none => m ++ [(key, v)]

/-- Statement `delete(m, key)`. -/
def itemMap.remove (m : itemMap) (key : List Nat) : itemMap :=
  m.filter (fun e => decide (e.1 ≠ key))

/-- A Go `map[string]bool` whose values are all `true`, as the list of its keys. -/
abbrev keySet := List (List Nat)

def keySet.insertKey (s : keySet) (key : List Nat) : keySet := if key ∈ s then s else s ++ [key]

def keySet.removeKey (s : keySet) (key : List Nat) : keySet := s.filter (fun k => decide (k ≠ key))

structure hashmap where
  data : itemMap
  transientKeys : keySet
  dirty : Bool
  deriving DecidableEq, Repr

def newHashmap : hashmap := { data := [], transientKeys := [], dirty := false }

/-- The pointer (`none` is nil) and the flag `ok`. -/
def hashmap.get (hm : hashmap) (key : List Nat) : Option item × Bool :=
  (hm.data.getItem key, (hm.data.getItem key).isSome)

def hashmap.rm (hm : hashmap) (key : List Nat) : hashmap :=
  { hm with data := hm.data.remove key, transientKeys := hm.transientKeys.removeKey key, dirty := true }

/-- Argument `now` is the Unix second `time.Now()` gives. -/
def hashmap.set (hm : hashmap) (key : List Nat) (val : List Nat) (expiration : Int) (now : Int) :
    hashmap :=
  { hm with
    data := hm.data.put key { key := key, value := val, expiration := expiration, creation := now }
    dirty := true
    transientKeys := if expiration ≠ 0 then hm.transientKeys.insertKey key else hm.transientKeys }

/-- The Go loop ranges over a map, in an order the language leaves open; the list here is
in the order in which the keys were first stored. -/
def hashmap.getKeys (hm : hashmap) : List (List Nat) := hm.data.map (fun e => e.1)

def hashmap.count (hm : hashmap) : Int := (hm.data.length : Int)

def hashmap.rmall (hm : hashmap) : hashmap := { hm with data := [], transientKeys := [], dirty := true }

/-- The Go loop ranges over a map, in an order the language leaves open; the list here is
in the order in which the keys were first stored. -/
def hashmap.getItens (hm : hashmap) : List item := hm.data.map (fun e => e.2)

def hashmap.isDirty (hm : hashmap) : Bool := hm.dirty

def hashmap.washClean (hm : hashmap) : hashmap := { hm with dirty := false }

def item.getValue (i : item) : List Nat := i.value

def item.toString (i : item) : List Nat := i.value

def item.getKey (i : item) : List Nat := i.key

def item.getExpiration (i : item) : Int := i.expiration

def item.getCreation (i : item) : Int := i.creation

def item.isTransient (i : item) : Bool := decide (i.expiration ≠ 0)

/-- The difference of the two Unix seconds is an `int64`. -/
def item.getAge (i : item) (now : Int) : Int := wrapInt64 (now - i.creation)

def item.getTimeToLive (i : item) (now : Int) : Int := wrapInt64 (i.expiration - i.getAge now)

def item.hasExpired (i : item) (now : Int) : Bool := decide (i.getTimeToLive now ≤ 0)

/-- One pass of the loop of `evict` for a key of the transient set; a key without an item
gives a nil pointer, and reading its field panics. -/
def hashmap.evictKey (now : Int) (hm : hashmap) (key : List Nat) : Option hashmap :=
  match hm.get key with
  | (none, _) => none
  | (some it, _) => if it.isTransient && it.hasExpired now then some (hm.rm key) else some hm

/-- The loop ranges over the transient keys; the only key a pass deletes is the one it
visits, so the keys visited are those present at the start. All the instants read
during one run are taken to be the same second `now`. -/
def hashmap.evict (hm : hashmap) (now : Int) : Option hashmap :=
  hm.transientKeys.foldlM (hashmap.evictKey now) hm

def item.genSetCommandPieces (i : item) (now : Int) : List (List Nat) :=
  let pieces : List (List Nat) := [commandSet.str, i.getKey, i.getValue]
  if i.isTransient then
    let ttl := i.getTimeToLive now
    let expiration := itoa ttl
    pieces ++ [expKeyword] ++ [expiration]
  else pieces

/-! ## response.go, and the runners of command.go that only touch the keyspace -/

inductive response where
  | rawBytesResponse (data : List Nat) (final : Bool)
  | stringResponse (data : List Nat)
  | syncResponse (items : List item)
  | broadcastCommandResponse (c : command)
  deriving DecidableEq, Repr

def response.isFinal : response → Bool
  | .rawBytesResponse _ final => final
  | .stringResponse _ => false
  | .syncResponse _ => false
  | .broadcastCommandResponse _ => false

def newRawBytesResponse (data : List Nat) (final : Bool) : response := .rawBytesResponse data final

def newStringResponse (data : List Nat) : response := .stringResponse data

def okResponse : response := newRawBytesResponse [43, 79, 75, 13, 10] false

def pongResponse : response := newRawBytesResponse [43, 80, 79, 78, 71, 13, 10] false

def byeResponse : response := newRawBytesResponse [43, 66, 89, 69, 13, 10] true

def newErrorResponse (message : List Nat) (final : Bool) : response :=
  newRawBytesResponse ([45, 69, 82, 82, 32] ++ message ++ [carryReturn, lineFeed]) final

def newSyncResponse (items : List item) : response := .syncResponse items

def newBroadcastCommandResponse (c : command) : response := .broadcastCommandResponse c

/-- The argument is the text `json.Marshal` gives for the object; the library is not
part of the repository. -/
def newJsonResponse (json : List Nat) : response := newStringResponse json

def parsingError.toErrorResponse (err : parsingError) : response :=
  newErrorResponse err.message err.isFatal

/-! ## stats.go, client.go, server.go: the state the event loop works on -/

inductive ioType where
  | input
  | output
  deriving DecidableEq, Repr

inductive ioDevice where
  | disk
  | network
  deriving DecidableEq, Repr

structure ioStats where
  In : Nat
  Out : Nat
  Reads : Nat
  Writes : Nat
  deriving DecidableEq, Repr

def ioStats.average (s : ioStats) (secs : Nat) : ioStats :=
  { In := s.In / secs, Out := s.Out / secs, Reads := s.Reads / secs, Writes := s.Writes / secs }

def ioStats.add (stats : ioStats) (kind : ioType) (data : ioData) : ioStats :=
  match kind with
  | .input => { stats with In := stats.In + data.bytes, Reads := stats.Reads + data.calls }
  | .output => { stats with Out := stats.Out + data.bytes, Writes := stats.Writes + data.calls }

/-- Field `lastMeasurement` of the Go struct is left out: it only serves
`secondsElapsed`, whose value is an argument of `analyze` here. -/
structure ioStatistics where
  network : ioStats
  disk : ioStats
  deriving DecidableEq, Repr

def ioStatistics.add (s : ioStatistics) (device : ioDevice) (kind : ioType) (data : ioData) :
    ioStatistics :=
  match device with
  | .network => { s with network := s.network.add kind data }
  | .disk => { s with disk := s.disk.add kind data }

def ioStatistics.reset (_s : ioStatistics) : ioStatistics :=
  { network := ⟨0, 0, 0, 0⟩, disk := ⟨0, 0, 0, 0⟩ }

/-- The two averages, and the statistics after the deferred `reset`; `secs` is the
value of `secondsElapsed(now)`, the whole seconds since the last measurement. -/
def ioStatistics.analyze (s : ioStatistics) (secs : Int) : (ioStats × ioStats) × ioStatistics :=
  let elapsed := max 1 secs
  let s1 : ioStatistics :=
    { s with disk := s.disk.average elapsed.toNat, network := s.network.average elapsed.toNat }
  ((s1.network, s1.disk), s1.reset)

/-- What the code reads from the clock while one event is executed: the Unix second of
`time.Now()`, and the whole seconds since the last measurement of the statistics. -/
structure clock where
  unix : Int
  elapsed : Int
  deriving DecidableEq, Repr

/-- A client as the event loop sees it. The `id` is the number `nextClientId` renders
as the client's id, and stands for the pointer to the client as well: one number is
given to one client. Field `responses` holds what `enqueueReply` has sent on the
channel to the client's write task, oldest first. Field `closed` tells that `close` was
called on the connection. -/
structure aetherClient where
  id : Int
  responses : List response
  replica : Bool
  closed : Bool
  deriving DecidableEq, Repr

def aetherClient.enqueueReply (c : aetherClient) (r : response) : aetherClient :=
  { c with responses := c.responses ++ [r] }

def aetherClient.setReplica (c : aetherClient) (replica : Bool) : aetherClient :=
  { c with replica := replica }

def aetherClient.close (c : aetherClient) : aetherClient := { c with closed := true }

/-- A `clientSet`: the keys of its map, each once. -/
abbrev clientSet := List Int

def clientSet.add (s : clientSet) (c : Int) : clientSet := if c ∈ s then s else s ++ [c]

def clientSet.rm (s : clientSet) (client : Int) : clientSet := s.filter (fun x => decide (x ≠ client))

def clientSet.count (s : clientSet) : Int := (s.length : Int)

/-- A `clientList`: the clients in the order of `PushBack`. -/
abbrev clientList := List Int

def clientList.add (l : clientList) (c : Int) : clientList := l ++ [c]

/-- The first element that is the client is removed. -/
def clientList.rm (l : clientList) (c : Int) : clientList := l.erase c

def clientList.count (l : clientList) : Int := (l.length : Int)

/-- The server state the event loop and the runners work on. Field `clientObjects` holds
every client made by `newClient`, in the order of creation; `clients` and `replicas`
hold ids of them. Field `persisting` lists the item lists handed to the `persist` tasks
started so far. -/
structure AetherServer where
  hm : hashmap
  clientObjects : List aetherClient
  clients : clientList
  replicas : clientSet
  snapshotting : Bool
  replicate : Bool
  nextId : Int
  creation : Int
  statistics : ioStatistics
  eventCount : Int
  network : ioStats
  disk : ioStats
  persisting : List (List item)
  deriving DecidableEq, Repr

/-- Runner `commandRunners[commandGet]`. -/
def runGet (c : command) (server : AetherServer) : response × AetherServer :=
  match server.hm.get c.key with
  | (some i, true) => (newStringResponse i.getValue, server)
  | _ => (newErrorResponse ([75, 101, 121, 32, 34] ++ c.key ++ [34] ++ bytesOf " not found") false, server)

/-- Runner `commandRunners[commandSet]`. -/
def runSet (c : command) (server : AetherServer) (now : Int) : response × AetherServer :=
  (okResponse, { server with hm := server.hm.set c.key c.value c.expiration now })

/-- Runner `commandRunners[commandRm]`. -/
def runRm (c : command) (server : AetherServer) : response × AetherServer :=
  (okResponse, { server with hm := server.hm.rm c.key })

/-- Runner `commandRunners[commandRmall]`. -/
def runRmall (_c : command) (server : AetherServer) : response × AetherServer :=
  (okResponse, { server with hm := server.hm.rmall })

/-! ## Predicates used to state the keyspace theorems -/

/-- Unix seconds and expirations far from the ends of the 64-bit range, so that the
differences `evict` computes do not wrap around. -/
def timeRange (x : Int) : Prop := -(2 ^ 61) < x ∧ x < 2 ^ 61

instance (x : Int) : Decidable (timeRange x) := by unfold timeRange; infer_instance

/-- The transient-key map holds a key once, every key of it is stored, and every stored
item with a non-zero expiration has its key in it. -/
def hashmap.tracked (hm : hashmap) : Prop :=
  hm.transientKeys.Nodup ∧
    (∀ k, k ∈ hm.transientKeys → (hm.data.getItem k).isSome = true) ∧
    (∀ k it, hm.data.getItem k = some it → it.expiration ≠ 0 → k ∈ hm.transientKeys)

/-- Creation seconds and expirations of all stored items are in `timeRange`. -/
def hashmap.timesInRange (hm : hashmap) : Prop :=
  ∀ k it, hm.data.getItem k = some it → timeRange it.creation ∧ timeRange it.expiration

/-- What the spec says `get` returns after an eviction at second `now`, given what was
stored before. -/
def afterEvict (before : Option item) (now : Int) : Option item × Bool :=
  match before with
  | none => (none, false)
  | some it =>
    if it.expiration ≠ 0 ∧ it.creation + it.expiration ≤ now then (none, false) else (some it, true)

/-! ## Views of a source used to state and prove the parser theorems -/

/-- A source in working order: a buffer of at least one byte, a fill level within the
buffer, and a reader that hands out no empty chunk. -/
def source.good (s : source) : Prop :=
  0 < s.buff.length ∧ s.size ≤ s.buff.length ∧ ∀ c, c ∈ s.fd.chunks → c ≠ []

/-- All the bytes a source will still deliver: the unread part of the buffer, then what
the reader holds. -/
def source.rest (s : source) : List Nat := s.unread ++ s.fd.chunks.flatten

/-- The source is in working order and will deliver exactly the bytes `r`. -/
def source.Holds (s : source) (r : List Nat) : Prop := s.good ∧ s.rest = r

/-- The source after a successful `peek`: itself, or refilled. -/
def source.afterPeek (s : source) : source :=
  if s.hasUnreadInput then s else s.loadData.2.2

/-- The byte count a `peek` reports. -/
def source.peekBytes (s : source) : Nat :=
  if s.hasUnreadInput then 0 else s.loadData.1

/-- One byte further in the buffer. -/
def source.adv (s : source) : source := { s with pos := s.pos + 1 }

/-- The source after `peek` and one consumed byte. -/
def source.step (s : source) : source := s.afterPeek.adv

/-- A byte that continues an IDENTIFIER: printable and not a quote. -/
def identChar (c : Nat) : Prop := 32 < c ∧ c < 127 ∧ c ≠ 34 ∧ c ≠ 39

instance (c : Nat) : Decidable (identChar c) := by unfold identChar; infer_instance

/-- A byte that starts an IDENTIFIER: an identifier byte other than `$`, `*` and `#`. -/
def identStart (c : Nat) : Prop := identChar c ∧ c ≠ 36 ∧ c ≠ 42 ∧ c ≠ 35

instance (c : Nat) : Decidable (identStart c) := by unfold identStart; infer_instance

/-- A valid IDENTIFIER: a non-empty run of identifier bytes that starts with none of
`$`, `*`, `#`. -/
def validIdentifier (a : List Nat) : Prop :=
  match a with
  | [] => False
  | c :: l => identStart c ∧ ∀ x, x ∈ l → identChar x

/-- A run of spaces and tabs. -/
def blanks (ws : List Nat) : Prop := ∀ x, x ∈ ws → x = 32 ∨ x = 9

/-- The size a token has after the digits `ds` have been read into it. -/
def sizeFold (sz : Int) (ds : List Nat) : Int :=
  ds.foldl (fun a d => wrapInt64 (a * 10 + ((d - 48 : Nat) : Int))) sz

/-! ## The two wire forms, as the spec writes them -/

/-- The BIN_STRING token with payload `d`. -/
def binToken (d : List Nat) : token := ⟨tokenType.tokenBinString, d, 0, d.length⟩

/-- The IDENTIFIER token with text `a`. -/
def identToken (a : List Nat) : token := ⟨tokenType.tokenIdentifier, a, 0, a.length⟩

/-- Protocol string `$<len>\r\n<bytes>\r\n`. -/
def encodeString (d : List Nat) : List Nat :=
  36 :: (natToDec d.length ++ 13 :: 10 :: (d ++ [13, 10]))

/-- Protocol strings one after the other. -/
def encodeStrings : List (List Nat) → List Nat
  | [] => []
  | p :: ps => encodeString p ++ encodeStrings ps

/-- Array form `*<n>\r\n` followed by the `n` protocol strings. -/
def encodeArray (ps : List (List Nat)) : List Nat :=
  42 :: (natToDec ps.length ++ 13 :: 10 :: encodeStrings ps)

/-- A command line: the first word, the further words each after its separator, and
the bytes that close the line. -/
structure textLine where
  first : List Nat
  more : List (List Nat × List Nat)
  eol : List Nat

/-- Separators and words after the first word. -/
def lineTail : List (List Nat × List Nat) → List Nat
  | [] => []
  | p :: ps => p.1 ++ (p.2 ++ lineTail ps)

/-- The bytes of a command line. -/
def textLine.bytes (l : textLine) : List Nat := l.first ++ (lineTail l.more ++ l.eol)

/-- The words of a command line. -/
def textLine.words (l : textLine) : List (List Nat) := l.first :: l.more.map (fun p => p.2)

/-- Every word is a valid IDENTIFIER of at most `cap` bytes, every separator is a
non-empty run of spaces and tabs, and the line is closed by `\n` or `\r\n`. -/
def textLine.ok (l : textLine) (cap : Nat) : Prop :=
  (validIdentifier l.first ∧ l.first.length ≤ cap) ∧
    (∀ p, p ∈ l.more → p.1 ≠ [] ∧ blanks p.1 ∧ validIdentifier p.2 ∧ p.2.length ≤ cap) ∧
    (l.eol = [10] ∨ l.eol = [13, 10])

instance (a : List Nat) : Decidable (validIdentifier a) := by
  unfold validIdentifier
  cases a <;> infer_instance

instance (ws : List Nat) : Decidable (blanks ws) := by unfold blanks; infer_instance

instance (l : textLine) (cap : Nat) : Decidable (l.ok cap) := by unfold textLine.ok; infer_instance

/-- A decimal integer as text: an optional sign and at least one decimal digit. -/
def isDecimalInteger (s : List Nat) : Prop :=
  let body : List Nat := match s with
    | 43 :: r => r
    | 45 :: r => r
    | _ => s
  body ≠ [] ∧ ∀ c, c ∈ body → 48 ≤ c ∧ c ≤ 57

/-- The malformed argument lists the spec says are rejected: the command name
followed by its parameters, where the name is unknown, or the number of parameters does
not fit the command, or SET has four parameters of which the third is not `EXP` or the
fourth is not a decimal integer. Names and keyword are compared through
`strings.ToUpper`, as the lookup is case-insensitive. -/
def malformedArgs (U : List Nat → List Nat) (args : List (List Nat)) : Prop :=
  match args with
  | [] => False
  | name :: params =>
    (∀ code, code ∈ commandCodes → toUpper U name ≠ code.str) ∨
    (toUpper U name = commandCode.commandSet.str ∧ (params.length < 2 ∨ 4 < params.length)) ∨
    ((toUpper U name = commandCode.commandGet.str ∨ toUpper U name = commandCode.commandRm.str) ∧
      params.length ≠ 1) ∨
    ((toUpper U name = commandCode.commandRmall.str ∨ toUpper U name = commandCode.commandStats.str ∨
        toUpper U name = commandCode.commandList.str ∨ toUpper U name = commandCode.commandPing.str ∨
        toUpper U name = commandCode.commandSync.str ∨ toUpper U name = commandCode.commandExit.str) ∧
      1 ≤ params.length) ∨
    (toUpper U name = commandCode.commandSet.str ∧
      ∃ k v a3 a4, params = [k, v, a3, a4] ∧ (toUpper U a3 ≠ expKeyword ∨ ¬ isDecimalInteger a4))

/-- Text `w` is `target` written in any mix of upper and lower case. -/
def caseVariant (w target : List Nat) : Prop := w.map asciiUpperByte = target

/-- The well-formed line-form commands, as words, with the command each stands for:
`SET key value`, `SET key value EXP n` with `n` a decimal integer of value `m` (any text
`strconv.Atoi` reads as `m`), `GET key`, `RM key`, and the commands without argument. -/
inductive lineCommand : List (List Nat) → command → Prop where
  | set (n k v : List Nat) : caseVariant n commandCode.commandSet.str →
      lineCommand [n, k, v] ⟨commandCode.commandSet, k, v, 0⟩
  | setExp (n k v e x : List Nat) (m : Int) : caseVariant n commandCode.commandSet.str →
      caseVariant e expKeyword → atoi x = some m →
      lineCommand [n, k, v, e, x] ⟨commandCode.commandSet, k, v, m⟩
  | keyed (n k : List Nat) (code : commandCode) :
      code = commandCode.commandGet ∨ code = commandCode.commandRm → caseVariant n code.str →
      lineCommand [n, k] ⟨code, k, [], 0⟩
  | bare (n : List Nat) (code : commandCode) :
      code ≠ commandCode.commandSet ∧ code ≠ commandCode.commandGet ∧ code ≠ commandCode.commandRm →
      caseVariant n code.str → lineCommand [n] ⟨code, [], [], 0⟩

/-- The command and the error of each of `n` successive calls of `parser.next`; a call
that does not return ends the list. -/
def parser.calls (U : List Nat → List Nat) : Nat → parser → List (Option command × Option parsingError)
  | 0, _ => []
  | n + 1, p =>
    match parser.next U p with
    | Result.done r => (r.cmd, r.err) :: parser.calls U n r.p
    | _ => []

/-- The command and the error of a call of `parser.next`, without the io counters and
the parser that is left. -/
def parserOutcome : Result parserResult → Result (Option command × Option parsingError)
  | Result.done r => Result.done (r.cmd, r.err)
  | Result.panicked => Result.panicked
  | Result.outOfFuel => Result.outOfFuel

/-- Line form of a list of arguments: the arguments separated by one space, then `\n`. -/
def lineForm (a0 : List Nat) (rest : List (List Nat)) : textLine :=
  ⟨a0, rest.map (fun a => ([32], a)), [10]⟩

/-! ## hashmap.go: what each method leaves in the receiver -/

/-- A call of one of the methods of `hashmap` other than `evict`. -/
inductive hashmapCall where
  | get (key : List Nat)
  | rm (key : List Nat)
  | set (key : List Nat) (val : List Nat) (expiration : Int)
  | getKeys
  | count
  | rmall
  | getItens
  | isDirty
  | washClean
  deriving DecidableEq, Repr

/-- The receiver after the call: `get`, `getKeys`, `count`, `getItens` and `isDirty`
assign to no field. -/
def hashmap.after (hm : hashmap) (now : Int) : hashmapCall → hashmap
  | .get _ => hm
  | .rm key => hm.rm key
  | .set key val expiration => hm.set key val expiration now
  | .getKeys => hm
  | .count => hm
  | .rmall => hm.rmall
  | .getItens => hm
  | .isDirty => hm
  | .washClean => hm.washClean

/-! ## response.go: writing a response -/

/-- The loop of `syncResponse.write` over the items left, then the flush after it. -/
def syncResponse.writeItems (now : Int) :
    List item → sink → ioData → (ioData × Option GoError) × sink
  | [], s, total =>
    match s.flush with
    | ((data, err), s1) => ((total.merge data, err), s1)
  | it :: rest, s, total =>
    let pieces := it.genSetCommandPieces now
    let s1 := s.writeArrayOfProtocolStrings pieces
    if s1.full then
      match s1.flush with
      | ((data, some e), s2) => ((total.merge data, some e), s2)
      | ((data, none), s2) => syncResponse.writeItems now rest s2 (total.merge data)
    else syncResponse.writeItems now rest s1 total

def syncResponse.write (items : List item) (s : sink) (now : Int) :
    (ioData × Option GoError) × sink :=
  let arrayHeader : List Nat := [asterisk] ++ itoa items.length ++ [carryReturn, lineFeed]
  syncResponse.writeItems now items (s.writeAsRawBytes arrayHeader) newIoData

/-- Method `write` of the four kinds of response; `none` is the fatal log entry of
`toPieces`, which ends the process. -/
def response.write (r : response) (s : sink) (now : Int) :
    Option ((ioData × Option GoError) × sink) :=
  match r with
  | .rawBytesResponse data _ => some (s.flushWrite [data])
  | .stringResponse data => some (s.flushAsProtocolString data)
  | .syncResponse items => some (syncResponse.write items s now)
  | .broadcastCommandResponse c =>
    match c.toPieces with
    | none => none
    | some pieces => some (s.flushArrayOfProtocolStrings pieces)

/-- Every coming call of `Write` takes the whole slice. -/
def outputStream.reliable (o : outputStream) : Prop := ∀ x, x ∈ o.failures → x = none

instance (o : outputStream) : Decidable o.reliable := by
  unfold outputStream.reliable; infer_instance

/-- All the bytes the writer has taken, in order. -/
def outputStream.bytes (o : outputStream) : List Nat := o.written.flatten

/-! ## server.go, event.go: the event loop -/

/-- The JSON texts `encoding/json` gives for the payloads of LIST and STATS. The
library is not part of the repository, and the STATS payload also holds counters kept
by the client tasks and the uptime at second `now`. -/
structure jsonLib where
  keys : List (List Nat) → List Nat
  stats : AetherServer → Int → List Nat

def AetherServer.isAReplica (s : AetherServer) : Bool := s.replicate

def AetherServer.getKeys (s : AetherServer) : List (List Nat) := s.hm.getKeys

def AetherServer.getItems (s : AetherServer) : List item := s.hm.getItens

def AetherServer.dirty (s : AetherServer) : Bool := s.hm.isDirty

def AetherServer.washClean (s : AetherServer) : AetherServer := { s with hm := s.hm.washClean }

def AetherServer.setSnapshotting (s : AetherServer) (val : Bool) : AetherServer :=
  { s with snapshotting := val }

def AetherServer.isSnapshotting (s : AetherServer) : Bool := s.snapshotting

def AetherServer.mustSave (s : AetherServer) : Bool := !s.isAReplica && s.dirty && !s.isSnapshotting

/-- A statement through the pointer to the client `client`. -/
def AetherServer.onClient (s : AetherServer) (client : Int) (f : aetherClient → aetherClient) :
    AetherServer :=
  { s with clientObjects := s.clientObjects.map (fun c => if c.id = client then f c else c) }

/-- Call `client.enqueueReply(r)`. -/
def AetherServer.enqueueReply (s : AetherServer) (client : Int) (r : response) : AetherServer :=
  s.onClient client (fun c => c.enqueueReply r)

def AetherServer.add (s : AetherServer) (c : Int) : AetherServer :=
  { s with clients := clientList.add s.clients c }

def AetherServer.rm (s : AetherServer) (c : Int) : AetherServer :=
  { s with clients := clientList.rm s.clients c }

def AetherServer.getNumberOfClients (s : AetherServer) : Int := clientList.count s.clients

def AetherServer.addReplica (s : AetherServer) (c : Int) : AetherServer :=
  { s with replicas := clientSet.add s.replicas c }

/-- Method `clientSet.broadcast` on the replicas: one response to every client of the
set. -/
def AetherServer.broadcast (s : AetherServer) (c : command) : AetherServer :=
  let response := newBroadcastCommandResponse c
  s.replicas.foldl (fun acc client => acc.enqueueReply client response) s

def AetherServer.disconnect (s : AetherServer) (client : Int) : AetherServer :=
  let s1 : AetherServer := { s with clients := clientList.rm s.clients client }
  let s2 : AetherServer := { s1 with replicas := clientSet.rm s1.replicas client }
  s2.onClient client aetherClient.close

/-- A nil item in `evict` panics: `none`. -/
def AetherServer.evictExpiredKeys (s : AetherServer) (now : Int) : Option AetherServer :=
  match s.hm.evict now with
  | none => none
  | some hm => some { s with hm := hm }

def AetherServer.accountFor (s : AetherServer) (device : ioDevice) (kind : ioType) (data : ioData) :
    AetherServer :=
  { s with statistics := s.statistics.add device kind data }

def AetherServer.updateStatistics (s : AetherServer) (secs : Int) : AetherServer :=
  match s.statistics.analyze secs with
  | ((net, disk), st) => { s with network := net, disk := disk, statistics := st }

/-- Function `newClient` with `server.add`: the new client gets the next id. -/
def AetherServer.newClient (s : AetherServer) : AetherServer :=
  let c : aetherClient := { id := s.nextId, responses := [], replica := false, closed := false }
  let s1 : AetherServer := { s with nextId := s.nextId + 1, clientObjects := s.clientObjects ++ [c] }
  s1.add c.id

/-- The map `commandRunners`, called with the command, the client (`none` is nil) and
the server. The SYNC runner reads the id of the client, which panics for nil. -/
def commandRunners (J : jsonLib) (now : Int) (c : command) (client : Option Int)
    (server : AetherServer) : Option (response × AetherServer) :=
  match c.getCode with
  | commandGet => some (runGet c server)
  | commandSet => some (runSet c server now)
  | commandRm => some (runRm c server)
  | commandRmall => some (runRmall c server)
  | commandStats => some (newJsonResponse (J.stats server now), server)
  | commandList => some (newJsonResponse (J.keys server.getKeys), server)
  | commandPing => some (pongResponse, server)
  | commandSync =>
    match client with
    | none => none
    | some cl =>
      let items := server.getItems
      let s1 := server.addReplica cl
      let s2 := s1.onClient cl (fun x => x.setReplica true)
      some (newSyncResponse items, s2)
  | commandExit => some (byeResponse, server)

inductive event where
  | newCommandEvent (client : Int) (command : command)
  | signalEvent
  | newConnectionEvent
  | closeClientEvent (client : Int)
  | heartBeat (no : Int)
  | writingErrorEvent (client : Int) (err : GoError)
  | readingErrorEvent (client : Int) (err : parsingError)
  | errorAcceptingConnectionEvent (err : GoError)
  | sourceCommand (command : command)
  | errorReadingFromMasterEvent (err : parsingError)
  | ioEvent (device : ioDevice) (kind : ioType) (data : ioData)
  | connectionLimitReachedEvent
  deriving DecidableEq, Repr

def heartBeat.everyOneHundred (no : Int) : Bool := decide (no % 100 = 0)

/-- Method `exec` of the twelve kinds of event, with the clock as it reads it: the stop
flag and the server afterwards; `none` is a panic. -/
def event.exec (J : jsonLib) (now : clock) (e : event) (server : AetherServer) :
    Option (Bool × AetherServer) :=
  match e with
  | .newCommandEvent client command =>
    if server.isAReplica && !command.canRunOnAReplica then
      let response := newErrorResponse (bytesOf "this instance is a read replica (read-only)") true
      some (false, server.enqueueReply client response)
    else
      match commandRunners J now.unix command (some client) server with
      | none => none
      | some (response, s1) =>
        let s2 := s1.enqueueReply client response
        if command.isWriteCommand then some (false, s2.broadcast command) else some (false, s2)
  | .signalEvent => some (true, server)
  | .newConnectionEvent => some (false, server.newClient)
  | .closeClientEvent client => some (false, server.disconnect client)
  | .heartBeat no =>
    match server.evictExpiredKeys now.unix with
    | none => none
    | some s1 =>
      let s2 := s1.updateStatistics now.elapsed
      if heartBeat.everyOneHundred no && s2.mustSave then
        let items := s2.getItems
        let s3 := (s2.washClean).setSnapshotting true
        some (false, { s3 with persisting := s3.persisting ++ [items] })
      else some (false, s2)
  | .writingErrorEvent client _ => some (false, server.disconnect client)
  | .readingErrorEvent client err =>
    if err.isTechnical then some (false, server.disconnect client)
    else some (false, server.enqueueReply client err.toErrorResponse)
  | .errorAcceptingConnectionEvent _ => some (true, server)
  | .sourceCommand command =>
    match commandRunners J now.unix command none server with
    | none => none
    | some (_, s1) => some (false, s1)
  | .errorReadingFromMasterEvent _ => some (true, server)
  | .ioEvent device kind data => some (false, server.accountFor device kind data)
  | .connectionLimitReachedEvent => some (false, server)

/-- The loop of `eventLoop` over the events that arrive, each with the clock as its
execution reads it: the server when the loop returns or has no event left, and the
events executed; `none` is a panic. -/
def AetherServer.eventLoop (J : jsonLib) :
    List (clock × event) → AetherServer → Option (AetherServer × List (clock × event))
  | [], s => some (s, [])
  | (now, e) :: rest, s =>
    match e.exec J now { s with eventCount := s.eventCount + 1 } with
    | none => none
    | some (true, s1) => some (s1, [(now, e)])
    | some (false, s1) =>
      match AetherServer.eventLoop J rest s1 with
      | none => none
      | some (s2, done) => some (s2, (now, e) :: done)

/-! ## server.go: writing and loading the snapshot -/

def version : List Nat := bytesOf "v0.1.0-beta"

/-- The loop of `persist` over the items left: the sink and the disk write events posted
so far; `none` is the fatal exit after a failed write. -/
def AetherServer.persistItems (now : Int) :
    List item → sink → List ioData → Option (sink × List ioData)
  | [], s, evs => some (s, evs)
  | it :: rest, s, evs =>
    if it.isTransient then AetherServer.persistItems now rest s evs
    else
      let pieces := it.genSetCommandPieces now
      let s1 := s.writeArrayOfProtocolStrings pieces
      if s1.full then
        match s1.flush with
        | ((_, some _), _) => none
        | ((data, none), s2) => AetherServer.persistItems now rest s2 (evs ++ [data])
      else AetherServer.persistItems now rest s1 evs

/-- The header line of a snapshot; `stamp` is the `%v` of `time.Now()`. -/
def snapshotHeader (stamp : List Nat) : List Nat :=
  bytesOf "# aetherg " ++ version ++ bytesOf " snapshot " ++ stamp ++ [lineFeed]

/-- What `persist` writes into the temp file `snap` and the disk write events it posts;
`none` is the fatal exit after a failed write. The argument `stamp` is the text of
`time.Now()` in the header. Creating and renaming the file and the deferred
`setSnapshotting(false)` are left out. -/
def AetherServer.persist (items : List item) (stamp : List Nat) (now : Int) (snap : outputStream) :
    Option (outputStream × List ioData) :=
  let sink := newSink snap 4096
  let header := snapshotHeader stamp
  let sink := sink.writeAsRawBytes header
  match AetherServer.persistItems now items sink [] with
  | none => none
  | some (s1, evs) =>
    match s1.flush with
    | ((_, some _), _) => none
    | ((data, none), s2) => some (s2.output, evs ++ [data])

/-- The loop of `loadSnapshot`, on fuel: `done none` is a fatal exit (a command other
than SET, or an error other than EOF). All the instants `set` reads are taken to be
the same second `now`. -/
def AetherServer.loadLoop (U : List Nat → List Nat) (now : Int) :
    Nat → parser → hashmap → Result (Option hashmap)
  | 0, _, _ => Result.outOfFuel
  | fuel + 1, p, hm =>
    match parser.next U p with
    | Result.panicked => Result.panicked
    | Result.outOfFuel => Result.outOfFuel
    | Result.done r =>
      match r.err with
      | none =>
        match r.cmd with
        | none => Result.panicked
        | some command =>
          match command.getCode with
          | commandSet =>
            AetherServer.loadLoop U now fuel r.p
              (hm.set command.getKey command.getValue command.getExpiration now)
          | _ => Result.done none
      | some err => if err.isEOF then Result.done (some hm.washClean) else Result.done none

/-- Function `loadSnapshot`: `snap` is the snapshot file when there is one. Every call
of `parser.next` that returns a command has taken bytes from the file, so the fuel of
the source bounds the passes of the loop. -/
def AetherServer.loadSnapshot (U : List Nat → List Nat) (now : Int) (snap : Option inputStream)
    (s : AetherServer) : Result (Option AetherServer) :=
  match snap with
  | none => Result.done (some s)
  | some file =>
    let src := newBufferedSource file 4096
    let parser := newParser src
    match AetherServer.loadLoop U now src.fuel parser s.hm with
    | Result.done (some hm) => Result.done (some { s with hm := hm })
    | Result.done none => Result.done none
    | Result.panicked => Result.panicked
    | Result.outOfFuel => Result.outOfFuel

/-! ## Snapshot files, as the spec describes them -/

/-- The items a snapshot keeps: those that are not transient. -/
def permanentItems (S : List item) : List item := S.filter (fun it => !it.isTransient)

/-- One array-form `SET key value` per item, in order. -/
def snapshotBody (its : List item) : List Nat :=
  (its.map (fun it => encodeArray [commandSet.str, it.key, it.value])).flatten

/-- The keyspace after `set(key, value, 0)` for every item in order, at second `now`. -/
def loadItems (now : Int) (its : List item) (hm : hashmap) : hashmap :=
  its.foldl (fun h it => h.set it.key it.value 0 now) hm

/-- Function `NewAetherServer`: `replicate` is the setting and `seed` the value of
`genIdSeed()`. -/
def NewAetherServer (replicate : Bool) (seed : Int) : AetherServer :=
  { hm := newHashmap, clientObjects := [], clients := [], replicas := [], snapshotting := false,
    replicate := replicate, nextId := seed, creation := 0,
    statistics := { network := ⟨0, 0, 0, 0⟩, disk := ⟨0, 0, 0, 0⟩ },
    eventCount := 0, network := ⟨0, 0, 0, 0⟩, disk := ⟨0, 0, 0, 0⟩, persisting := [] }

/-- The responses enqueued so far for the client `client`. -/
def AetherServer.queue (s : AetherServer) (client : Int) : List response :=
  match s.clientObjects.find? (fun c => decide (c.id = client)) with
  | none => []
  | some c => c.responses

/-! ## Replication, as the spec describes it -/

/-- The command of a broadcast response. -/
def response.broadcastOf : response → Option command
  | .broadcastCommandResponse c => some c
  | _ => none

/-- The commands of the broadcast responses enqueued so far for the client, in order. -/
def AetherServer.broadcastsTo (s : AetherServer) (client : Int) : List command :=
  (s.queue client).filterMap response.broadcastOf

/-- The server has made a client with this id. -/
def AetherServer.hasClient (s : AetherServer) (client : Int) : Prop :=
  ∃ x, x ∈ s.clientObjects ∧ x.id = client

/-- The event makes the loop call `disconnect` for the client. -/
def event.disconnects (e : event) (client : Int) : Bool :=
  match e with
  | .closeClientEvent c => decide (c = client)
  | .writingErrorEvent c _ => decide (c = client)
  | .readingErrorEvent c err => decide (c = client) && err.isTechnical
  | _ => false

/-- The event is a command read from the master, which only a replica receives. -/
def event.isSourceCommand (e : event) : Bool :=
  match e with
  | .sourceCommand _ => true
  | _ => false

/-- The write command (SET, RM, RMALL) a new-command event carries. -/
def event.write (e : event) : Option command :=
  match e with
  | .newCommandEvent _ c => if c.isWriteCommand then some c else none
  | _ => none

/-- The write commands of the events, in order. -/
def committedWrites (done : List (clock × event)) : List command :=
  done.filterMap (fun te => te.2.write)

/-- What the replication theorem needs of a master: it is not a replica, the keyspace
is tracked, the replica set holds an id once, and the client exists. -/
def AetherServer.masterWith (s : AetherServer) (client : Int) : Prop :=
  s.replicate = false ∧ s.hm.tracked ∧ s.replicas.Nodup ∧ s.hasClient client

/-- One executed event, seen from the client `c`: what the replication theorem needs of
the server is kept, a replica stays one, and the broadcasts enqueued for `c` grow by the
write command of the event when `c` is a replica, and not at all otherwise. -/
def AetherServer.stepFor (c : Int) (e : event) (s s2 : AetherServer) : Prop :=
  s2.masterWith c ∧ (c ∈ s.replicas → c ∈ s2.replicas) ∧
    s2.broadcastsTo c = s.broadcastsTo c ++ (if c ∈ s.replicas then e.write.toList else [])

/-! ## The size cap, as an invariant of the tokenizer -/

/-- What holds of the token under construction in each state of a tokenizer that has
returned no error so far: an IDENTIFIER or STRING counts its bytes and has at most
`allowedTokenSize` of them; a BIN_STRING past its size line has a declared size below
`allowedTokenSize`, and its payload is complete when the end marker is awaited. -/
def tokenizer.sizeInv (t : tokenizer) : Prop :=
  match t.state, t.token with
  | tokenizerWaitingForToken, _ => True
  | tokenizerWaitingSpaceForEos, _ => True
  | tokenizerReadingIdentifier, some tk =>
    tk.ttype = tokenIdentifier ∧ tk.size = (tk.data.length : Int) ∧ tk.size ≤ t.allowedTokenSize
  | tokenizerReadingString, some tk =>
    tk.ttype = tokenString ∧ tk.size = (tk.data.length : Int) ∧ tk.size ≤ t.allowedTokenSize
  | tokenizerScape, some tk =>
    tk.ttype = tokenString ∧ tk.size = (tk.data.length : Int) ∧ tk.size ≤ t.allowedTokenSize
  | tokenizerWaitingEol, some tk => tk.ttype = tokenEol
  | tokenizerReadingComment, some tk => tk.ttype = tokenComment
  | tokenizerReadingSize, some tk => tk.ttype = tokenBinString ∨ tk.ttype = tokenArray
  | tokenizerReadingBinStringSeparator, some tk =>
    tk.ttype = tokenBinString ∧ tk.size < t.allowedTokenSize
  | tokenizerReadingBinString, some tk => tk.ttype = tokenBinString ∧ tk.size < t.allowedTokenSize
  | tokenizerWaitingEobs, some tk =>
    tk.ttype = tokenBinString ∧ (tk.data.length : Int) = tk.size ∧ tk.size < t.allowedTokenSize
  | _, none => False

/-- The payload of a token with a payload (IDENTIFIER, STRING, BIN_STRING) is at most
`A` bytes long. -/
def token.within (tk : token) (A : Int) : Prop :=
  (tk.ttype = tokenIdentifier ∨ tk.ttype = tokenString ∨ tk.ttype = tokenBinString) →
    (tk.data.length : Int) ≤ A

/-- One pass of the tokenizer loop keeps the invariant and yields tokens within the
cap `A`. -/
def Step.sizeOk (A : Int) : Step → Prop
  | .again t2 => t2.sizeInv ∧ t2.allowedTokenSize = A
  | .ret (some tk) _ t2 => t2.sizeInv ∧ t2.allowedTokenSize = A ∧ tk.within A
  | .ret none _ _ => True

/-! ## Sequences of sink calls, used to state the sink theorems -/

/-- A call of one of the writing methods of a sink, or of `flush`. -/
inductive sinkCall where
  | write (chunks : List (List Nat))
  | writeAsProtocolString (data : List Nat)
  | writeArrayOfProtocolStrings (pieces : List (List Nat))
  | writeAsRawBytes (str : List Nat)
  | flush
  deriving DecidableEq, Repr

/-- The sink after the call; the values `flush` returns are dropped. -/
def sink.after (s : sink) : sinkCall → sink
  | .write chunks => s.write chunks
  | .writeAsProtocolString data => s.writeAsProtocolString data
  | .writeArrayOfProtocolStrings pieces => s.writeArrayOfProtocolStrings pieces
  | .writeAsRawBytes text => s.writeAsRawBytes text
  | .flush => s.flush.2

/-- The sink after the calls, in order. -/
def sink.afterAll (s : sink) (calls : List sinkCall) : sink := calls.foldl sink.after s

/-- The bytes the caller hands to the sink with the call. -/
def sinkCall.payload : sinkCall → List Nat
  | .write chunks => chunks.flatten
  | .writeAsProtocolString data => encodeString data
  | .writeArrayOfProtocolStrings pieces => encodeArray pieces
  | .writeAsRawBytes text => text
  | .flush => []
/-! ## Sequences of io events, used to state the statistics theorem -/

/-- Function `newIoStatistics`, without the instant of the last measurement. -/
def newIoStatistics : ioStatistics := { network := ⟨0, 0, 0, 0⟩, disk := ⟨0, 0, 0, 0⟩ }

/-- Method `ioStatistics.add` for each io event of a list, in order: an event is its
device, its direction and its data. -/
def ioStatistics.addAll (s : ioStatistics) (evs : List (ioDevice × ioType × ioData)) :
    ioStatistics :=
  evs.foldl (fun st e => st.add e.1 e.2.1 e.2.2) s

/-- Sum of the byte counts of the events of one device and direction. -/
def totalBytes (device : ioDevice) (kind : ioType) (evs : List (ioDevice × ioType × ioData)) : Nat :=
  ((evs.filter (fun e => decide (e.1 = device ∧ e.2.1 = kind))).map (fun e => e.2.2.bytes)).sum

/-- Sum of the call counts of the events of one device and direction. -/
def totalCalls (device : ioDevice) (kind : ioType) (evs : List (ioDevice × ioType × ioData)) : Nat :=
  ((evs.filter (fun e => decide (e.1 = device ∧ e.2.1 = kind))).map (fun e => e.2.2.calls)).sum
/-- The kinds of event whose `exec` ends with `return true`. -/
def event.stops : event → Bool
  | .signalEvent => true
  | .errorAcceptingConnectionEvent _ => true
  | .errorReadingFromMasterEvent _ => true
  | _ => false

/-! ## Reading a whole input through a source, used to state the source theorems -/

/-- A reader over the bytes `input` that fills the buffer it is given as far as bytes
remain and reports `io.EOF` once none is left (the file of `runSourceTest`). -/
def fileReader (input : List Nat) : inputStream := ⟨if input = [] then [] else [input]⟩

/-- The loop of `runSourceTest`, `n` times `peek()` then `rm()`: the bytes `peek`
returned and the source afterwards; `none` when a `peek` returns an error or a call
panics. -/
def source.readBytes : Nat → source → Option (List Nat × source)
  | 0, s => some ([], s)
  | n + 1, s =>
    match s.peek with
    | some (b, _, none, s1) =>
      match s1.rm with
      | none => none
      | some s2 =>
        match source.readBytes n s2 with
        | none => none
        | some (bs, s3) => some (b :: bs, s3)
    | _ => none

/-- The counters of a source over `fileReader input` that has a buffer of `B` bytes:
the reader holds what lies past the `in_` bytes loaded so far, every load but the last
filled the buffer, and `reads` counts the loads. -/
def source.counted (s : source) (input : List Nat) (B : Nat) : Prop :=
  s.buff.length = B ∧ s.fd = fileReader (input.drop s.in_) ∧ s.in_ ≤ input.length ∧
    s.reads = (s.in_ + B - 1) / B ∧ (s.in_ < input.length → B ∣ s.in_)
/-! ## The text of a quoted string, used to state the string theorems -/

/-- A piece of the text between the delimiters of a quoted string: a byte on its own,
or a backslash with the byte after it. -/
inductive strPiece where
  | plain (b : Nat)
  | escaped (x : Nat)
  deriving DecidableEq, Repr

/-- The bytes of the piece in the input. -/
def strPiece.raw : strPiece → List Nat
  | .plain b => [b]
  | .escaped x => [92, x]

/-- The bytes the spec says the token keeps of the piece: an escape as it is, a double
quote on its own after a backslash, any other byte as it is. -/
def strPiece.stored : strPiece → List Nat
  | .plain b => if b = 34 then [92, 34] else [b]
  | .escaped x => [92, x]

/-- The piece can stand inside a string with delimiter `dl`: a byte on its own is not
`\r`, `\n`, a backslash or the delimiter. -/
def strPiece.inside (dl : Nat) : strPiece → Prop
  | .plain b => b ≠ 13 ∧ b ≠ 10 ∧ b ≠ 92 ∧ b ≠ dl
  | .escaped _ => True

instance (dl : Nat) (p : strPiece) : Decidable (p.inside dl) := by
  cases p <;> unfold strPiece.inside <;> infer_instance

/-- The input bytes of a run of pieces. -/
def rawText (ps : List strPiece) : List Nat := (ps.map strPiece.raw).flatten

/-- The bytes the token keeps of a run of pieces. -/
def storedText (ps : List strPiece) : List Nat := (ps.map strPiece.stored).flatten

/-! ## The text of an array-form command, used to state the array theorem -/

/-- An end of line: `\r\n` for `true`, `\n` for `false`. -/
def eolBytes (cr : Bool) : List Nat := if cr then [13, 10] else [10]

/-- A run of ends of line. -/
def gapText (g : List Bool) : List Nat := (g.map eolBytes).flatten

/-- Elements of an array-form command: each is the ends of line before it and the
protocol string of its payload. -/
def arrayElems (els : List (List Bool × List Nat)) : List Nat :=
  (els.map (fun e => gapText e.1 ++ encodeString e.2)).flatten

/-- The passes of the parser loop over the elements: one for each end of line and one
for each payload. -/
def elemPasses (els : List (List Bool × List Nat)) : Nat :=
  (els.map (fun e => e.1.length + 1)).sum

/-- The bytes `x`, read by a tokenizer with size cap `A` that waits for a token and
followed by `r`, make `next` return the token `tok`. -/
def tokenizesTo (A : Int) (x r : List Nat) (tok : token) : Prop :=
  ∀ (s : source) (tk : Option token) (ln : Nat), s.Holds (x ++ r) →
    ∃ io2 t2, tokenizer.next ⟨s, tokenizerWaitingForToken, tk, ln, A⟩ = Result.done ⟨some tok, io2, none, t2⟩

/-! ## Pacing and likeness of the passes of the tokenizer loop -/

/-- The passes of the tokenizer loop that can still go round without consuming a byte,
from each state, before the call returns: the state after a string hands the byte to
the state that waits for a token, the size line of a BIN_STRING hands its end to the
separator state, and a complete payload hands the byte to the state that awaits the end
marker. -/
def tokenizerState.slack : tokenizerState → Nat
  | tokenizerWaitingSpaceForEos => 3
  | tokenizerWaitingForToken => 2
  | tokenizerReadingSize => 2
  | tokenizerReadingBinStringSeparator => 1
  | tokenizerReadingBinString => 1
  | _ => 0

/-- The token under construction is there in every state that reads it. -/
def tokenizer.proper (t : tokenizer) : Prop :=
  t.token.isSome = true ∨ t.state = tokenizerWaitingForToken ∨
    t.state = tokenizerWaitingSpaceForEos

/-- What one pass of the tokenizer loop in state `st` with token `tk` has done, `s1`
being the source with the byte and `s2` the source after it. A panic needs a missing
token, and a token that is there stays there. A pass that goes round again has consumed the byte, or has left it and moved from
one of three states to a state that consumes or returns, with less slack. A pass that
returns a token returns no error, leaves a state that starts a token, and has consumed
the byte unless it started in a state that ends its token on the byte after it. A pass
that returns no token returns an error and leaves source and state as they were. -/
def Step.paced (s1 s2 : source) (st : tokenizerState) (tk : Option token) : Option Step → Prop
  | none => tk = none ∧ st ≠ tokenizerWaitingForToken ∧ st ≠ tokenizerWaitingSpaceForEos
  | some (.again t2) =>
    ((tk.isSome = true ∨ st = tokenizerWaitingForToken ∨ st = tokenizerWaitingSpaceForEos) →
      t2.proper) ∧
    ((t2.src = s2 ∧ t2.state.slack ≤ st.slack) ∨
     (t2.src = s1 ∧ t2.state.slack < st.slack ∧
      (st = tokenizerWaitingSpaceForEos ∨ st = tokenizerReadingSize ∨
        st = tokenizerReadingBinString) ∧
      (t2.state = tokenizerWaitingForToken ∨ t2.state = tokenizerReadingBinStringSeparator ∨
        t2.state = tokenizerWaitingEobs)))
  | some (.ret (some _) err t2) =>
    err = none ∧
    ((tk.isSome = true ∨ st = tokenizerWaitingForToken ∨ st = tokenizerWaitingSpaceForEos) →
      t2.proper) ∧
    (t2.state = tokenizerWaitingForToken ∨ t2.state = tokenizerWaitingSpaceForEos) ∧
    (t2.src = s2 ∨
     (t2.src = s1 ∧
      (st = tokenizerReadingIdentifier ∨ st = tokenizerReadingSize ∨
        st = tokenizerReadingComment)))
  | some (.ret none err t2) =>
    err.isSome = true ∧ t2.src = s1 ∧ t2.state = st ∧ (tk.isSome = true → t2.token.isSome = true)
/-- Two tokenizers that differ at most in their sources. -/
def tokenizer.sameBut (a b : tokenizer) : Prop :=
  a.state = b.state ∧ a.token = b.token ∧ a.lines = b.lines ∧
    a.allowedTokenSize = b.allowedTokenSize

/-- Two passes of the tokenizer loop, one over the source `s1` and one over `s1'`, with
`s2` and `s2'` the sources after the byte is consumed, have done the same: both
panic, or both go round again, or both return the same token and error, and they leave
tokenizers that differ at most in their sources, which are `s1` and `s1'` when the byte
was left and `s2` and `s2'` when it was consumed. -/
def Step.alike (s1 s1' s2 s2' : source) : Option Step → Option Step → Prop
  | none, none => True
  | some (.again a), some (.again b) =>
    a.sameBut b ∧ ((a.src = s1 ∧ b.src = s1') ∨ (a.src = s2 ∧ b.src = s2'))
  | some (.ret tok err a), some (.ret tok' err' b) =>
    tok = tok' ∧ err = err' ∧ a.sameBut b ∧ ((a.src = s1 ∧ b.src = s1') ∨ (a.src = s2 ∧ b.src = s2'))
  | _, _ => False

/-! ## One pass of the parser loop, as a view for the proofs -/

/-- The switch on the parser state in the loop of `parser.next`, for the token `tk`
taken by the parser `p1`: what the call returns, or the parser that goes round again. -/
def parser.react (U : List Nat → List Nat) (p1 : parser) (tk : token) :
    Result parserResult ⊕ parser :=
  match p1.state with
  | parserInit =>
    match tk.getType with
    | .tokenEol => .inr { p1 with state := parserInit }
    | .tokenComment => .inr { p1 with state := parserInit }
    | .tokenBinString => .inl (Result.done ⟨none, p1.in_, some p1.binStringBeforeArray, p1⟩)
    | .tokenString => .inr { p1.addArgs tk with state := parserReadingCommand }
    | .tokenIdentifier => .inr { p1.addArgs tk with state := parserReadingCommand }
    | .tokenArray => .inr { p1 with state := parserReadingArray, expectedArgs := tk.getSize }
  | parserReadingCommand =>
    match tk.getType with
    | .tokenEol => .inl (parser.finish (parser.parseArgs U { p1 with state := parserInit }))
    | .tokenString => .inr { p1.addArgs tk with state := parserReadingCommand }
    | .tokenIdentifier => .inr { p1.addArgs tk with state := parserReadingCommand }
    | .tokenComment => .inr { p1 with state := parserReadingCommand }
    | .tokenBinString => .inl (Result.done ⟨none, p1.in_, some p1.binStringBeforeArray, p1⟩)
    | .tokenArray => .inl (Result.done ⟨none, p1.in_, some p1.arrayMiddleOfLine, p1⟩)
  | parserReadingArray =>
    match tk.getType with
    | .tokenEol => .inr { p1 with state := parserReadingArray }
    | .tokenString => .inl (Result.done ⟨none, p1.in_, some (p1.invalidTokenMiddleOfArray tk), p1⟩)
    | .tokenIdentifier =>
      .inl (Result.done ⟨none, p1.in_, some (p1.invalidTokenMiddleOfArray tk), p1⟩)
    | .tokenComment => .inl (Result.done ⟨none, p1.in_, some (p1.invalidTokenMiddleOfArray tk), p1⟩)
    | .tokenBinString =>
      let p2 : parser := { p1.addArgs tk with state := parserReadingArray }
      if (p2.args.length : Int) = p2.expectedArgs then
        .inl (parser.finish (parser.parseArgs U { p2 with state := parserInit }))
      else .inr p2
    | .tokenArray => .inl (Result.done ⟨none, p1.in_, some p1.arrayInsideArray, p1⟩)

/-- Two parsers that differ at most in their io counters and in the sources of their
tokenizers. -/
def parser.sameBut (p q : parser) : Prop :=
  p.state = q.state ∧ p.args = q.args ∧ p.expectedArgs = q.expectedArgs ∧
    p.tokenizer.sameBut q.tokenizer

/-- The passes of the parser loop a tokenizer state can add to those that take a byte:
a token may end on the first byte seen when the call starts inside it. -/
def tokenizerState.extraPass (st : tokenizerState) : Nat :=
  if st = tokenizerWaitingForToken ∨ st = tokenizerWaitingSpaceForEos then 0 else 1

/-! ## hashmap.go: runs of the calls that change the keyspace -/

/-- A call of one of the four methods that add or delete keys; `set` and `evict` carry the
Unix second `time.Now()` gives during the call. -/
inductive keyspaceCall where
  | set (key : List Nat) (val : List Nat) (expiration : Int) (now : Int)
  | rm (key : List Nat)
  | rmall
  | evict (now : Int)
  deriving DecidableEq, Repr

/-- The keyspace after the call; `none` when `evict` reads a field of a nil item. -/
def hashmap.call (hm : hashmap) : keyspaceCall → Option hashmap
  | .set key val expiration now => some (hm.set key val expiration now)
  | .rm key => some (hm.rm key)
  | .rmall => some hm.rmall
  | .evict now => hm.evict now

/-- The keyspace after the calls, made one after the other. -/
def hashmap.calls (hm : hashmap) (cs : List keyspaceCall) : Option hashmap :=
  cs.foldlM hashmap.call hm

/-- The call is a `set` or `rm` of the key, or `rmall`. -/
def keyspaceCall.changes (k : List Nat) : keyspaceCall → Bool
  | .set key _ _ _ => decide (key = k)
  | .rm key => decide (key = k)
  | .rmall => true
  | .evict _ => false

/-- The token and the error of each of `n` successive calls of `tokenizer.next`; a call
that does not return ends the list. -/
def tokenizer.calls : Nat → tokenizer → List (Option Aetherg.token × Option parsingError)
  | 0, _ => []
  | n + 1, t =>
    match t.next with
    | Result.done r => (r.tok, r.err) :: tokenizer.calls n r.t
    | _ => []

/-- A parser as the calls of `next` leave it: the tokenizer holds a token or is between
tokens, and while a command line is being read there is at least one argument. -/
def parser.proper (p : parser) : Prop :=
  p.tokenizer.proper ∧ (p.state = parserReadingCommand → p.args ≠ [])

/-- A command line with blanks around it: a run of spaces and tabs before the first word
and another before the bytes that close the line. -/
structure paddedLine where
  lead : List Nat
  line : textLine
  trail : List Nat

/-- The bytes of a padded command line. -/
def paddedLine.bytes (l : paddedLine) : List Nat :=
  l.lead ++ (l.line.first ++ (lineTail l.line.more ++ (l.trail ++ l.line.eol)))

/-- The line inside is in order and the two runs around it are spaces and tabs. -/
def paddedLine.ok (l : paddedLine) (cap : Nat) : Prop :=
  blanks l.lead ∧ l.line.ok cap ∧ blanks l.trail

instance (l : paddedLine) (cap : Nat) : Decidable (l.ok cap) := by
  unfold paddedLine.ok; infer_instance

/-! # Theorems -/

/-! ## Keyspace: lemmas on the two Go maps -/

theorem itemMap.getItem_append_ne (m : itemMap) (k key : List Nat) (v : item) (h : k ≠ key) :
    itemMap.getItem (m ++ [(k, v)]) key = itemMap.getItem m key := by
  induction m with
  | nil => simp [itemMap.getItem, h]
  | cons e rest ih => simp only [List.cons_append, itemMap.getItem, List.append_eq, ih]

theorem itemMap.getItem_append_self_of_none (m : itemMap) (key : List Nat) (v : item)
    (h : itemMap.getItem m key = none) : itemMap.getItem (m ++ [(key, v)]) key = some v := by
  induction m with
  | nil => simp [itemMap.getItem]
  | cons e rest ih =>
    simp only [itemMap.getItem] at h
    simp only [List.cons_append, itemMap.getItem, List.append_eq]
    by_cases hk : e.1 = key
    · simp [hk] at h
    · simp only [hk, if_false] at h ⊢
      exact ih h

theorem itemMap.getItem_map_self (m : itemMap) (key : List Nat) (v : item)
    (h : (itemMap.getItem m key).isSome) :
    itemMap.getItem (m.map (fun e => if e.1 = key then (key, v) else e)) key = some v := by
  induction m with
  | nil => simp [itemMap.getItem] at h
  | cons e rest ih =>
    simp only [itemMap.getItem] at h
    by_cases hk : e.1 = key
    · simp only [List.map_cons, if_pos hk, itemMap.getItem, if_true]
    · simp only [hk, if_false] at h
      simp only [List.map_cons, if_neg hk, itemMap.getItem, hk, if_false]
      exact ih h

theorem itemMap.getItem_map_ne (m : itemMap) (key k : List Nat) (v : item) (h : k ≠ key) :
    itemMap.getItem (m.map (fun e => if e.1 = key then (key, v) else e)) k = itemMap.getItem m k := by
  induction m with
  | nil => rfl
  | cons e rest ih =>
    by_cases hk : e.1 = key
    · have h2 : ¬ key = k := fun hh => h hh.symm
      have h3 : ¬ e.1 = k := fun hh => h (hh.symm.trans hk)
      simp only [List.map_cons, if_pos hk, itemMap.getItem, h2, h3, if_false, ih]
    · simp only [List.map_cons, if_neg hk, itemMap.getItem, ih]

theorem itemMap.getItem_put_self (m : itemMap) (key : List Nat) (v : item) :
    itemMap.getItem (itemMap.put m key v) key = some v := by
  unfold itemMap.put
  cases h : itemMap.getItem m key with
  | none => exact itemMap.getItem_append_self_of_none m key v h
  | some x => exact itemMap.getItem_map_self m key v (by simp [h])

theorem itemMap.getItem_put_ne (m : itemMap) (key k : List Nat) (v : item) (h : k ≠ key) :
    itemMap.getItem (itemMap.put m key v) k = itemMap.getItem m k := by
  unfold itemMap.put
  cases itemMap.getItem m key with
  | none => exact itemMap.getItem_append_ne m key k v (fun hh => h hh.symm)
  | some x => exact itemMap.getItem_map_ne m key k v h

theorem itemMap.getItem_remove_self (m : itemMap) (key : List Nat) :
    itemMap.getItem (itemMap.remove m key) key = none := by
  induction m with
  | nil => rfl
  | cons e rest ih =>
    by_cases hk : e.1 = key
    · simpa [itemMap.remove, hk] using ih
    · simpa [itemMap.remove, hk, itemMap.getItem] using ih

theorem itemMap.getItem_remove_ne (m : itemMap) (key k : List Nat) (h : k ≠ key) :
    itemMap.getItem (itemMap.remove m key) k = itemMap.getItem m k := by
  induction m with
  | nil => rfl
  | cons e rest ih =>
    by_cases hk : e.1 = key
    · have h3 : ¬ e.1 = k := fun hh => h (hh.symm.trans hk)
      have h2 : ¬ key = k := fun hh => h hh.symm
      simpa [itemMap.remove, itemMap.getItem, hk, h3, h2] using ih
    · have ih2 : itemMap.getItem (List.filter (fun e => decide (e.1 ≠ key)) rest) k
          = itemMap.getItem rest k := ih
      simp only [itemMap.remove, List.filter_cons, ne_eq, hk, not_false_eq_true, decide_True,
        if_true, itemMap.getItem, ih2]

theorem itemMap.remove_remove (m : itemMap) (key : List Nat) :
    itemMap.remove (itemMap.remove m key) key = itemMap.remove m key := by
  simp [itemMap.remove, List.filter_filter]

theorem keySet.removeKey_removeKey (s : keySet) (key : List Nat) :
    keySet.removeKey (keySet.removeKey s key) key = keySet.removeKey s key := by
  simp [keySet.removeKey, List.filter_filter]

/-- C7. Keyspace set/get: after `set(k, v, e)` the call `get(k)` returns found = true
with an item whose key is `k`, value `v` and expiration `e`, whatever was stored under
`k` before, and `get` of every other key is the same as before the set. -/
theorem hashmap_set_then_get (hm : hashmap) (k v : List Nat) (e now : Int) :
    (∃ it, (hm.set k v e now).get k = (some it, true) ∧
        it.getKey = k ∧ it.getValue = v ∧ it.getExpiration = e) ∧
      ∀ k2, k2 ≠ k → (hm.set k v e now).get k2 = hm.get k2 := by
  refine ⟨⟨⟨k, v, e, now⟩, ?_, rfl, rfl, rfl⟩, ?_⟩
  · simp [hashmap.get, hashmap.set, itemMap.getItem_put_self]
  · intro k2 hk
    simp [hashmap.get, hashmap.set, itemMap.getItem_put_ne _ _ _ _ hk]

/-- C8. Keyspace rm: `rm(k)` is defined for every keyspace and key (also when `k` is
absent), afterwards `get(k)` returns not found, every other key keeps its item, `rm` is
idempotent, and the RM runner returns the non-final `+OK` response whether or not the
key was stored. -/
theorem hashmap_rm_correct (hm : hashmap) (k : List Nat) :
    (hm.rm k).get k = (none, false) ∧
      (∀ k2, k2 ≠ k → (hm.rm k).get k2 = hm.get k2) ∧
      (hm.rm k).rm k = hm.rm k ∧
      (∀ (c : command) (server : AetherServer),
        (runRm c server).1 = response.rawBytesResponse [43, 79, 75, 13, 10] false ∧
        (runRm c server).1.isFinal = false ∧
        (runRm c server).2.hm = server.hm.rm c.key) := by
  refine ⟨?_, ?_, ?_, ?_⟩
  · simp [hashmap.get, hashmap.rm, itemMap.getItem_remove_self]
  · intro k2 hk
    simp [hashmap.get, hashmap.rm, itemMap.getItem_remove_ne _ _ _ hk]
  · simp [hashmap.rm, itemMap.remove_remove, keySet.removeKey_removeKey]
  · intro c server
    exact ⟨rfl, rfl, rfl⟩

/-- C10. After `rmall()` the count is 0, `getKeys()` and `getItens()` are empty, `get(k)`
returns not found for every key and the transient-keys set is empty. -/
theorem hashmap_rmall_empties (hm : hashmap) :
    hm.rmall.count = 0 ∧ hm.rmall.getKeys = [] ∧ hm.rmall.getItens = [] ∧
      (∀ k, hm.rmall.get k = (none, false)) ∧ hm.rmall.transientKeys = [] := by
  refine ⟨rfl, rfl, rfl, ?_, rfl⟩
  intro k
  rfl

theorem wrapInt64_eq (x : Int) (h : isInt64 x) : wrapInt64 x = x := by
  unfold isInt64 at h
  unfold wrapInt64
  norm_num at h ⊢
  omega

theorem item.hasExpired_eq (it : item) (now : Int) (hc : timeRange it.creation)
    (he : timeRange it.expiration) (hn : timeRange now) :
    it.hasExpired now = decide (it.creation + it.expiration ≤ now) := by
  unfold timeRange at hc he hn
  norm_num at hc he hn
  have h1 : wrapInt64 (now - it.creation) = now - it.creation :=
    wrapInt64_eq _ (by unfold isInt64; norm_num; omega)
  have h2 : wrapInt64 (it.expiration - (now - it.creation)) = it.expiration - (now - it.creation) :=
    wrapInt64_eq _ (by unfold isInt64; norm_num; omega)
  simp only [item.hasExpired, item.getTimeToLive, item.getAge, h1, h2]
  congr 1
  apply propext
  constructor <;> intro h <;> omega

theorem keySet.mem_insertKey (s : keySet) (key k : List Nat) :
    k ∈ keySet.insertKey s key ↔ k = key ∨ k ∈ s := by
  unfold keySet.insertKey
  split
  · constructor
    · intro h; exact Or.inr h
    · rintro (h | h)
      · subst h; assumption
      · exact h
  · simp [or_comm]

theorem keySet.nodup_insertKey (s : keySet) (key : List Nat) (h : s.Nodup) :
    (keySet.insertKey s key).Nodup := by
  unfold keySet.insertKey
  split
  · exact h
  · rename_i hk
    exact List.Nodup.append h (List.nodup_singleton key) (by simpa using hk)

/-- The loop of `evict` over a duplicate-free list of stored keys: it ends without a
panic, and a key is gone afterwards exactly when the loop visited it and its item was
transient and expired. -/
theorem hashmap.evict_loop (now : Int) (L : List (List Nat)) :
    ∀ hm : hashmap, L.Nodup → (∀ k, k ∈ L → (hm.data.getItem k).isSome = true) →
      ∃ hm2, L.foldlM (hashmap.evictKey now) hm = some hm2 ∧
        ∀ k, hm2.data.getItem k =
          match hm.data.getItem k with
          | none => none
          | some it => if k ∈ L ∧ it.isTransient = true ∧ it.hasExpired now = true then none else some it := by
  induction L with
  | nil =>
    intro hm _ _
    refine ⟨hm, rfl, ?_⟩
    intro k
    cases hm.data.getItem k <;> simp
  | cons a L ih =>
    intro hm hnd hst
    have ha := hst a (List.mem_cons_self a L)
    obtain ⟨it, hit⟩ := Option.isSome_iff_exists.mp ha
    have hnd2 : L.Nodup := (List.nodup_cons.mp hnd).2
    have haL : a ∉ L := (List.nodup_cons.mp hnd).1
    by_cases hx : (it.isTransient && it.hasExpired now) = true
    · have hstep : hashmap.evictKey now hm a = some (hm.rm a) := by
        simp only [hashmap.evictKey, hashmap.get, hit, hx, if_true]
      have hst2 : ∀ k, k ∈ L → ((hm.rm a).data.getItem k).isSome = true := by
        intro k hk
        have hne : k ≠ a := fun hh => haL (hh ▸ hk)
        simp only [hashmap.rm, itemMap.getItem_remove_ne _ _ _ hne]
        exact hst k (List.mem_cons_of_mem a hk)
      obtain ⟨hm2, hf, hch⟩ := ih (hm.rm a) hnd2 hst2
      refine ⟨hm2, ?_, ?_⟩
      · simp only [List.foldlM_cons, hstep, Option.bind_eq_bind, Option.some_bind, hf]
      · intro k
        rw [hch k]
        by_cases hka : k = a
        · subst hka
          simp only [hashmap.rm, itemMap.getItem_remove_self, hit]
          simp only [Bool.and_eq_true] at hx
          simp [hx.1, hx.2]
        · simp only [hashmap.rm, itemMap.getItem_remove_ne _ _ _ hka]
          cases hm.data.getItem k <;> simp [hka]
    · have hstep : hashmap.evictKey now hm a = some hm := by
        simp only [hashmap.evictKey, hashmap.get, hit, hx, if_false]
        simp
      obtain ⟨hm2, hf, hch⟩ := ih hm hnd2 (fun k hk => hst k (List.mem_cons_of_mem a hk))
      refine ⟨hm2, ?_, ?_⟩
      · simp only [List.foldlM_cons, hstep, Option.bind_eq_bind, Option.some_bind, hf]
      · intro k
        rw [hch k]
        by_cases hka : k = a
        · subst hka
          simp only [hit]
          simp only [Bool.and_eq_true, not_and] at hx
          have : ¬ (it.isTransient = true ∧ it.hasExpired now = true) := fun hh => hx hh.1 hh.2
          simp [haL, this]
        · cases hm.data.getItem k <;> simp [hka]

/-- Eviction on a tracked keyspace with times in range: what `get` returns afterwards. -/
theorem hashmap.evict_get (hm : hashmap) (now : Int) (hwf : hm.tracked) (hr : hm.timesInRange)
    (hn : timeRange now) :
    ∃ hm2, hm.evict now = some hm2 ∧ ∀ k, hm2.get k = afterEvict (hm.get k).1 now := by
  obtain ⟨hnd, hst, htr⟩ := hwf
  obtain ⟨hm2, hf, hch⟩ := hashmap.evict_loop now hm.transientKeys hm hnd hst
  refine ⟨hm2, hf, ?_⟩
  intro k
  simp only [hashmap.get, hch k]
  cases hit : hm.data.getItem k with
  | none => simp [afterEvict]
  | some it =>
    obtain ⟨hc, he⟩ := hr k it hit
    have hexp := item.hasExpired_eq it now hc he hn
    simp only [afterEvict, hexp, item.isTransient, decide_eq_true_eq]
    by_cases h0 : it.expiration = 0
    · simp [h0]
    · have hk := htr k it hit h0
      by_cases h1 : it.creation + it.expiration ≤ now
      · simp [h0, hk, h1]
      · simp [h0, hk, h1]

theorem hashmap.tracked_set (hm : hashmap) (k v : List Nat) (e now : Int) (hwf : hm.tracked)
    (he : e ≠ 0) : (hm.set k v e now).tracked := by
  obtain ⟨hnd, hst, htr⟩ := hwf
  refine ⟨?_, ?_, ?_⟩
  · simp only [hashmap.set, he, ne_eq, not_false_eq_true, if_true]
    exact keySet.nodup_insertKey _ _ hnd
  · intro k2 hk2
    simp only [hashmap.set, he, ne_eq, not_false_eq_true, if_true] at hk2 ⊢
    by_cases hkk : k2 = k
    · subst hkk
      simp [itemMap.getItem_put_self]
    · rw [itemMap.getItem_put_ne _ _ _ _ hkk]
      rcases (keySet.mem_insertKey _ _ _).mp hk2 with h | h
      · exact absurd h hkk
      · exact hst k2 h
  · intro k2 it hit hne
    simp only [hashmap.set, he, ne_eq, not_false_eq_true, if_true] at hit ⊢
    by_cases hkk : k2 = k
    · exact (keySet.mem_insertKey _ _ _).mpr (Or.inl hkk)
    · rw [itemMap.getItem_put_ne _ _ _ _ hkk] at hit
      exact (keySet.mem_insertKey _ _ _).mpr (Or.inr (htr k2 it hit hne))

theorem hashmap.timesInRange_set (hm : hashmap) (k v : List Nat) (e now : Int)
    (hr : hm.timesInRange) (he : timeRange e) (hn : timeRange now) :
    (hm.set k v e now).timesInRange := by
  intro k2 it hit
  simp only [hashmap.set] at hit
  by_cases hkk : k2 = k
  · subst hkk
    rw [itemMap.getItem_put_self] at hit
    cases hit
    exact ⟨hn, he⟩
  · rw [itemMap.getItem_put_ne _ _ _ _ hkk] at hit
    exact hr k2 it hit

/-- TTL eviction in whole Unix seconds, away from the 64-bit limits: on a keyspace whose transient-key map tracks
the stored transient items, and with all seconds and expirations away from the 64-bit
limits, `evict()` at second `now` ends normally, removes exactly the keys whose item has
non-zero expiration and `creation + expiration ≤ now`, and leaves every other item as it
was; hence after `set(k, v, exp)` with `exp > 0` at second `t0`, `get(k)` still returns
the item with value `v` after an `evict()` at `now < t0 + exp` and returns not found
after an `evict()` at `now ≥ t0 + exp`. -/
theorem evict_removes_exactly_expired (hm : hashmap) (now : Int) (hwf : hm.tracked)
    (hr : hm.timesInRange) (hn : timeRange now) :
    (∃ hm2, hm.evict now = some hm2 ∧ ∀ k, hm2.get k = afterEvict (hm.get k).1 now) ∧
      ∀ (k v : List Nat) (exp t0 : Int), 0 < exp → timeRange exp → timeRange t0 →
        ∃ hm3, (hm.set k v exp t0).evict now = some hm3 ∧
          (now < t0 + exp →
            hm3.get k = (some { key := k, value := v, expiration := exp, creation := t0 }, true)) ∧
          (t0 + exp ≤ now → hm3.get k = (none, false)) := by
  refine ⟨hashmap.evict_get hm now hwf hr hn, ?_⟩
  intro k v exp t0 hpos hre ht0
  have hne : exp ≠ 0 := by omega
  obtain ⟨hm3, hev, hget⟩ := hashmap.evict_get (hm.set k v exp t0) now
    (hashmap.tracked_set hm k v exp t0 hwf hne) (hashmap.timesInRange_set hm k v exp t0 hr hre ht0) hn
  refine ⟨hm3, hev, ?_, ?_⟩
  · intro hlt
    rw [hget k]
    have : ¬ (t0 + exp ≤ now) := by omega
    simp [hashmap.get, hashmap.set, itemMap.getItem_put_self, afterEvict, this]
  · intro hle
    rw [hget k]
    simp [hashmap.get, hashmap.set, itemMap.getItem_put_self, afterEvict, hne, hle]

/-- An instance: a keyspace with one permanent and one transient item, evicted at
second 100. -/
theorem evict_removes_exactly_expired_witness :
    (∃ hm2, (((newHashmap.set [97] [1] 0 10).set [98] [2] 5 20).evict 100) = some hm2 ∧
        ∀ k, hm2.get k = afterEvict (((newHashmap.set [97] [1] 0 10).set [98] [2] 5 20).get k).1 100) ∧
      ∀ (k v : List Nat) (exp t0 : Int), 0 < exp → timeRange exp → timeRange t0 →
        ∃ hm3, ((((newHashmap.set [97] [1] 0 10).set [98] [2] 5 20).set k v exp t0).evict 100) = some hm3 ∧
          (100 < t0 + exp →
            hm3.get k = (some { key := k, value := v, expiration := exp, creation := t0 }, true)) ∧
          (t0 + exp ≤ 100 → hm3.get k = (none, false)) :=
  evict_removes_exactly_expired ((newHashmap.set [97] [1] 0 10).set [98] [2] 5 20) 100
    (by
      refine ⟨by decide, ?_, ?_⟩
      · intro k hk
        have : k = [98] := by simpa [hashmap.set, newHashmap, keySet.insertKey] using hk
        subst this
        decide
      · intro k it hit hne
        by_cases h1 : k = [97]
        · subst h1
          have : it.expiration = 0 := by
            have h2 : (((newHashmap.set [97] [1] 0 10).set [98] [2] 5 20).data.getItem [97])
                = some ⟨[97], [1], 0, 10⟩ := by decide
            rw [h2] at hit
            cases hit
            rfl
          exact absurd this hne
        · by_cases h2 : k = [98]
          · subst h2
            decide
          · exfalso
            have h3 : ((newHashmap.set [97] [1] 0 10).set [98] [2] 5 20).data.getItem k = none := by
              have hb : ¬ [98] = k := fun hh => h2 hh.symm
              have ha : ¬ [97] = k := fun hh => h1 hh.symm
              simp [hashmap.set, newHashmap, itemMap.put, itemMap.getItem, ha, hb]
            rw [h3] at hit
            cases hit)
    (by
      intro k it hit
      by_cases h1 : k = [97]
      · subst h1
        have h2 : (((newHashmap.set [97] [1] 0 10).set [98] [2] 5 20).data.getItem [97])
            = some ⟨[97], [1], 0, 10⟩ := by decide
        rw [h2] at hit
        cases hit
        exact ⟨by decide, by decide⟩
      · by_cases h2 : k = [98]
        · subst h2
          have h2 : (((newHashmap.set [97] [1] 0 10).set [98] [2] 5 20).data.getItem [98])
              = some ⟨[98], [2], 5, 20⟩ := by decide
          rw [h2] at hit
          cases hit
          exact ⟨by decide, by decide⟩
        · exfalso
          have h3 : ((newHashmap.set [97] [1] 0 10).set [98] [2] 5 20).data.getItem k = none := by
            have hb : ¬ [98] = k := fun hh => h2 hh.symm
            have ha : ¬ [97] = k := fun hh => h1 hh.symm
            simp [hashmap.set, newHashmap, itemMap.put, itemMap.getItem, ha, hb]
          rw [h3] at hit
          cases hit)
    (by decide)

/-! ## The keyspaces built by set, rm, rmall and evict are tracked -/

theorem hashmap.tracked_new : newHashmap.tracked := by
  refine ⟨List.nodup_nil, ?_, ?_⟩
  · intro k hk; cases hk
  · intro k it hit; cases hit

theorem hashmap.tracked_set_any (hm : hashmap) (k v : List Nat) (e now : Int) (hwf : hm.tracked) :
    (hm.set k v e now).tracked := by
  by_cases he : e = 0
  · subst he
    obtain ⟨hnd, hst, htr⟩ := hwf
    refine ⟨hnd, ?_, ?_⟩
    · intro k2 hk2
      simp only [hashmap.set, ne_eq, not_true_eq_false, if_false] at hk2 ⊢
      by_cases hkk : k2 = k
      · subst hkk
        simp [itemMap.getItem_put_self]
      · rw [itemMap.getItem_put_ne _ _ _ _ hkk]
        exact hst k2 hk2
    · intro k2 it hit hne
      simp only [hashmap.set, ne_eq, not_true_eq_false, if_false] at hit ⊢
      by_cases hkk : k2 = k
      · subst hkk
        rw [itemMap.getItem_put_self] at hit
        cases hit
        exact absurd rfl hne
      · rw [itemMap.getItem_put_ne _ _ _ _ hkk] at hit
        exact htr k2 it hit hne
  · exact hashmap.tracked_set hm k v e now hwf he

theorem hashmap.tracked_rm (hm : hashmap) (k : List Nat) (hwf : hm.tracked) : (hm.rm k).tracked := by
  obtain ⟨hnd, hst, htr⟩ := hwf
  refine ⟨?_, ?_, ?_⟩
  · exact List.Nodup.filter _ hnd
  · intro k2 hk2
    simp only [hashmap.rm, keySet.removeKey, List.mem_filter, decide_eq_true_eq] at hk2 ⊢
    rw [itemMap.getItem_remove_ne _ _ _ hk2.2]
    exact hst k2 hk2.1
  · intro k2 it hit hne
    simp only [hashmap.rm, keySet.removeKey, List.mem_filter, decide_eq_true_eq] at hit ⊢
    by_cases hkk : k2 = k
    · subst hkk
      rw [itemMap.getItem_remove_self] at hit
      cases hit
    · rw [itemMap.getItem_remove_ne _ _ _ hkk] at hit
      exact ⟨htr k2 it hit hne, hkk⟩

theorem hashmap.tracked_rmall (hm : hashmap) : hm.rmall.tracked := by
  refine ⟨List.nodup_nil, ?_, ?_⟩
  · intro k hk; cases hk
  · intro k it hit; cases hit

theorem hashmap.tracked_evict_loop (now : Int) (L : List (List Nat)) :
    ∀ hm hm2 : hashmap, hm.tracked → L.foldlM (hashmap.evictKey now) hm = some hm2 → hm2.tracked := by
  induction L with
  | nil =>
    intro hm hm2 hwf h
    simp only [List.foldlM_nil, pure, Option.some.injEq] at h
    exact h ▸ hwf
  | cons a L ih =>
    intro hm hm2 hwf h
    simp only [List.foldlM_cons, bind, Option.bind] at h
    cases hs : hashmap.evictKey now hm a with
    | none => simp [hs] at h
    | some hm1 =>
      simp only [hs] at h
      refine ih hm1 hm2 ?_ h
      simp only [hashmap.evictKey] at hs
      split at hs
      · cases hs
      · split at hs
        · cases hs
          exact hashmap.tracked_rm hm a hwf
        · cases hs
          exact hwf

theorem hashmap.tracked_evict (hm hm2 : hashmap) (now : Int) (hwf : hm.tracked)
    (h : hm.evict now = some hm2) : hm2.tracked :=
  hashmap.tracked_evict_loop now hm.transientKeys hm hm2 hwf h

/-! ## The buffered source delivers its bytes in order -/

theorem source.unread_of_hasUnread (s : source) (hg : s.good) (hu : s.hasUnreadInput = true) :
    ∃ b, s.buff[s.pos]? = some b ∧ s.unread = b :: (s.adv).unread := by
  simp only [source.hasUnreadInput, Bool.and_eq_true, decide_eq_true_eq] at hu
  obtain ⟨_, hsz, _⟩ := hg
  have hlt : s.pos < s.buff.length := by omega
  refine ⟨s.buff[s.pos], List.getElem?_eq_getElem hlt, ?_⟩
  have hlt2 : s.pos < (s.buff.take s.size).length := by
    simp only [List.length_take]; omega
  simp only [source.unread, source.adv]
  rw [List.drop_eq_getElem_cons hlt2]
  simp [List.getElem_take]

theorem source.unread_nil_of_not_hasUnread (s : source) (hu : s.hasUnreadInput = false) :
    s.unread = [] := by
  simp only [source.hasUnreadInput, Bool.and_eq_false_iff, decide_eq_false_iff_not] at hu
  simp only [source.unread]
  apply List.drop_eq_nil_of_le
  simp only [List.length_take]
  omega

theorem source.hasUnread_of_unread_ne_nil (s : source) (h : s.unread ≠ []) :
    s.hasUnreadInput = true := by
  cases hu : s.hasUnreadInput
  · exact absurd (source.unread_nil_of_not_hasUnread s hu) h
  · rfl

theorem source.rm_of_hasUnread (s : source) (c : Nat) (r : List Nat) (h : s.Holds (c :: r))
    (hu : s.hasUnreadInput = true) : s.rm = some s.adv ∧ s.adv.Holds r := by
  obtain ⟨hg, hr⟩ := h
  obtain ⟨b, hb, hun⟩ := source.unread_of_hasUnread s hg hu
  constructor
  · simp [source.rm, source.readChar, hu, source.removeByte, hb, source.adv]
  · refine ⟨hg, ?_⟩
    simp only [source.rest, hun, List.cons_append, List.cons.injEq] at hr
    simpa [source.rest, source.adv] using hr.2

theorem source.peek_of_hasUnread (s : source) (c : Nat) (r : List Nat) (h : s.Holds (c :: r))
    (hu : s.hasUnreadInput = true) : s.peek = some (c, 0, none, s) := by
  obtain ⟨hg, hr⟩ := h
  obtain ⟨b, hb, hun⟩ := source.unread_of_hasUnread s hg hu
  simp only [source.rest, hun, List.cons_append, List.cons.injEq] at hr
  simp [source.peek, source.readChar, hu, source.peekByte, hb, hr.1]

/-- A refill of a source in working order with bytes left to deliver. -/
theorem source.loadData_of_holds (s : source) (c : Nat) (r : List Nat) (h : s.Holds (c :: r))
    (hu : s.hasUnreadInput = false) :
    ∃ s2 n, s.loadData = (n, none, s2) ∧ s2.Holds (c :: r) ∧ s2.hasUnreadInput = true ∧
      s2.buff[s2.pos]? = some c := by
  obtain ⟨⟨hB, hsz, hne⟩, hr⟩ := h
  have hun := source.unread_nil_of_not_hasUnread s hu
  simp only [source.rest, hun, List.nil_append] at hr
  cases hch : s.fd.chunks with
  | nil => simp [hch] at hr
  | cons c0 cs =>
    have hc0 : c0 ≠ [] := hne c0 (by simp [hch])
    obtain ⟨x, xs, hx⟩ := List.exists_cons_of_ne_nil hc0
    rw [hch] at hr
    simp only [List.flatten_cons, hx, List.cons_append, List.cons.injEq] at hr
    obtain ⟨hxc, hrest⟩ := hr
    subst hxc
    by_cases hle : c0.length ≤ s.buff.length
    · have hl : s.loadData = (c0.length, none,
          { s with fd := ⟨cs⟩, buff := c0 ++ s.buff.drop c0.length, size := c0.length, pos := 0,
                   reads := s.reads + 1, in_ := s.in_ + c0.length }) := by
        simp only [source.loadData, inputStream.Read, hch, hle, if_true]
      refine ⟨_, _, hl, ?_, ?_, ?_⟩
      · refine ⟨⟨?_, ?_, ?_⟩, ?_⟩
        · simp only [List.length_append, List.length_drop]; omega
        · simp only [List.length_append, List.length_drop]; omega
        · intro c hc
          exact hne c (by simp only [hch]; exact List.mem_cons_of_mem _ hc)
        · simp [source.rest, source.unread, hx, hrest]
      · simp [source.hasUnreadInput, hx]
      · simp [hx]
    · have hlt : s.buff.length < c0.length := Nat.lt_of_not_le hle
      have htl : (c0.take s.buff.length).length = s.buff.length := by
        simp only [List.length_take]; omega
      have hl : s.loadData = ((c0.take s.buff.length).length, none,
          { s with fd := ⟨c0.drop s.buff.length :: cs⟩,
                   buff := c0.take s.buff.length ++ s.buff.drop (c0.take s.buff.length).length,
                   size := (c0.take s.buff.length).length, pos := 0,
                   reads := s.reads + 1, in_ := s.in_ + (c0.take s.buff.length).length }) := by
        simp only [source.loadData, inputStream.Read, hch, hle, if_false]
      refine ⟨_, _, hl, ?_, ?_, ?_⟩
      · refine ⟨⟨?_, ?_, ?_⟩, ?_⟩
        · simp only [List.length_append, List.length_drop, htl]; omega
        · simp only [List.length_append, List.length_drop, htl]; omega
        · intro c hc
          simp only [List.mem_cons] at hc
          rcases hc with hc | hc
          · subst hc
            intro hnil
            have := congrArg List.length hnil
            simp only [List.length_drop, List.length_nil] at this
            omega
          · exact hne c (by simp only [hch]; exact List.mem_cons_of_mem _ hc)
        · simp only [source.rest, source.unread, htl, List.drop_zero, List.flatten_cons]
          rw [List.take_append_of_le_length (by rw [htl]), List.take_of_length_le (by rw [htl]),
            ← List.append_assoc, List.take_append_drop, hx, List.cons_append, hrest]
      · simp only [source.hasUnreadInput, htl, Bool.and_eq_true, decide_eq_true_eq]
        omega
      · have : c0.take s.buff.length = x :: xs.take (s.buff.length - 1) := by
          rw [hx]
          cases hb : s.buff.length with
          | zero => omega
          | succ n => simp
        simp [this]

theorem source.peek_of_holds (s : source) (c : Nat) (r : List Nat) (h : s.Holds (c :: r)) :
    s.peek = some (c, s.peekBytes, none, s.afterPeek) ∧ s.afterPeek.Holds (c :: r) ∧
      s.afterPeek.hasUnreadInput = true := by
  cases hu : s.hasUnreadInput
  · obtain ⟨s2, n, hl, hh, hu2, hb⟩ := source.loadData_of_holds s c r h hu
    refine ⟨?_, ?_, ?_⟩
    · simp [source.peek, source.readChar, hu, hl, source.peekByte, hb, source.peekBytes,
        source.afterPeek]
    · simpa [source.afterPeek, hu, hl] using hh
    · simpa [source.afterPeek, hu, hl] using hu2
  · refine ⟨?_, ?_, ?_⟩
    · simpa [source.peekBytes, source.afterPeek, hu] using source.peek_of_hasUnread s c r h hu
    · simpa [source.afterPeek, hu] using h
    · simp [source.afterPeek, hu]

theorem source.peek_of_holds_nil (s : source) (h : s.Holds []) :
    s.peek = some (0, 0, some GoError.EOF, s) := by
  obtain ⟨⟨hB, hsz, hne⟩, hr⟩ := h
  simp only [source.rest, List.append_eq_nil] at hr
  obtain ⟨hun, hj⟩ := hr
  have hu : s.hasUnreadInput = false := by
    cases hu : s.hasUnreadInput
    · rfl
    · obtain ⟨b, _, hb⟩ := source.unread_of_hasUnread s ⟨hB, hsz, hne⟩ hu
      rw [hun] at hb
      cases hb
  have hch : s.fd.chunks = [] := by
    cases hch : s.fd.chunks with
    | nil => rfl
    | cons c0 cs =>
      exfalso
      have hc0 : c0 ≠ [] := hne c0 (by simp [hch])
      rw [hch] at hj
      simp only [List.flatten_cons, List.append_eq_nil] at hj
      exact hc0 hj.1
  simp [source.peek, source.readChar, hu, source.loadData, inputStream.Read, hch]

theorem source.fuel_of_holds (s : source) (r : List Nat) (h : s.Holds r) :
    r.length + 5 ≤ s.fuel := by
  obtain ⟨_, hr⟩ := h
  have key : ∀ l : List (List Nat), l.flatten.length ≤ (l.map (fun c => c.length + 1)).sum := by
    intro l
    induction l with
    | nil => simp
    | cons a l ih => simp only [List.flatten_cons, List.length_append, List.map_cons, List.sum_cons]; omega
  have := key s.fd.chunks
  rw [← hr]
  simp only [source.rest, List.length_append, source.fuel]
  omega

theorem source.holds_new (chunks : List (List Nat)) (B : Nat) (hB : 0 < B)
    (hne : ∀ c, c ∈ chunks → c ≠ []) : (newBufferedSource ⟨chunks⟩ B).Holds chunks.flatten := by
  refine ⟨⟨?_, ?_, hne⟩, ?_⟩
  · simpa [newBufferedSource] using hB
  · simp [newBufferedSource]
  · simp [source.rest, source.unread, newBufferedSource]

/-! ## One pass of the tokenizer loop over a source in working order -/

theorem source.step_holds (s : source) (c : Nat) (r : List Nat) (h : s.Holds (c :: r)) :
    s.step.Holds r := by
  obtain ⟨_, h2, h3⟩ := source.peek_of_holds s c r h
  exact (source.rm_of_hasUnread s.afterPeek c r h2 h3).2

theorem tkz_nextLoop_of_holds (s : source) (c : Nat) (r : List Nat) (h : s.Holds (c :: r))
    (st : tokenizerState) (tk : Option token) (ln : Nat) (A : Int) (f : Nat) (io : ioData) :
    tokenizer.nextLoop (f + 1) ⟨s, st, tk, ln, A⟩ io =
      match tokenizer.dispatch ⟨s.afterPeek, st, tk, ln, A⟩ c with
      | none => Result.panicked
      | some (Step.again t2) => tokenizer.nextLoop f t2 (io.add s.peekBytes)
      | some (Step.ret tok err t2) => Result.done ⟨tok, io.add s.peekBytes, err, t2⟩ := by
  obtain ⟨h1, _, _⟩ := source.peek_of_holds s c r h
  simp only [tokenizer.nextLoop, tokenizer.peek, h1]

theorem tkz_consume_of_holds (s : source) (c : Nat) (r : List Nat) (h : s.Holds (c :: r))
    (st : tokenizerState) (tk : Option token) (ln : Nat) (A : Int) :
    tokenizer.consume ⟨s.afterPeek, st, tk, ln, A⟩ = some ⟨s.step, st, tk, ln, A⟩ := by
  obtain ⟨_, h2, h3⟩ := source.peek_of_holds s c r h
  simp only [tokenizer.consume, (source.rm_of_hasUnread s.afterPeek c r h2 h3).1, source.step]

theorem tkz_nextLoop_eof (s : source) (h : s.Holds [])
    (st : tokenizerState) (tk : Option token) (ln : Nat) (A : Int) (f : Nat) (io : ioData) :
    tokenizer.nextLoop (f + 1) ⟨s, st, tk, ln, A⟩ io =
      Result.done ⟨none, io.add 0, some (newReadingError GoError.EOF), ⟨s, st, tk, ln, A⟩⟩ := by
  simp only [tokenizer.nextLoop, tokenizer.peek, source.peek_of_holds_nil s h]

/-- Waiting for a token, a space or a tab is eaten. -/
theorem tkz_pass_blank (s : source) (c : Nat) (r : List Nat) (h : s.Holds (c :: r))
    (hc : c = 32 ∨ c = 9) (tk : Option token) (ln : Nat) (A : Int) (f : Nat) (io : ioData) :
    tokenizer.nextLoop (f + 1) ⟨s, tokenizerWaitingForToken, tk, ln, A⟩ io =
      tokenizer.nextLoop f ⟨s.step, tokenizerWaitingForToken, tk, ln, A⟩ (io.add s.peekBytes) := by
  rw [tkz_nextLoop_of_holds s c r h]
  rcases hc with hc | hc <;> subst hc <;>
    simp [tokenizer.dispatch, tokenizer.caseWaitingForToken,
      tkz_consume_of_holds s _ r h]

theorem tkz_nextLoop_mono (f : Nat) : ∀ (t : tokenizer) (io : ioData) (x : tokenizerResult),
    tokenizer.nextLoop f t io = Result.done x → ∀ g, f ≤ g → tokenizer.nextLoop g t io = Result.done x := by
  induction f with
  | zero => intro t io x h; simp [tokenizer.nextLoop] at h
  | succ f ih =>
    intro t io x h g hg
    obtain ⟨g2, rfl⟩ : ∃ g2, g = g2 + 1 := ⟨g - 1, by omega⟩
    simp only [tokenizer.nextLoop] at h ⊢
    cases hp : t.peek with
    | none => simp [hp] at h
    | some v =>
      obtain ⟨ch, bytes, err, t1⟩ := v
      cases err with
      | some e => simpa [hp] using h
      | none =>
        simp only [hp] at h ⊢
        cases hd : t1.dispatch ch with
        | none => simp [hd] at h
        | some stp =>
          cases stp with
          | again t2 =>
            simp only [hd] at h ⊢
            exact ih t2 _ x h g2 (by omega)
          | ret tok err t2 => simpa [hd] using h

/-- Waiting for a token, `$` opens a BIN_STRING. -/
theorem tkz_pass_dollar (s : source) (r : List Nat) (h : s.Holds (36 :: r))
    (tk : Option token) (ln : Nat) (A : Int) (f : Nat) (io : ioData) :
    tokenizer.nextLoop (f + 1) ⟨s, tokenizerWaitingForToken, tk, ln, A⟩ io =
      tokenizer.nextLoop f ⟨s.step, tokenizerReadingSize, some ⟨tokenBinString, [], 0, 0⟩, ln, A⟩
        (io.add s.peekBytes) := by
  rw [tkz_nextLoop_of_holds s 36 r h]
  simp [tokenizer.dispatch, tokenizer.caseWaitingForToken, tokenizer.new,
    tkz_consume_of_holds s _ r h]

/-- Waiting for a token, `*` opens an ARRAY header. -/
theorem tkz_pass_asterisk (s : source) (r : List Nat) (h : s.Holds (42 :: r))
    (tk : Option token) (ln : Nat) (A : Int) (f : Nat) (io : ioData) :
    tokenizer.nextLoop (f + 1) ⟨s, tokenizerWaitingForToken, tk, ln, A⟩ io =
      tokenizer.nextLoop f ⟨s.step, tokenizerReadingSize, some ⟨tokenArray, [], 0, 0⟩, ln, A⟩
        (io.add s.peekBytes) := by
  rw [tkz_nextLoop_of_holds s 42 r h]
  simp [tokenizer.dispatch, tokenizer.caseWaitingForToken, tokenizer.new,
    tkz_consume_of_holds s _ r h]

/-- Waiting for a token, `\r` opens an EOL. -/
theorem tkz_pass_cr (s : source) (r : List Nat) (h : s.Holds (13 :: r))
    (tk : Option token) (ln : Nat) (A : Int) (f : Nat) (io : ioData) :
    tokenizer.nextLoop (f + 1) ⟨s, tokenizerWaitingForToken, tk, ln, A⟩ io =
      tokenizer.nextLoop f ⟨s.step, tokenizerWaitingEol, some ⟨tokenEol, [], 0, 0⟩, ln, A⟩
        (io.add s.peekBytes) := by
  rw [tkz_nextLoop_of_holds s 13 r h]
  simp [tokenizer.dispatch, tokenizer.caseWaitingForToken, tokenizer.new,
    tkz_consume_of_holds s _ r h]

/-- Waiting for a token, `\n` is an EOL. -/
theorem tkz_pass_lf (s : source) (r : List Nat) (h : s.Holds (10 :: r))
    (tk : Option token) (ln : Nat) (A : Int) (f : Nat) (io : ioData) :
    tokenizer.nextLoop (f + 1) ⟨s, tokenizerWaitingForToken, tk, ln, A⟩ io =
      Result.done ⟨some ⟨tokenEol, [], 0, 0⟩, io.add s.peekBytes, none,
        ⟨s.step, tokenizerWaitingForToken, some ⟨tokenEol, [], 0, 0⟩, ln + 1, A⟩⟩ := by
  rw [tkz_nextLoop_of_holds s 10 r h]
  simp [tokenizer.dispatch, tokenizer.caseWaitingForToken, tokenizer.new, tokenizer.yield,
    token.is, tkz_consume_of_holds s _ r h]

/-- After `\r`, the `\n` completes the EOL. -/
theorem tkz_pass_eol_lf (s : source) (r : List Nat) (h : s.Holds (10 :: r))
    (ln : Nat) (A : Int) (f : Nat) (io : ioData) :
    tokenizer.nextLoop (f + 1) ⟨s, tokenizerWaitingEol, some ⟨tokenEol, [], 0, 0⟩, ln, A⟩ io =
      Result.done ⟨some ⟨tokenEol, [], 0, 0⟩, io.add s.peekBytes, none,
        ⟨s.step, tokenizerWaitingForToken, some ⟨tokenEol, [], 0, 0⟩, ln + 1, A⟩⟩ := by
  rw [tkz_nextLoop_of_holds s 10 r h]
  simp [tokenizer.dispatch, tokenizer.caseWaitingEol, tokenizer.yield,
    token.is, tkz_consume_of_holds s _ r h]

/-- Waiting for a token, an identifier byte opens an IDENTIFIER. -/
theorem tkz_pass_ident_start (s : source) (c : Nat) (r : List Nat) (h : s.Holds (c :: r))
    (hc : identStart c) (tk : Option token) (ln : Nat) (A : Int) (f : Nat) (io : ioData) :
    tokenizer.nextLoop (f + 1) ⟨s, tokenizerWaitingForToken, tk, ln, A⟩ io =
      tokenizer.nextLoop f ⟨s.step, tokenizerReadingIdentifier, some ⟨tokenIdentifier, [c], 0, 1⟩, ln, A⟩
        (io.add s.peekBytes) := by
  rw [tkz_nextLoop_of_holds s c r h]
  obtain ⟨⟨h1, h2, h3, h4⟩, h5, h6, h7⟩ := hc
  have e1 : c ≠ 32 := by omega
  have e2 : c ≠ 9 := by omega
  have e3 : c ≠ 13 := by omega
  have e4 : c ≠ 10 := by omega
  have e5 : realPrintable c = true := by
    simp only [realPrintable, space, del, Bool.and_eq_true, decide_eq_true_eq]; omega
  simp [tokenizer.dispatch, tokenizer.caseWaitingForToken, tokenizer.new, tokenizer.append,
    token.append, tkz_consume_of_holds s _ r h, e1, e2, e3, e4, e5, h3, h4, h5, h6, h7]

/-- Reading an identifier below the size cap, an identifier byte is appended. -/
theorem tkz_pass_ident_char (s : source) (c : Nat) (r : List Nat) (h : s.Holds (c :: r))
    (hc : identChar c) (d : List Nat) (dl : Nat) (sz : Int) (ln : Nat) (A : Int) (hsz : sz < A)
    (f : Nat) (io : ioData) :
    tokenizer.nextLoop (f + 1) ⟨s, tokenizerReadingIdentifier, some ⟨tokenIdentifier, d, dl, sz⟩, ln, A⟩ io =
      tokenizer.nextLoop f
        ⟨s.step, tokenizerReadingIdentifier, some ⟨tokenIdentifier, d ++ [c], dl, sz + 1⟩, ln, A⟩
        (io.add s.peekBytes) := by
  rw [tkz_nextLoop_of_holds s c r h]
  obtain ⟨h1, h2, h3, h4⟩ := hc
  have e1 : c ≠ 32 := by omega
  have e2 : c ≠ 9 := by omega
  have e3 : c ≠ 13 := by omega
  have e4 : c ≠ 10 := by omega
  have e5 : realPrintable c = true := by
    simp only [realPrintable, space, del, Bool.and_eq_true, decide_eq_true_eq]; omega
  have e6 : ¬ (A ≤ sz) := by omega
  simp [tokenizer.dispatch, tokenizer.caseReadingIdentifier, tokenizer.reachedSizeLimit,
    token.getSize, tokenizer.append,
    token.append, tkz_consume_of_holds s _ r h, e1, e2, e3, e4, e5, e6, h3, h4]

/-- Reading an identifier at the size cap, one more identifier byte is the fatal
"Token is too big" error. -/
theorem tkz_pass_ident_full (s : source) (c : Nat) (r : List Nat) (h : s.Holds (c :: r))
    (hc : identChar c) (d : List Nat) (dl : Nat) (sz : Int) (ln : Nat) (A : Int) (hsz : A ≤ sz)
    (f : Nat) (io : ioData) :
    tokenizer.nextLoop (f + 1) ⟨s, tokenizerReadingIdentifier, some ⟨tokenIdentifier, d, dl, sz⟩, ln, A⟩ io =
      Result.done ⟨none, io.add s.peekBytes,
        some (tokenizer.tokenTooBig ⟨s.afterPeek, tokenizerReadingIdentifier, some ⟨tokenIdentifier, d, dl, sz⟩, ln, A⟩),
        ⟨s.afterPeek, tokenizerReadingIdentifier, some ⟨tokenIdentifier, d, dl, sz⟩, ln, A⟩⟩ := by
  rw [tkz_nextLoop_of_holds s c r h]
  obtain ⟨h1, h2, h3, h4⟩ := hc
  have e1 : c ≠ 32 := by omega
  have e2 : c ≠ 9 := by omega
  have e3 : c ≠ 13 := by omega
  have e4 : c ≠ 10 := by omega
  have e5 : realPrintable c = true := by
    simp only [realPrintable, space, del, Bool.and_eq_true, decide_eq_true_eq]; omega
  simp [tokenizer.dispatch, tokenizer.caseReadingIdentifier, tokenizer.reachedSizeLimit,
    token.getSize, e1, e2, e3, e4, e5, hsz, h3, h4]

/-- Reading an identifier, a blank or an end of line yields the token and is left in
the source. -/
theorem tkz_pass_ident_end (s : source) (c : Nat) (r : List Nat) (h : s.Holds (c :: r))
    (hc : c = 13 ∨ c = 10 ∨ c = 32 ∨ c = 9) (d : List Nat) (dl : Nat) (sz : Int) (ln : Nat) (A : Int)
    (f : Nat) (io : ioData) :
    tokenizer.nextLoop (f + 1) ⟨s, tokenizerReadingIdentifier, some ⟨tokenIdentifier, d, dl, sz⟩, ln, A⟩ io =
      Result.done ⟨some ⟨tokenIdentifier, d, dl, sz⟩, io.add s.peekBytes, none,
        ⟨s.afterPeek, tokenizerWaitingForToken, some ⟨tokenIdentifier, d, dl, sz⟩, ln, A⟩⟩ := by
  rw [tkz_nextLoop_of_holds s c r h]
  simp [tokenizer.dispatch, tokenizer.caseReadingIdentifier, tokenizer.yield, token.is, hc]

/-- Reading a size, a digit is added to it. -/
theorem tkz_pass_size_digit (s : source) (c : Nat) (r : List Nat) (h : s.Holds (c :: r))
    (hc : 48 ≤ c ∧ c ≤ 57) (ty : tokenType) (d : List Nat) (dl : Nat) (sz : Int) (ln : Nat) (A : Int)
    (f : Nat) (io : ioData) :
    tokenizer.nextLoop (f + 1) ⟨s, tokenizerReadingSize, some ⟨ty, d, dl, sz⟩, ln, A⟩ io =
      tokenizer.nextLoop f
        ⟨s.step, tokenizerReadingSize, some ⟨ty, d, dl, wrapInt64 (sz * 10 + ((c - 48 : Nat) : Int))⟩, ln, A⟩
        (io.add s.peekBytes) := by
  rw [tkz_nextLoop_of_holds s c r h]
  have e1 : asciiDigit c = true := by
    simp only [asciiDigit, zeroChar, nineChar, Bool.and_eq_true, decide_eq_true_eq]; omega
  simp [tokenizer.dispatch, tokenizer.caseReadingSize, tokenizer.increaseSize, token.increaseSize,
    ascii2int, tkz_consume_of_holds s _ r h, e1, hc]

/-- Reading the size of an ARRAY, `\r` or `\n` yields the header and is left in the
source. -/
theorem tkz_pass_size_array_end (s : source) (c : Nat) (r : List Nat) (h : s.Holds (c :: r))
    (hc : c = 13 ∨ c = 10) (d : List Nat) (dl : Nat) (sz : Int) (ln : Nat) (A : Int)
    (f : Nat) (io : ioData) :
    tokenizer.nextLoop (f + 1) ⟨s, tokenizerReadingSize, some ⟨tokenArray, d, dl, sz⟩, ln, A⟩ io =
      Result.done ⟨some ⟨tokenArray, d, dl, sz⟩, io.add s.peekBytes, none,
        ⟨s.afterPeek, tokenizerWaitingForToken, some ⟨tokenArray, d, dl, sz⟩, ln, A⟩⟩ := by
  rw [tkz_nextLoop_of_holds s c r h]
  rcases hc with hc | hc <;> subst hc <;>
    simp [tokenizer.dispatch, tokenizer.caseReadingSize, asciiDigit, zeroChar, nineChar, tokenizer.tokenIs,
      tokenizer.yield, token.is]

/-- Reading the size of a BIN_STRING, `\r` or `\n` after a size below the cap goes on
to the separator. -/
theorem tkz_pass_size_bin_end (s : source) (c : Nat) (r : List Nat) (h : s.Holds (c :: r))
    (hc : c = 13 ∨ c = 10) (d : List Nat) (dl : Nat) (sz : Int) (ln : Nat) (A : Int) (hsz : sz < A)
    (f : Nat) (io : ioData) :
    tokenizer.nextLoop (f + 1) ⟨s, tokenizerReadingSize, some ⟨tokenBinString, d, dl, sz⟩, ln, A⟩ io =
      tokenizer.nextLoop f
        ⟨s.afterPeek, tokenizerReadingBinStringSeparator, some ⟨tokenBinString, d, dl, sz⟩, ln, A⟩
        (io.add s.peekBytes) := by
  rw [tkz_nextLoop_of_holds s c r h]
  have e6 : ¬ (A ≤ sz) := by omega
  rcases hc with hc | hc <;> subst hc <;>
    simp [tokenizer.dispatch, tokenizer.caseReadingSize, asciiDigit, zeroChar, nineChar, tokenizer.tokenIs,
      tokenizer.reachedSizeLimit, token.getSize, token.is, e6]

/-- Reading the size of a BIN_STRING, `\r` or `\n` after a size at or above the cap is
the fatal "Token is too big" error. -/
theorem tkz_pass_size_bin_full (s : source) (c : Nat) (r : List Nat) (h : s.Holds (c :: r))
    (hc : c = 13 ∨ c = 10) (d : List Nat) (dl : Nat) (sz : Int) (ln : Nat) (A : Int) (hsz : A ≤ sz)
    (f : Nat) (io : ioData) :
    tokenizer.nextLoop (f + 1) ⟨s, tokenizerReadingSize, some ⟨tokenBinString, d, dl, sz⟩, ln, A⟩ io =
      Result.done ⟨none, io.add s.peekBytes,
        some (tokenizer.tokenTooBig ⟨s.afterPeek, tokenizerReadingSize, some ⟨tokenBinString, d, dl, sz⟩, ln, A⟩),
        ⟨s.afterPeek, tokenizerReadingSize, some ⟨tokenBinString, d, dl, sz⟩, ln, A⟩⟩ := by
  rw [tkz_nextLoop_of_holds s c r h]
  rcases hc with hc | hc <;> subst hc <;>
    simp [tokenizer.dispatch, tokenizer.caseReadingSize, asciiDigit, zeroChar, nineChar, tokenizer.tokenIs,
      tokenizer.reachedSizeLimit, token.getSize, token.is, hsz]

/-- In the separator of a BIN_STRING, `\r` is eaten. -/
theorem tkz_pass_sep_cr (s : source) (r : List Nat) (h : s.Holds (13 :: r))
    (tk : Option token) (ln : Nat) (A : Int) (f : Nat) (io : ioData) :
    tokenizer.nextLoop (f + 1) ⟨s, tokenizerReadingBinStringSeparator, tk, ln, A⟩ io =
      tokenizer.nextLoop f ⟨s.step, tokenizerReadingBinStringSeparator, tk, ln, A⟩
        (io.add s.peekBytes) := by
  rw [tkz_nextLoop_of_holds s 13 r h]
  simp [tokenizer.dispatch, tokenizer.caseReadingBinStringSeparator, tkz_consume_of_holds s _ r h]

/-- In the separator of a BIN_STRING, `\n` starts the payload. -/
theorem tkz_pass_sep_lf (s : source) (r : List Nat) (h : s.Holds (10 :: r))
    (tk : Option token) (ln : Nat) (A : Int) (f : Nat) (io : ioData) :
    tokenizer.nextLoop (f + 1) ⟨s, tokenizerReadingBinStringSeparator, tk, ln, A⟩ io =
      tokenizer.nextLoop f ⟨s.step, tokenizerReadingBinString, tk, ln + 1, A⟩
        (io.add s.peekBytes) := by
  rw [tkz_nextLoop_of_holds s 10 r h]
  simp [tokenizer.dispatch, tokenizer.caseReadingBinStringSeparator, tkz_consume_of_holds s _ r h]

/-- Reading a payload that is not complete, any byte is appended. -/
theorem tkz_pass_bin_byte (s : source) (c : Nat) (r : List Nat) (h : s.Holds (c :: r))
    (d : List Nat) (dl : Nat) (sz : Int) (ln : Nat) (A : Int) (hsz : (d.length : Int) ≠ sz)
    (f : Nat) (io : ioData) :
    tokenizer.nextLoop (f + 1) ⟨s, tokenizerReadingBinString, some ⟨tokenBinString, d, dl, sz⟩, ln, A⟩ io =
      tokenizer.nextLoop f
        ⟨s.step, tokenizerReadingBinString, some ⟨tokenBinString, d ++ [c], dl, sz⟩, ln, A⟩
        (io.add s.peekBytes) := by
  rw [tkz_nextLoop_of_holds s c r h]
  simp [tokenizer.dispatch, tokenizer.caseReadingBinString, tokenizer.reachedExpectedSizeOfBinaryString,
    token.expectedSizeAndDataLenghtIsMatching, token.getSize, tokenizer.append, token.append,
    tkz_consume_of_holds s _ r h, hsz]

/-- Reading a payload that is complete, the next byte is left for the end marker. -/
theorem tkz_pass_bin_done (s : source) (c : Nat) (r : List Nat) (h : s.Holds (c :: r))
    (d : List Nat) (dl : Nat) (sz : Int) (ln : Nat) (A : Int) (hsz : (d.length : Int) = sz)
    (f : Nat) (io : ioData) :
    tokenizer.nextLoop (f + 1) ⟨s, tokenizerReadingBinString, some ⟨tokenBinString, d, dl, sz⟩, ln, A⟩ io =
      tokenizer.nextLoop f
        ⟨s.afterPeek, tokenizerWaitingEobs, some ⟨tokenBinString, d, dl, sz⟩, ln, A⟩
        (io.add s.peekBytes) := by
  rw [tkz_nextLoop_of_holds s c r h]
  simp [tokenizer.dispatch, tokenizer.caseReadingBinString, tokenizer.reachedExpectedSizeOfBinaryString,
    token.expectedSizeAndDataLenghtIsMatching, token.getSize, hsz]

/-- At the end marker of a BIN_STRING, `\r` is eaten. -/
theorem tkz_pass_eobs_cr (s : source) (r : List Nat) (h : s.Holds (13 :: r))
    (tk : Option token) (ln : Nat) (A : Int) (f : Nat) (io : ioData) :
    tokenizer.nextLoop (f + 1) ⟨s, tokenizerWaitingEobs, tk, ln, A⟩ io =
      tokenizer.nextLoop f ⟨s.step, tokenizerWaitingEobs, tk, ln, A⟩ (io.add s.peekBytes) := by
  rw [tkz_nextLoop_of_holds s 13 r h]
  simp [tokenizer.dispatch, tokenizer.caseWaitingEobs, tkz_consume_of_holds s _ r h]

/-- At the end marker of a BIN_STRING, `\n` yields the token. -/
theorem tkz_pass_eobs_lf (s : source) (r : List Nat) (h : s.Holds (10 :: r))
    (d : List Nat) (dl : Nat) (sz : Int) (ln : Nat) (A : Int) (f : Nat) (io : ioData) :
    tokenizer.nextLoop (f + 1) ⟨s, tokenizerWaitingEobs, some ⟨tokenBinString, d, dl, sz⟩, ln, A⟩ io =
      Result.done ⟨some ⟨tokenBinString, d, dl, sz⟩, io.add s.peekBytes, none,
        ⟨s.step, tokenizerWaitingForToken, some ⟨tokenBinString, d, dl, sz⟩, ln + 1, A⟩⟩ := by
  rw [tkz_nextLoop_of_holds s 10 r h]
  simp [tokenizer.dispatch, tokenizer.caseWaitingEobs, tokenizer.yield, token.is,
    tkz_consume_of_holds s _ r h]

theorem source.afterPeek_holds (s : source) (c : Nat) (r : List Nat) (h : s.Holds (c :: r)) :
    s.afterPeek.Holds (c :: r) := (source.peek_of_holds s c r h).2.1

/-! ## Decimal numbers -/

theorem decDigits_digit (f : Nat) : ∀ n d, d ∈ decDigits f n → 48 ≤ d ∧ d ≤ 57 := by
  induction f with
  | zero => intro n d h; simp [decDigits] at h
  | succ f ih =>
    intro n d h
    simp only [decDigits] at h
    split at h
    · simp only [List.mem_singleton] at h; omega
    · simp only [List.mem_append, List.mem_singleton] at h
      rcases h with h | h
      · exact ih _ _ h
      · omega

theorem natToDec_digit (n d : Nat) (h : d ∈ natToDec n) : 48 ≤ d ∧ d ≤ 57 :=
  decDigits_digit _ _ _ h

theorem decDigits_ne_nil (f n : Nat) : decDigits (f + 1) n ≠ [] := by
  simp only [decDigits]
  split <;> simp

theorem natToDec_ne_nil (n : Nat) : natToDec n ≠ [] := decDigits_ne_nil n n

theorem wrapInt64_natCast (n : Nat) (hb : n < 9223372036854775808) : wrapInt64 (n : Int) = (n : Int) := by
  apply wrapInt64_eq
  unfold isInt64
  norm_num
  omega
theorem sizeFold_append (sz : Int) (a b : List Nat) :
    sizeFold sz (a ++ b) = sizeFold (sizeFold sz a) b := by
  simp [sizeFold, List.foldl_append]
theorem sizeFold_single (sz : Int) (c : Nat) :
    sizeFold sz [c] = wrapInt64 (sz * 10 + ((c - 48 : Nat) : Int)) := rfl
theorem decDigits_succ_lt (f n : Nat) (h : n < 10) : decDigits (f + 1) n = [48 + n] := by
  simp only [decDigits, h, if_true]
theorem decDigits_succ_ge (f n : Nat) (h : ¬ n < 10) :
    decDigits (f + 1) n = decDigits f (n / 10) ++ [48 + n % 10] := by
  simp only [decDigits, h, if_false]
theorem sizeFold_decDigits (f : Nat) :
    ∀ n, n < f → n < 9223372036854775808 → sizeFold 0 (decDigits f n) = (n : Int) := by
  induction f with
  | zero => intro n h; exact absurd h (Nat.not_lt_zero n)
  | succ f ih =>
    intro n hn hb
    by_cases h10 : n < 10
    · rw [decDigits_succ_lt f n h10, sizeFold_single]
      have e : 48 + n - 48 = n := by omega
      rw [e, Int.zero_mul, Int.zero_add]
      exact wrapInt64_natCast n hb
    · have h1 : n / 10 < f := by omega
      have h2 : n / 10 < 9223372036854775808 := by omega
      rw [decDigits_succ_ge f n h10, sizeFold_append, ih (n / 10) h1 h2, sizeFold_single]
      have e : 48 + n % 10 - 48 = n % 10 := by omega
      have e2 : ((n / 10 : Nat) : Int) * 10 + ((n % 10 : Nat) : Int) = (n : Int) := by
        have := Nat.div_add_mod n 10
        omega
      rw [e, e2]
      exact wrapInt64_natCast n hb

theorem sizeFold_natToDec (n : Nat) (h : n < 9223372036854775808) :
    sizeFold 0 (natToDec n) = (n : Int) :=
  sizeFold_decDigits (n + 1) n (Nat.lt_succ_self n) h

/-! ## Runs of passes of the tokenizer loop -/

theorem tkz_run_blanks (r : List Nat) (tk : Option token) (ln : Nat) (A : Int) (ws : List Nat) :
    ∀ (s : source) (io : ioData), s.Holds (ws ++ r) → blanks ws →
      ∃ s2 io2, s2.Holds r ∧ ∀ f, tokenizer.nextLoop (f + ws.length) ⟨s, tokenizerWaitingForToken, tk, ln, A⟩ io =
        tokenizer.nextLoop f ⟨s2, tokenizerWaitingForToken, tk, ln, A⟩ io2 := by
  induction ws with
  | nil => intro s io h _; exact ⟨s, io, h, fun f => rfl⟩
  | cons c ws ih =>
    intro s io h hb
    have hc : c = 32 ∨ c = 9 := hb c (List.mem_cons_self _ _)
    obtain ⟨s2, io2, h2, hrun⟩ := ih s.step (io.add s.peekBytes) (source.step_holds s c _ h)
      (fun x hx => hb x (List.mem_cons_of_mem _ hx))
    refine ⟨s2, io2, h2, fun f => ?_⟩
    have e : f + (c :: ws).length = (f + ws.length) + 1 := by simp only [List.length_cons]; omega
    rw [e, tkz_pass_blank s c _ h hc, hrun]

theorem tkz_run_ident (r : List Nat) (dl ln : Nat) (A : Int) (l : List Nat) :
    ∀ (s : source) (io : ioData) (d : List Nat) (sz : Int), s.Holds (l ++ r) →
      (∀ x, x ∈ l → identChar x) → sz + l.length ≤ A →
      ∃ s2 io2, s2.Holds r ∧ ∀ f,
        tokenizer.nextLoop (f + l.length) ⟨s, tokenizerReadingIdentifier, some ⟨tokenIdentifier, d, dl, sz⟩, ln, A⟩ io =
        tokenizer.nextLoop f
          ⟨s2, tokenizerReadingIdentifier, some ⟨tokenIdentifier, d ++ l, dl, sz + l.length⟩, ln, A⟩ io2 := by
  induction l with
  | nil =>
    intro s io d sz h _ _
    exact ⟨s, io, h, fun f => by simp⟩
  | cons c l ih =>
    intro s io d sz h hid hsz
    have hc : identChar c := hid c (List.mem_cons_self _ _)
    simp only [List.length_cons, Nat.cast_add, Nat.cast_one] at hsz
    obtain ⟨s2, io2, h2, hrun⟩ := ih s.step (io.add s.peekBytes) (d ++ [c]) (sz + 1)
      (source.step_holds s c _ h) (fun x hx => hid x (List.mem_cons_of_mem _ hx)) (by omega)
    refine ⟨s2, io2, h2, fun f => ?_⟩
    have e : f + (c :: l).length = (f + l.length) + 1 := by simp only [List.length_cons]; omega
    rw [e, tkz_pass_ident_char s c _ h hc d dl sz ln A (by omega), hrun]
    simp only [List.append_assoc, List.singleton_append, List.length_cons, Nat.cast_add, Nat.cast_one]
    have e2 : sz + 1 + (l.length : Int) = sz + ((l.length : Int) + 1) := by omega
    rw [e2]

theorem tkz_run_digits (r : List Nat) (ty : tokenType) (d : List Nat) (dl ln : Nat) (A : Int)
    (ds : List Nat) :
    ∀ (s : source) (io : ioData) (sz : Int), s.Holds (ds ++ r) →
      (∀ x, x ∈ ds → 48 ≤ x ∧ x ≤ 57) →
      ∃ s2 io2, s2.Holds r ∧ ∀ f,
        tokenizer.nextLoop (f + ds.length) ⟨s, tokenizerReadingSize, some ⟨ty, d, dl, sz⟩, ln, A⟩ io =
        tokenizer.nextLoop f ⟨s2, tokenizerReadingSize, some ⟨ty, d, dl, sizeFold sz ds⟩, ln, A⟩ io2 := by
  induction ds with
  | nil =>
    intro s io sz h _
    exact ⟨s, io, h, fun f => rfl⟩
  | cons c ds ih =>
    intro s io sz h hdg
    have hc := hdg c (List.mem_cons_self _ _)
    obtain ⟨s2, io2, h2, hrun⟩ := ih s.step (io.add s.peekBytes)
      (wrapInt64 (sz * 10 + ((c - 48 : Nat) : Int)))
      (source.step_holds s c _ h) (fun x hx => hdg x (List.mem_cons_of_mem _ hx))
    refine ⟨s2, io2, h2, fun f => ?_⟩
    have e : f + (c :: ds).length = (f + ds.length) + 1 := by simp only [List.length_cons]; omega
    rw [e, tkz_pass_size_digit s c _ h hc, hrun]
    rfl

theorem tkz_run_payload (r : List Nat) (dl ln : Nat) (A : Int) (sz : Int) (p : List Nat) :
    ∀ (s : source) (io : ioData) (d : List Nat), s.Holds (p ++ r) →
      (d.length : Int) + p.length ≤ sz →
      ∃ s2 io2, s2.Holds r ∧ ∀ f,
        tokenizer.nextLoop (f + p.length) ⟨s, tokenizerReadingBinString, some ⟨tokenBinString, d, dl, sz⟩, ln, A⟩ io =
        tokenizer.nextLoop f
          ⟨s2, tokenizerReadingBinString, some ⟨tokenBinString, d ++ p, dl, sz⟩, ln, A⟩ io2 := by
  induction p with
  | nil =>
    intro s io d h _
    exact ⟨s, io, h, fun f => by simp⟩
  | cons c p ih =>
    intro s io d h hsz
    simp only [List.length_cons, Nat.cast_add, Nat.cast_one] at hsz
    obtain ⟨s2, io2, h2, hrun⟩ := ih s.step (io.add s.peekBytes) (d ++ [c])
      (source.step_holds s c _ h) (by simp only [List.length_append, List.length_singleton, Nat.cast_add, Nat.cast_one]; omega)
    refine ⟨s2, io2, h2, fun f => ?_⟩
    have e : f + (c :: p).length = (f + p.length) + 1 := by simp only [List.length_cons]; omega
    rw [e, tkz_pass_bin_byte s c _ h d dl sz ln A (by omega), hrun]
    simp only [List.append_assoc, List.singleton_append]

/-! ## Tokens: what one call of `tokenizer.next` returns -/

theorem tkz_next_of_loop (s : source) (st : tokenizerState) (tk : Option token) (ln : Nat) (A : Int)
    (k : Nat) (x : tokenizerResult) (hk : k ≤ s.fuel)
    (h : tokenizer.nextLoop k ⟨s, st, tk, ln, A⟩ newIoData = Result.done x) :
    tokenizer.next ⟨s, st, tk, ln, A⟩ = Result.done x :=
  tkz_nextLoop_mono k _ _ x h _ hk

/-- At the end of the input every call returns the reading error with cause EOF. -/
theorem tkz_next_eof (s : source) (h : s.Holds []) (st : tokenizerState) (tk : Option token)
    (ln : Nat) (A : Int) :
    tokenizer.next ⟨s, st, tk, ln, A⟩ =
      Result.done ⟨none, newIoData.add 0, some (newReadingError GoError.EOF), ⟨s, st, tk, ln, A⟩⟩ := by
  apply tkz_next_of_loop s st tk ln A 1 _ (by have := source.fuel_of_holds s [] h; omega)
  exact tkz_nextLoop_eof s h st tk ln A 0 newIoData

/-- Blanks, then an identifier of at most `A` bytes, then a blank or an end of line. -/
theorem tkz_next_ident (s : source) (ws a : List Nat) (t : Nat) (r : List Nat)
    (h : s.Holds (ws ++ (a ++ t :: r))) (hws : blanks ws) (ha : validIdentifier a)
    (hlen : (a.length : Int) ≤ A) (ht : t = 13 ∨ t = 10 ∨ t = 32 ∨ t = 9)
    (tk : Option token) (ln : Nat) :
    ∃ s2 io2, s2.Holds (t :: r) ∧
      tokenizer.next ⟨s, tokenizerWaitingForToken, tk, ln, A⟩ =
        Result.done ⟨some ⟨tokenIdentifier, a, 0, a.length⟩, io2, none,
          ⟨s2, tokenizerWaitingForToken, some ⟨tokenIdentifier, a, 0, a.length⟩, ln, A⟩⟩ := by
  cases a with
  | nil => exact absurd ha (by simp [validIdentifier])
  | cons c l =>
    obtain ⟨hc, hl⟩ := ha
    simp only [List.length_cons, Nat.cast_add, Nat.cast_one] at hlen
    obtain ⟨s1, io1, h1, run1⟩ := tkz_run_blanks (c :: l ++ t :: r) tk ln A ws s newIoData h hws
    have h1b : s1.step.Holds (l ++ t :: r) := source.step_holds s1 c _ h1
    obtain ⟨s2, io2, h2, run2⟩ := tkz_run_ident (t :: r) 0 ln A l s1.step (io1.add s1.peekBytes) [c] 1
      h1b hl (by omega)
    refine ⟨s2.afterPeek, io2.add s2.peekBytes, source.afterPeek_holds s2 t r h2, ?_⟩
    apply tkz_next_of_loop s _ tk ln A (((0 + 1) + l.length) + 1 + ws.length)
    · have := source.fuel_of_holds s _ h
      simp only [List.length_append, List.length_cons] at this
      omega
    · rw [run1, tkz_pass_ident_start s1 c _ h1 hc, run2, tkz_pass_ident_end s2 t r h2 ht]
      simp only [List.singleton_append, List.length_cons, Nat.cast_add, Nat.cast_one]
      have e : (1 : Int) + (l.length : Int) = (l.length : Int) + 1 := by omega
      rw [e]

/-- Blanks, then a line feed: one EOL token. -/
theorem tkz_next_eol_lf (s : source) (ws : List Nat) (r : List Nat)
    (h : s.Holds (ws ++ 10 :: r)) (hws : blanks ws) (tk : Option token) (ln : Nat) (A : Int) :
    ∃ s2 io2, s2.Holds r ∧
      tokenizer.next ⟨s, tokenizerWaitingForToken, tk, ln, A⟩ =
        Result.done ⟨some ⟨tokenEol, [], 0, 0⟩, io2, none,
          ⟨s2, tokenizerWaitingForToken, some ⟨tokenEol, [], 0, 0⟩, ln + 1, A⟩⟩ := by
  obtain ⟨s1, io1, h1, run1⟩ := tkz_run_blanks (10 :: r) tk ln A ws s newIoData h hws
  refine ⟨s1.step, io1.add s1.peekBytes, source.step_holds s1 10 r h1, ?_⟩
  apply tkz_next_of_loop s _ tk ln A ((0 + 1) + ws.length)
  · have := source.fuel_of_holds s _ h
    simp only [List.length_append, List.length_cons] at this
    omega
  · rw [run1, tkz_pass_lf s1 r h1]

/-- Blanks, then carriage return and line feed: one EOL token. -/
theorem tkz_next_eol_crlf (s : source) (ws : List Nat) (r : List Nat)
    (h : s.Holds (ws ++ 13 :: 10 :: r)) (hws : blanks ws) (tk : Option token) (ln : Nat) (A : Int) :
    ∃ s2 io2, s2.Holds r ∧
      tokenizer.next ⟨s, tokenizerWaitingForToken, tk, ln, A⟩ =
        Result.done ⟨some ⟨tokenEol, [], 0, 0⟩, io2, none,
          ⟨s2, tokenizerWaitingForToken, some ⟨tokenEol, [], 0, 0⟩, ln + 1, A⟩⟩ := by
  obtain ⟨s1, io1, h1, run1⟩ := tkz_run_blanks (13 :: 10 :: r) tk ln A ws s newIoData h hws
  have h2 : s1.step.Holds (10 :: r) := source.step_holds s1 13 _ h1
  refine ⟨s1.step.step, (io1.add s1.peekBytes).add s1.step.peekBytes, source.step_holds _ 10 r h2, ?_⟩
  apply tkz_next_of_loop s _ tk ln A (((0 + 1) + 1) + ws.length)
  · have := source.fuel_of_holds s _ h
    simp only [List.length_append, List.length_cons] at this
    omega
  · rw [run1, tkz_pass_cr s1 _ h1, tkz_pass_eol_lf s1.step r h2]

/-- Input `*<n>` followed by `\r` or `\n`: the ARRAY header of size `n`; the end of line
is left in the source. -/
theorem tkz_next_array (s : source) (n : Nat) (t : Nat) (r : List Nat)
    (h : s.Holds (42 :: (natToDec n ++ t :: r))) (hn : n < 9223372036854775808)
    (ht : t = 13 ∨ t = 10) (tk : Option token) (ln : Nat) (A : Int) :
    ∃ s2 io2, s2.Holds (t :: r) ∧
      tokenizer.next ⟨s, tokenizerWaitingForToken, tk, ln, A⟩ =
        Result.done ⟨some ⟨tokenArray, [], 0, n⟩, io2, none,
          ⟨s2, tokenizerWaitingForToken, some ⟨tokenArray, [], 0, n⟩, ln, A⟩⟩ := by
  have h1 : s.step.Holds (natToDec n ++ t :: r) := source.step_holds s 42 _ h
  obtain ⟨s2, io2, h2, run2⟩ := tkz_run_digits (t :: r) tokenArray [] 0 ln A (natToDec n) s.step
    (newIoData.add s.peekBytes) 0 h1 (natToDec_digit n)
  refine ⟨s2.afterPeek, io2.add s2.peekBytes, source.afterPeek_holds s2 t r h2, ?_⟩
  apply tkz_next_of_loop s _ tk ln A (((0 + 1) + (natToDec n).length) + 1)
  · have := source.fuel_of_holds s _ h
    simp only [List.length_append, List.length_cons] at this
    omega
  · rw [tkz_pass_asterisk s _ h, run2, tkz_pass_size_array_end s2 t r h2 ht, sizeFold_natToDec n hn]

/-- Input `$<n>\r\n`, `n` bytes and `\r\n`, with `n` below the cap: the BIN_STRING of
these bytes. -/
theorem tkz_next_bin (s : source) (d : List Nat) (r : List Nat) (A : Int)
    (h : s.Holds (36 :: (natToDec d.length ++ 13 :: 10 :: (d ++ 13 :: 10 :: r))))
    (hn : (d.length : Int) < A) (hb : d.length < 9223372036854775808) (tk : Option token) (ln : Nat) :
    ∃ s2 io2, s2.Holds r ∧
      tokenizer.next ⟨s, tokenizerWaitingForToken, tk, ln, A⟩ =
        Result.done ⟨some ⟨tokenBinString, d, 0, d.length⟩, io2, none,
          ⟨s2, tokenizerWaitingForToken, some ⟨tokenBinString, d, 0, d.length⟩, ln + 1 + 1, A⟩⟩ := by
  have h1 : s.step.Holds (natToDec d.length ++ 13 :: 10 :: (d ++ 13 :: 10 :: r)) :=
    source.step_holds s 36 _ h
  obtain ⟨s2, io2, h2, run2⟩ := tkz_run_digits (13 :: 10 :: (d ++ 13 :: 10 :: r)) tokenBinString [] 0 ln A
    (natToDec d.length) s.step (newIoData.add s.peekBytes) 0 h1 (natToDec_digit d.length)
  have h3 : s2.afterPeek.Holds (13 :: 10 :: (d ++ 13 :: 10 :: r)) := source.afterPeek_holds s2 _ _ h2
  have h4 : s2.afterPeek.step.Holds (10 :: (d ++ 13 :: 10 :: r)) := source.step_holds _ 13 _ h3
  have h5 : s2.afterPeek.step.step.Holds (d ++ 13 :: 10 :: r) := source.step_holds _ 10 _ h4
  obtain ⟨s6, io6, h6, run6⟩ := tkz_run_payload (13 :: 10 :: r) 0 (ln + 1) A (d.length : Int) d
    s2.afterPeek.step.step
    (((io2.add s2.peekBytes).add s2.afterPeek.peekBytes).add s2.afterPeek.step.peekBytes) [] h5
    (by simp)
  have h7 : s6.afterPeek.Holds (13 :: 10 :: r) := source.afterPeek_holds s6 _ _ h6
  have h8 : s6.afterPeek.step.Holds (10 :: r) := source.step_holds _ 13 _ h7
  refine ⟨s6.afterPeek.step.step,
    ((io6.add s6.peekBytes).add s6.afterPeek.peekBytes).add s6.afterPeek.step.peekBytes,
    source.step_holds _ 10 r h8, ?_⟩
  apply tkz_next_of_loop s _ tk ln A
    (((((((0 + 1) + 1) + 1) + d.length) + 1) + 1) + 1 + (natToDec d.length).length + 1)
  · have := source.fuel_of_holds s _ h
    simp only [List.length_append, List.length_cons] at this
    omega
  · rw [tkz_pass_dollar s _ h, run2, sizeFold_natToDec _ hb,
      tkz_pass_size_bin_end s2 13 _ h2 (Or.inl rfl) [] 0 _ ln A hn,
      tkz_pass_sep_cr _ _ h3, tkz_pass_sep_lf _ _ h4, run6, List.nil_append,
      tkz_pass_bin_done s6 13 _ h6 d 0 _ (ln + 1) A rfl,
      tkz_pass_eobs_cr _ _ h7, tkz_pass_eobs_lf _ _ h8]

/-- Input `$<n>` followed by `\r` or `\n`, with `n` at or above the cap: the fatal
"Token is too big" error. -/
theorem tkz_next_bin_too_big (s : source) (n : Nat) (t : Nat) (r : List Nat) (A : Int)
    (h : s.Holds (36 :: (natToDec n ++ t :: r))) (ht : t = 13 ∨ t = 10)
    (hn : A ≤ (n : Int)) (hb : n < 9223372036854775808) (tk : Option token) (ln : Nat) :
    ∃ io2 t2,
      tokenizer.next ⟨s, tokenizerWaitingForToken, tk, ln, A⟩ =
        Result.done ⟨none, io2, some (newTokenizationError
          (bytesOf "Token is too big (max size allowed is " ++ itoa A ++ bytesOf " bytes)")), t2⟩ := by
  have h1 : s.step.Holds (natToDec n ++ t :: r) := source.step_holds s 36 _ h
  obtain ⟨s2, io2, h2, run2⟩ := tkz_run_digits (t :: r) tokenBinString [] 0 ln A
    (natToDec n) s.step (newIoData.add s.peekBytes) 0 h1 (natToDec_digit n)
  refine ⟨io2.add s2.peekBytes,
    ⟨s2.afterPeek, tokenizerReadingSize, some ⟨tokenBinString, [], 0, n⟩, ln, A⟩, ?_⟩
  apply tkz_next_of_loop s _ tk ln A (((0 + 1) + (natToDec n).length) + 1)
  · have := source.fuel_of_holds s _ h
    simp only [List.length_append, List.length_cons] at this
    omega
  · rw [tkz_pass_dollar s _ h, run2, sizeFold_natToDec _ hb,
      tkz_pass_size_bin_full s2 t _ h2 ht [] 0 _ ln A hn]
    rfl

/-! ## One pass of the parser loop -/

theorem prs_nextLoop_mono (U : List Nat → List Nat) (f : Nat) : ∀ (p : parser) (x : parserResult),
    parser.nextLoop U f p = Result.done x → ∀ g, f ≤ g → parser.nextLoop U g p = Result.done x := by
  induction f with
  | zero => intro p x h; simp [parser.nextLoop] at h
  | succ f ih =>
    intro p x h g hg
    obtain ⟨g2, rfl⟩ : ∃ g2, g = g2 + 1 := ⟨g - 1, by omega⟩
    have hg2 : f ≤ g2 := by omega
    simp only [parser.nextLoop] at h ⊢
    cases hn : p.tokenizer.next with
    | panicked => simp [hn] at h
    | outOfFuel => simp [hn] at h
    | done r =>
      simp only [hn] at h ⊢
      cases he : r.err with
      | some e => simpa [he] using h
      | none =>
        simp only [he] at h ⊢
        cases ht : r.tok with
        | none => simp [ht] at h
        | some tk =>
          simp only [ht] at h ⊢
          cases hs : p.state <;> cases hty : tk.getType <;> simp only [hs, hty] at h ⊢ <;>
            first
              | exact h
              | exact ih _ x h g2 hg2
              | (split at h
                 · rename_i hc; simp only [hc, if_true]; exact h
                 · rename_i hc; simp only [hc, if_false]; exact ih _ x h g2 hg2)

/-- A tokenizer error ends the call of `parser.next` with that error. -/
theorem prs_pass_error (U : List Nat → List Nat) (st : parserState) (tz : tokenizer)
    (args : List token) (ea : Int) (pio : ioData) (io2 : ioData) (e : parsingError) (t2 : tokenizer)
    (hn : tz.next = Result.done ⟨none, io2, some e, t2⟩) (f : Nat) :
    parser.nextLoop U (f + 1) ⟨st, tz, args, ea, pio⟩ =
      Result.done ⟨none, pio.merge io2, some e, ⟨st, t2, args, ea, pio.merge io2⟩⟩ := by
  simp only [parser.nextLoop, hn]

/-- In INIT an ARRAY header starts an array-form command. -/
theorem prs_pass_init_array (U : List Nat → List Nat) (tz : tokenizer)
    (args : List token) (ea : Int) (pio : ioData) (io2 : ioData) (d : List Nat) (dl : Nat) (sz : Int)
    (t2 : tokenizer) (hn : tz.next = Result.done ⟨some ⟨tokenArray, d, dl, sz⟩, io2, none, t2⟩) (f : Nat) :
    parser.nextLoop U (f + 1) ⟨parserInit, tz, args, ea, pio⟩ =
      parser.nextLoop U f ⟨parserReadingArray, t2, args, sz, pio.merge io2⟩ := by
  simp only [parser.nextLoop, hn, token.getType, token.getSize]

/-- Reading an array, an EOL is skipped. -/
theorem prs_pass_array_eol (U : List Nat → List Nat) (tz : tokenizer)
    (args : List token) (ea : Int) (pio : ioData) (io2 : ioData) (d : List Nat) (dl : Nat) (sz : Int)
    (t2 : tokenizer) (hn : tz.next = Result.done ⟨some ⟨tokenEol, d, dl, sz⟩, io2, none, t2⟩) (f : Nat) :
    parser.nextLoop U (f + 1) ⟨parserReadingArray, tz, args, ea, pio⟩ =
      parser.nextLoop U f ⟨parserReadingArray, t2, args, ea, pio.merge io2⟩ := by
  simp only [parser.nextLoop, hn, token.getType]

/-- Reading an array, a BIN_STRING that is not the last one is collected. -/
theorem prs_pass_array_bin (U : List Nat → List Nat) (tz : tokenizer)
    (args : List token) (ea : Int) (pio : ioData) (io2 : ioData) (d : List Nat) (dl : Nat) (sz : Int)
    (t2 : tokenizer) (hn : tz.next = Result.done ⟨some ⟨tokenBinString, d, dl, sz⟩, io2, none, t2⟩)
    (hne : ((args.length : Int) + 1) ≠ ea) (f : Nat) :
    parser.nextLoop U (f + 1) ⟨parserReadingArray, tz, args, ea, pio⟩ =
      parser.nextLoop U f ⟨parserReadingArray, t2, args ++ [⟨tokenBinString, d, dl, sz⟩], ea, pio.merge io2⟩ := by
  simp only [parser.nextLoop, hn, token.getType, parser.addArgs, List.length_append,
    List.length_singleton, Nat.cast_add, Nat.cast_one, hne, if_false]

/-- Reading an array, the last BIN_STRING finalises the command. -/
theorem prs_pass_array_last (U : List Nat → List Nat) (tz : tokenizer)
    (args : List token) (ea : Int) (pio : ioData) (io2 : ioData) (d : List Nat) (dl : Nat) (sz : Int)
    (t2 : tokenizer) (hn : tz.next = Result.done ⟨some ⟨tokenBinString, d, dl, sz⟩, io2, none, t2⟩)
    (he : ((args.length : Int) + 1) = ea) (f : Nat) :
    parser.nextLoop U (f + 1) ⟨parserReadingArray, tz, args, ea, pio⟩ =
      parser.finish (parser.parseArgs U
        ⟨parserInit, t2, args ++ [⟨tokenBinString, d, dl, sz⟩], ea, pio.merge io2⟩) := by
  simp only [parser.nextLoop, hn, token.getType, parser.addArgs, List.length_append,
    List.length_singleton, Nat.cast_add, Nat.cast_one, he, if_true]

/-- In INIT an IDENTIFIER starts a line-form command. -/
theorem prs_pass_init_ident (U : List Nat → List Nat) (tz : tokenizer)
    (args : List token) (ea : Int) (pio : ioData) (io2 : ioData) (d : List Nat) (dl : Nat) (sz : Int)
    (t2 : tokenizer) (hn : tz.next = Result.done ⟨some ⟨tokenIdentifier, d, dl, sz⟩, io2, none, t2⟩)
    (f : Nat) :
    parser.nextLoop U (f + 1) ⟨parserInit, tz, args, ea, pio⟩ =
      parser.nextLoop U f ⟨parserReadingCommand, t2, args ++ [⟨tokenIdentifier, d, dl, sz⟩], ea, pio.merge io2⟩ := by
  simp only [parser.nextLoop, hn, token.getType, parser.addArgs]

/-- Reading a command line, an IDENTIFIER is one more argument. -/
theorem prs_pass_line_ident (U : List Nat → List Nat) (tz : tokenizer)
    (args : List token) (ea : Int) (pio : ioData) (io2 : ioData) (d : List Nat) (dl : Nat) (sz : Int)
    (t2 : tokenizer) (hn : tz.next = Result.done ⟨some ⟨tokenIdentifier, d, dl, sz⟩, io2, none, t2⟩)
    (f : Nat) :
    parser.nextLoop U (f + 1) ⟨parserReadingCommand, tz, args, ea, pio⟩ =
      parser.nextLoop U f ⟨parserReadingCommand, t2, args ++ [⟨tokenIdentifier, d, dl, sz⟩], ea, pio.merge io2⟩ := by
  simp only [parser.nextLoop, hn, token.getType, parser.addArgs]

/-- Reading a command line, the EOL finalises the command. -/
theorem prs_pass_line_eol (U : List Nat → List Nat) (tz : tokenizer)
    (args : List token) (ea : Int) (pio : ioData) (io2 : ioData) (d : List Nat) (dl : Nat) (sz : Int)
    (t2 : tokenizer) (hn : tz.next = Result.done ⟨some ⟨tokenEol, d, dl, sz⟩, io2, none, t2⟩)
    (f : Nat) :
    parser.nextLoop U (f + 1) ⟨parserReadingCommand, tz, args, ea, pio⟩ =
      parser.finish (parser.parseArgs U ⟨parserInit, t2, args, ea, pio.merge io2⟩) := by
  simp only [parser.nextLoop, hn, token.getType]

/-! ## The array form reaches `parseArgs` with its pieces -/

theorem prs_run_array_elems (U : List Nat → List Nat) (r : List Nat) (A : Int) (ea : Int)
    (ps : List (List Nat)) :
    ∀ (s : source) (tk : Option token) (ln : Nat) (acc : List token) (pio : ioData),
      ps ≠ [] → (∀ p, p ∈ ps → (p.length : Int) < A ∧ p.length < 9223372036854775808) →
      s.Holds (encodeStrings ps ++ r) → ea = (acc.length : Int) + ps.length →
      ∃ s2 tk2 ln2 pio2, s2.Holds r ∧ ∀ f,
        parser.nextLoop U (f + ps.length) ⟨parserReadingArray, ⟨s, tokenizerWaitingForToken, tk, ln, A⟩, acc, ea, pio⟩ =
          parser.finish (parser.parseArgs U
            ⟨parserInit, ⟨s2, tokenizerWaitingForToken, tk2, ln2, A⟩, acc ++ ps.map binToken, ea, pio2⟩) := by
  induction ps with
  | nil => intro s tk ln acc pio h; exact absurd rfl h
  | cons p ps ih =>
    intro s tk ln acc pio _ hsz h hea
    obtain ⟨hp1, hp2⟩ := hsz p (List.mem_cons_self _ _)
    have h0 : s.Holds (36 :: (natToDec p.length ++ 13 :: 10 :: (p ++ 13 :: 10 :: (encodeStrings ps ++ r)))) := by
      simpa [encodeStrings, encodeString, List.append_assoc] using h
    obtain ⟨s1, io1, h1, hn⟩ := tkz_next_bin s p (encodeStrings ps ++ r) A h0 hp1 hp2 tk ln
    by_cases hps : ps = []
    · subst hps
      refine ⟨s1, some ⟨tokenBinString, p, 0, p.length⟩, ln + 1 + 1, pio.merge io1,
        by simpa [encodeStrings] using h1, fun f => ?_⟩
      simp only [List.length_cons, List.length_nil, Nat.cast_add, Nat.cast_one, Nat.cast_zero,
        Int.zero_add] at hea
      rw [show f + [p].length = f + 1 from rfl,
        prs_pass_array_last U _ acc ea pio io1 p 0 _ _ hn hea.symm f]
      rfl
    · simp only [List.length_cons, Nat.cast_add, Nat.cast_one] at hea
      have hps_len : 0 < ps.length := List.length_pos.mpr hps
      obtain ⟨s2, tk2, ln2, pio2, h2, run2⟩ := ih s1 (some ⟨tokenBinString, p, 0, p.length⟩) (ln + 1 + 1)
        (acc ++ [binToken p]) (pio.merge io1) hps
        (fun q hq => hsz q (List.mem_cons_of_mem _ hq)) h1
        (by simp only [List.length_append, List.length_singleton, Nat.cast_add, Nat.cast_one]; omega)
      refine ⟨s2, tk2, ln2, pio2, h2, fun f => ?_⟩
      have e : f + (p :: ps).length = (f + ps.length) + 1 := by simp only [List.length_cons]; omega
      rw [e, prs_pass_array_bin U _ acc ea pio io1 p 0 _ _ hn (by omega) (f + ps.length)]
      have := run2 f
      simp only [binToken] at this ⊢
      rw [this]
      simp only [List.map_cons, List.append_assoc, List.singleton_append, binToken]

theorem prs_run_array (U : List Nat → List Nat) (r : List Nat) (A : Int) (ps : List (List Nat))
    (s : source) (tk : Option token) (ln : Nat) (ea : Int) (pio : ioData)
    (hne : ps ≠ []) (hlen : ps.length < 9223372036854775808)
    (hsz : ∀ p, p ∈ ps → (p.length : Int) < A ∧ p.length < 9223372036854775808)
    (h : s.Holds (encodeArray ps ++ r)) :
    ∃ s2 tk2 ln2 pio2, s2.Holds r ∧ ∀ f,
      parser.nextLoop U (f + ps.length + 1 + 1) ⟨parserInit, ⟨s, tokenizerWaitingForToken, tk, ln, A⟩, [], ea, pio⟩ =
        parser.finish (parser.parseArgs U
          ⟨parserInit, ⟨s2, tokenizerWaitingForToken, tk2, ln2, A⟩, ps.map binToken, ps.length, pio2⟩) := by
  have h0 : s.Holds (42 :: (natToDec ps.length ++ 13 :: (10 :: (encodeStrings ps ++ r)))) := by
    simpa [encodeArray, List.append_assoc] using h
  obtain ⟨s1, io1, h1, hn1⟩ := tkz_next_array s ps.length 13 _ h0 hlen (Or.inl rfl) tk ln A
  obtain ⟨s2, io2, h2, hn2⟩ := tkz_next_eol_crlf s1 [] (encodeStrings ps ++ r) (by simpa using h1)
    (by intro x hx; cases hx) (some ⟨tokenArray, [], 0, ps.length⟩) ln A
  obtain ⟨s3, tk3, ln3, pio3, h3, run3⟩ := prs_run_array_elems U r A (ps.length : Int) ps s2
    (some ⟨tokenEol, [], 0, 0⟩) (ln + 1) [] ((pio.merge io1).merge io2) hne hsz h2 (by simp)
  refine ⟨s3, tk3, ln3, pio3, h3, fun f => ?_⟩
  rw [prs_pass_init_array U _ [] ea pio io1 [] 0 _ _ hn1,
    prs_pass_array_eol U _ [] _ _ io2 [] 0 _ _ hn2, run3 f]
  simp

/-- A call of `parser.next` on an array-form command: the pieces reach `parseArgs` as
BIN_STRING tokens. -/
theorem prs_next_array (U : List Nat → List Nat) (r : List Nat) (A : Int) (ps : List (List Nat))
    (s : source) (tk : Option token) (ln : Nat) (ea : Int) (pio : ioData)
    (hne : ps ≠ []) (hlen : ps.length < 9223372036854775808)
    (hsz : ∀ p, p ∈ ps → (p.length : Int) < A ∧ p.length < 9223372036854775808)
    (h : s.Holds (encodeArray ps ++ r)) :
    ∃ s2 tk2 ln2 pio2, s2.Holds r ∧
      parser.next U ⟨parserInit, ⟨s, tokenizerWaitingForToken, tk, ln, A⟩, [], ea, pio⟩ =
        parser.finish (parser.parseArgs U
          ⟨parserInit, ⟨s2, tokenizerWaitingForToken, tk2, ln2, A⟩, ps.map binToken, ps.length, pio2⟩) := by
  obtain ⟨s2, tk2, ln2, pio2, h2, run⟩ := prs_run_array U r A ps s tk ln ea newIoData hne hlen hsz h
  refine ⟨s2, tk2, ln2, pio2, h2, ?_⟩
  have hfuel := source.fuel_of_holds s _ h
  have hl : ps.length ≤ (encodeStrings ps).length := by
    clear hne hlen hsz h run hfuel
    induction ps with
    | nil => simp
    | cons p ps ih =>
      simp only [encodeStrings, encodeString, List.length_cons, List.length_append]
      omega
  simp only [encodeArray, List.length_append, List.length_cons] at hfuel
  obtain ⟨f0, hf0⟩ : ∃ f0, s.fuel = f0 + ps.length + 1 + 1 := ⟨s.fuel - (ps.length + 2), by omega⟩
  simp only [parser.next, hf0]
  exact run f0

/-! ## The line form reaches `parseArgs` with its words -/

theorem lineTail_head (more : List (List Nat × List Nat)) (eol r : List Nat)
    (hm : ∀ p, p ∈ more → p.1 ≠ [] ∧ blanks p.1)
    (he : eol = [10] ∨ eol = [13, 10]) :
    ∃ t rest, lineTail more ++ (eol ++ r) = t :: rest ∧ (t = 13 ∨ t = 10 ∨ t = 32 ∨ t = 9) := by
  cases more with
  | nil =>
    rcases he with he | he <;> subst he
    · exact ⟨10, r, rfl, Or.inr (Or.inl rfl)⟩
    · exact ⟨13, 10 :: r, rfl, Or.inl rfl⟩
  | cons p more =>
    obtain ⟨hne, hb⟩ := hm p (List.mem_cons_self _ _)
    obtain ⟨c, cs, hc⟩ := List.exists_cons_of_ne_nil hne
    refine ⟨c, cs ++ (p.2 ++ lineTail more) ++ (eol ++ r), ?_, ?_⟩
    · simp [lineTail, hc]
    · have := hb c (by rw [hc]; exact List.mem_cons_self _ _)
      rcases this with h | h
      · exact Or.inr (Or.inr (Or.inl h))
      · exact Or.inr (Or.inr (Or.inr h))

theorem lineTail_length (more : List (List Nat × List Nat))
    (hm : ∀ p, p ∈ more → p.1 ≠ []) : more.length ≤ (lineTail more).length := by
  induction more with
  | nil => simp
  | cons p more ih =>
    have h1 : 0 < p.1.length := List.length_pos.mpr (hm p (List.mem_cons_self _ _))
    have h2 := ih (fun q hq => hm q (List.mem_cons_of_mem _ hq))
    simp only [lineTail, List.length_cons, List.length_append]
    omega

theorem prs_run_line_tail (U : List Nat → List Nat) (r : List Nat) (A : Int) (ea : Int)
    (eol : List Nat) (he : eol = [10] ∨ eol = [13, 10]) (more : List (List Nat × List Nat)) :
    ∀ (s : source) (tk : Option token) (ln : Nat) (acc : List token) (pio : ioData),
      (∀ p, p ∈ more → p.1 ≠ [] ∧ blanks p.1 ∧ validIdentifier p.2 ∧ (p.2.length : Int) ≤ A) →
      s.Holds (lineTail more ++ (eol ++ r)) →
      ∃ s2 tk2 ln2 pio2, s2.Holds r ∧ ∀ f,
        parser.nextLoop U (f + more.length + 1)
            ⟨parserReadingCommand, ⟨s, tokenizerWaitingForToken, tk, ln, A⟩, acc, ea, pio⟩ =
          parser.finish (parser.parseArgs U
            ⟨parserInit, ⟨s2, tokenizerWaitingForToken, tk2, ln2, A⟩,
              acc ++ more.map (fun p => identToken p.2), ea, pio2⟩) := by
  induction more with
  | nil =>
    intro s tk ln acc pio _ h
    simp only [lineTail, List.nil_append] at h
    rcases he with he | he <;> subst he
    · obtain ⟨s2, io2, h2, hn⟩ := tkz_next_eol_lf s [] r (by simpa using h) (by intro x hx; cases hx) tk ln A
      refine ⟨s2, some ⟨tokenEol, [], 0, 0⟩, ln + 1, pio.merge io2, h2, fun f => ?_⟩
      rw [show f + ([] : List (List Nat × List Nat)).length + 1 = f + 1 from rfl,
        prs_pass_line_eol U _ acc ea pio io2 [] 0 0 _ hn]
      simp
    · obtain ⟨s2, io2, h2, hn⟩ := tkz_next_eol_crlf s [] r (by simpa using h) (by intro x hx; cases hx) tk ln A
      refine ⟨s2, some ⟨tokenEol, [], 0, 0⟩, ln + 1, pio.merge io2, h2, fun f => ?_⟩
      rw [show f + ([] : List (List Nat × List Nat)).length + 1 = f + 1 from rfl,
        prs_pass_line_eol U _ acc ea pio io2 [] 0 0 _ hn]
      simp
  | cons p more ih =>
    intro s tk ln acc pio hm h
    obtain ⟨hne, hb, hv, hl⟩ := hm p (List.mem_cons_self _ _)
    have hm2 : ∀ q, q ∈ more → q.1 ≠ [] ∧ blanks q.1 ∧ validIdentifier q.2 ∧ (q.2.length : Int) ≤ A :=
      fun q hq => hm q (List.mem_cons_of_mem _ hq)
    obtain ⟨t, rest, hrest, ht⟩ := lineTail_head more eol r (fun q hq => ⟨(hm2 q hq).1, (hm2 q hq).2.1⟩) he
    have h0 : s.Holds (p.1 ++ (p.2 ++ t :: rest)) := by
      rw [← hrest]
      simpa [lineTail, List.append_assoc] using h
    obtain ⟨s1, io1, h1, hn⟩ := tkz_next_ident s p.1 p.2 t rest h0 hb hv hl ht tk ln
    rw [← hrest] at h1
    obtain ⟨s2, tk2, ln2, pio2, h2, run2⟩ := ih s1 (some ⟨tokenIdentifier, p.2, 0, p.2.length⟩) ln
      (acc ++ [identToken p.2]) (pio.merge io1) hm2 h1
    refine ⟨s2, tk2, ln2, pio2, h2, fun f => ?_⟩
    have e : f + (p :: more).length + 1 = (f + more.length + 1) + 1 := by
      simp only [List.length_cons]; omega
    rw [e, prs_pass_line_ident U _ acc ea pio io1 p.2 0 _ _ hn (f + more.length + 1)]
    have := run2 f
    simp only [identToken] at this ⊢
    rw [this]
    simp only [List.map_cons, List.append_assoc, List.singleton_append, identToken]

/-- A call of `parser.next` on a command line: the words reach `parseArgs` as
IDENTIFIER tokens. -/
theorem prs_next_line (U : List Nat → List Nat) (r : List Nat) (l : textLine)
    (s : source) (tk : Option token) (ln : Nat) (ea : Int) (pio : ioData)
    (hok : l.ok 4096) (h : s.Holds (l.bytes ++ r)) :
    ∃ s2 tk2 ln2 pio2, s2.Holds r ∧
      parser.next U ⟨parserInit, ⟨s, tokenizerWaitingForToken, tk, ln, maxTokenSize⟩, [], ea, pio⟩ =
        parser.finish (parser.parseArgs U
          ⟨parserInit, ⟨s2, tokenizerWaitingForToken, tk2, ln2, maxTokenSize⟩,
            l.words.map identToken, ea, pio2⟩) := by
  obtain ⟨⟨hv, hl⟩, hm, he⟩ := hok
  have hm2 : ∀ p, p ∈ l.more → p.1 ≠ [] ∧ blanks p.1 ∧ validIdentifier p.2 ∧ (p.2.length : Int) ≤ maxTokenSize := by
    intro p hp
    obtain ⟨a, b, c, d⟩ := hm p hp
    refine ⟨a, b, c, ?_⟩
    show (p.2.length : Int) ≤ 1024 * 4
    omega
  obtain ⟨t, rest, hrest, ht⟩ := lineTail_head l.more l.eol r (fun q hq => ⟨(hm2 q hq).1, (hm2 q hq).2.1⟩) he
  have h0 : s.Holds ([] ++ (l.first ++ t :: rest)) := by
    rw [← hrest]
    simpa [textLine.bytes, List.append_assoc] using h
  obtain ⟨s1, io1, h1, hn⟩ := tkz_next_ident s [] l.first t rest h0 (by intro x hx; cases hx) hv
    (show (l.first.length : Int) ≤ maxTokenSize by
      show (l.first.length : Int) ≤ 1024 * 4
      omega) ht tk ln
  rw [← hrest] at h1
  obtain ⟨s2, tk2, ln2, pio2, h2, run2⟩ := prs_run_line_tail U r maxTokenSize ea l.eol he l.more s1
    (some ⟨tokenIdentifier, l.first, 0, l.first.length⟩) ln [identToken l.first] (newIoData.merge io1) hm2 h1
  refine ⟨s2, tk2, ln2, pio2, h2, ?_⟩
  have hfuel := source.fuel_of_holds s _ h
  have hlen := lineTail_length l.more (fun q hq => (hm2 q hq).1)
  simp only [textLine.bytes, List.length_append] at hfuel
  obtain ⟨f0, hf0⟩ : ∃ f0, s.fuel = (f0 + l.more.length + 1) + 1 := ⟨s.fuel - (l.more.length + 2), by omega⟩
  simp only [parser.next, hf0]
  rw [prs_pass_init_ident U _ [] ea newIoData io1 l.first 0 _ _ hn (f0 + l.more.length + 1)]
  have := run2 f0
  simp only [identToken, List.nil_append] at this ⊢
  rw [this]
  simp only [textLine.words, List.map_cons, List.map_map, List.singleton_append, identToken]
  rfl

/-! ## `strconv.Itoa`, `strconv.Atoi` and `strings.ToUpper` -/

theorem itoa_natCast (n : Nat) : itoa (n : Int) = natToDec n := by
  have h : ¬ ((n : Int) < 0) := by omega
  simp only [itoa, h, if_false, Int.natAbs_ofNat]

theorem digitsValue_append (a b : List Nat) : ∀ acc,
    digitsValue acc (a ++ b) = (digitsValue acc a).bind (fun v => digitsValue v b) := by
  induction a with
  | nil => intro acc; simp [digitsValue]
  | cons c a ih =>
    intro acc
    simp only [List.cons_append, digitsValue]
    split
    · exact ih _
    · rfl

theorem digitsValue_decDigits (f : Nat) : ∀ n, n < f → digitsValue 0 (decDigits f n) = some n := by
  induction f with
  | zero => intro n h; exact absurd h (Nat.not_lt_zero n)
  | succ f ih =>
    intro n hn
    by_cases h10 : n < 10
    · rw [decDigits_succ_lt f n h10]
      have h1 : 48 ≤ 48 + n ∧ 48 + n ≤ 57 := by omega
      have h2 : 0 * 10 + (48 + n - 48) = n := by omega
      simp only [digitsValue, h1, and_self, if_true, h2]
    · have h1 : n / 10 < f := by omega
      rw [decDigits_succ_ge f n h10, digitsValue_append, ih (n / 10) h1]
      have h2 : 48 ≤ 48 + n % 10 ∧ 48 + n % 10 ≤ 57 := by omega
      have h3 : n / 10 * 10 + (48 + n % 10 - 48) = n := by
        have := Nat.div_add_mod n 10
        omega
      simp only [Option.some_bind, digitsValue, h2, and_self, if_true, h3]

theorem digitsValue_natToDec (n : Nat) : digitsValue 0 (natToDec n) = some n :=
  digitsValue_decDigits (n + 1) n (Nat.lt_succ_self n)

theorem atoi_digits (c : Nat) (cs : List Nat) (hc : 48 ≤ c) (v : Nat)
    (hv : digitsValue 0 (c :: cs) = some v) (hb : v < 9223372036854775808) :
    atoi (c :: cs) = some (v : Int) := by
  have h1 : c ≠ 43 := by omega
  have h2 : c ≠ 45 := by omega
  unfold atoi
  split
  · rename_i r heq; cases heq; exact absurd rfl h1
  · rename_i r heq; cases heq; exact absurd rfl h2
  · split
    · rename_i r heq; cases heq; exact absurd rfl h2
    · simp only [hv, hb, if_true, Bool.false_eq_true, if_false]

theorem atoi_minus_digits (c : Nat) (cs : List Nat) (v : Nat)
    (hv : digitsValue 0 (c :: cs) = some v) (hb : v ≤ 9223372036854775808) :
    atoi (45 :: c :: cs) = some (-(v : Int)) := by
  simp only [atoi, hv, hb, if_true]

theorem wrapInt64_isInt64 (x : Int) : isInt64 (wrapInt64 x) := by
  unfold isInt64 wrapInt64
  norm_num
  omega

theorem atoi_itoa (m : Int) (h : isInt64 m) : atoi (itoa m) = some m := by
  unfold isInt64 at h
  norm_num at h
  obtain ⟨c, cs, hcs⟩ := List.exists_cons_of_ne_nil (natToDec_ne_nil m.natAbs)
  have hd := natToDec_digit m.natAbs c (by rw [hcs]; exact List.mem_cons_self _ _)
  have hv := digitsValue_natToDec m.natAbs
  rw [hcs] at hv
  by_cases hneg : m < 0
  · simp only [itoa, hneg, if_true, hcs]
    rw [atoi_minus_digits c cs m.natAbs hv (by omega)]
    congr 1
    omega
  · simp only [itoa, hneg, if_false, hcs]
    rw [atoi_digits c cs hd.1 m.natAbs hv (by omega)]
    congr 1
    omega

theorem decDigits_length (f : Nat) : ∀ n k, n < 10 ^ (k + 1) → (decDigits f n).length ≤ k + 1 := by
  induction f with
  | zero => intro n k _; simp [decDigits]
  | succ f ih =>
    intro n k hn
    by_cases h10 : n < 10
    · rw [decDigits_succ_lt f n h10]
      simp
    · rw [decDigits_succ_ge f n h10]
      cases k with
      | zero => exact absurd (by simpa using hn) h10
      | succ k =>
        have h1 : n / 10 < 10 ^ (k + 1) := by
          apply Nat.div_lt_of_lt_mul
          rw [← Nat.pow_succ']
          exact hn
        have := ih (n / 10) k h1
        simp only [List.length_append, List.length_singleton]
        omega

theorem itoa_length (m : Int) (h : isInt64 m) : (itoa m).length ≤ 21 := by
  unfold isInt64 at h
  norm_num at h
  have h1 : m.natAbs < 10 ^ (19 + 1) := by
    have : m.natAbs ≤ 9223372036854775808 := by omega
    exact Nat.lt_of_le_of_lt this (by norm_num)
  have h2 := decDigits_length (m.natAbs + 1) m.natAbs 19 h1
  unfold itoa
  split
  · simp only [List.length_cons, natToDec]; omega
  · simp only [natToDec]; omega

theorem asciiUpperByte_lt (b : Nat) (h : asciiUpperByte b < 128) : b < 128 := by
  unfold asciiUpperByte at h
  split at h <;> omega

theorem toUpper_ascii (U : List Nat → List Nat) (w : List Nat)
    (h : ∀ x, x ∈ w.map asciiUpperByte → x < 128) : toUpper U w = w.map asciiUpperByte := by
  have hall : w.all (fun b => decide (b < 128)) = true := by
    rw [List.all_eq_true]
    intro b hb
    have := h (asciiUpperByte b) (List.mem_map_of_mem _ hb)
    simpa using asciiUpperByte_lt b this
  simp only [toUpper, hall, if_true]

/-! ## `parseArgs` on the argument lists of well-formed commands -/

theorem prs_readCommand_of_upper (U : List Nat → List Nat) (st : parserState) (tz : tokenizer)
    (t0 : token) (rest : List token) (ea : Int) (pio : ioData) (code : commandCode)
    (h : toUpper U t0.data = code.str) :
    parser.readCommand U ⟨st, tz, t0 :: rest, ea, pio⟩ = some (Except.ok code) := by
  cases code <;>
    simp [parser.readCommand, parser.getArg, token.value, commandCodes, List.find?, h, commandCode.str]

theorem prs_parseArgs_set3 (U : List Nat → List Nat) (st : parserState) (tz : tokenizer)
    (t0 t1 t2 : token) (ea : Int) (pio : ioData) (h : toUpper U t0.data = commandSet.str) :
    parser.parseArgs U ⟨st, tz, [t0, t1, t2], ea, pio⟩ =
      some ⟨some ⟨commandSet, t1.data, t2.data, 0⟩, pio, none, ⟨st, tz, [], ea, pio⟩⟩ := by
  simp [parser.parseArgs, prs_readCommand_of_upper U st tz t0 [t1, t2] ea pio commandSet h,
    parser.getArg, parser.getArgData, token.value, token.getData, parser.cleanArgs, newCommand]

theorem prs_parseArgs_set5 (U : List Nat → List Nat) (st : parserState) (tz : tokenizer)
    (t0 t1 t2 t3 t4 : token) (ea : Int) (pio : ioData) (m : Int)
    (h : toUpper U t0.data = commandSet.str) (h3 : toUpper U t3.data = expKeyword)
    (h4 : atoi t4.data = some m) :
    parser.parseArgs U ⟨st, tz, [t0, t1, t2, t3, t4], ea, pio⟩ =
      some ⟨some ⟨commandSet, t1.data, t2.data, m⟩, pio, none, ⟨st, tz, [], ea, pio⟩⟩ := by
  simp [parser.parseArgs, prs_readCommand_of_upper U st tz t0 [t1, t2, t3, t4] ea pio commandSet h,
    parser.getArg, parser.getArgData, token.value, token.getData, parser.cleanArgs, newCommand, h3, h4]

/-- With exactly three parameters of which the third is `EXP`, `parseArgs` indexes the
fifth argument of a list of four and panics. -/
theorem prs_parseArgs_set4_exp (U : List Nat → List Nat) (st : parserState) (tz : tokenizer)
    (t0 t1 t2 t3 : token) (ea : Int) (pio : ioData)
    (h : toUpper U t0.data = commandSet.str) (h3 : toUpper U t3.data = expKeyword) :
    parser.parseArgs U ⟨st, tz, [t0, t1, t2, t3], ea, pio⟩ = none := by
  simp [parser.parseArgs, prs_readCommand_of_upper U st tz t0 [t1, t2, t3] ea pio commandSet h,
    parser.getArg, parser.getArgData, token.value, token.getData, h3]

theorem prs_parseArgs_key (U : List Nat → List Nat) (st : parserState) (tz : tokenizer)
    (t0 t1 : token) (ea : Int) (pio : ioData) (code : commandCode)
    (hc : code = commandGet ∨ code = commandRm) (h : toUpper U t0.data = code.str) :
    parser.parseArgs U ⟨st, tz, [t0, t1], ea, pio⟩ =
      some ⟨some ⟨code, t1.data, [], 0⟩, pio, none, ⟨st, tz, [], ea, pio⟩⟩ := by
  rcases hc with hc | hc <;> subst hc <;>
    simp [parser.parseArgs, prs_readCommand_of_upper U st tz t0 [t1] ea pio _ h,
      parser.getArg, token.value, parser.cleanArgs, newCommand]

theorem prs_parseArgs_bare (U : List Nat → List Nat) (st : parserState) (tz : tokenizer)
    (t0 : token) (ea : Int) (pio : ioData) (code : commandCode)
    (hc : code ≠ commandSet ∧ code ≠ commandGet ∧ code ≠ commandRm)
    (h : toUpper U t0.data = code.str) :
    parser.parseArgs U ⟨st, tz, [t0], ea, pio⟩ =
      some ⟨some ⟨code, [], [], 0⟩, pio, none, ⟨st, tz, [], ea, pio⟩⟩ := by
  obtain ⟨h1, h2, h3⟩ := hc
  cases code <;>
    simp [parser.parseArgs, prs_readCommand_of_upper U st tz t0 [] ea pio _ h,
      parser.cleanArgs, newCommand] at h1 h2 h3 ⊢

/-! ## The sink writes the array form -/

theorem sink_write_buffer (chunks : List (List Nat)) : ∀ s : sink,
    (s.write chunks).buffer = s.buffer ++ chunks.flatten := by
  induction chunks with
  | nil => intro s; simp [sink.write]
  | cons c cs ih =>
    intro s
    have := ih { s with buffer := s.buffer ++ c }
    simp only [sink.write, List.foldl_cons] at this ⊢
    rw [this]
    simp

theorem sink_writeAsProtocolString_buffer (s : sink) (d : List Nat) :
    (s.writeAsProtocolString d).buffer = s.buffer ++ encodeString d := by
  simp [sink.writeAsProtocolString, sink_write_buffer, itoa_natCast, encodeString]

theorem sink_writeStrings_buffer (ps : List (List Nat)) : ∀ s : sink,
    (ps.foldl (fun acc chunk => acc.writeAsProtocolString chunk) s).buffer =
      s.buffer ++ encodeStrings ps := by
  induction ps with
  | nil => intro s; simp [encodeStrings]
  | cons p ps ih =>
    intro s
    simp only [List.foldl_cons, ih, sink_writeAsProtocolString_buffer, encodeStrings, List.append_assoc]

theorem sink_writeArray_buffer (s : sink) (ps : List (List Nat)) :
    (s.writeArrayOfProtocolStrings ps).buffer = s.buffer ++ encodeArray ps := by
  simp [sink.writeArrayOfProtocolStrings, sink_writeStrings_buffer, sink_write_buffer, bprintf,
    itoa_natCast, encodeArray]

/-! ## Items survive the wire -/

theorem toUpper_set (U : List Nat → List Nat) : toUpper U [83, 69, 84] = commandSet.str :=
  toUpper_ascii U _ (by decide)

theorem toUpper_exp (U : List Nat → List Nat) : toUpper U [69, 88, 80] = expKeyword :=
  toUpper_ascii U _ (by decide)

theorem newParser_eq (src : source) :
    newParser src = ⟨parserInit, ⟨src, tokenizerWaitingForToken, none, 0, maxTokenSize⟩, [], 0, newIoData⟩ :=
  rfl

/-- C1. Wire round trip for items: for every item whose key and value are each shorter
than 4096 bytes, the bytes `writeArrayOfProtocolStrings` produces for
`genSetCommandPieces(item)`, fed to a fresh parser through any buffer of at least one
byte and any split into non-empty reads, make `parser.next()` return without error a SET
command with the item's key, the item's value byte for byte, and as expiration 0 for a
permanent item and the item's current time to live for a transient one. -/
theorem wire_round_trip_item (U : List Nat → List Nat) (it : item) (now : Int)
    (out : outputStream) (th : Int) (B : Nat) (chunks : List (List Nat))
    (hk : it.key.length < 4096) (hv : it.value.length < 4096)
    (hB : 0 < B) (hch : ∀ c, c ∈ chunks → c ≠ [])
    (hbytes : chunks.flatten =
      ((newSink out th).writeArrayOfProtocolStrings (it.genSetCommandPieces now)).buffer) :
    ∃ io p2, parser.next U (newParser (newBufferedSource ⟨chunks⟩ B)) =
      Result.done ⟨some ⟨commandSet, it.key, it.value,
        if it.isTransient then it.getTimeToLive now else 0⟩, io, none, p2⟩ := by
  have hsrc := source.holds_new chunks B hB hch
  rw [hbytes, sink_writeArray_buffer] at hsrc
  simp only [newSink, List.nil_append] at hsrc
  have hsrc2 : (newBufferedSource ⟨chunks⟩ B).Holds (encodeArray (it.genSetCommandPieces now) ++ []) := by
    simpa using hsrc
  rw [newParser_eq]
  by_cases htr : it.isTransient = true
  · have hp : it.genSetCommandPieces now =
        [commandSet.str, it.key, it.value, expKeyword, itoa (it.getTimeToLive now)] := by
      simp [item.genSetCommandPieces, htr, item.getKey, item.getValue]
    rw [hp] at hsrc2
    have hl := itoa_length (it.getTimeToLive now) (wrapInt64_isInt64 _)
    obtain ⟨s2, tk2, ln2, pio2, _, hnext⟩ := prs_next_array U [] maxTokenSize
      [commandSet.str, it.key, it.value, expKeyword, itoa (it.getTimeToLive now)]
      (newBufferedSource ⟨chunks⟩ B) none 0 0 newIoData (by simp) (by simp)
      (by
        intro p hp
        have hlen : p.length < 4096 := by
          simp only [List.mem_cons, List.mem_singleton, List.not_mem_nil, or_false] at hp
          rcases hp with h | h | h | h | h <;> subst h
          · simp [commandCode.str]
          · exact hk
          · exact hv
          · simp
          · omega
        constructor
        · show (p.length : Int) < 1024 * 4
          omega
        · omega)
      hsrc2
    rw [hnext]
    simp only [List.map_cons, List.map_nil]
    rw [prs_parseArgs_set5 U _ _ _ _ _ _ _ _ _ (it.getTimeToLive now) (toUpper_set U) (toUpper_exp U)
      (atoi_itoa _ (wrapInt64_isInt64 _))]
    simp only [htr, if_true]
    exact ⟨_, _, rfl⟩
  · have hp : it.genSetCommandPieces now = [commandSet.str, it.key, it.value] := by
      simp [item.genSetCommandPieces, htr, item.getKey, item.getValue]
    rw [hp] at hsrc2
    obtain ⟨s2, tk2, ln2, pio2, _, hnext⟩ := prs_next_array U [] maxTokenSize
      [commandSet.str, it.key, it.value]
      (newBufferedSource ⟨chunks⟩ B) none 0 0 newIoData (by simp) (by simp)
      (by
        intro p hp
        have hlen : p.length < 4096 := by
          simp only [List.mem_cons, List.mem_singleton, List.not_mem_nil, or_false] at hp
          rcases hp with h | h | h <;> subst h
          · simp [commandCode.str]
          · exact hk
          · exact hv
        constructor
        · show (p.length : Int) < 1024 * 4
          omega
        · omega)
      hsrc2
    rw [hnext]
    simp only [List.map_cons, List.map_nil]
    rw [prs_parseArgs_set3 U _ _ _ _ _ _ _ (toUpper_set U)]
    simp only [htr, Bool.false_eq_true, if_false]
    exact ⟨_, _, rfl⟩

/-- Witness of C1: the transient item `k = v` with expiration 90, created at second 10
and sent at second 40, read through a buffer of 8 bytes. -/
theorem wire_round_trip_item_witness :
    ∃ io p2, parser.next (fun s => s) (newParser (newBufferedSource
        ⟨[((newSink ⟨[], []⟩ 4096).writeArrayOfProtocolStrings
            (item.genSetCommandPieces ⟨[107], [118], 90, 10⟩ 40)).buffer]⟩ 8)) =
      Result.done ⟨some ⟨commandSet, [107], [118],
        if item.isTransient ⟨[107], [118], 90, 10⟩ then item.getTimeToLive ⟨[107], [118], 90, 10⟩ 40 else 0⟩,
        io, none, p2⟩ :=
  wire_round_trip_item (fun s => s) ⟨[107], [118], 90, 10⟩ 40 ⟨[], []⟩ 4096 8
    [((newSink ⟨[], []⟩ 4096).writeArrayOfProtocolStrings
      (item.genSetCommandPieces ⟨[107], [118], 90, 10⟩ 40)).buffer]
    (by decide) (by decide) (by decide)
    (by
      intro c hc
      simp only [List.mem_singleton] at hc
      subst hc
      rw [sink_writeArray_buffer]
      simp [encodeArray])
    (by simp)

/-! ## SET with three parameters of which the third is EXP -/

/-- For every key and value, the line `SET k v EXP` makes `parser.next` panic. -/
theorem prs_set_exp_line_panics (U : List Nat → List Nat) (k v : List Nat) (B : Nat)
    (chunks : List (List Nat)) (hk : validIdentifier k ∧ k.length ≤ 4096)
    (hv : validIdentifier v ∧ v.length ≤ 4096) (hB : 0 < B) (hch : ∀ c, c ∈ chunks → c ≠ [])
    (hbytes : chunks.flatten = [83, 69, 84, 32] ++ k ++ [32] ++ v ++ [32, 69, 88, 80, 10]) :
    parser.next U (newParser (newBufferedSource ⟨chunks⟩ B)) = Result.panicked := by
  have hsrc := source.holds_new chunks B hB hch
  rw [hbytes] at hsrc
  have hok : textLine.ok ⟨[83, 69, 84], [([32], k), ([32], v), ([32], [69, 88, 80])], [10]⟩ 4096 := by
    have hset : validIdentifier [83, 69, 84] ∧ [83, 69, 84].length ≤ 4096 := by decide
    have hexp : validIdentifier [69, 88, 80] ∧ [69, 88, 80].length ≤ 4096 := by decide
    have hsp : [32] ≠ [] ∧ blanks [32] := by decide
    refine ⟨hset, ?_, Or.inl rfl⟩
    intro p hp
    simp only [List.mem_cons, List.mem_singleton, List.not_mem_nil, or_false] at hp
    rcases hp with h | h | h <;> subst h
    · exact ⟨hsp.1, hsp.2, hk.1, hk.2⟩
    · exact ⟨hsp.1, hsp.2, hv.1, hv.2⟩
    · exact ⟨hsp.1, hsp.2, hexp.1, hexp.2⟩
  obtain ⟨s2, tk2, ln2, pio2, _, hnext⟩ := prs_next_line U []
    ⟨[83, 69, 84], [([32], k), ([32], v), ([32], [69, 88, 80])], [10]⟩
    (newBufferedSource ⟨chunks⟩ B) none 0 0 newIoData hok
    (by simpa [textLine.bytes, lineTail, List.append_assoc] using hsrc)
  rw [newParser_eq, hnext]
  simp only [textLine.words, List.map_cons, List.map_nil]
  rw [prs_parseArgs_set4_exp U _ _ _ _ _ _ _ _ (toUpper_set U) (toUpper_exp U)]
  rfl

/-- For every key and value below the size cap, the array form of `SET k v EXP` makes
`parser.next` panic. -/
theorem prs_set_exp_array_panics (U : List Nat → List Nat) (k v : List Nat) (B : Nat)
    (chunks : List (List Nat)) (hk : k.length < 4096) (hv : v.length < 4096)
    (hB : 0 < B) (hch : ∀ c, c ∈ chunks → c ≠ [])
    (hbytes : chunks.flatten = encodeArray [[83, 69, 84], k, v, [69, 88, 80]]) :
    parser.next U (newParser (newBufferedSource ⟨chunks⟩ B)) = Result.panicked := by
  have hsrc := source.holds_new chunks B hB hch
  rw [hbytes] at hsrc
  obtain ⟨s2, tk2, ln2, pio2, _, hnext⟩ := prs_next_array U [] maxTokenSize
    [[83, 69, 84], k, v, [69, 88, 80]]
    (newBufferedSource ⟨chunks⟩ B) none 0 0 newIoData (by simp) (by simp)
    (by
      intro p hp
      have hlen : p.length < 4096 := by
        simp only [List.mem_cons, List.mem_singleton, List.not_mem_nil, or_false] at hp
        rcases hp with h | h | h | h <;> subst h
        · simp
        · exact hk
        · exact hv
        · simp
      constructor
      · show (p.length : Int) < 1024 * 4
        omega
      · omega)
    (by simpa using hsrc)
  rw [newParser_eq, hnext]
  simp only [List.map_cons, List.map_nil]
  rw [prs_parseArgs_set4_exp U _ _ _ _ _ _ _ _ (toUpper_set U) (toUpper_exp U)]
  rfl

/-- C6. The input line `SET k v EXP` followed by a line feed (SET with the keyword EXP
and its seconds missing) does not give a non-fatal parsing error: `parser.next()`
indexes the fifth element of its four arguments and panics. -/
theorem set_exp_without_seconds_panics (U : List Nat → List Nat) :
    parser.next U (newParser (newBufferedSource
      ⟨[[83, 69, 84, 32, 107, 32, 118, 32, 69, 88, 80, 10]]⟩ 128)) = Result.panicked :=
  prs_set_exp_line_panics U [107] [118] 128 _ (by decide) (by decide) (by decide)
    (by intro c hc; simp only [List.mem_singleton] at hc; subst hc; decide) (by decide)

/-- C3. For the arguments `SET`, `k`, `v`, `EXP`, all valid identifiers, the line form
and the array form give neither equal commands nor the same parsing error: both calls
of `parser.next()` panic. -/
theorem line_and_array_form_both_panic (U : List Nat → List Nat) :
    parser.next U (newParser (newBufferedSource
        ⟨[[83, 69, 84, 32, 107, 32, 118, 32, 69, 88, 80, 10]]⟩ 128)) = Result.panicked ∧
      parser.next U (newParser (newBufferedSource
        ⟨[encodeArray [[83, 69, 84], [107], [118], [69, 88, 80]]]⟩ 128)) = Result.panicked :=
  ⟨prs_set_exp_line_panics U [107] [118] 128 _ (by decide) (by decide) (by decide)
      (by intro c hc; simp only [List.mem_singleton] at hc; subst hc; decide) (by decide),
    prs_set_exp_array_panics U [107] [118] 128 _ (by decide) (by decide) (by decide)
      (by intro c hc; simp only [List.mem_singleton] at hc; subst hc; simp [encodeArray])
      (by simp)⟩

/-! ## A key of exactly 4096 bytes -/

theorem validIdentifier_replicate (n : Nat) : validIdentifier (List.replicate (n + 1) 107) := by
  rw [List.replicate_succ]
  refine ⟨by decide, ?_⟩
  intro x hx
  rw [List.eq_of_mem_replicate hx]
  decide

/-- The master accepts the line `SET <key> v` also when the key has `len` bytes with
`len` up to the cap of 4096. -/
theorem prs_set_long_key_accepted (U : List Nat → List Nat) (n : Nat) (hn : n + 1 ≤ 4096) :
    ∃ io p2, parser.next U (newParser (newBufferedSource
        ⟨[[83, 69, 84, 32] ++ List.replicate (n + 1) 107 ++ [32, 118, 10]]⟩ 128)) =
      Result.done ⟨some ⟨commandSet, List.replicate (n + 1) 107, [118], 0⟩, io, none, p2⟩ := by
  have hsrc := source.holds_new [[83, 69, 84, 32] ++ List.replicate (n + 1) 107 ++ [32, 118, 10]] 128
    (by decide) (by intro c hc; simp only [List.mem_singleton] at hc; subst hc; simp)
  have hset : validIdentifier [83, 69, 84] ∧ [83, 69, 84].length ≤ 4096 := by decide
  have hv : validIdentifier [118] ∧ [118].length ≤ 4096 := by decide
  have hsp : [32] ≠ [] ∧ blanks [32] := by decide
  have hok : textLine.ok ⟨[83, 69, 84], [([32], List.replicate (n + 1) 107), ([32], [118])], [10]⟩ 4096 := by
    refine ⟨hset, ?_, Or.inl rfl⟩
    intro p hp
    simp only [List.mem_cons, List.mem_singleton, List.not_mem_nil, or_false] at hp
    rcases hp with h | h <;> subst h
    · exact ⟨hsp.1, hsp.2, validIdentifier_replicate n, by simpa using hn⟩
    · exact ⟨hsp.1, hsp.2, hv.1, hv.2⟩
  obtain ⟨s2, tk2, ln2, pio2, _, hnext⟩ := prs_next_line U []
    ⟨[83, 69, 84], [([32], List.replicate (n + 1) 107), ([32], [118])], [10]⟩
    (newBufferedSource ⟨[[83, 69, 84, 32] ++ List.replicate (n + 1) 107 ++ [32, 118, 10]]⟩ 128)
    none 0 0 newIoData hok
    (by simpa [textLine.bytes, lineTail, List.append_assoc] using hsrc)
  rw [newParser_eq, hnext]
  simp only [textLine.words, List.map_cons, List.map_nil]
  rw [prs_parseArgs_set3 U _ _ _ _ _ _ _ (toUpper_set U)]
  exact ⟨_, _, rfl⟩

/-- The replica rejects the array form of a SET whose key has 4096 bytes or more with
the fatal "Token is too big" error. -/
theorem prs_set_long_key_rejected (U : List Nat → List Nat) (k v : List Nat)
    (hk : 4096 ≤ k.length) (hb : k.length < 9223372036854775808) :
    ∃ io p2, parser.next U (newParser (newBufferedSource
        ⟨[((newSink ⟨[], []⟩ 4096).writeArrayOfProtocolStrings [commandSet.str, k, v]).buffer]⟩ 128)) =
      Result.done ⟨none, io, some (newTokenizationError
        (bytesOf "Token is too big (max size allowed is " ++ itoa maxTokenSize ++ bytesOf " bytes)")),
        p2⟩ := by
  have hbuf : ((newSink ⟨[], []⟩ 4096).writeArrayOfProtocolStrings [commandSet.str, k, v]).buffer =
      42 :: (natToDec 3 ++ 13 :: 10 ::
        (36 :: (natToDec 3 ++ 13 :: 10 :: ([83, 69, 84] ++ 13 :: 10 ::
          (36 :: (natToDec k.length ++ 13 :: (10 :: (k ++ [13, 10] ++ encodeString v)))))))) := by
    rw [sink_writeArray_buffer]
    simp [newSink, encodeArray, encodeStrings, encodeString, commandCode.str]
  rw [hbuf, newParser_eq]
  have hsrc := source.holds_new [42 :: (natToDec 3 ++ 13 :: 10 ::
        (36 :: (natToDec 3 ++ 13 :: 10 :: ([83, 69, 84] ++ 13 :: 10 ::
          (36 :: (natToDec k.length ++ 13 :: (10 :: (k ++ [13, 10] ++ encodeString v))))))))] 128
    (by decide) (by intro c hc; simp only [List.mem_singleton] at hc; subst hc; simp)
  simp only [List.flatten_cons, List.flatten_nil, List.append_nil] at hsrc
  generalize newBufferedSource ⟨[42 :: (natToDec 3 ++ 13 :: 10 ::
        (36 :: (natToDec 3 ++ 13 :: 10 :: ([83, 69, 84] ++ 13 :: 10 ::
          (36 :: (natToDec k.length ++ 13 :: (10 :: (k ++ [13, 10] ++ encodeString v))))))))]⟩ 128 = s0
    at hsrc ⊢
  obtain ⟨s1, io1, h1, hn1⟩ := tkz_next_array s0 3 13 _ hsrc (by decide) (Or.inl rfl) none 0 maxTokenSize
  obtain ⟨s2, io2, h2, hn2⟩ := tkz_next_eol_crlf s1 [] _ (by simpa using h1)
    (by intro x hx; cases hx) (some ⟨tokenArray, [], 0, (3 : Nat)⟩) 0 maxTokenSize
  obtain ⟨s3, io3, h3, hn3⟩ := tkz_next_bin s2 [83, 69, 84] _ maxTokenSize h2 (by decide) (by decide)
    (some ⟨tokenEol, [], 0, 0⟩) (0 + 1)
  obtain ⟨io4, t4, hn4⟩ := tkz_next_bin_too_big s3 k.length 13 _ maxTokenSize h3 (Or.inl rfl)
    (by show (1024 * 4 : Int) ≤ (k.length : Int); omega) hb
    (some ⟨tokenBinString, [83, 69, 84], 0, ([83, 69, 84] : List Nat).length⟩) (0 + 1 + 1 + 1)
  have hfuel := source.fuel_of_holds _ _ hsrc
  simp only [List.length_cons, List.length_append] at hfuel
  obtain ⟨f0, hf0⟩ : ∃ f0, s0.fuel = f0 + 1 + 1 + 1 + 1 := ⟨s0.fuel - 4, by omega⟩
  refine ⟨((((newIoData.merge io1).merge io2).merge io3).merge io4),
    ⟨parserReadingArray, t4, [⟨tokenBinString, [83, 69, 84], 0, ([83, 69, 84] : List Nat).length⟩],
      (3 : Nat), ((((newIoData.merge io1).merge io2).merge io3).merge io4)⟩, ?_⟩
  simp only [parser.next, hf0]
  rw [prs_pass_init_array U _ [] 0 newIoData io1 [] 0 _ _ hn1,
    prs_pass_array_eol U _ [] _ _ io2 [] 0 _ _ hn2,
    prs_pass_array_bin U _ [] _ _ io3 [83, 69, 84] 0 _ _ hn3 (by decide),
    prs_pass_error U _ _ _ _ _ io4 _ t4 hn4]
  rfl

/-- C2. The write command the master returns for the line `SET <key> v`, with a key of
exactly 4096 bytes (the network cap), cannot be mirrored: the master's `parser.next()`
returns the SET command without error, and the broadcast encoding of its `toPieces()`,
read by a fresh parser with the same cap, gives the fatal "Token is too big"
tokenization error instead of the command. -/
theorem broadcast_of_full_size_key_rejected (U : List Nat → List Nat) :
    ∃ io p2 pieces io3 p3 e,
      parser.next U (newParser (newBufferedSource
          ⟨[[83, 69, 84, 32] ++ List.replicate 4096 107 ++ [32, 118, 10]]⟩ 128)) =
        Result.done ⟨some ⟨commandSet, List.replicate 4096 107, [118], 0⟩, io, none, p2⟩ ∧
      command.toPieces ⟨commandSet, List.replicate 4096 107, [118], 0⟩ = some pieces ∧
      parser.next U (newParser (newBufferedSource
          ⟨[((newSink ⟨[], []⟩ 4096).writeArrayOfProtocolStrings pieces).buffer]⟩ 128)) =
        Result.done ⟨none, io3, some e, p3⟩ ∧
      e.fatal = true := by
  obtain ⟨io, p2, h1⟩ := prs_set_long_key_accepted U 4095 (by decide)
  obtain ⟨io3, p3, h3⟩ := prs_set_long_key_rejected U (List.replicate 4096 107) [118]
    (by rw [List.length_replicate]) (by rw [List.length_replicate]; norm_num)
  exact ⟨io, p2, [commandSet.str, List.replicate 4096 107, [118]], io3, p3, _, h1, rfl, h3, rfl⟩

/-! ## Malformed commands -/

theorem digitsValue_some_digits (l : List Nat) : ∀ acc v, digitsValue acc l = some v →
    ∀ c, c ∈ l → 48 ≤ c ∧ c ≤ 57 := by
  induction l with
  | nil => intro acc v _ c hc; cases hc
  | cons x l ih =>
    intro acc v h c hc
    simp only [digitsValue] at h
    split at h
    · rename_i hx
      rcases List.mem_cons.mp hc with hc | hc
      · subst hc; exact hx
      · exact ih _ v h c hc
    · cases h

theorem atoi_some_isDecimalInteger (s : List Nat) (m : Int) (h : atoi s = some m) :
    isDecimalInteger s := by
  unfold atoi at h
  unfold isDecimalInteger
  simp only at h ⊢
  generalize (match s with
    | 43 :: r => r
    | 45 :: r => r
    | _ => s) = body at h ⊢
  cases body with
  | nil => simp at h
  | cons c cs =>
    refine ⟨by simp, ?_⟩
    cases hv : digitsValue 0 (c :: cs) with
    | none => simp [hv] at h
    | some v => exact digitsValue_some_digits _ 0 v hv

theorem atoi_none_of_not_decimal (s : List Nat) (h : ¬ isDecimalInteger s) : atoi s = none := by
  cases ha : atoi s with
  | none => rfl
  | some m => exact absurd (atoi_some_isDecimalInteger s m ha) h

theorem prs_readCommand_unknown (U : List Nat → List Nat) (st : parserState) (tz : tokenizer)
    (t0 : token) (rest : List token) (ea : Int) (pio : ioData)
    (h : ∀ code, code ∈ commandCodes → toUpper U t0.data ≠ code.str) :
    parser.readCommand U ⟨st, tz, t0 :: rest, ea, pio⟩ =
      some (Except.error (newParsingError (bytesOf "invalid command \"" ++ t0.data ++ bytesOf "\""))) := by
  have hf : commandCodes.find? (fun code => decide (toUpper U t0.data = code.str)) = none := by
    rw [List.find?_eq_none]
    intro code hc
    simpa using h code hc
  simp [parser.readCommand, parser.getArg, token.value, hf, parser.invalidCommand]

/-- The result of `parseArgs` on a malformed argument list. -/
theorem prs_parseArgs_malformed (U : List Nat → List Nat) (p : parser)
    (h : malformedArgs U (p.args.map token.value)) :
    ∃ msg, parser.parseArgs U p = some ⟨none, p.in_, some (newParsingError msg), p.cleanArgs⟩ := by
  obtain ⟨st, tz, args, ea, pio⟩ := p
  cases args with
  | nil => simp [malformedArgs] at h
  | cons t0 rest =>
    simp only [List.map_cons, malformedArgs, token.value, List.length_map] at h
    have hlen : (((t0 :: rest).length : Nat) : Int) - 1 = (rest.length : Int) := by
      simp only [List.length_cons, Nat.cast_add, Nat.cast_one]; omega
    rcases h with h | ⟨h, hn⟩ | ⟨h, hn⟩ | ⟨h, hn⟩ | ⟨h, k, v, a3, a4, hp, hbad⟩
    · simp only [parser.parseArgs, prs_readCommand_unknown U st tz t0 rest ea pio h]
      exact ⟨_, rfl⟩
    · have hr := prs_readCommand_of_upper U st tz t0 rest ea pio commandSet h
      rcases hn with hn | hn
      · have c1 : (rest.length : Int) < 2 := by omega
        simp only [parser.parseArgs, hr, hlen, c1, if_true]
        exact ⟨_, rfl⟩
      · have c1 : ¬ ((rest.length : Int) < 2) := by omega
        have c2 : (rest.length : Int) > 4 := by omega
        simp only [parser.parseArgs, hr, hlen, c1, c2, if_true, if_false]
        exact ⟨_, rfl⟩
    · rcases h with h | h
      · have hr := prs_readCommand_of_upper U st tz t0 rest ea pio commandGet h
        by_cases c1 : (rest.length : Int) < 1
        · simp only [parser.parseArgs, hr, hlen, c1, if_true]
          exact ⟨_, rfl⟩
        · have c2 : (rest.length : Int) > 1 := by omega
          simp only [parser.parseArgs, hr, hlen, c1, c2, if_true, if_false]
          exact ⟨_, rfl⟩
      · have hr := prs_readCommand_of_upper U st tz t0 rest ea pio commandRm h
        by_cases c1 : (rest.length : Int) < 1
        · simp only [parser.parseArgs, hr, hlen, c1, if_true]
          exact ⟨_, rfl⟩
        · have c2 : (rest.length : Int) > 1 := by omega
          simp only [parser.parseArgs, hr, hlen, c1, c2, if_true, if_false]
          exact ⟨_, rfl⟩
    · have c1 : (rest.length : Int) > 0 := by omega
      rcases h with h | h | h | h | h | h
      · simp only [parser.parseArgs, prs_readCommand_of_upper U st tz t0 rest ea pio commandRmall h,
          hlen, c1, if_true]
        exact ⟨_, rfl⟩
      · simp only [parser.parseArgs, prs_readCommand_of_upper U st tz t0 rest ea pio commandStats h,
          hlen, c1, if_true]
        exact ⟨_, rfl⟩
      · simp only [parser.parseArgs, prs_readCommand_of_upper U st tz t0 rest ea pio commandList h,
          hlen, c1, if_true]
        exact ⟨_, rfl⟩
      · simp only [parser.parseArgs, prs_readCommand_of_upper U st tz t0 rest ea pio commandPing h,
          hlen, c1, if_true]
        exact ⟨_, rfl⟩
      · simp only [parser.parseArgs, prs_readCommand_of_upper U st tz t0 rest ea pio commandSync h,
          hlen, c1, if_true]
        exact ⟨_, rfl⟩
      · simp only [parser.parseArgs, prs_readCommand_of_upper U st tz t0 rest ea pio commandExit h,
          hlen, c1, if_true]
        exact ⟨_, rfl⟩
    · have hr := prs_readCommand_of_upper U st tz t0 rest ea pio commandSet h
      obtain ⟨t1, t2, t3, t4, hrest, h3, h4⟩ : ∃ t1 t2 t3 t4, rest = [t1, t2, t3, t4] ∧
          t3.data = a3 ∧ t4.data = a4 := by
        match rest, hp with
        | [t1, t2, t3, t4], hp =>
          simp only [List.map_cons, List.map_nil, List.cons.injEq, and_true] at hp
          exact ⟨t1, t2, t3, t4, rfl, hp.2.2.1, hp.2.2.2⟩
      subst hrest
      by_cases hexp : toUpper U t3.data = expKeyword
      · have hat : atoi t4.data = none := by
          rcases hbad with hb | hb
          · exact absurd (h3 ▸ hexp) hb
          · exact atoi_none_of_not_decimal _ (h4 ▸ hb)
        simp [parser.parseArgs, hr, parser.getArg, parser.getArgData, token.value, token.getData,
          hexp, hat]
      · simp [parser.parseArgs, hr, parser.getArg, parser.getArgData, token.value, token.getData,
          hexp]

theorem map_binToken_value (ps : List (List Nat)) : (ps.map binToken).map token.value = ps := by
  induction ps with
  | nil => rfl
  | cons p ps ih => simp only [List.map_cons, ih]; rfl

/-- C5. Malformed commands are rejected non-fatally: for a finalised argument list with
an unknown command name, or SET with fewer than 2 or more than 4 parameters, or GET or
RM with a parameter count other than 1, or one of RMALL, STATS, LIST, PING, SYNC, EXIT
with at least one parameter, or SET with 4 parameters whose third is not `EXP` or whose
fourth is not a decimal integer, `parseArgs` (whose result `parser.next()` returns
unchanged) returns no command and a parsing error with fatal = false and
technical = false, and so does `parser.next()` of a fresh parser on the array form of
these arguments (each shorter than 4096 bytes). -/
theorem malformed_commands_rejected (U : List Nat → List Nat) (args : List (List Nat))
    (h : malformedArgs U args) :
    (∀ p : parser, p.args.map token.value = args →
      ∃ e, parser.parseArgs U p = some ⟨none, p.in_, some e, p.cleanArgs⟩ ∧
        e.fatal = false ∧ e.technical = false) ∧
    (∀ (B : Nat) (chunks : List (List Nat)), (∀ a, a ∈ args → a.length < 4096) →
      args.length < 9223372036854775808 → 0 < B → (∀ c, c ∈ chunks → c ≠ []) →
      chunks.flatten = encodeArray args →
      ∃ io e p2, parser.next U (newParser (newBufferedSource ⟨chunks⟩ B)) =
          Result.done ⟨none, io, some e, p2⟩ ∧ e.fatal = false ∧ e.technical = false) := by
  constructor
  · intro p hp
    obtain ⟨msg, hm⟩ := prs_parseArgs_malformed U p (hp ▸ h)
    exact ⟨newParsingError msg, hm, rfl, rfl⟩
  · intro B chunks hsz hlen hB hch hbytes
    have hne : args ≠ [] := by
      intro h0
      rw [h0] at h
      exact h
    have hsrc := source.holds_new chunks B hB hch
    rw [hbytes] at hsrc
    obtain ⟨s2, tk2, ln2, pio2, _, hnext⟩ := prs_next_array U [] maxTokenSize args
      (newBufferedSource ⟨chunks⟩ B) none 0 0 newIoData hne hlen
      (by
        intro a ha
        have := hsz a ha
        constructor
        · show (a.length : Int) < 1024 * 4
          omega
        · omega)
      (by simpa using hsrc)
    obtain ⟨msg, hm⟩ := prs_parseArgs_malformed U
      ⟨parserInit, ⟨s2, tokenizerWaitingForToken, tk2, ln2, maxTokenSize⟩, args.map binToken,
        (args.length : Int), pio2⟩
      (by rw [map_binToken_value]; exact h)
    rw [newParser_eq, hnext, hm]
    exact ⟨_, newParsingError msg, _, rfl, rfl, rfl⟩

/-- Witness of C5: the unknown command `FOO`. -/
theorem malformed_commands_rejected_witness :
    (∀ p : parser, p.args.map token.value = [[70, 79, 79]] →
      ∃ e, parser.parseArgs (fun s => s) p = some ⟨none, p.in_, some e, p.cleanArgs⟩ ∧
        e.fatal = false ∧ e.technical = false) ∧
    (∀ (B : Nat) (chunks : List (List Nat)), (∀ a, a ∈ [[70, 79, 79]] → a.length < 4096) →
      [[70, 79, 79]].length < 9223372036854775808 → 0 < B → (∀ c, c ∈ chunks → c ≠ []) →
      chunks.flatten = encodeArray [[70, 79, 79]] →
      ∃ io e p2, parser.next (fun s => s) (newParser (newBufferedSource ⟨chunks⟩ B)) =
          Result.done ⟨none, io, some e, p2⟩ ∧ e.fatal = false ∧ e.technical = false) :=
  malformed_commands_rejected (fun s => s) [[70, 79, 79]] (Or.inl (by decide))

/-! ## Sequences of line-form commands -/

theorem toUpper_of_caseVariant (U : List Nat → List Nat) (w : List Nat) (code : commandCode)
    (h : caseVariant w code.str) : toUpper U w = code.str := by
  unfold caseVariant at h
  rw [toUpper_ascii U w, h]
  rw [h]
  cases code <;> decide

theorem toUpper_of_caseVariant_exp (U : List Nat → List Nat) (w : List Nat)
    (h : caseVariant w expKeyword) : toUpper U w = expKeyword := by
  unfold caseVariant at h
  rw [toUpper_ascii U w, h]
  rw [h]
  decide

/-- What `parseArgs` makes of the words of a well-formed line. -/
theorem prs_parseArgs_lineCommand (U : List Nat → List Nat) (words : List (List Nat)) (c : command)
    (h : lineCommand words c) (st : parserState) (tz : tokenizer) (ea : Int) (pio : ioData) :
    parser.parseArgs U ⟨st, tz, words.map identToken, ea, pio⟩ =
      some ⟨some c, pio, none, ⟨st, tz, [], ea, pio⟩⟩ := by
  cases h with
  | set n k v hn =>
    exact prs_parseArgs_set3 U st tz (identToken n) (identToken k) (identToken v) ea pio
      (toUpper_of_caseVariant U n commandSet hn)
  | setExp n k v e x m hn he hx =>
    exact prs_parseArgs_set5 U st tz (identToken n) (identToken k) (identToken v) (identToken e)
      (identToken x) ea pio m (toUpper_of_caseVariant U n commandSet hn)
      (toUpper_of_caseVariant_exp U e he) hx
  | keyed n k code hc hn =>
    exact prs_parseArgs_key U st tz (identToken n) (identToken k) ea pio code hc
      (toUpper_of_caseVariant U n code hn)
  | bare n code hc hn =>
    exact prs_parseArgs_bare U st tz (identToken n) ea pio code hc
      (toUpper_of_caseVariant U n code hn)

theorem prs_next_eof (U : List Nat → List Nat) (s : source) (h : s.Holds [])
    (tk : Option token) (ln : Nat) (A : Int) (args : List token) (ea : Int) (pio : ioData)
    (st : parserState) :
    ∃ io p2, parser.next U ⟨st, ⟨s, tokenizerWaitingForToken, tk, ln, A⟩, args, ea, pio⟩ =
      Result.done ⟨none, io, some (newReadingError GoError.EOF), p2⟩ := by
  have hfuel := source.fuel_of_holds s [] h
  obtain ⟨f0, hf0⟩ : ∃ f0, s.fuel = f0 + 1 := ⟨s.fuel - 1, by omega⟩
  refine ⟨newIoData.merge (newIoData.add 0),
    ⟨st, ⟨s, tokenizerWaitingForToken, tk, ln, A⟩, args, ea, newIoData.merge (newIoData.add 0)⟩, ?_⟩
  simp only [parser.next, hf0]
  exact prs_pass_error U st _ args ea newIoData _ _ _ (tkz_next_eof s h _ tk ln A) f0

theorem prs_calls_succ (U : List Nat → List Nat) (n : Nat) (p : parser) (r : parserResult)
    (h : parser.next U p = Result.done r) :
    parser.calls U (n + 1) p = (r.cmd, r.err) :: parser.calls U n r.p := by
  simp only [parser.calls, h]

theorem prs_calls_lines (U : List Nat → List Nat) (lines : List textLine) (cmds : List command)
    (hl : List.Forall₂ (fun l c => l.ok 4096 ∧ lineCommand l.words c) lines cmds) :
    ∀ (s : source) (tk : Option token) (ln : Nat) (ea : Int) (pio : ioData),
      s.Holds (lines.map textLine.bytes).flatten →
      parser.calls U (cmds.length + 1)
          ⟨parserInit, ⟨s, tokenizerWaitingForToken, tk, ln, maxTokenSize⟩, [], ea, pio⟩ =
        cmds.map (fun c => (some c, none)) ++ [(none, some (newReadingError GoError.EOF))] := by
  induction hl with
  | nil =>
    intro s tk ln ea pio h
    obtain ⟨io, p2, hn⟩ := prs_next_eof U s (by simpa using h) tk ln maxTokenSize [] ea pio parserInit
    rw [show ([] : List command).length + 1 = 0 + 1 from rfl, prs_calls_succ U _ _ _ hn]
    rfl
  | @cons l c lines cmds hlc _ ih =>
    intro s tk ln ea pio h
    obtain ⟨hok, hcmd⟩ := hlc
    obtain ⟨s2, tk2, ln2, pio2, h2, hnext⟩ := prs_next_line U (lines.map textLine.bytes).flatten l
      s tk ln ea pio hok (by simpa using h)
    rw [prs_parseArgs_lineCommand U l.words c hcmd] at hnext
    have := ih s2 tk2 ln2 ea pio2 h2
    rw [show (c :: cmds).length + 1 = (cmds.length + 1) + 1 from rfl,
      prs_calls_succ U _ _ _ hnext, this]
    rfl

/-- Line-form parsing of lines of identifiers that start in the first column: for every sequence of
well-formed line-form commands (SET key value, SET key value EXP n, GET key, RM key and
the commands without argument), with the command name and the EXP keyword in any mix of
upper and lower case, the arguments separated by non-empty runs of spaces or tabs, and
each line ended by `\n` or `\r\n`, successive calls of `parser.next()` on a fresh parser
return exactly the corresponding commands in order and then an error whose cause is
EOF. -/
theorem line_form_parsing (U : List Nat → List Nat) (lines : List textLine) (cmds : List command)
    (B : Nat) (chunks : List (List Nat))
    (hl : List.Forall₂ (fun l c => l.ok 4096 ∧ lineCommand l.words c) lines cmds)
    (hB : 0 < B) (hch : ∀ c, c ∈ chunks → c ≠ [])
    (hbytes : chunks.flatten = (lines.map textLine.bytes).flatten) :
    parser.calls U (cmds.length + 1) (newParser (newBufferedSource ⟨chunks⟩ B)) =
      cmds.map (fun c => (some c, none)) ++ [(none, some (newReadingError GoError.EOF))] := by
  have hsrc := source.holds_new chunks B hB hch
  rw [hbytes] at hsrc
  rw [newParser_eq]
  exact prs_calls_lines U lines cmds hl _ none 0 0 newIoData hsrc

/-- An instance: the two lines `GET k` and `set k v exp 360`, the second with tabs
among its separators and ended by `\r\n`, read through a buffer of 8 bytes. -/
theorem line_form_parsing_witness :
    parser.calls (fun s => s)
        (([⟨commandGet, [107], [], 0⟩, ⟨commandSet, [107], [118], 360⟩] : List command).length + 1)
        (newParser (newBufferedSource
          ⟨[[71, 69, 84, 32, 107, 10],
            [115, 101, 116, 32, 9, 107, 32, 118, 9, 101, 120, 112, 32, 51, 54, 48, 13, 10]]⟩ 8)) =
      ([⟨commandGet, [107], [], 0⟩, ⟨commandSet, [107], [118], 360⟩] : List command).map
          (fun c => (some c, none)) ++
        [(none, some (newReadingError GoError.EOF))] :=
  line_form_parsing (fun s => s)
    [⟨[71, 69, 84], [([32], [107])], [10]⟩,
      ⟨[115, 101, 116], [([32, 9], [107]), ([32], [118]), ([9], [101, 120, 112]), ([32], [51, 54, 48])],
        [13, 10]⟩]
    [⟨commandGet, [107], [], 0⟩, ⟨commandSet, [107], [118], 360⟩] 8
    [[71, 69, 84, 32, 107, 10],
      [115, 101, 116, 32, 9, 107, 32, 118, 9, 101, 120, 112, 32, 51, 54, 48, 13, 10]]
    (List.Forall₂.cons
      ⟨by decide, lineCommand.keyed [71, 69, 84] [107] commandGet (Or.inl rfl) (by unfold caseVariant; decide)⟩
      (List.Forall₂.cons
        ⟨by decide, lineCommand.setExp [115, 101, 116] [107] [118] [101, 120, 112] [51, 54, 48] 360
          (by unfold caseVariant; decide) (by unfold caseVariant; decide) (by decide)⟩
        List.Forall₂.nil))
    (by decide) (by decide) (by decide)

/-! ## Line form and array form agree -/

theorem prs_getArg_data (st : parserState) (tz : tokenizer) (a : List token) (ea : Int)
    (pio : ioData) (i : Nat) :
    parser.getArg ⟨st, tz, a, ea, pio⟩ i = (a.map token.data)[i]? := by
  simp only [parser.getArg, List.getElem?_map, token.value]
  cases a[i]? <;> rfl

theorem prs_getArgData_data (st : parserState) (tz : tokenizer) (a : List token) (ea : Int)
    (pio : ioData) (i : Nat) :
    parser.getArgData ⟨st, tz, a, ea, pio⟩ i = (a.map token.data)[i]? := by
  simp only [parser.getArgData, List.getElem?_map, token.getData]
  cases a[i]? <;> rfl

/-- Command and error of `parseArgs` depend on the arguments only through their bytes. -/
theorem prs_parseArgs_congr (U : List Nat → List Nat) (st st2 : parserState) (tz tz2 : tokenizer)
    (ea ea2 : Int) (pio pio2 : ioData) (a b : List token)
    (h : a.map token.data = b.map token.data) :
    (parser.parseArgs U ⟨st, tz, a, ea, pio⟩).map (fun r => (r.cmd, r.err)) =
      (parser.parseArgs U ⟨st2, tz2, b, ea2, pio2⟩).map (fun r => (r.cmd, r.err)) := by
  have hlen : a.length = b.length := by simpa using congrArg List.length h
  simp only [parser.parseArgs, parser.readCommand, prs_getArg_data, prs_getArgData_data, h, hlen,
    parser.invalidCommand]
  generalize (List.map token.data b)[0]? = o0
  generalize (List.map token.data b)[1]? = o1
  generalize (List.map token.data b)[2]? = o2
  generalize (List.map token.data b)[3]? = o3
  generalize (List.map token.data b)[4]? = o4
  cases o0 with
  | none => rfl
  | some a0 =>
    simp only []
    generalize List.find? (fun code => decide (toUpper U a0 = code.str)) commandCodes = fr
    cases fr with
    | none => rfl
    | some code =>
      cases code <;> simp only [] <;> (repeat' split) <;>
        first
          | rfl
          | (cases o1 <;> cases o2 <;> cases o3 <;> cases o4 <;> simp <;> (repeat' split) <;> simp_all)

/-- For every non-empty list of valid identifiers shorter than the cap, the line form
and the array form give the same outcome of `parser.next`: the same command, the same
error, or a panic in both. -/
theorem line_and_array_form_agree (U : List Nat → List Nat) (a0 : List Nat) (rest : List (List Nat))
    (B1 B2 : Nat) (chunks1 chunks2 : List (List Nat))
    (hv : ∀ a, a ∈ a0 :: rest → validIdentifier a ∧ a.length < 4096)
    (hlen : (a0 :: rest).length < 9223372036854775808)
    (hB1 : 0 < B1) (hB2 : 0 < B2)
    (hch1 : ∀ c, c ∈ chunks1 → c ≠ []) (hch2 : ∀ c, c ∈ chunks2 → c ≠ [])
    (hb1 : chunks1.flatten = (lineForm a0 rest).bytes)
    (hb2 : chunks2.flatten = encodeArray (a0 :: rest)) :
    parserOutcome (parser.next U (newParser (newBufferedSource ⟨chunks1⟩ B1))) =
      parserOutcome (parser.next U (newParser (newBufferedSource ⟨chunks2⟩ B2))) := by
  have hsrc1 := source.holds_new chunks1 B1 hB1 hch1
  have hsrc2 := source.holds_new chunks2 B2 hB2 hch2
  rw [hb1] at hsrc1
  rw [hb2] at hsrc2
  have hok : (lineForm a0 rest).ok 4096 := by
    refine ⟨?_, ?_, Or.inl rfl⟩
    · have := hv a0 (List.mem_cons_self _ _)
      exact ⟨this.1, by simp only [lineForm]; omega⟩
    · intro p hp
      simp only [lineForm, List.mem_map] at hp
      obtain ⟨a, ha, rfl⟩ := hp
      have := hv a (List.mem_cons_of_mem _ ha)
      exact ⟨by simp, (show blanks [32] by decide), this.1, by simp only; omega⟩
  obtain ⟨s1, tk1, ln1, pio1, _, hn1⟩ := prs_next_line U [] (lineForm a0 rest)
    (newBufferedSource ⟨chunks1⟩ B1) none 0 0 newIoData hok (by simpa using hsrc1)
  obtain ⟨s2, tk2, ln2, pio2, _, hn2⟩ := prs_next_array U [] maxTokenSize (a0 :: rest)
    (newBufferedSource ⟨chunks2⟩ B2) none 0 0 newIoData (by simp) hlen
    (by
      intro a ha
      have := (hv a ha).2
      constructor
      · show (a.length : Int) < 1024 * 4
        omega
      · omega)
    (by simpa using hsrc2)
  rw [newParser_eq, hn1, newParser_eq, hn2]
  have hd : ((lineForm a0 rest).words.map identToken).map token.data =
      ((a0 :: rest).map binToken).map token.data := by
    simp [textLine.words, lineForm, identToken, binToken, List.map_map, Function.comp_def]
  have hc := prs_parseArgs_congr U parserInit parserInit
    ⟨s1, tokenizerWaitingForToken, tk1, ln1, maxTokenSize⟩
    ⟨s2, tokenizerWaitingForToken, tk2, ln2, maxTokenSize⟩ 0 ((a0 :: rest).length : Int) pio1 pio2
    _ _ hd
  revert hc
  cases parser.parseArgs U ⟨parserInit, ⟨s1, tokenizerWaitingForToken, tk1, ln1, maxTokenSize⟩,
      (lineForm a0 rest).words.map identToken, 0, pio1⟩ <;>
    cases parser.parseArgs U ⟨parserInit, ⟨s2, tokenizerWaitingForToken, tk2, ln2, maxTokenSize⟩,
      (a0 :: rest).map binToken, ((a0 :: rest).length : Int), pio2⟩ <;>
    intro hc <;> simp [parser.finish, parserOutcome] at hc ⊢
  exact hc

/-! ## Dirty flag -/

/-- C11. After `set`, `rm` and `rmall` the keyspace is dirty, whatever was stored before
and whether or not the call changed anything; `washClean` clears the flag and keeps the
items and the transient keys; and the receiver after `get`, `getKeys`, `count`,
`getItens` or `isDirty` is the receiver before. -/
theorem dirty_tracking (hm : hashmap) (now : Int) :
    (∀ k v e, (hm.after now (.set k v e)).isDirty = true) ∧
    (∀ k, (hm.after now (.rm k)).isDirty = true) ∧
    (hm.after now .rmall).isDirty = true ∧
    (hm.after now .washClean).isDirty = false ∧
    (hm.after now .washClean).data = hm.data ∧
    (hm.after now .washClean).transientKeys = hm.transientKeys ∧
    (hm.after now .washClean).getItens = hm.getItens ∧
    (∀ k, hm.after now (.get k) = hm) ∧
    hm.after now .getKeys = hm ∧ hm.after now .count = hm ∧ hm.after now .getItens = hm := by
  refine ⟨fun _ _ _ => rfl, fun _ => rfl, rfl, rfl, rfl, rfl, rfl, fun _ => rfl, rfl, rfl, rfl⟩

/-! ## Flushing a sink into a writer that takes everything -/

theorem outputStream.Write_reliable (o : outputStream) (b : List Nat) (h : o.reliable) :
    ∃ o2, o.Write b = (b.length, none, o2) ∧ o2.reliable ∧ o2.bytes = o.bytes ++ b := by
  cases hf : o.failures with
  | nil =>
    refine ⟨{ o with written := o.written ++ [b] }, ?_, ?_, ?_⟩
    · simp [outputStream.Write, hf]
    · intro x hx
      exact h x hx
    · simp [outputStream.bytes]
  | cons x rest =>
    have hx : x = none := h x (by simp [hf])
    subst hx
    refine ⟨{ written := o.written ++ [b], failures := rest }, ?_, ?_, ?_⟩
    · simp [outputStream.Write, hf]
    · intro y hy
      exact h y (by simp [hf, hy])
    · simp [outputStream.bytes]

theorem sink_flush_reliable (s : sink) (h : s.output.reliable) :
    ∃ d s2, s.flush = ((d, none), s2) ∧ s2.buffer = [] ∧ s2.threshold = s.threshold ∧
      s2.output.reliable ∧ s2.output.bytes = s.output.bytes ++ s.buffer := by
  by_cases he : s.buffer = []
  · refine ⟨newIoData, s, ?_, he, rfl, h, ?_⟩
    · simp [sink.flush, sink.empty, he]
    · simp [he]
  · obtain ⟨o2, hw, hr2, hb2⟩ := outputStream.Write_reliable s.output s.buffer h
    refine ⟨newIoData.add s.buffer.length, { s with output := o2 }.resetBuffer, ?_, rfl, rfl, hr2, hb2⟩
    have hl : ¬ s.buffer.length = 0 := by
      intro h0
      exact he (List.length_eq_zero.mp h0)
    simp [sink.flush, sink.empty, hl, hw]

theorem sink_write_output (chunks : List (List Nat)) : ∀ s : sink,
    (s.write chunks).output = s.output ∧ (s.write chunks).threshold = s.threshold := by
  induction chunks with
  | nil => intro s; simp [sink.write]
  | cons c cs ih =>
    intro s
    have := ih { s with buffer := s.buffer ++ c }
    simp only [sink.write, List.foldl_cons] at this ⊢
    exact this

theorem sink_writeAsProtocolString_output (s : sink) (d : List Nat) :
    (s.writeAsProtocolString d).output = s.output ∧
      (s.writeAsProtocolString d).threshold = s.threshold := by
  simp only [sink.writeAsProtocolString]
  exact sink_write_output _ s

theorem sink_writeStrings_output (ps : List (List Nat)) : ∀ s : sink,
    (ps.foldl (fun acc chunk => acc.writeAsProtocolString chunk) s).output = s.output ∧
      (ps.foldl (fun acc chunk => acc.writeAsProtocolString chunk) s).threshold = s.threshold := by
  induction ps with
  | nil => intro s; simp
  | cons p ps ih =>
    intro s
    simp only [List.foldl_cons]
    rw [(ih _).1, (ih _).2]
    exact sink_writeAsProtocolString_output s p

theorem sink_writeArray_output (s : sink) (ps : List (List Nat)) :
    (s.writeArrayOfProtocolStrings ps).output = s.output ∧
      (s.writeArrayOfProtocolStrings ps).threshold = s.threshold := by
  simp only [sink.writeArrayOfProtocolStrings]
  rw [(sink_writeStrings_output ps _).1, (sink_writeStrings_output ps _).2]
  exact sink_write_output _ s

/-- The loop of `syncResponse.write` over a writer that takes everything: what is in the
buffer and the arrays of the items left all reach the writer, whatever the threshold. -/
theorem sync_writeItems_reliable (now : Int) (items : List item) : ∀ (s : sink) (total : ioData),
    s.output.reliable →
    ∃ d s2, syncResponse.writeItems now items s total = ((d, none), s2) ∧ s2.buffer = [] ∧
      s2.threshold = s.threshold ∧ s2.output.reliable ∧
      s2.output.bytes = s.output.bytes ++ s.buffer ++
        (items.map (fun it => encodeArray (it.genSetCommandPieces now))).flatten := by
  induction items with
  | nil =>
    intro s total h
    obtain ⟨d, s2, hf, hb, ht, hr, hbytes⟩ := sink_flush_reliable s h
    refine ⟨total.merge d, s2, ?_, hb, ht, hr, ?_⟩
    · simp [syncResponse.writeItems, hf]
    · simp [hbytes]
  | cons it rest ih =>
    intro s total h
    have ho := sink_writeArray_output s (it.genSetCommandPieces now)
    have hbuf := sink_writeArray_buffer s (it.genSetCommandPieces now)
    have h1 : (s.writeArrayOfProtocolStrings (it.genSetCommandPieces now)).output.reliable := by
      rw [ho.1]; exact h
    by_cases hfull : (s.writeArrayOfProtocolStrings (it.genSetCommandPieces now)).full = true
    · obtain ⟨d, s2, hf, hb, ht, hr, hbytes⟩ := sink_flush_reliable _ h1
      obtain ⟨d3, s3, hl, hb3, ht3, hr3, hbytes3⟩ := ih s2 (total.merge d) hr
      refine ⟨d3, s3, ?_, hb3, ?_, hr3, ?_⟩
      · simp [syncResponse.writeItems, hfull, hf, hl]
      · rw [ht3, ht, ho.2]
      · rw [hbytes3, hbytes, hb, ho.1, hbuf]
        simp
    · obtain ⟨d3, s3, hl, hb3, ht3, hr3, hbytes3⟩ := ih _ total h1
      refine ⟨d3, s3, ?_, hb3, ?_, hr3, ?_⟩
      · simp [syncResponse.writeItems, hfull, hl]
      · rw [ht3, ho.2]
      · rw [hbytes3, ho.1, hbuf]
        simp

/-- C15. Writing a `syncResponse` of the items `items` through a sink with an empty
buffer and any threshold, into a writer whose every `Write` succeeds, returns no error,
leaves the buffer empty, and the bytes the writer has taken in all its calls are
`*<n>\r\n` followed by the array form of the SET pieces of every item in list order; the
pieces of an item are SET, key and value, with `EXP` and the time to live at that second
appended when the item is transient. -/
theorem sync_stream_content (items : List item) (now : Int) (s : sink) (hb : s.buffer = [])
    (hr : s.output.reliable) :
    (∃ d s2, (response.syncResponse items).write s now = some ((d, none), s2) ∧
      s2.buffer = [] ∧
      s2.output.bytes = s.output.bytes ++ (42 :: (natToDec items.length ++ [13, 10])) ++
        (items.map (fun it => encodeArray (it.genSetCommandPieces now))).flatten) ∧
    ∀ it, it ∈ items → it.genSetCommandPieces now =
      if it.expiration = 0 then [commandSet.str, it.key, it.value]
      else [commandSet.str, it.key, it.value, expKeyword, itoa (it.getTimeToLive now)] := by
  constructor
  · have ho := sink_write_output [[asterisk] ++ itoa items.length ++ [carryReturn, lineFeed]] s
    have hbuf := sink_write_buffer [[asterisk] ++ itoa items.length ++ [carryReturn, lineFeed]] s
    have h1 : (s.writeAsRawBytes ([asterisk] ++ itoa items.length ++ [carryReturn, lineFeed])).output.reliable := by
      simp only [sink.writeAsRawBytes]
      rw [ho.1]; exact hr
    obtain ⟨d, s2, hl, hb2, _, _, hbytes⟩ := sync_writeItems_reliable now items _ newIoData h1
    refine ⟨d, s2, ?_, hb2, ?_⟩
    · simp only [response.write, syncResponse.write, hl]
    · rw [hbytes]
      simp only [sink.writeAsRawBytes]
      rw [ho.1, hbuf, hb]
      simp [itoa_natCast, asterisk, carryReturn, lineFeed]
  · intro it _
    by_cases he : it.expiration = 0
    · simp [item.genSetCommandPieces, item.isTransient, he, item.getKey, item.getValue]
    · simp [item.genSetCommandPieces, item.isTransient, he, item.getKey, item.getValue]

/-- Witness of C15: a transient and a permanent item through a sink of threshold 1. -/
theorem sync_stream_content_witness :
    (newSink ⟨[], []⟩ 1).buffer = [] ∧ (newSink ⟨[], []⟩ 1).output.reliable ∧
    ((∃ d s2, (response.syncResponse [⟨[107], [118], 90, 10⟩, ⟨[97], [98], 0, 10⟩]).write
        (newSink ⟨[], []⟩ 1) 40 = some ((d, none), s2) ∧
      s2.buffer = [] ∧
      s2.output.bytes = (newSink ⟨[], []⟩ 1).output.bytes ++ (42 :: (natToDec 2 ++ [13, 10])) ++
        (([⟨[107], [118], 90, 10⟩, ⟨[97], [98], 0, 10⟩] : List item).map
          (fun it => encodeArray (it.genSetCommandPieces 40))).flatten) ∧
    ∀ it, it ∈ ([⟨[107], [118], 90, 10⟩, ⟨[97], [98], 0, 10⟩] : List item) →
      it.genSetCommandPieces 40 =
        if it.expiration = 0 then [commandSet.str, it.key, it.value]
        else [commandSet.str, it.key, it.value, expKeyword, itoa (it.getTimeToLive 40)]) :=
  ⟨rfl, by decide,
    sync_stream_content [⟨[107], [118], 90, 10⟩, ⟨[97], [98], 0, 10⟩] 40 (newSink ⟨[], []⟩ 1) rfl
      (by decide)⟩

/-! ## The GET runner -/

theorem itemMap.getItem_isSome_iff (m : itemMap) (k : List Nat) :
    (itemMap.getItem m k).isSome = true ↔ k ∈ m.map (fun e => e.1) := by
  induction m with
  | nil => simp [itemMap.getItem]
  | cons e rest ih =>
    by_cases h : e.1 = k
    · simp [itemMap.getItem, h]
    · have h2 : ¬ k = e.1 := fun hh => h hh.symm
      simp [itemMap.getItem, h, h2, ih]

theorem sink_flushWrite_reliable (s : sink) (data : List Nat) (hb : s.buffer = [])
    (hr : s.output.reliable) :
    ∃ d s2, s.flushWrite [data] = ((d, none), s2) ∧ s2.buffer = [] ∧
      s2.output.bytes = s.output.bytes ++ data := by
  have ho := sink_write_output [data] s
  have h1 : (s.write [data]).output.reliable := by rw [ho.1]; exact hr
  obtain ⟨d, s2, hf, hb2, _, _, hbytes⟩ := sink_flush_reliable _ h1
  refine ⟨d, s2, hf, hb2, ?_⟩
  rw [hbytes, ho.1, sink_write_buffer, hb]
  simp

theorem sink_flushAsProtocolString_reliable (s : sink) (data : List Nat) (hb : s.buffer = [])
    (hr : s.output.reliable) :
    ∃ d s2, s.flushAsProtocolString data = ((d, none), s2) ∧ s2.buffer = [] ∧
      s2.output.bytes = s.output.bytes ++ encodeString data := by
  have ho := sink_writeAsProtocolString_output s data
  have h1 : (s.writeAsProtocolString data).output.reliable := by rw [ho.1]; exact hr
  obtain ⟨d, s2, hf, hb2, _, _, hbytes⟩ := sink_flush_reliable _ h1
  refine ⟨d, s2, hf, hb2, ?_⟩
  rw [hbytes, ho.1, sink_writeAsProtocolString_buffer, hb]
  simp

/-- C12. The GET runner returns the server as it was. A key is found by `get` exactly
when it is among the keys `getKeys` lists. For a stored key the response is the
non-final string response of the stored value, which a sink with an empty buffer sends
to a writer that takes everything as `$<len>\r\n<value>\r\n`; right after the SET
runner for the same key that value is the value of the SET. For a key that is not
stored the response is the non-final raw response `-ERR Key "<k>" not found\r\n`, and
these are the bytes sent. -/
theorem get_reflects_keyspace (c : command) (server : AetherServer) :
    (runGet c server).2 = server ∧
    ((server.hm.get c.key).2 = true ↔ c.key ∈ server.hm.getKeys) ∧
    (∀ i, server.hm.get c.key = (some i, true) →
      (runGet c server).1 = response.stringResponse i.value ∧
      (runGet c server).1.isFinal = false ∧
      ∀ (s : sink) (now : Int), s.buffer = [] → s.output.reliable →
        ∃ d s2, (runGet c server).1.write s now = some ((d, none), s2) ∧
          s2.output.bytes =
            s.output.bytes ++ ([36] ++ natToDec i.value.length ++ [13, 10] ++ i.value ++ [13, 10])) ∧
    (∀ (cs : command) (now : Int), cs.key = c.key →
      (runGet c (runSet cs server now).2).1 = response.stringResponse cs.value) ∧
    (c.key ∉ server.hm.getKeys →
      (runGet c server).1 = response.rawBytesResponse
        (bytesOf "-ERR Key \"" ++ c.key ++ bytesOf "\" not found\r\n") false ∧
      (runGet c server).1.isFinal = false ∧
      ∀ (s : sink) (now : Int), s.buffer = [] → s.output.reliable →
        ∃ d s2, (runGet c server).1.write s now = some ((d, none), s2) ∧
          s2.output.bytes =
            s.output.bytes ++ (bytesOf "-ERR Key \"" ++ c.key ++ bytesOf "\" not found\r\n")) := by
  have e1 : bytesOf "-ERR Key \"" = [45, 69, 82, 82, 32, 75, 101, 121, 32, 34] := by decide
  have e2 : bytesOf "\" not found\r\n" = [34, 32, 110, 111, 116, 32, 102, 111, 117, 110, 100, 13, 10] := by
    decide
  have e3 : bytesOf " not found" = [32, 110, 111, 116, 32, 102, 111, 117, 110, 100] := by decide
  refine ⟨?_, ?_, ?_, ?_, ?_⟩
  · unfold runGet
    split <;> rfl
  · simp only [hashmap.get, hashmap.getKeys]
    exact itemMap.getItem_isSome_iff _ _
  · intro i hi
    have hres : (runGet c server).1 = response.stringResponse i.value := by
      simp [runGet, hi, newStringResponse, item.getValue]
    refine ⟨hres, by rw [hres]; rfl, ?_⟩
    intro s now hb hr
    obtain ⟨d, s2, hf, _, hbytes⟩ := sink_flushAsProtocolString_reliable s i.value hb hr
    refine ⟨d, s2, ?_, ?_⟩
    · rw [hres]; simp [response.write, hf]
    · rw [hbytes]; simp [encodeString]
  · intro cs now hk
    simp [runGet, runSet, hashmap.get, hashmap.set, hk, itemMap.getItem_put_self, newStringResponse,
      item.getValue]
  · intro hk
    have hnone : server.hm.data.getItem c.key = none := by
      cases hg : server.hm.data.getItem c.key with
      | none => rfl
      | some x =>
        exfalso
        apply hk
        simp only [hashmap.getKeys]
        exact (itemMap.getItem_isSome_iff _ _).mp (by simp [hg])
    have hres : (runGet c server).1 = response.rawBytesResponse
        (bytesOf "-ERR Key \"" ++ c.key ++ bytesOf "\" not found\r\n") false := by
      simp [runGet, hashmap.get, hnone, newErrorResponse, newRawBytesResponse, e1, e2, e3,
        carryReturn, lineFeed]
    refine ⟨hres, by rw [hres]; rfl, ?_⟩
    intro s now hb hr
    obtain ⟨d, s2, hf, _, hbytes⟩ := sink_flushWrite_reliable s
      (bytesOf "-ERR Key \"" ++ c.key ++ bytesOf "\" not found\r\n") hb hr
    refine ⟨d, s2, ?_, hbytes⟩
    rw [hres]; simp only [response.write, hf]

/-! ## More passes of the tokenizer loop: errors, comments, runs of carriage returns -/

/-- After `\r`, any byte other than `\n` is the missing line feed error. -/
theorem tkz_pass_eol_missing (s : source) (c : Nat) (r : List Nat) (h : s.Holds (c :: r))
    (hc : c ≠ 10) (tk : Option token) (ln : Nat) (A : Int) (f : Nat) (io : ioData) :
    tokenizer.nextLoop (f + 1) ⟨s, tokenizerWaitingEol, tk, ln, A⟩ io =
      Result.done ⟨none, io.add s.peekBytes,
        some (newTokenizationError
          (bytesOf "Missing line feed after carry return to proper end a line")),
        ⟨s.afterPeek, tokenizerWaitingEol, tk, ln, A⟩⟩ := by
  rw [tkz_nextLoop_of_holds s c r h]
  simp [tokenizer.dispatch, tokenizer.caseWaitingEol, tokenizer.missingLineFeed, hc]

/-- Reading an identifier, a quote is the unexpected quote error. -/
theorem tkz_pass_ident_quote (s : source) (c : Nat) (r : List Nat) (h : s.Holds (c :: r))
    (hc : c = 34 ∨ c = 39) (tk : Option token) (ln : Nat) (A : Int) (f : Nat) (io : ioData) :
    tokenizer.nextLoop (f + 1) ⟨s, tokenizerReadingIdentifier, tk, ln, A⟩ io =
      Result.done ⟨none, io.add s.peekBytes,
        some (newTokenizationError (bytesOf "Unexpected quote")),
        ⟨s.afterPeek, tokenizerReadingIdentifier, tk, ln, A⟩⟩ := by
  rw [tkz_nextLoop_of_holds s c r h]
  rcases hc with hc | hc <;> subst hc <;>
    simp [tokenizer.dispatch, tokenizer.caseReadingIdentifier, tokenizer.unexpectedQuote]

/-- Reading an identifier, a byte that is neither printable nor a blank nor an end of
line is the illegal char error. -/
theorem tkz_pass_ident_illegal (s : source) (c : Nat) (r : List Nat) (h : s.Holds (c :: r))
    (hc : ¬ (32 < c ∧ c < 127)) (hb : c ≠ 13 ∧ c ≠ 10 ∧ c ≠ 32 ∧ c ≠ 9)
    (tk : Option token) (ln : Nat) (A : Int) (f : Nat) (io : ioData) :
    tokenizer.nextLoop (f + 1) ⟨s, tokenizerReadingIdentifier, tk, ln, A⟩ io =
      Result.done ⟨none, io.add s.peekBytes,
        some (newTokenizationError (bytesOf "Illegal char " ++ natToDec c)),
        ⟨s.afterPeek, tokenizerReadingIdentifier, tk, ln, A⟩⟩ := by
  rw [tkz_nextLoop_of_holds s c r h]
  obtain ⟨b1, b2, b3, b4⟩ := hb
  have e1 : c ≠ 34 := by omega
  have e2 : c ≠ 39 := by omega
  have e5 : realPrintable c = false := by
    simp only [realPrintable, space, del, Bool.and_eq_false_iff, decide_eq_false_iff_not]; omega
  simp [tokenizer.dispatch, tokenizer.caseReadingIdentifier, tokenizer.illegalChar,
    b1, b2, b3, b4, e1, e2, e5]

/-- Waiting for a token, a byte that is neither printable nor a blank nor an end of
line is the illegal char error. -/
theorem tkz_pass_illegal_start (s : source) (c : Nat) (r : List Nat) (h : s.Holds (c :: r))
    (hc : ¬ (32 < c ∧ c < 127)) (hb : c ≠ 13 ∧ c ≠ 10 ∧ c ≠ 32 ∧ c ≠ 9)
    (tk : Option token) (ln : Nat) (A : Int) (f : Nat) (io : ioData) :
    tokenizer.nextLoop (f + 1) ⟨s, tokenizerWaitingForToken, tk, ln, A⟩ io =
      Result.done ⟨none, io.add s.peekBytes,
        some (newTokenizationError (bytesOf "Illegal char " ++ natToDec c)),
        ⟨s.afterPeek, tokenizerWaitingForToken, tk, ln, A⟩⟩ := by
  rw [tkz_nextLoop_of_holds s c r h]
  obtain ⟨b1, b2, b3, b4⟩ := hb
  have e1 : c ≠ 34 := by omega
  have e2 : c ≠ 39 := by omega
  have e3 : c ≠ 36 := by omega
  have e4 : c ≠ 42 := by omega
  have e6 : c ≠ 35 := by omega
  have e5 : realPrintable c = false := by
    simp only [realPrintable, space, del, Bool.and_eq_false_iff, decide_eq_false_iff_not]; omega
  simp [tokenizer.dispatch, tokenizer.caseWaitingForToken, tokenizer.illegalChar,
    b1, b2, b3, b4, e1, e2, e3, e4, e5, e6]

/-- Waiting for a token, `#` opens a COMMENT. -/
theorem tkz_pass_number_sign (s : source) (r : List Nat) (h : s.Holds (35 :: r))
    (tk : Option token) (ln : Nat) (A : Int) (f : Nat) (io : ioData) :
    tokenizer.nextLoop (f + 1) ⟨s, tokenizerWaitingForToken, tk, ln, A⟩ io =
      tokenizer.nextLoop f ⟨s.step, tokenizerReadingComment, some ⟨tokenComment, [], 0, 0⟩, ln, A⟩
        (io.add s.peekBytes) := by
  rw [tkz_nextLoop_of_holds s 35 r h]
  simp [tokenizer.dispatch, tokenizer.caseWaitingForToken, tokenizer.new,
    tkz_consume_of_holds s _ r h]

/-- Reading a comment, a byte that does not end the line is eaten. -/
theorem tkz_pass_comment_byte (s : source) (c : Nat) (r : List Nat) (h : s.Holds (c :: r))
    (hc : c ≠ 13 ∧ c ≠ 10) (tk : Option token) (ln : Nat) (A : Int) (f : Nat) (io : ioData) :
    tokenizer.nextLoop (f + 1) ⟨s, tokenizerReadingComment, tk, ln, A⟩ io =
      tokenizer.nextLoop f ⟨s.step, tokenizerReadingComment, tk, ln, A⟩ (io.add s.peekBytes) := by
  rw [tkz_nextLoop_of_holds s c r h]
  simp [tokenizer.dispatch, tokenizer.caseReadingComment, tkz_consume_of_holds s _ r h, hc.1, hc.2]

/-- Reading a comment, `\r` or `\n` yields the COMMENT token and is left in the
source. -/
theorem tkz_pass_comment_end (s : source) (c : Nat) (r : List Nat) (h : s.Holds (c :: r))
    (hc : c = 13 ∨ c = 10) (ln : Nat) (A : Int) (f : Nat) (io : ioData) :
    tokenizer.nextLoop (f + 1) ⟨s, tokenizerReadingComment, some ⟨tokenComment, [], 0, 0⟩, ln, A⟩ io =
      Result.done ⟨some ⟨tokenComment, [], 0, 0⟩, io.add s.peekBytes, none,
        ⟨s.afterPeek, tokenizerWaitingForToken, some ⟨tokenComment, [], 0, 0⟩, ln, A⟩⟩ := by
  rw [tkz_nextLoop_of_holds s c r h]
  simp [tokenizer.dispatch, tokenizer.caseReadingComment, tokenizer.yield, token.is, hc]

theorem tkz_run_comment (r : List Nat) (tk : Option token) (ln : Nat) (A : Int) (l : List Nat) :
    ∀ (s : source) (io : ioData), s.Holds (l ++ r) → (∀ x, x ∈ l → x ≠ 13 ∧ x ≠ 10) →
      ∃ s2 io2, s2.Holds r ∧ ∀ f, tokenizer.nextLoop (f + l.length) ⟨s, tokenizerReadingComment, tk, ln, A⟩ io =
        tokenizer.nextLoop f ⟨s2, tokenizerReadingComment, tk, ln, A⟩ io2 := by
  induction l with
  | nil => intro s io h _; exact ⟨s, io, h, fun f => rfl⟩
  | cons c l ih =>
    intro s io h hb
    obtain ⟨s2, io2, h2, hrun⟩ := ih s.step (io.add s.peekBytes) (source.step_holds s c _ h)
      (fun x hx => hb x (List.mem_cons_of_mem _ hx))
    refine ⟨s2, io2, h2, fun f => ?_⟩
    have e : f + (c :: l).length = (f + l.length) + 1 := by simp only [List.length_cons]; omega
    rw [e, tkz_pass_comment_byte s c _ h (hb c (List.mem_cons_self _ _)), hrun]

theorem tkz_run_sep_crs (r : List Nat) (tk : Option token) (ln : Nat) (A : Int) (k : Nat) :
    ∀ (s : source) (io : ioData), s.Holds (List.replicate k 13 ++ r) →
      ∃ s2 io2, s2.Holds r ∧ ∀ f,
        tokenizer.nextLoop (f + k) ⟨s, tokenizerReadingBinStringSeparator, tk, ln, A⟩ io =
        tokenizer.nextLoop f ⟨s2, tokenizerReadingBinStringSeparator, tk, ln, A⟩ io2 := by
  induction k with
  | zero => intro s io h; exact ⟨s, io, by simpa using h, fun f => rfl⟩
  | succ k ih =>
    intro s io h
    have h0 : s.Holds (13 :: (List.replicate k 13 ++ r)) := by
      simpa [List.replicate_succ] using h
    obtain ⟨s2, io2, h2, hrun⟩ := ih s.step (io.add s.peekBytes) (source.step_holds s 13 _ h0)
    refine ⟨s2, io2, h2, fun f => ?_⟩
    have e : f + (k + 1) = (f + k) + 1 := by omega
    rw [e, tkz_pass_sep_cr s _ h0, hrun]

theorem tkz_run_eobs_crs (r : List Nat) (tk : Option token) (ln : Nat) (A : Int) (k : Nat) :
    ∀ (s : source) (io : ioData), s.Holds (List.replicate k 13 ++ r) →
      ∃ s2 io2, s2.Holds r ∧ ∀ f,
        tokenizer.nextLoop (f + k) ⟨s, tokenizerWaitingEobs, tk, ln, A⟩ io =
        tokenizer.nextLoop f ⟨s2, tokenizerWaitingEobs, tk, ln, A⟩ io2 := by
  induction k with
  | zero => intro s io h; exact ⟨s, io, by simpa using h, fun f => rfl⟩
  | succ k ih =>
    intro s io h
    have h0 : s.Holds (13 :: (List.replicate k 13 ++ r)) := by
      simpa [List.replicate_succ] using h
    obtain ⟨s2, io2, h2, hrun⟩ := ih s.step (io.add s.peekBytes) (source.step_holds s 13 _ h0)
    refine ⟨s2, io2, h2, fun f => ?_⟩
    have e : f + (k + 1) = (f + k) + 1 := by omega
    rw [e, tkz_pass_eobs_cr s _ h0, hrun]

/-! ## More tokens -/

theorem replicate_cr_lf_head (k : Nat) (r : List Nat) :
    ∃ t rest, List.replicate k 13 ++ 10 :: r = t :: rest ∧ (t = 13 ∨ t = 10) := by
  cases k with
  | zero => exact ⟨10, r, by simp, Or.inr rfl⟩
  | succ k => exact ⟨13, List.replicate k 13 ++ 10 :: r, by simp [List.replicate_succ], Or.inl rfl⟩

/-- A comment line: `#`, bytes other than `\r` and `\n`, then `\r` or `\n`, which is
left in the source. -/
theorem tkz_next_comment (s : source) (l : List Nat) (t : Nat) (r : List Nat)
    (h : s.Holds (35 :: (l ++ t :: r))) (hl : ∀ x, x ∈ l → x ≠ 13 ∧ x ≠ 10)
    (ht : t = 13 ∨ t = 10) (tk : Option token) (ln : Nat) (A : Int) :
    ∃ s2 io2, s2.Holds (t :: r) ∧
      tokenizer.next ⟨s, tokenizerWaitingForToken, tk, ln, A⟩ =
        Result.done ⟨some ⟨tokenComment, [], 0, 0⟩, io2, none,
          ⟨s2, tokenizerWaitingForToken, some ⟨tokenComment, [], 0, 0⟩, ln, A⟩⟩ := by
  have h1 : s.step.Holds (l ++ t :: r) := source.step_holds s 35 _ h
  obtain ⟨s2, io2, h2, run2⟩ := tkz_run_comment (t :: r) (some ⟨tokenComment, [], 0, 0⟩) ln A l s.step
    (newIoData.add s.peekBytes) h1 hl
  refine ⟨s2.afterPeek, io2.add s2.peekBytes, source.afterPeek_holds s2 t r h2, ?_⟩
  apply tkz_next_of_loop s _ tk ln A (((0 + 1) + l.length) + 1)
  · have := source.fuel_of_holds s _ h
    simp only [List.length_append, List.length_cons] at this
    omega
  · rw [tkz_pass_number_sign s _ h, run2, tkz_pass_comment_end s2 t r h2 ht]

/-- Input `$`, digits whose value in 64-bit arithmetic is the number of payload bytes
and is below the cap, any number of `\r`, `\n`, the payload, any number of `\r`, `\n`:
the BIN_STRING of the payload. -/
theorem tkz_next_bin_digits (s : source) (ds d : List Nat) (k1 k2 : Nat) (r : List Nat) (A : Int)
    (h : s.Holds (36 :: (ds ++ (List.replicate k1 13 ++ 10 :: (d ++ (List.replicate k2 13 ++ 10 :: r))))))
    (hds : ∀ x, x ∈ ds → 48 ≤ x ∧ x ≤ 57) (hsz : sizeFold 0 ds = (d.length : Int))
    (hn : (d.length : Int) < A) (tk : Option token) (ln : Nat) :
    ∃ s2 io2, s2.Holds r ∧
      tokenizer.next ⟨s, tokenizerWaitingForToken, tk, ln, A⟩ =
        Result.done ⟨some ⟨tokenBinString, d, 0, d.length⟩, io2, none,
          ⟨s2, tokenizerWaitingForToken, some ⟨tokenBinString, d, 0, d.length⟩, ln + 1 + 1, A⟩⟩ := by
  have h1 := source.step_holds s 36 _ h
  obtain ⟨s2, io2, h2, run2⟩ := tkz_run_digits _ tokenBinString [] 0 ln A
    ds s.step (newIoData.add s.peekBytes) 0 h1 hds
  -- the byte that ends the digits is `\r` or `\n`
  obtain ⟨t, rest, hrest, ht⟩ := replicate_cr_lf_head k1 (d ++ (List.replicate k2 13 ++ 10 :: r))
  have h2b : s2.Holds (t :: rest) := by rw [← hrest]; exact h2
  have h3 : s2.afterPeek.Holds
      (List.replicate k1 13 ++ 10 :: (d ++ (List.replicate k2 13 ++ 10 :: r))) := by
    rw [hrest]; exact source.afterPeek_holds s2 _ _ h2b
  obtain ⟨s4, io4, h4, run4⟩ := tkz_run_sep_crs _ (some ⟨tokenBinString, [], 0, (d.length : Int)⟩) ln A k1
    s2.afterPeek (io2.add s2.peekBytes) h3
  have h5 : s4.step.Holds (d ++ (List.replicate k2 13 ++ 10 :: r)) := source.step_holds _ 10 _ h4
  obtain ⟨s6, io6, h6, run6⟩ := tkz_run_payload _ 0 (ln + 1) A (d.length : Int) d
    s4.step (io4.add s4.peekBytes) [] h5 (by simp)
  obtain ⟨t2, rest2, hrest2, _⟩ := replicate_cr_lf_head k2 r
  have h6b : s6.Holds (t2 :: rest2) := by rw [← hrest2]; exact h6
  have h7 : s6.afterPeek.Holds (List.replicate k2 13 ++ 10 :: r) := by
    rw [hrest2]; exact source.afterPeek_holds s6 _ _ h6b
  obtain ⟨s8, io8, h8, run8⟩ := tkz_run_eobs_crs _ (some ⟨tokenBinString, d, 0, (d.length : Int)⟩) (ln + 1) A k2
    s6.afterPeek (io6.add s6.peekBytes) h7
  refine ⟨s8.step, io8.add s8.peekBytes, source.step_holds _ 10 r h8, ?_⟩
  apply tkz_next_of_loop s _ tk ln A
    ((((((((0 + 1) + k2) + 1) + d.length) + 1) + k1) + 1) + ds.length + 1)
  · have := source.fuel_of_holds s _ h
    simp only [List.length_append, List.length_cons, List.length_replicate] at this
    omega
  · rw [tkz_pass_dollar s _ h, run2, hsz,
      tkz_pass_size_bin_end s2 t _ h2b ht [] 0 _ ln A hn,
      run4, tkz_pass_sep_lf _ _ h4, run6, List.nil_append,
      tkz_pass_bin_done s6 t2 _ h6b d 0 _ (ln + 1) A rfl,
      run8, tkz_pass_eobs_lf _ _ h8]

/-! ## Ends of line -/

/-- C17. A tokenizer waiting for a token over a source that holds the bytes `x` and then
`r`: when `x` is `\n` or `\r\n`, `next` returns one EOL token, has taken exactly `x`
from the source, counts one more line and waits for a token again; when `x` is `\r` and
a byte other than `\n`, `next` returns no token and the tokenization error "Missing line
feed ...", which is fatal and not technical. -/
theorem end_of_line_tokens (s : source) (x r : List Nat) (h : s.Holds (x ++ r))
    (tk : Option token) (ln : Nat) (A : Int) :
    ((x = [10] ∨ x = [13, 10]) →
      ∃ s2 io2, s2.Holds r ∧
        tokenizer.next ⟨s, tokenizerWaitingForToken, tk, ln, A⟩ =
          Result.done ⟨some ⟨tokenEol, [], 0, 0⟩, io2, none,
            ⟨s2, tokenizerWaitingForToken, some ⟨tokenEol, [], 0, 0⟩, ln + 1, A⟩⟩) ∧
    (∀ c, c ≠ 10 → x = [13, c] →
      ∃ io2 t2 e,
        tokenizer.next ⟨s, tokenizerWaitingForToken, tk, ln, A⟩ =
          Result.done ⟨none, io2, some e, t2⟩ ∧
        e = newTokenizationError
          (bytesOf "Missing line feed after carry return to proper end a line") ∧
        e.isFatal = true ∧ e.isTechnical = false) := by
  constructor
  · intro hx
    rcases hx with hx | hx
    · subst hx
      exact tkz_next_eol_lf s [] r h (fun _ hx => absurd hx (List.not_mem_nil _)) tk ln A
    · subst hx
      exact tkz_next_eol_crlf s [] r h (fun _ hx => absurd hx (List.not_mem_nil _)) tk ln A
  · intro c hc hx
    subst hx
    have h0 : s.Holds (13 :: c :: r) := h
    have h1 : s.step.Holds (c :: r) := source.step_holds s 13 _ h0
    refine ⟨(newIoData.add s.peekBytes).add s.step.peekBytes,
      ⟨s.step.afterPeek, tokenizerWaitingEol, some ⟨tokenEol, [], 0, 0⟩, ln, A⟩, _, ?_, rfl, rfl, rfl⟩
    apply tkz_next_of_loop s _ tk ln A ((0 + 1) + 1)
    · have := source.fuel_of_holds s _ h0
      simp only [List.length_cons] at this
      omega
    · rw [tkz_pass_cr s _ h0, tkz_pass_eol_missing s.step c r h1 hc]

/-- Witness of C17: the input `\r\n` read through a buffer of 8 bytes. -/
theorem end_of_line_tokens_witness :
    (newBufferedSource ⟨[[13, 10]]⟩ 8).Holds ([13, 10] ++ []) ∧
    (([13, 10] = [10] ∨ [13, 10] = [13, 10]) →
      ∃ s2 io2, s2.Holds [] ∧
        tokenizer.next ⟨newBufferedSource ⟨[[13, 10]]⟩ 8, tokenizerWaitingForToken, none, 0, 128⟩ =
          Result.done ⟨some ⟨tokenEol, [], 0, 0⟩, io2, none,
            ⟨s2, tokenizerWaitingForToken, some ⟨tokenEol, [], 0, 0⟩, 0 + 1, 128⟩⟩) :=
  ⟨source.holds_new [[13, 10]] 8 (by decide) (by simp),
    (end_of_line_tokens (newBufferedSource ⟨[[13, 10]]⟩ 8) [13, 10] []
      (source.holds_new [[13, 10]] 8 (by decide) (by simp)) none 0 128).1⟩

/-! ## Identifiers -/

/-- C20. A tokenizer waiting for a token over a source that holds the bytes `a`, then
the byte `c`, then `r`, where `a` is no longer than the size cap. When `a` is a
non-empty run of printable bytes other than quotes that does not start with `$`, `*` or
`#`, and `c` is a space, a tab, `\r` or `\n`: `next` returns the IDENTIFIER with data
`a` and leaves `c` in the source. When `a` is such a run and `c` is a quote: `next`
returns the fatal "Unexpected quote" error. When `a` is such a run or empty, and `c` is
outside 33..126 and none of space, tab, `\r`, `\n`: `next` returns the fatal "Illegal
char" error. -/
theorem identifier_tokens (s : source) (a : List Nat) (c : Nat) (r : List Nat)
    (h : s.Holds (a ++ c :: r)) (A : Int) (hlen : (a.length : Int) ≤ A)
    (tk : Option token) (ln : Nat) :
    (validIdentifier a → (c = 13 ∨ c = 10 ∨ c = 32 ∨ c = 9) →
      ∃ s2 io2, s2.Holds (c :: r) ∧
        tokenizer.next ⟨s, tokenizerWaitingForToken, tk, ln, A⟩ =
          Result.done ⟨some ⟨tokenIdentifier, a, 0, a.length⟩, io2, none,
            ⟨s2, tokenizerWaitingForToken, some ⟨tokenIdentifier, a, 0, a.length⟩, ln, A⟩⟩) ∧
    (validIdentifier a → (c = 34 ∨ c = 39) →
      ∃ io2 t2 e,
        tokenizer.next ⟨s, tokenizerWaitingForToken, tk, ln, A⟩ = Result.done ⟨none, io2, some e, t2⟩ ∧
        e = newTokenizationError (bytesOf "Unexpected quote") ∧ e.isFatal = true) ∧
    ((a = [] ∨ validIdentifier a) → ¬ (33 ≤ c ∧ c ≤ 126) → (c ≠ 13 ∧ c ≠ 10 ∧ c ≠ 32 ∧ c ≠ 9) →
      ∃ io2 t2 e,
        tokenizer.next ⟨s, tokenizerWaitingForToken, tk, ln, A⟩ = Result.done ⟨none, io2, some e, t2⟩ ∧
        e = newTokenizationError (bytesOf "Illegal char " ++ natToDec c) ∧ e.isFatal = true) := by
  refine ⟨?_, ?_, ?_⟩
  · intro ha hc
    exact tkz_next_ident s [] a c r h (fun _ hx => absurd hx (List.not_mem_nil _)) ha hlen hc tk ln
  · intro ha hc
    cases a with
    | nil => exact absurd ha (by simp [validIdentifier])
    | cons b l =>
      obtain ⟨hb, hl⟩ := ha
      simp only [List.length_cons, Nat.cast_add, Nat.cast_one] at hlen
      have h0 : s.Holds (b :: (l ++ c :: r)) := h
      obtain ⟨s2, io2, h2, run2⟩ := tkz_run_ident (c :: r) 0 ln A l s.step (newIoData.add s.peekBytes)
        [b] 1 (source.step_holds s b _ h0) hl (by omega)
      refine ⟨io2.add s2.peekBytes,
        ⟨s2.afterPeek, tokenizerReadingIdentifier,
          some ⟨tokenIdentifier, [b] ++ l, 0, 1 + (l.length : Int)⟩, ln, A⟩,
        newTokenizationError (bytesOf "Unexpected quote"), ?_, rfl, rfl⟩
      apply tkz_next_of_loop s _ tk ln A (((0 + 1) + l.length) + 1)
      · have := source.fuel_of_holds s _ h0
        simp only [List.length_append, List.length_cons] at this
        omega
      · rw [tkz_pass_ident_start s b _ h0 hb, run2, tkz_pass_ident_quote s2 c r h2 hc]
  · intro ha hc hb
    have hc2 : ¬ (32 < c ∧ c < 127) := by omega
    cases a with
    | nil =>
      have h0 : s.Holds (c :: r) := h
      refine ⟨newIoData.add s.peekBytes, ⟨s.afterPeek, tokenizerWaitingForToken, tk, ln, A⟩,
        newTokenizationError (bytesOf "Illegal char " ++ natToDec c), ?_, rfl, rfl⟩
      apply tkz_next_of_loop s _ tk ln A (0 + 1)
      · have := source.fuel_of_holds s _ h0
        simp only [List.length_cons] at this
        omega
      · rw [tkz_pass_illegal_start s c r h0 hc2 hb]
    | cons b l =>
      rcases ha with ha | ha
      · exact absurd ha (by simp)
      obtain ⟨hb1, hl⟩ := ha
      simp only [List.length_cons, Nat.cast_add, Nat.cast_one] at hlen
      have h0 : s.Holds (b :: (l ++ c :: r)) := h
      obtain ⟨s2, io2, h2, run2⟩ := tkz_run_ident (c :: r) 0 ln A l s.step (newIoData.add s.peekBytes)
        [b] 1 (source.step_holds s b _ h0) hl (by omega)
      refine ⟨io2.add s2.peekBytes,
        ⟨s2.afterPeek, tokenizerReadingIdentifier,
          some ⟨tokenIdentifier, [b] ++ l, 0, 1 + (l.length : Int)⟩, ln, A⟩,
        newTokenizationError (bytesOf "Illegal char " ++ natToDec c), ?_, rfl, rfl⟩
      apply tkz_next_of_loop s _ tk ln A (((0 + 1) + l.length) + 1)
      · have := source.fuel_of_holds s _ h0
        simp only [List.length_append, List.length_cons] at this
        omega
      · rw [tkz_pass_ident_start s b _ h0 hb1, run2, tkz_pass_ident_illegal s2 c r h2 hc2 hb]

/-- Witness of C20: the input `GET` and a space. -/
theorem identifier_tokens_witness :
    (newBufferedSource ⟨[[71, 69, 84, 32]]⟩ 8).Holds ([71, 69, 84] ++ 32 :: []) ∧
    ((([71, 69, 84] : List Nat).length : Int) ≤ 128) ∧
    (validIdentifier [71, 69, 84] → (32 = 13 ∨ 32 = 10 ∨ 32 = 32 ∨ 32 = 9) →
      ∃ s2 io2, s2.Holds (32 :: []) ∧
        tokenizer.next ⟨newBufferedSource ⟨[[71, 69, 84, 32]]⟩ 8, tokenizerWaitingForToken, none, 0, 128⟩ =
          Result.done ⟨some ⟨tokenIdentifier, [71, 69, 84], 0, ([71, 69, 84] : List Nat).length⟩, io2, none,
            ⟨s2, tokenizerWaitingForToken,
              some ⟨tokenIdentifier, [71, 69, 84], 0, ([71, 69, 84] : List Nat).length⟩, 0, 128⟩⟩) :=
  ⟨source.holds_new [[71, 69, 84, 32]] 8 (by decide) (by simp), by decide,
    (identifier_tokens (newBufferedSource ⟨[[71, 69, 84, 32]]⟩ 8) [71, 69, 84] 32 []
      (source.holds_new [[71, 69, 84, 32]] 8 (by decide) (by simp)) 128 (by decide) none 0).1⟩

/-! ## Binary strings and array headers -/

/-- C19. A tokenizer waiting for a token over a source that holds the bytes `x` and then
`r`, with a number `n` below the size cap (the cap is a 64-bit `int`). When `x` is `$`,
`n` in decimal, any number of `\r`, `\n`, `n` bytes `d` of any value, any number of
`\r`, `\n`: `next` returns the BIN_STRING of size `n` and data `d`, has taken exactly
`x` and waits for a token again. When `x` is `*` and `n` in decimal, or `*` alone, and
`r` starts with `\r` or `\n`: `next` returns the ARRAY token of size `n`, or 0, without
data, and leaves `r` in the source. -/
theorem bin_string_and_array_tokens (s : source) (x r : List Nat) (h : s.Holds (x ++ r))
    (n : Nat) (A : Int) (hn : (n : Int) < A) (hA : A ≤ 9223372036854775808)
    (tk : Option token) (ln : Nat) :
    (∀ (d : List Nat) (k1 k2 : Nat), d.length = n →
      x = 36 :: (natToDec n ++ (List.replicate k1 13 ++ 10 :: (d ++ (List.replicate k2 13 ++ [10])))) →
      ∃ s2 io2, s2.Holds r ∧
        tokenizer.next ⟨s, tokenizerWaitingForToken, tk, ln, A⟩ =
          Result.done ⟨some ⟨tokenBinString, d, 0, n⟩, io2, none,
            ⟨s2, tokenizerWaitingForToken, some ⟨tokenBinString, d, 0, n⟩, ln + 1 + 1, A⟩⟩) ∧
    (∀ (t : Nat) (r2 : List Nat), r = t :: r2 → (t = 13 ∨ t = 10) →
      (x = 42 :: natToDec n →
        ∃ s2 io2, s2.Holds r ∧
          tokenizer.next ⟨s, tokenizerWaitingForToken, tk, ln, A⟩ =
            Result.done ⟨some ⟨tokenArray, [], 0, n⟩, io2, none,
              ⟨s2, tokenizerWaitingForToken, some ⟨tokenArray, [], 0, n⟩, ln, A⟩⟩) ∧
      (x = [42] →
        ∃ s2 io2, s2.Holds r ∧
          tokenizer.next ⟨s, tokenizerWaitingForToken, tk, ln, A⟩ =
            Result.done ⟨some ⟨tokenArray, [], 0, 0⟩, io2, none,
              ⟨s2, tokenizerWaitingForToken, some ⟨tokenArray, [], 0, 0⟩, ln, A⟩⟩)) := by
  have hb : n < 9223372036854775808 := by omega
  refine ⟨?_, ?_⟩
  · intro d k1 k2 hd hx
    subst hx
    subst hd
    have h0 : s.Holds (36 :: (natToDec d.length ++
        (List.replicate k1 13 ++ 10 :: (d ++ (List.replicate k2 13 ++ 10 :: r))))) := by
      simpa using h
    exact tkz_next_bin_digits s (natToDec d.length) d k1 k2 r A h0 (natToDec_digit d.length)
      (sizeFold_natToDec _ hb) hn tk ln
  · intro t r2 hr ht
    subst hr
    constructor
    · intro hx
      subst hx
      have h0 : s.Holds (42 :: (natToDec n ++ t :: r2)) := by simpa using h
      exact tkz_next_array s n t r2 h0 hb ht tk ln A
    · intro hx
      subst hx
      have h0 : s.Holds (42 :: t :: r2) := h
      refine ⟨s.step.afterPeek, (newIoData.add s.peekBytes).add s.step.peekBytes,
        source.afterPeek_holds _ t r2 (source.step_holds s 42 _ h0), ?_⟩
      apply tkz_next_of_loop s _ tk ln A ((0 + 1) + 1)
      · have := source.fuel_of_holds s _ h0
        simp only [List.length_cons] at this
        omega
      · rw [tkz_pass_asterisk s _ h0,
          tkz_pass_size_array_end s.step t r2 (source.step_holds s 42 _ h0) ht]

/-- Witness of C19: the input `$2\r\r\n`, the payload `\r\n`, and `\n`. -/
theorem bin_string_and_array_tokens_witness :
    (newBufferedSource ⟨[[36, 50, 13, 13, 10, 13, 10, 10]]⟩ 8).Holds
      ([36, 50, 13, 13, 10, 13, 10, 10] ++ []) ∧
    ((2 : Nat) : Int) < 128 ∧ (128 : Int) ≤ 9223372036854775808 ∧
    ∃ s2 io2, s2.Holds [] ∧
      tokenizer.next ⟨newBufferedSource ⟨[[36, 50, 13, 13, 10, 13, 10, 10]]⟩ 8,
          tokenizerWaitingForToken, none, 0, 128⟩ =
        Result.done ⟨some ⟨tokenBinString, [13, 10], 0, (2 : Nat)⟩, io2, none,
          ⟨s2, tokenizerWaitingForToken, some ⟨tokenBinString, [13, 10], 0, (2 : Nat)⟩, 0 + 1 + 1, 128⟩⟩ :=
  ⟨source.holds_new [[36, 50, 13, 13, 10, 13, 10, 10]] 8 (by decide) (by simp), by decide, by decide,
    (bin_string_and_array_tokens (newBufferedSource ⟨[[36, 50, 13, 13, 10, 13, 10, 10]]⟩ 8)
      [36, 50, 13, 13, 10, 13, 10, 10] []
      (source.holds_new [[36, 50, 13, 13, 10, 13, 10, 10]] 8 (by decide) (by simp))
      2 128 (by decide) (by decide) none 0).1 [13, 10] 2 0 rfl (by decide)⟩

/-! ## The declared size of a binary string is computed in 64 bits -/

theorem tkz_run_payload_negative (r : List Nat) (dl ln : Nat) (A : Int) (sz : Int) (hsz : sz < 0)
    (p : List Nat) :
    ∀ (s : source) (io : ioData) (d : List Nat), s.Holds (p ++ r) →
      ∃ s2 io2, s2.Holds r ∧ ∀ f,
        tokenizer.nextLoop (f + p.length) ⟨s, tokenizerReadingBinString, some ⟨tokenBinString, d, dl, sz⟩, ln, A⟩ io =
        tokenizer.nextLoop f
          ⟨s2, tokenizerReadingBinString, some ⟨tokenBinString, d ++ p, dl, sz⟩, ln, A⟩ io2 := by
  induction p with
  | nil =>
    intro s io d h
    exact ⟨s, io, h, fun f => by simp⟩
  | cons c p ih =>
    intro s io d h
    obtain ⟨s2, io2, h2, hrun⟩ := ih s.step (io.add s.peekBytes) (d ++ [c])
      (source.step_holds s c _ h)
    refine ⟨s2, io2, h2, fun f => ?_⟩
    have e : f + (c :: p).length = (f + p.length) + 1 := by simp only [List.length_cons]; omega
    rw [e, tkz_pass_bin_byte s c _ h d dl sz ln A (by omega), hrun]
    simp only [List.append_assoc, List.singleton_append]

/-- C18. Two inputs whose declared BIN_STRING size is above the cap of 4096 and do not
get the "Token is too big" error. The size 18446744073709551617 (2^64 + 1) wraps to 1,
and `next` returns the BIN_STRING of the one byte that follows. The size
9223372036854775808 (2^63) wraps to a negative number, which no payload length equals:
`next` takes every byte `p` that follows into the token, however many, and returns the
reading error of the end of the input. -/
theorem declared_size_wraps_past_cap :
    (∃ io t2,
      tokenizer.next (newTokenizer (newBufferedSource
          ⟨[36 :: ([49, 56, 52, 52, 54, 55, 52, 52, 48, 55, 51, 55, 48, 57, 53, 53, 49, 54, 49, 55] ++
            [13, 10, 88, 13, 10])]⟩ 4096) 4096) =
        Result.done ⟨some ⟨tokenBinString, [88], 0, 1⟩, io, none, t2⟩) ∧
    (∀ p : List Nat, ∃ io t2,
      tokenizer.next (newTokenizer (newBufferedSource
          ⟨[36 :: ([57, 50, 50, 51, 51, 55, 50, 48, 51, 54, 56, 53, 52, 55, 55, 53, 56, 48, 56] ++
            13 :: 10 :: p)]⟩ 4096) 4096) =
        Result.done ⟨none, io, some (newReadingError GoError.EOF), t2⟩ ∧
      t2.token = some ⟨tokenBinString, p, 0, -9223372036854775808⟩) := by
  constructor
  · have h := source.holds_new
      [36 :: ([49, 56, 52, 52, 54, 55, 52, 52, 48, 55, 51, 55, 48, 57, 53, 53, 49, 54, 49, 55] ++
        [13, 10, 88, 13, 10])] 4096 (by decide) (by simp)
    obtain ⟨s2, io2, _, hnext⟩ := tkz_next_bin_digits _
      [49, 56, 52, 52, 54, 55, 52, 52, 48, 55, 51, 55, 48, 57, 53, 53, 49, 54, 49, 55] [88] 1 1 [] 4096
      (by simpa using h) (by decide) (by norm_num [sizeFold, wrapInt64]) (by decide) none 0
    exact ⟨io2, _, hnext⟩
  · intro p
    have h := source.holds_new
      [36 :: ([57, 50, 50, 51, 51, 55, 50, 48, 51, 54, 56, 53, 52, 55, 55, 53, 56, 48, 56] ++
        13 :: 10 :: p)] 4096 (by decide) (by simp)
    have h0 : (newBufferedSource
        ⟨[36 :: ([57, 50, 50, 51, 51, 55, 50, 48, 51, 54, 56, 53, 52, 55, 55, 53, 56, 48, 56] ++
          13 :: 10 :: p)]⟩ 4096).Holds
        (36 :: ([57, 50, 50, 51, 51, 55, 50, 48, 51, 54, 56, 53, 52, 55, 55, 53, 56, 48, 56] ++
          13 :: 10 :: (p ++ []))) := by simpa using h
    generalize newBufferedSource
        ⟨[36 :: ([57, 50, 50, 51, 51, 55, 50, 48, 51, 54, 56, 53, 52, 55, 55, 53, 56, 48, 56] ++
          13 :: 10 :: p)]⟩ 4096 = s at h0 ⊢
    have h1 := source.step_holds s 36 _ h0
    obtain ⟨s2, io2, h2, run2⟩ := tkz_run_digits _ tokenBinString [] 0 0 4096
      [57, 50, 50, 51, 51, 55, 50, 48, 51, 54, 56, 53, 52, 55, 55, 53, 56, 48, 56] s.step
      (newIoData.add s.peekBytes) 0 h1 (by decide)
    have hsz : sizeFold 0 [57, 50, 50, 51, 51, 55, 50, 48, 51, 54, 56, 53, 52, 55, 55, 53, 56, 48, 56] =
        -9223372036854775808 := by norm_num [sizeFold, wrapInt64]
    have h3 : s2.afterPeek.Holds (13 :: 10 :: (p ++ [])) := source.afterPeek_holds s2 _ _ h2
    have h4 : s2.afterPeek.step.Holds (10 :: (p ++ [])) := source.step_holds _ 13 _ h3
    have h5 : s2.afterPeek.step.step.Holds (p ++ []) := source.step_holds _ 10 _ h4
    obtain ⟨s6, io6, h6, run6⟩ := tkz_run_payload_negative [] 0 (0 + 1) 4096 (-9223372036854775808)
      (by decide) p s2.afterPeek.step.step
      (((io2.add s2.peekBytes).add s2.afterPeek.peekBytes).add s2.afterPeek.step.peekBytes) [] h5
    refine ⟨io6.add 0,
      ⟨s6, tokenizerReadingBinString, some ⟨tokenBinString, [] ++ p, 0, -9223372036854775808⟩, 0 + 1, 4096⟩,
      ?_, by simp⟩
    show tokenizer.next ⟨s, tokenizerWaitingForToken, none, 0, 4096⟩ = _
    apply tkz_next_of_loop s _ none 0 4096
      (((((0 + 1) + p.length) + 1) + 1) + 1 +
        ([57, 50, 50, 51, 51, 55, 50, 48, 51, 54, 56, 53, 52, 55, 55, 53, 56, 48, 56] : List Nat).length + 1)
    · have := source.fuel_of_holds s _ h0
      simp only [List.length_append, List.length_cons, List.length_nil] at this ⊢
      omega
    · rw [tkz_pass_dollar s _ h0, run2, hsz,
        tkz_pass_size_bin_end s2 13 _ h2 (Or.inl rfl) [] 0 _ 0 4096 (by decide),
        tkz_pass_sep_cr _ _ h3, tkz_pass_sep_lf _ _ h4, run6,
        tkz_nextLoop_eof s6 h6]

/-! ## The parser over a snapshot file -/

/-- In INIT a COMMENT or an EOL is skipped. -/
theorem prs_pass_init_skip (U : List Nat → List Nat) (tz : tokenizer)
    (args : List token) (ea : Int) (pio : ioData) (io2 : ioData) (ty : tokenType) (d : List Nat)
    (dl : Nat) (sz : Int) (t2 : tokenizer) (hty : ty = tokenComment ∨ ty = tokenEol)
    (hn : tz.next = Result.done ⟨some ⟨ty, d, dl, sz⟩, io2, none, t2⟩) (f : Nat) :
    parser.nextLoop U (f + 1) ⟨parserInit, tz, args, ea, pio⟩ =
      parser.nextLoop U f ⟨parserInit, t2, args, ea, pio.merge io2⟩ := by
  rcases hty with hty | hty <;> subst hty <;>
    simp only [parser.nextLoop, hn, token.getType]

/-- A comment line is passed over in two passes. -/
theorem prs_run_header (U : List Nat → List Nat) (l r : List Nat) (s : source)
    (h : s.Holds (35 :: (l ++ 10 :: r))) (hl : ∀ x, x ∈ l → x ≠ 13 ∧ x ≠ 10)
    (tk : Option token) (ln : Nat) (A : Int) (args : List token) (ea : Int) (pio : ioData) :
    ∃ s2 tk2 ln2 pio2, s2.Holds r ∧ ∀ f,
      parser.nextLoop U (f + 1 + 1) ⟨parserInit, ⟨s, tokenizerWaitingForToken, tk, ln, A⟩, args, ea, pio⟩ =
        parser.nextLoop U f ⟨parserInit, ⟨s2, tokenizerWaitingForToken, tk2, ln2, A⟩, args, ea, pio2⟩ := by
  obtain ⟨s1, io1, h1, hn1⟩ := tkz_next_comment s l 10 r h hl (Or.inr rfl) tk ln A
  obtain ⟨s2, io2, h2, hn2⟩ := tkz_next_eol_lf s1 [] r (by simpa using h1)
    (fun _ hx => absurd hx (List.not_mem_nil _)) (some ⟨tokenComment, [], 0, 0⟩) ln A
  refine ⟨s2, some ⟨tokenEol, [], 0, 0⟩, ln + 1, (pio.merge io1).merge io2, h2, fun f => ?_⟩
  rw [prs_pass_init_skip U _ args ea pio io1 tokenComment [] 0 0 _ (Or.inl rfl) hn1,
    prs_pass_init_skip U _ args ea _ io2 tokenEol [] 0 0 _ (Or.inr rfl) hn2]

/-- Passes of the parser loop that turn the array form of `SET key value` into the
command. -/
theorem prs_run_set_array (U : List Nat → List Nat) (k v r : List Nat) (s : source)
    (hk : k.length < 4096) (hv : v.length < 4096)
    (h : s.Holds (encodeArray [commandSet.str, k, v] ++ r))
    (tk : Option token) (ln : Nat) (ea : Int) (pio : ioData) :
    ∃ s2 tk2 ln2 pio2, s2.Holds r ∧ ∀ f,
      parser.nextLoop U (f + 3 + 1 + 1)
          ⟨parserInit, ⟨s, tokenizerWaitingForToken, tk, ln, maxTokenSize⟩, [], ea, pio⟩ =
        Result.done ⟨some ⟨commandSet, k, v, 0⟩, pio2, none,
          ⟨parserInit, ⟨s2, tokenizerWaitingForToken, tk2, ln2, maxTokenSize⟩, [], 3, pio2⟩⟩ := by
  obtain ⟨s2, tk2, ln2, pio2, h2, run⟩ := prs_run_array U r maxTokenSize [commandSet.str, k, v]
    s tk ln ea pio (by simp) (by simp)
    (by
      intro p hp
      have hlen : p.length < 4096 := by
        simp only [List.mem_cons, List.mem_singleton, List.not_mem_nil, or_false] at hp
        rcases hp with h | h | h <;> subst h
        · simp [commandCode.str]
        · exact hk
        · exact hv
      constructor
      · show (p.length : Int) < 1024 * 4
        omega
      · omega)
    h
  refine ⟨s2, tk2, ln2, pio2, h2, fun f => ?_⟩
  have := run f
  simp only [List.length_cons, List.length_nil, List.map_cons, List.map_nil] at this
  rw [this, prs_parseArgs_set3 U _ _ _ _ _ _ _ (toUpper_set U)]
  rfl

theorem encodeArray_set_length (k v : List Nat) :
    8 ≤ (encodeArray [commandSet.str, k, v]).length := by
  simp only [encodeArray, encodeStrings, encodeString, List.length_cons, List.length_append,
    List.length_nil]
  omega

/-- A call of `parser.next` on the array form of `SET key value`. -/
theorem prs_next_set_array (U : List Nat → List Nat) (k v r : List Nat) (s : source)
    (hk : k.length < 4096) (hv : v.length < 4096)
    (h : s.Holds (encodeArray [commandSet.str, k, v] ++ r))
    (tk : Option token) (ln : Nat) (ea : Int) (pio : ioData) :
    ∃ s2 tk2 ln2 pio2, s2.Holds r ∧
      parser.next U ⟨parserInit, ⟨s, tokenizerWaitingForToken, tk, ln, maxTokenSize⟩, [], ea, pio⟩ =
        Result.done ⟨some ⟨commandSet, k, v, 0⟩, pio2, none,
          ⟨parserInit, ⟨s2, tokenizerWaitingForToken, tk2, ln2, maxTokenSize⟩, [], 3, pio2⟩⟩ := by
  obtain ⟨s2, tk2, ln2, pio2, h2, run⟩ := prs_run_set_array U k v r s hk hv h tk ln ea newIoData
  refine ⟨s2, tk2, ln2, pio2, h2, ?_⟩
  have hfuel := source.fuel_of_holds s _ h
  have := encodeArray_set_length k v
  simp only [List.length_append] at hfuel
  obtain ⟨f0, hf0⟩ : ∃ f0, s.fuel = f0 + 3 + 1 + 1 := ⟨s.fuel - 5, by omega⟩
  simp only [parser.next, hf0]
  exact run f0

/-- A call of `parser.next` on a comment line followed by the array form of
`SET key value`. -/
theorem prs_next_header_set_array (U : List Nat → List Nat) (l k v r : List Nat) (s : source)
    (hl : ∀ x, x ∈ l → x ≠ 13 ∧ x ≠ 10) (hk : k.length < 4096) (hv : v.length < 4096)
    (h : s.Holds (35 :: (l ++ 10 :: (encodeArray [commandSet.str, k, v] ++ r))))
    (tk : Option token) (ln : Nat) (ea : Int) (pio : ioData) :
    ∃ s2 tk2 ln2 pio2, s2.Holds r ∧
      parser.next U ⟨parserInit, ⟨s, tokenizerWaitingForToken, tk, ln, maxTokenSize⟩, [], ea, pio⟩ =
        Result.done ⟨some ⟨commandSet, k, v, 0⟩, pio2, none,
          ⟨parserInit, ⟨s2, tokenizerWaitingForToken, tk2, ln2, maxTokenSize⟩, [], 3, pio2⟩⟩ := by
  obtain ⟨s1, tk1, ln1, pio1, h1, run1⟩ := prs_run_header U l _ s h hl tk ln maxTokenSize [] ea newIoData
  obtain ⟨s2, tk2, ln2, pio2, h2, run2⟩ := prs_run_set_array U k v r s1 hk hv h1 tk1 ln1 ea pio1
  refine ⟨s2, tk2, ln2, pio2, h2, ?_⟩
  have hfuel := source.fuel_of_holds s _ h
  have := encodeArray_set_length k v
  simp only [List.length_append, List.length_cons] at hfuel
  obtain ⟨f0, hf0⟩ : ∃ f0, s.fuel = (f0 + 3 + 1 + 1) + 1 + 1 := ⟨s.fuel - 7, by omega⟩
  simp only [parser.next, hf0]
  rw [run1, run2]

/-- A call of `parser.next` on a comment line at the end of the input. -/
theorem prs_next_header_eof (U : List Nat → List Nat) (l : List Nat) (s : source)
    (hl : ∀ x, x ∈ l → x ≠ 13 ∧ x ≠ 10) (h : s.Holds (35 :: (l ++ [10])))
    (tk : Option token) (ln : Nat) (A : Int) (ea : Int) (pio : ioData) :
    ∃ io p2,
      parser.next U ⟨parserInit, ⟨s, tokenizerWaitingForToken, tk, ln, A⟩, [], ea, pio⟩ =
        Result.done ⟨none, io, some (newReadingError GoError.EOF), p2⟩ := by
  obtain ⟨s1, tk1, ln1, pio1, h1, run1⟩ := prs_run_header U l [] s h hl tk ln A [] ea newIoData
  have hfuel := source.fuel_of_holds s _ h
  simp only [List.length_append, List.length_cons] at hfuel
  obtain ⟨f0, hf0⟩ : ∃ f0, s.fuel = (f0 + 1) + 1 + 1 := ⟨s.fuel - 3, by omega⟩
  refine ⟨pio1.merge (newIoData.add 0),
    ⟨parserInit, ⟨s1, tokenizerWaitingForToken, tk1, ln1, A⟩, [], ea, pio1.merge (newIoData.add 0)⟩, ?_⟩
  simp only [parser.next, hf0]
  rw [run1]
  exact prs_pass_error U parserInit _ [] ea pio1 _ _ _ (tkz_next_eof s1 h1 _ tk1 ln1 A) f0

/-! ## Writing the snapshot -/

theorem persistItems_reliable (now : Int) (items : List item) : ∀ (s : sink) (evs : List ioData),
    s.output.reliable →
    ∃ s2 evs2, AetherServer.persistItems now items s evs = some (s2, evs2) ∧ s2.output.reliable ∧
      s2.output.bytes ++ s2.buffer =
        s.output.bytes ++ s.buffer ++ snapshotBody (permanentItems items) := by
  induction items with
  | nil =>
    intro s evs h
    exact ⟨s, evs, rfl, h, by simp [snapshotBody, permanentItems]⟩
  | cons it rest ih =>
    intro s evs h
    by_cases htr : it.isTransient = true
    · obtain ⟨s2, evs2, hl, hr, hb⟩ := ih s evs h
      refine ⟨s2, evs2, ?_, hr, ?_⟩
      · simp [AetherServer.persistItems, htr, hl]
      · rw [hb]
        simp [permanentItems, htr]
    · have hp : it.genSetCommandPieces now = [commandSet.str, it.key, it.value] := by
        simp [item.genSetCommandPieces, htr, item.getKey, item.getValue]
      have ho := sink_writeArray_output s (it.genSetCommandPieces now)
      have hbuf := sink_writeArray_buffer s (it.genSetCommandPieces now)
      have h1 : (s.writeArrayOfProtocolStrings (it.genSetCommandPieces now)).output.reliable := by
        rw [ho.1]; exact h
      have hbody : snapshotBody (permanentItems (it :: rest)) =
          encodeArray [commandSet.str, it.key, it.value] ++ snapshotBody (permanentItems rest) := by
        simp [snapshotBody, permanentItems, htr]
      by_cases hfull : (s.writeArrayOfProtocolStrings (it.genSetCommandPieces now)).full = true
      · obtain ⟨d, s2, hf, hb2, _, hr2, hbytes⟩ := sink_flush_reliable _ h1
        obtain ⟨s3, evs3, hl, hr3, hb3⟩ := ih s2 (evs ++ [d]) hr2
        refine ⟨s3, evs3, ?_, hr3, ?_⟩
        · simp [AetherServer.persistItems, htr, hfull, hf, hl]
        · rw [hb3, hbytes, hb2, ho.1, hbuf, hbody, hp]
          simp
      · obtain ⟨s3, evs3, hl, hr3, hb3⟩ := ih _ evs h1
        refine ⟨s3, evs3, ?_, hr3, ?_⟩
        · simp [AetherServer.persistItems, htr, hfull, hl]
        · rw [hb3, ho.1, hbuf, hbody, hp]
          simp

/-- Into a file whose writes all succeed, `persist` writes the header line and then the
array form of the items that are not transient. -/
theorem persist_reliable (items : List item) (stamp : List Nat) (now : Int) (snap : outputStream)
    (h : snap.reliable) :
    ∃ file evs, AetherServer.persist items stamp now snap = some (file, evs) ∧
      file.bytes = snap.bytes ++ snapshotHeader stamp ++ snapshotBody (permanentItems items) := by
  have ho := sink_write_output [snapshotHeader stamp] (newSink snap 4096)
  have hbuf := sink_write_buffer [snapshotHeader stamp] (newSink snap 4096)
  have h1 : ((newSink snap 4096).writeAsRawBytes (snapshotHeader stamp)).output.reliable := by
    simp only [sink.writeAsRawBytes]
    rw [ho.1]; exact h
  obtain ⟨s2, evs2, hl, hr2, hb2⟩ := persistItems_reliable now items _ [] h1
  obtain ⟨d, s3, hf, _, _, _, hbytes⟩ := sink_flush_reliable s2 hr2
  refine ⟨s3.output, evs2 ++ [d], ?_, ?_⟩
  · simp [AetherServer.persist, hl, hf]
  · rw [hbytes, hb2]
    simp only [sink.writeAsRawBytes]
    rw [ho.1, hbuf]
    simp [newSink]

/-! ## Loading the snapshot -/

theorem snapshotBody_length (its : List item) : its.length ≤ (snapshotBody its).length := by
  induction its with
  | nil => simp [snapshotBody]
  | cons it rest ih =>
    have := encodeArray_set_length it.key it.value
    simp only [snapshotBody, List.map_cons, List.flatten_cons, List.length_append, List.length_cons] at ih ⊢
    omega

theorem loadLoop_succ_set (U : List Nat → List Nat) (now : Int) (f : Nat) (p p2 : parser)
    (hm : hashmap) (k v : List Nat) (e : Int) (io : ioData)
    (h : parser.next U p = Result.done ⟨some ⟨commandSet, k, v, e⟩, io, none, p2⟩) :
    AetherServer.loadLoop U now (f + 1) p hm = AetherServer.loadLoop U now f p2 (hm.set k v e now) := by
  simp only [AetherServer.loadLoop, h, command.getCode, command.getKey, command.getValue,
    command.getExpiration]

theorem loadLoop_succ_eof (U : List Nat → List Nat) (now : Int) (f : Nat) (p p2 : parser)
    (hm : hashmap) (io : ioData)
    (h : parser.next U p = Result.done ⟨none, io, some (newReadingError GoError.EOF), p2⟩) :
    AetherServer.loadLoop U now (f + 1) p hm = Result.done (some hm.washClean) := by
  simp [AetherServer.loadLoop, h, newReadingError, parsingError.isEOF]

theorem prs_calls_set_arrays (U : List Nat → List Nat) (its : List item) :
    (∀ it, it ∈ its → it.key.length < 4096 ∧ it.value.length < 4096) →
    ∀ (s : source) (tk : Option token) (ln : Nat) (ea : Int) (pio : ioData),
      s.Holds (snapshotBody its) →
      parser.calls U (its.length + 1)
          ⟨parserInit, ⟨s, tokenizerWaitingForToken, tk, ln, maxTokenSize⟩, [], ea, pio⟩ =
        its.map (fun it => (some ⟨commandSet, it.key, it.value, 0⟩, none)) ++
          [(none, some (newReadingError GoError.EOF))] := by
  induction its with
  | nil =>
    intro _ s tk ln ea pio h
    obtain ⟨io, p2, hn⟩ := prs_next_eof U s (by simpa [snapshotBody] using h) tk ln maxTokenSize [] ea pio
      parserInit
    rw [show ([] : List item).length + 1 = 0 + 1 from rfl, prs_calls_succ U _ _ _ hn]
    rfl
  | cons it rest ih =>
    intro hsz s tk ln ea pio h
    obtain ⟨hk, hv⟩ := hsz it (List.mem_cons_self _ _)
    have h0 : s.Holds (encodeArray [commandSet.str, it.key, it.value] ++ snapshotBody rest) := by
      simpa [snapshotBody] using h
    obtain ⟨s2, tk2, ln2, pio2, h2, hnext⟩ := prs_next_set_array U it.key it.value _ s hk hv h0 tk ln ea pio
    have := ih (fun x hx => hsz x (List.mem_cons_of_mem _ hx)) s2 tk2 ln2 3 pio2 h2
    rw [show (it :: rest).length + 1 = (rest.length + 1) + 1 from rfl,
      prs_calls_succ U _ _ _ hnext, this]
    rfl

theorem loadLoop_set_arrays (U : List Nat → List Nat) (now : Int) (its : List item) :
    (∀ it, it ∈ its → it.key.length < 4096 ∧ it.value.length < 4096) →
    ∀ (s : source) (tk : Option token) (ln : Nat) (ea : Int) (pio : ioData) (hm : hashmap) (f : Nat),
      s.Holds (snapshotBody its) →
      AetherServer.loadLoop U now (f + its.length + 1)
          ⟨parserInit, ⟨s, tokenizerWaitingForToken, tk, ln, maxTokenSize⟩, [], ea, pio⟩ hm =
        Result.done (some (loadItems now its hm).washClean) := by
  induction its with
  | nil =>
    intro _ s tk ln ea pio hm f h
    obtain ⟨io, p2, hn⟩ := prs_next_eof U s (by simpa [snapshotBody] using h) tk ln maxTokenSize [] ea pio
      parserInit
    rw [show f + ([] : List item).length + 1 = f + 1 from rfl, loadLoop_succ_eof U now _ _ _ hm _ hn]
    rfl
  | cons it rest ih =>
    intro hsz s tk ln ea pio hm f h
    obtain ⟨hk, hv⟩ := hsz it (List.mem_cons_self _ _)
    have h0 : s.Holds (encodeArray [commandSet.str, it.key, it.value] ++ snapshotBody rest) := by
      simpa [snapshotBody] using h
    obtain ⟨s2, tk2, ln2, pio2, h2, hnext⟩ := prs_next_set_array U it.key it.value _ s hk hv h0 tk ln ea pio
    have := ih (fun x hx => hsz x (List.mem_cons_of_mem _ hx)) s2 tk2 ln2 3 pio2
      (hm.set it.key it.value 0 now) f h2
    rw [show f + (it :: rest).length + 1 = (f + rest.length + 1) + 1 from by
      simp only [List.length_cons]; omega]
    rw [loadLoop_succ_set U now _ _ _ hm _ _ _ _ hnext, this]
    rfl

theorem snapshotHeader_eq (stamp : List Nat) :
    snapshotHeader stamp =
      35 :: ((bytesOf " aetherg v0.1.0-beta snapshot " ++ stamp) ++ [10]) := by
  have e : bytesOf "# aetherg " ++ version ++ bytesOf " snapshot " =
      35 :: bytesOf " aetherg v0.1.0-beta snapshot " := by decide
  simp only [snapshotHeader, lineFeed]
  rw [e]
  simp

theorem snapshotHeader_line (stamp : List Nat) (hs : ∀ x, x ∈ stamp → x ≠ 13 ∧ x ≠ 10) :
    ∀ x, x ∈ bytesOf " aetherg v0.1.0-beta snapshot " ++ stamp → x ≠ 13 ∧ x ≠ 10 := by
  intro x hx
  rcases List.mem_append.mp hx with h | h
  · have hall : ∀ y, y ∈ bytesOf " aetherg v0.1.0-beta snapshot " → y ≠ 13 ∧ y ≠ 10 := by decide
    exact hall x h
  · exact hs x h

/-- The calls of `parser.next` over a snapshot file: the SET commands of the items in
order, then the error of the end of the input. -/
theorem prs_calls_snapshot (U : List Nat → List Nat) (its : List item) (stamp : List Nat)
    (hs : ∀ x, x ∈ stamp → x ≠ 13 ∧ x ≠ 10)
    (hsz : ∀ it, it ∈ its → it.key.length < 4096 ∧ it.value.length < 4096)
    (s : source) (h : s.Holds (snapshotHeader stamp ++ snapshotBody its)) :
    parser.calls U (its.length + 1) (newParser s) =
      its.map (fun it => (some ⟨commandSet, it.key, it.value, 0⟩, none)) ++
        [(none, some (newReadingError GoError.EOF))] := by
  rw [snapshotHeader_eq] at h
  rw [newParser_eq]
  cases its with
  | nil =>
    have h0 : s.Holds (35 :: ((bytesOf " aetherg v0.1.0-beta snapshot " ++ stamp) ++ [10])) := by
      simpa [snapshotBody] using h
    obtain ⟨io, p2, hn⟩ := prs_next_header_eof U _ s (snapshotHeader_line stamp hs) h0 none 0
      maxTokenSize 0 newIoData
    rw [show ([] : List item).length + 1 = 0 + 1 from rfl, prs_calls_succ U _ _ _ hn]
    rfl
  | cons it rest =>
    obtain ⟨hk, hv⟩ := hsz it (List.mem_cons_self _ _)
    have h0 : s.Holds (35 :: ((bytesOf " aetherg v0.1.0-beta snapshot " ++ stamp) ++
        10 :: (encodeArray [commandSet.str, it.key, it.value] ++ snapshotBody rest))) := by
      simpa [snapshotBody] using h
    obtain ⟨s2, tk2, ln2, pio2, h2, hnext⟩ := prs_next_header_set_array U _ it.key it.value _ s
      (snapshotHeader_line stamp hs) hk hv h0 none 0 0 newIoData
    have := prs_calls_set_arrays U rest (fun x hx => hsz x (List.mem_cons_of_mem _ hx)) s2 tk2 ln2 3
      pio2 h2
    rw [show (it :: rest).length + 1 = (rest.length + 1) + 1 from rfl,
      prs_calls_succ U _ _ _ hnext, this]
    rfl

/-- The loop of `loadSnapshot` over a snapshot file, with enough fuel: every item is
set, and the keyspace is washed clean at the end of the input. -/
theorem loadLoop_snapshot (U : List Nat → List Nat) (now : Int) (its : List item) (stamp : List Nat)
    (hs : ∀ x, x ∈ stamp → x ≠ 13 ∧ x ≠ 10)
    (hsz : ∀ it, it ∈ its → it.key.length < 4096 ∧ it.value.length < 4096)
    (s : source) (h : s.Holds (snapshotHeader stamp ++ snapshotBody its)) (hm : hashmap) (f : Nat) :
    AetherServer.loadLoop U now (f + its.length + 1) (newParser s) hm =
      Result.done (some (loadItems now its hm).washClean) := by
  rw [snapshotHeader_eq] at h
  rw [newParser_eq]
  cases its with
  | nil =>
    have h0 : s.Holds (35 :: ((bytesOf " aetherg v0.1.0-beta snapshot " ++ stamp) ++ [10])) := by
      simpa [snapshotBody] using h
    obtain ⟨io, p2, hn⟩ := prs_next_header_eof U _ s (snapshotHeader_line stamp hs) h0 none 0
      maxTokenSize 0 newIoData
    rw [show f + ([] : List item).length + 1 = f + 1 from rfl, loadLoop_succ_eof U now _ _ _ hm _ hn]
    rfl
  | cons it rest =>
    obtain ⟨hk, hv⟩ := hsz it (List.mem_cons_self _ _)
    have h0 : s.Holds (35 :: ((bytesOf " aetherg v0.1.0-beta snapshot " ++ stamp) ++
        10 :: (encodeArray [commandSet.str, it.key, it.value] ++ snapshotBody rest))) := by
      simpa [snapshotBody] using h
    obtain ⟨s2, tk2, ln2, pio2, h2, hnext⟩ := prs_next_header_set_array U _ it.key it.value _ s
      (snapshotHeader_line stamp hs) hk hv h0 none 0 0 newIoData
    have := loadLoop_set_arrays U now rest (fun x hx => hsz x (List.mem_cons_of_mem _ hx)) s2 tk2 ln2 3
      pio2 (hm.set it.key it.value 0 now) f h2
    rw [show f + (it :: rest).length + 1 = (f + rest.length + 1) + 1 from by
      simp only [List.length_cons]; omega]
    rw [loadLoop_succ_set U now _ _ _ hm _ _ _ _ hnext, this]
    rfl

theorem itemMap.getItem_none_of_not_mem (m : itemMap) (k : List Nat)
    (h : k ∉ m.map (fun e => e.1)) : itemMap.getItem m k = none := by
  cases hg : itemMap.getItem m k with
  | none => rfl
  | some x => exact absurd ((itemMap.getItem_isSome_iff m k).mp (by simp [hg])) h

theorem itemMap.put_of_not_mem (m : itemMap) (k : List Nat) (v : item)
    (h : k ∉ m.map (fun e => e.1)) : itemMap.put m k v = m ++ [(k, v)] := by
  simp [itemMap.put, itemMap.getItem_none_of_not_mem m k h]

/-- Setting items with distinct new keys and expiration 0 appends them to the map in
order and leaves the transient keys alone. -/
theorem loadItems_data (now : Int) (its : List item) : ∀ hm : hashmap,
    (its.map (fun it => it.key)).Nodup →
    (∀ it, it ∈ its → it.key ∉ hm.data.map (fun e => e.1)) →
    (loadItems now its hm).data =
        hm.data ++ its.map (fun it => (it.key, (⟨it.key, it.value, 0, now⟩ : item))) ∧
      (loadItems now its hm).transientKeys = hm.transientKeys := by
  induction its with
  | nil => intro hm _ _; simp [loadItems]
  | cons it rest ih =>
    intro hm hnd hfresh
    simp only [List.map_cons, List.nodup_cons] at hnd
    have hput : (hm.set it.key it.value 0 now).data =
        hm.data ++ [(it.key, (⟨it.key, it.value, 0, now⟩ : item))] := by
      simp only [hashmap.set]
      exact itemMap.put_of_not_mem _ _ _ (hfresh it (List.mem_cons_self _ _))
    have htk : (hm.set it.key it.value 0 now).transientKeys = hm.transientKeys := by
      simp [hashmap.set]
    obtain ⟨h1, h2⟩ := ih (hm.set it.key it.value 0 now) hnd.2 (by
      intro x hx
      rw [hput]
      simp only [List.map_append, List.map_cons, List.map_nil, List.mem_append, List.mem_singleton,
        not_or]
      refine ⟨hfresh x (List.mem_cons_of_mem _ hx), ?_⟩
      intro hxk
      apply hnd.1
      rw [← hxk]
      exact List.mem_map.mpr ⟨x, hx, rfl⟩)
    constructor
    · show (loadItems now rest (hm.set it.key it.value 0 now)).data = _
      rw [h1, hput]
      simp
    · show (loadItems now rest (hm.set it.key it.value 0 now)).transientKeys = _
      rw [h2, htk]

theorem permanentItems_expiration (S : List item) (it : item) (h : it ∈ permanentItems S) :
    it.expiration = 0 := by
  simp only [permanentItems, List.mem_filter, item.isTransient, Bool.not_eq_true', decide_eq_false_iff_not,
    ne_eq, not_not] at h
  exact h.2

/-! ## Snapshot reload -/

/-- C14. Let `S` be items with keys and values shorter than 4096 bytes, and let the
time text of the header hold no `\r` or `\n`. Into a new temp file whose writes all
succeed, `persist` writes the `#` header line followed by one array-form `SET key
value` for every item of `S` that is not transient, in order. Read through the loader's
parser (buffer 4096, any split of the file into non-empty reads), these bytes give the
SET commands of those items in order, each with expiration 0, and then the error whose
cause is EOF. So `loadSnapshot` sets these items in order and washes the keyspace
clean; into an empty keyspace, when the keys are distinct, this leaves exactly the
items of `S` that are not transient, created at the second of loading. -/
theorem snapshot_reload (U : List Nat → List Nat) (S : List item) (stamp : List Nat)
    (now now2 : Int) (snap : outputStream) (chunks : List (List Nat))
    (hS : ∀ it, it ∈ S → it.key.length < 4096 ∧ it.value.length < 4096)
    (hstamp : ∀ x, x ∈ stamp → x ≠ 13 ∧ x ≠ 10)
    (hsnap : snap.reliable) (hnew : snap.bytes = [])
    (hch : ∀ c, c ∈ chunks → c ≠ [])
    (hfile : chunks.flatten = snapshotHeader stamp ++ snapshotBody (permanentItems S)) :
    (∃ file evs, AetherServer.persist S stamp now snap = some (file, evs) ∧
      file.bytes = chunks.flatten) ∧
    parser.calls U ((permanentItems S).length + 1) (newParser (newBufferedSource ⟨chunks⟩ 4096)) =
      (permanentItems S).map (fun it => (some ⟨commandSet, it.key, it.value, 0⟩, none)) ++
        [(none, some (newReadingError GoError.EOF))] ∧
    (∀ server : AetherServer,
      AetherServer.loadSnapshot U now2 (some ⟨chunks⟩) server =
        Result.done (some { server with hm := (loadItems now2 (permanentItems S) server.hm).washClean })) ∧
    (((permanentItems S).map (fun it => it.key)).Nodup →
      ((loadItems now2 (permanentItems S) newHashmap).washClean).getItens =
        (permanentItems S).map (fun it => { it with creation := now2 }) ∧
      ((loadItems now2 (permanentItems S) newHashmap).washClean).transientKeys = [] ∧
      ((loadItems now2 (permanentItems S) newHashmap).washClean).isDirty = false) := by
  have hsz : ∀ it, it ∈ permanentItems S → it.key.length < 4096 ∧ it.value.length < 4096 := by
    intro it hit
    exact hS it (List.mem_of_mem_filter hit)
  have hsrc : (newBufferedSource ⟨chunks⟩ 4096).Holds
      (snapshotHeader stamp ++ snapshotBody (permanentItems S)) := by
    rw [← hfile]
    exact source.holds_new chunks 4096 (by decide) hch
  refine ⟨?_, ?_, ?_, ?_⟩
  · obtain ⟨file, evs, hp, hb⟩ := persist_reliable S stamp now snap hsnap
    refine ⟨file, evs, hp, ?_⟩
    rw [hb, hnew, hfile]
    simp
  · exact prs_calls_snapshot U _ stamp hstamp hsz _ hsrc
  · intro server
    have hfuel := source.fuel_of_holds _ _ hsrc
    have hlen := snapshotBody_length (permanentItems S)
    simp only [List.length_append] at hfuel
    obtain ⟨f0, hf0⟩ : ∃ f0, (newBufferedSource ⟨chunks⟩ 4096).fuel = f0 + (permanentItems S).length + 1 :=
      ⟨(newBufferedSource ⟨chunks⟩ 4096).fuel - ((permanentItems S).length + 1), by omega⟩
    simp only [AetherServer.loadSnapshot, hf0]
    rw [loadLoop_snapshot U now2 _ stamp hstamp hsz _ hsrc server.hm f0]
  · intro hnd
    obtain ⟨h1, h2⟩ := loadItems_data now2 (permanentItems S) newHashmap hnd (by simp [newHashmap])
    refine ⟨?_, ?_, rfl⟩
    · simp only [hashmap.getItens, hashmap.washClean]
      rw [h1]
      simp only [newHashmap, List.nil_append, List.map_map]
      apply List.map_congr_left
      intro it hit
      have he := permanentItems_expiration S it hit
      cases it
      simp only at he
      simp [he]
    · simp only [hashmap.washClean]
      rw [h2]
      rfl

/-- Witness of C14: a snapshot of a permanent and a transient item, read as one chunk. -/
theorem snapshot_reload_witness :
    (∀ it, it ∈ ([⟨[107], [118], 0, 10⟩, ⟨[97], [98], 90, 10⟩] : List item) →
      it.key.length < 4096 ∧ it.value.length < 4096) ∧
    (∀ x, x ∈ [50, 48] → x ≠ 13 ∧ x ≠ 10) ∧
    (⟨[], []⟩ : outputStream).reliable ∧ (⟨[], []⟩ : outputStream).bytes = [] ∧
    (∀ c, c ∈ [snapshotHeader [50, 48] ++ snapshotBody (permanentItems [⟨[107], [118], 0, 10⟩, ⟨[97], [98], 90, 10⟩])] →
      c ≠ []) ∧
    [snapshotHeader [50, 48] ++
        snapshotBody (permanentItems [⟨[107], [118], 0, 10⟩, ⟨[97], [98], 90, 10⟩])].flatten =
      snapshotHeader [50, 48] ++ snapshotBody (permanentItems [⟨[107], [118], 0, 10⟩, ⟨[97], [98], 90, 10⟩]) ∧
    parser.calls (fun s => s)
        ((permanentItems [⟨[107], [118], 0, 10⟩, ⟨[97], [98], 90, 10⟩]).length + 1)
        (newParser (newBufferedSource
          ⟨[snapshotHeader [50, 48] ++
            snapshotBody (permanentItems [⟨[107], [118], 0, 10⟩, ⟨[97], [98], 90, 10⟩])]⟩ 4096)) =
      (permanentItems [⟨[107], [118], 0, 10⟩, ⟨[97], [98], 90, 10⟩]).map
          (fun it => (some ⟨commandSet, it.key, it.value, 0⟩, none)) ++
        [(none, some (newReadingError GoError.EOF))] :=
  ⟨by decide, by decide, by decide, rfl, by decide, by simp,
    (snapshot_reload (fun s => s) [⟨[107], [118], 0, 10⟩, ⟨[97], [98], 90, 10⟩] [50, 48] 40 50 ⟨[], []⟩
      [snapshotHeader [50, 48] ++ snapshotBody (permanentItems [⟨[107], [118], 0, 10⟩, ⟨[97], [98], 90, 10⟩])]
      (by decide) (by decide) (by decide) rfl (by decide) (by simp)).2.1⟩

/-! ## A replica is read-only -/

theorem canRunOnAReplica_false_iff (cmd : command) :
    cmd.canRunOnAReplica = false ↔
      (cmd.code = commandSet ∨ cmd.code = commandRm ∨ cmd.code = commandRmall ∨
        cmd.code = commandSync) := by
  cases cmd with
  | mk code key value expiration =>
    cases code <;> simp [command.canRunOnAReplica, command.isControlCommand, command.isReadCommand,
      controlCommands, readCommands, command.getCode]

/-- C13. On a server configured as a replica, the new-command event of a client with a
command whose code is SET, RM, RMALL or SYNC (the codes other than GET, LIST, PING,
STATS and EXIT) returns stop = false and leaves the server as it was but for one
response appended to the queue of that client: the final raw response `-ERR this
instance is a read replica (read-only)\r\n`, which a sink sends as these bytes. The
keyspace, the replica registry, the client list and the queue of every other client
are unchanged. For a code among GET, LIST, PING, STATS and EXIT the runner is called on
the server and its response is appended to the queue of the client. -/
theorem replica_is_read_only (J : jsonLib) (now : clock) (client : Int) (cmd : command)
    (server : AetherServer) (hrep : server.replicate = true) :
    ((cmd.code = commandSet ∨ cmd.code = commandRm ∨ cmd.code = commandRmall ∨
        cmd.code = commandSync) →
      event.exec J now (.newCommandEvent client cmd) server =
        some (false, { server with clientObjects := server.clientObjects.map (fun c =>
          if c.id = client then
            { c with responses := c.responses ++ [response.rawBytesResponse
              (bytesOf "-ERR this instance is a read replica (read-only)\r\n") true] }
          else c) }) ∧
      (response.rawBytesResponse
        (bytesOf "-ERR this instance is a read replica (read-only)\r\n") true).isFinal = true ∧
      ∀ (s : sink) (t : Int), s.buffer = [] → s.output.reliable →
        ∃ d s2, (response.rawBytesResponse
            (bytesOf "-ERR this instance is a read replica (read-only)\r\n") true).write s t =
              some ((d, none), s2) ∧
          s2.output.bytes =
            s.output.bytes ++ bytesOf "-ERR this instance is a read replica (read-only)\r\n") ∧
    ((cmd.code = commandGet ∨ cmd.code = commandList ∨ cmd.code = commandPing ∨
        cmd.code = commandStats ∨ cmd.code = commandExit) →
      ∃ r s1, commandRunners J now.unix cmd (some client) server = some (r, s1) ∧
        event.exec J now (.newCommandEvent client cmd) server =
          some (false, s1.enqueueReply client r)) := by
  constructor
  · intro hc
    have hcan := (canRunOnAReplica_false_iff cmd).mpr hc
    have e1 : newErrorResponse (bytesOf "this instance is a read replica (read-only)") true =
        response.rawBytesResponse
          (bytesOf "-ERR this instance is a read replica (read-only)\r\n") true := by
      decide
    refine ⟨?_, rfl, ?_⟩
    · simp only [event.exec, AetherServer.isAReplica, hrep, hcan, Bool.not_false, Bool.and_self,
        if_true, e1, AetherServer.enqueueReply, AetherServer.onClient, aetherClient.enqueueReply]
    · intro s t hb hr
      obtain ⟨d, s2, hf, _, hbytes⟩ := sink_flushWrite_reliable s
        (bytesOf "-ERR this instance is a read replica (read-only)\r\n") hb hr
      exact ⟨d, s2, by simp only [response.write, hf], hbytes⟩
  · intro hc
    have hcan : cmd.canRunOnAReplica = true := by
      cases hcan : cmd.canRunOnAReplica with
      | true => rfl
      | false =>
        exfalso
        have := (canRunOnAReplica_false_iff cmd).mp hcan
        rcases hc with h | h | h | h | h <;> rw [h] at this <;> simp at this
    have hw : cmd.isWriteCommand = false := by
      rcases hc with h | h | h | h | h <;>
        simp [command.isWriteCommand, writeCommands, command.getCode, h]
    obtain ⟨r, s1, hrun⟩ : ∃ r s1, commandRunners J now.unix cmd (some client) server = some (r, s1) := by
      rcases hc with h | h | h | h | h <;>
        simp only [commandRunners, command.getCode, h] <;> exact ⟨_, _, rfl⟩
    refine ⟨r, s1, hrun, ?_⟩
    simp only [event.exec, AetherServer.isAReplica, hrep, hcan, hrun, hw, Bool.not_true,
      Bool.and_false, Bool.false_eq_true, if_false]

/-- Witness of C13: a SET from the first client of a new replica server. -/
theorem replica_is_read_only_witness :
    ((NewAetherServer true 0).newClient).replicate = true ∧
    event.exec ⟨fun _ => [], fun _ _ => []⟩ ⟨5, 1⟩ (.newCommandEvent 0 ⟨commandSet, [107], [118], 0⟩)
        (NewAetherServer true 0).newClient =
      some (false, { (NewAetherServer true 0).newClient with
        clientObjects := ((NewAetherServer true 0).newClient).clientObjects.map (fun c =>
          if c.id = 0 then
            { c with responses := c.responses ++ [response.rawBytesResponse
              (bytesOf "-ERR this instance is a read replica (read-only)\r\n") true] }
          else c) }) :=
  ⟨rfl, ((replica_is_read_only ⟨fun _ => [], fun _ _ => []⟩ ⟨5, 1⟩ 0 ⟨commandSet, [107], [118], 0⟩
    (NewAetherServer true 0).newClient rfl).1 (Or.inl rfl)).1⟩

/-! ## Queues of the clients -/

theorem find_map_onClient (l : List aetherClient) (d c : Int) (f : aetherClient → aetherClient)
    (hf : ∀ x, (f x).id = x.id) :
    (l.map (fun x => if x.id = d then f x else x)).find? (fun x => decide (x.id = c)) =
      (l.find? (fun x => decide (x.id = c))).map (fun x => if x.id = d then f x else x) := by
  induction l with
  | nil => rfl
  | cons a l ih =>
    have hid : (if a.id = d then f a else a).id = a.id := by
      split
      · exact hf a
      · rfl
    simp only [List.map_cons, List.find?_cons]
    rw [hid]
    by_cases hac : a.id = c
    · simp [hac]
    · simp [hac, ih]

theorem find_some_id (l : List aetherClient) (c : Int) (x : aetherClient)
    (h : l.find? (fun x => decide (x.id = c)) = some x) : x.id = c := by
  have := List.find?_some h
  simpa using this

theorem find_isSome_of_hasClient (s : AetherServer) (c : Int) (h : s.hasClient c) :
    ∃ x, s.clientObjects.find? (fun x => decide (x.id = c)) = some x := by
  obtain ⟨x, hx, hid⟩ := h
  cases hf : s.clientObjects.find? (fun x => decide (x.id = c)) with
  | some y => exact ⟨y, rfl⟩
  | none =>
    have := List.find?_eq_none.mp hf x hx
    simp [hid] at this

theorem hasClient_onClient (s : AetherServer) (d c : Int) (f : aetherClient → aetherClient)
    (hf : ∀ x, (f x).id = x.id) (h : s.hasClient c) : (s.onClient d f).hasClient c := by
  obtain ⟨x, hx, hid⟩ := h
  refine ⟨if x.id = d then f x else x, ?_, ?_⟩
  · simp only [AetherServer.onClient]
    exact List.mem_map.mpr ⟨x, hx, rfl⟩
  · split
    · rw [hf x]; exact hid
    · exact hid

theorem queue_onClient_keep (s : AetherServer) (d c : Int) (f : aetherClient → aetherClient)
    (hf : ∀ x, (f x).id = x.id) (hr : ∀ x, (f x).responses = x.responses) :
    (s.onClient d f).queue c = s.queue c := by
  simp only [AetherServer.queue, AetherServer.onClient, find_map_onClient _ d c f hf]
  cases s.clientObjects.find? (fun x => decide (x.id = c)) with
  | none => rfl
  | some x =>
    simp only [Option.map_some']
    split
    · exact hr x
    · rfl

theorem queue_enqueueReply (s : AetherServer) (d c : Int) (r : response) (h : s.hasClient c) :
    (s.enqueueReply d r).queue c = if d = c then s.queue c ++ [r] else s.queue c := by
  obtain ⟨x, hx⟩ := find_isSome_of_hasClient s c h
  have hid := find_some_id _ _ _ hx
  simp only [AetherServer.enqueueReply, AetherServer.queue, AetherServer.onClient,
    find_map_onClient _ d c (fun c => c.enqueueReply r) (fun _ => rfl), hx, Option.map_some']
  by_cases hdc : d = c
  · subst hdc
    simp [hid, aetherClient.enqueueReply]
  · have : ¬ x.id = d := by rw [hid]; exact fun hh => hdc hh.symm
    simp [this, hdc]

theorem hasClient_enqueueReply (s : AetherServer) (d c : Int) (r : response) (h : s.hasClient c) :
    (s.enqueueReply d r).hasClient c :=
  hasClient_onClient s d c _ (fun _ => rfl) h

/-- A broadcast leaves everything but the queues as it was, and appends the response to
the queue of a client exactly when the client is in the replica set. -/
theorem broadcast_loop (r : response) (c : Int) (L : List Int) : ∀ s : AetherServer,
    L.Nodup → s.hasClient c →
    (L.foldl (fun acc client => acc.enqueueReply client r) s).hasClient c ∧
    (L.foldl (fun acc client => acc.enqueueReply client r) s).hm = s.hm ∧
    (L.foldl (fun acc client => acc.enqueueReply client r) s).replicas = s.replicas ∧
    (L.foldl (fun acc client => acc.enqueueReply client r) s).replicate = s.replicate ∧
    (L.foldl (fun acc client => acc.enqueueReply client r) s).queue c =
      if c ∈ L then s.queue c ++ [r] else s.queue c := by
  induction L with
  | nil => intro s _ h; simp [h]
  | cons a L ih =>
    intro s hnd h
    obtain ⟨haL, hnd2⟩ := List.nodup_cons.mp hnd
    obtain ⟨h1, h2, h3, h4, h5⟩ := ih (s.enqueueReply a r) hnd2 (hasClient_enqueueReply s a c r h)
    refine ⟨h1, ?_, ?_, ?_, ?_⟩
    · rw [List.foldl_cons, h2]; rfl
    · rw [List.foldl_cons, h3]; rfl
    · rw [List.foldl_cons, h4]; rfl
    · rw [List.foldl_cons, h5, queue_enqueueReply s a c r h]
      by_cases hac : a = c
      · subst hac
        simp [haL]
      · have : ¬ c = a := fun hh => hac hh.symm
        simp [hac, this]

theorem clientSet.nodup_add (s : clientSet) (c : Int) (h : s.Nodup) : (clientSet.add s c).Nodup := by
  unfold clientSet.add
  split
  · exact h
  · rename_i hc
    exact List.Nodup.append h (List.nodup_singleton c) (by
      intro x hx hx2
      simp only [List.mem_singleton] at hx2
      exact hc (hx2 ▸ hx))

theorem clientSet.mem_add (s : clientSet) (c x : Int) :
    x ∈ clientSet.add s c ↔ x ∈ s ∨ x = c := by
  unfold clientSet.add
  split
  · rename_i hc
    constructor
    · exact Or.inl
    · rintro (h | h)
      · exact h
      · exact h ▸ hc
  · simp

theorem clientSet.nodup_rm (s : clientSet) (c : Int) (h : s.Nodup) : (clientSet.rm s c).Nodup :=
  List.Nodup.filter _ h

theorem clientSet.mem_rm (s : clientSet) (c x : Int) : x ∈ clientSet.rm s c ↔ x ∈ s ∧ x ≠ c := by
  simp [clientSet.rm]

/-! ## One event of the loop, seen from a replica -/

theorem broadcastsTo_enqueueReply (s : AetherServer) (d c : Int) (r : response) (h : s.hasClient c) :
    (s.enqueueReply d r).broadcastsTo c =
      s.broadcastsTo c ++ (if d = c then (r.broadcastOf).toList else []) := by
  simp only [AetherServer.broadcastsTo, queue_enqueueReply s d c r h]
  by_cases hdc : d = c
  · simp only [hdc, if_true, List.filterMap_append]
    cases hb : r.broadcastOf <;> simp [List.filterMap_cons, hb]
  · simp [hdc]

theorem masterWith_enqueueReply (s : AetherServer) (d c : Int) (r : response) (h : s.masterWith c) :
    (s.enqueueReply d r).masterWith c :=
  ⟨h.1, h.2.1, h.2.2.1, hasClient_enqueueReply s d c r h.2.2.2⟩

/-- A response that is no broadcast, enqueued for any client. -/
theorem stepFor_reply (s : AetherServer) (d c : Int) (r : response) (e : event)
    (h : s.masterWith c) (hr : r.broadcastOf = none) (he : e.write = none) :
    AetherServer.stepFor c e s (s.enqueueReply d r) := by
  refine ⟨masterWith_enqueueReply s d c r h, fun hc => hc, ?_⟩
  rw [broadcastsTo_enqueueReply s d c r h.2.2.2, hr, he]
  simp

/-- A server that differs in nothing the replication theorem looks at. -/
theorem stepFor_same (s s2 : AetherServer) (c : Int) (e : event) (h : s.masterWith c)
    (h1 : s2.replicate = s.replicate) (h2 : s2.hm.tracked) (h3 : s2.replicas = s.replicas)
    (h4 : s2.hasClient c) (h5 : s2.queue c = s.queue c) (he : e.write = none) :
    AetherServer.stepFor c e s s2 := by
  refine ⟨⟨h1 ▸ h.1, h2, h3 ▸ h.2.2.1, h4⟩, fun hc => h3 ▸ hc, ?_⟩
  simp only [AetherServer.broadcastsTo, h5, he]
  simp

theorem runGet_fst_not_broadcast (cmd : command) (s : AetherServer) :
    (runGet cmd s).1.broadcastOf = none := by
  unfold runGet
  split <;> rfl

theorem runGet_snd (cmd : command) (s : AetherServer) : (runGet cmd s).2 = s := by
  unfold runGet
  split <;> rfl

theorem stepFor_disconnect (s : AetherServer) (d c : Int) (e : event) (h : s.masterWith c)
    (hdc : d ≠ c) (he : e.write = none) : AetherServer.stepFor c e s (s.disconnect d) := by
  obtain ⟨h1, h2, h3, h4⟩ := h
  refine ⟨⟨h1, h2, clientSet.nodup_rm _ _ h3, ?_⟩, ?_, ?_⟩
  · exact hasClient_onClient _ d c _ (fun _ => rfl) h4
  · intro hc
    exact (clientSet.mem_rm _ _ _).mpr ⟨hc, fun hh => hdc hh.symm⟩
  · have hq : (s.disconnect d).queue c = s.queue c :=
      queue_onClient_keep _ d c _ (fun _ => rfl) (fun _ => rfl)
    simp only [AetherServer.broadcastsTo, hq, he]
    simp

/-- A write command on a master: the keyspace changes, the client gets `+OK`, and every
replica gets the command. -/
theorem stepFor_write (s : AetherServer) (d c : Int) (cmd : command) (hm2 : hashmap)
    (h : s.masterWith c) (htr : hm2.tracked) (hw : cmd.isWriteCommand = true) :
    AetherServer.stepFor c (.newCommandEvent d cmd) s
      ((({ s with hm := hm2 } : AetherServer).enqueueReply d okResponse).broadcast cmd) := by
  obtain ⟨h1, _, h3, h4⟩ := h
  have hc1 : (({ s with hm := hm2 } : AetherServer).enqueueReply d okResponse).hasClient c :=
    hasClient_enqueueReply _ d c _ h4
  obtain ⟨b1, b2, b3, b4, b5⟩ := broadcast_loop (newBroadcastCommandResponse cmd) c s.replicas
    (({ s with hm := hm2 } : AetherServer).enqueueReply d okResponse) h3 hc1
  have e : (({ s with hm := hm2 } : AetherServer).enqueueReply d okResponse).broadcast cmd =
      s.replicas.foldl (fun acc client => acc.enqueueReply client (newBroadcastCommandResponse cmd))
        (({ s with hm := hm2 } : AetherServer).enqueueReply d okResponse) := rfl
  rw [e]
  refine ⟨⟨?_, ?_, ?_, b1⟩, ?_, ?_⟩
  · rw [b4]; exact h1
  · rw [b2]; exact htr
  · rw [b3]; exact h3
  · intro hc
    rw [b3]; exact hc
  · have hq : (({ s with hm := hm2 } : AetherServer).enqueueReply d okResponse).queue c =
        if d = c then s.queue c ++ [okResponse] else s.queue c :=
      queue_enqueueReply _ d c _ h4
    simp only [AetherServer.broadcastsTo, b5, hq, event.write, hw, if_true, Option.toList]
    by_cases hc : c ∈ s.replicas <;> by_cases hdc : d = c <;>
      simp [hc, hdc, List.filterMap_append, okResponse, newRawBytesResponse, response.broadcastOf,
        newBroadcastCommandResponse]

/-- The SYNC runner on a master: the client joins the replicas and gets the items. -/
theorem stepFor_sync (s : AetherServer) (d c : Int) (cmd : command) (h : s.masterWith c)
    (hw : cmd.isWriteCommand = false) :
    AetherServer.stepFor c (.newCommandEvent d cmd) s
      ((((s.addReplica d).onClient d (fun x => x.setReplica true)).enqueueReply d
        (newSyncResponse s.getItems))) ∧
    d ∈ ((((s.addReplica d).onClient d (fun x => x.setReplica true)).enqueueReply d
        (newSyncResponse s.getItems))).replicas := by
  obtain ⟨h1, h2, h3, h4⟩ := h
  have hc1 : ((s.addReplica d).onClient d (fun x => x.setReplica true)).hasClient c :=
    hasClient_onClient _ d c _ (fun _ => rfl) h4
  have hq1 : ((s.addReplica d).onClient d (fun x => x.setReplica true)).queue c = s.queue c :=
    queue_onClient_keep _ d c _ (fun _ => rfl) (fun _ => rfl)
  refine ⟨⟨⟨h1, h2, clientSet.nodup_add _ _ h3, hasClient_enqueueReply _ d c _ hc1⟩, ?_, ?_⟩, ?_⟩
  · intro hc
    exact (clientSet.mem_add _ _ _).mpr (Or.inl hc)
  · rw [broadcastsTo_enqueueReply _ d c _ hc1]
    simp only [AetherServer.broadcastsTo, hq1, event.write, hw]
    simp [newSyncResponse, response.broadcastOf]
  · exact (clientSet.mem_add _ _ _).mpr (Or.inr rfl)

theorem exec_newCommand_master (J : jsonLib) (now : clock) (d : Int) (cmd : command)
    (s : AetherServer) (h : s.replicate = false) :
    event.exec J now (.newCommandEvent d cmd) s =
      match commandRunners J now.unix cmd (some d) s with
      | none => none
      | some (response, s1) =>
        if cmd.isWriteCommand then some (false, (s1.enqueueReply d response).broadcast cmd)
        else some (false, s1.enqueueReply d response) := by
  simp only [event.exec, AetherServer.isAReplica, h, Bool.false_and, Bool.false_eq_true, if_false]

/-- A new-command event on a master, seen from the client `c`. -/
theorem exec_newCommand_stepFor (J : jsonLib) (now : clock) (d : Int) (cmd : command)
    (s : AetherServer) (c : Int) (h : s.masterWith c) :
    ∃ s2, event.exec J now (.newCommandEvent d cmd) s = some (false, s2) ∧
      AetherServer.stepFor c (.newCommandEvent d cmd) s s2 ∧
      (cmd.code = commandSync → d ∈ s2.replicas) := by
  rw [exec_newCommand_master J now d cmd s h.1]
  obtain ⟨code, key, value, expiration⟩ := cmd
  cases code
  case commandSet =>
    refine ⟨_, rfl, ?_, fun hh => by cases hh⟩
    exact stepFor_write s d c _ _ h (hashmap.tracked_set_any s.hm _ _ _ now.unix h.2.1) rfl
  case commandRm =>
    refine ⟨_, rfl, ?_, fun hh => by cases hh⟩
    exact stepFor_write s d c _ _ h (hashmap.tracked_rm s.hm _ h.2.1) rfl
  case commandRmall =>
    refine ⟨_, rfl, ?_, fun hh => by cases hh⟩
    exact stepFor_write s d c _ _ h (hashmap.tracked_rmall s.hm) rfl
  case commandGet =>
    rcases hrg : runGet ⟨commandGet, key, value, expiration⟩ s with ⟨r, s1⟩
    have h1 : r.broadcastOf = none := by
      have := runGet_fst_not_broadcast ⟨commandGet, key, value, expiration⟩ s
      rw [hrg] at this; exact this
    have h2 : s1 = s := by
      have := runGet_snd ⟨commandGet, key, value, expiration⟩ s
      rw [hrg] at this; exact this
    subst h2
    refine ⟨s1.enqueueReply d r, ?_, stepFor_reply s1 d c r _ h h1 rfl, fun hh => by cases hh⟩
    simp only [commandRunners, command.getCode, hrg, command.isWriteCommand, writeCommands]
    rfl
  case commandStats =>
    exact ⟨_, rfl, stepFor_reply s d c _ _ h rfl rfl, fun hh => by cases hh⟩
  case commandList =>
    exact ⟨_, rfl, stepFor_reply s d c _ _ h rfl rfl, fun hh => by cases hh⟩
  case commandPing =>
    exact ⟨_, rfl, stepFor_reply s d c _ _ h rfl rfl, fun hh => by cases hh⟩
  case commandExit =>
    exact ⟨_, rfl, stepFor_reply s d c _ _ h rfl rfl, fun hh => by cases hh⟩
  case commandSync =>
    obtain ⟨h1, h2⟩ := stepFor_sync s d c ⟨commandSync, key, value, expiration⟩ h rfl
    exact ⟨_, rfl, h1, fun _ => h2⟩

theorem hasClient_newClient (s : AetherServer) (c : Int) (h : s.hasClient c) :
    s.newClient.hasClient c := by
  obtain ⟨x, hx, hid⟩ := h
  exact ⟨x, List.mem_append_left _ hx, hid⟩

theorem queue_newClient (s : AetherServer) (c : Int) (h : s.hasClient c) :
    s.newClient.queue c = s.queue c := by
  obtain ⟨x, hx⟩ := find_isSome_of_hasClient s c h
  simp only [AetherServer.queue, AetherServer.newClient, AetherServer.add, hx]
  rw [List.find?_append, hx]
  rfl

theorem exec_heartBeat (J : jsonLib) (now : clock) (no : Int) (s : AetherServer) (hm2 : hashmap)
    (hev : s.hm.evict now.unix = some hm2) :
    ∃ s2, event.exec J now (.heartBeat no) s = some (false, s2) ∧ s2.replicate = s.replicate ∧
      s2.replicas = s.replicas ∧ s2.clientObjects = s.clientObjects ∧
      (s2.hm = hm2 ∨ s2.hm = hm2.washClean) := by
  simp only [event.exec, AetherServer.evictExpiredKeys, hev]
  split
  · exact ⟨_, rfl, rfl, rfl, rfl, Or.inr rfl⟩
  · exact ⟨_, rfl, rfl, rfl, rfl, Or.inl rfl⟩

/-- Any event of a master other than a command from its own master and a disconnection
of the client `c`, seen from `c`. -/
theorem exec_stepFor (J : jsonLib) (now : clock) (e : event) (s : AetherServer) (c : Int)
    (h : s.masterWith c) (hd : e.disconnects c = false) (hs : e.isSourceCommand = false) :
    ∃ stop s2, e.exec J now s = some (stop, s2) ∧ AetherServer.stepFor c e s s2 := by
  cases e with
  | newCommandEvent d cmd =>
    obtain ⟨s2, h1, h2, _⟩ := exec_newCommand_stepFor J now d cmd s c h
    exact ⟨false, s2, h1, h2⟩
  | signalEvent =>
    exact ⟨true, s, rfl, stepFor_same s s c _ h rfl h.2.1 rfl h.2.2.2 rfl rfl⟩
  | newConnectionEvent =>
    exact ⟨false, s.newClient, rfl, stepFor_same s _ c _ h rfl h.2.1 rfl
      (hasClient_newClient s c h.2.2.2) (queue_newClient s c h.2.2.2) rfl⟩
  | closeClientEvent d =>
    have hdc : d ≠ c := by simpa [event.disconnects] using hd
    exact ⟨false, s.disconnect d, rfl, stepFor_disconnect s d c _ h hdc rfl⟩
  | heartBeat no =>
    obtain ⟨hm2, hev, _⟩ := hashmap.evict_loop now.unix s.hm.transientKeys s.hm h.2.1.1 h.2.1.2.1
    have htr : hm2.tracked := hashmap.tracked_evict s.hm hm2 now.unix h.2.1 hev
    obtain ⟨s2, hex, e1, e2, e3, e4⟩ := exec_heartBeat J now no s hm2 hev
    have htr2 : s2.hm.tracked := by
      rcases e4 with e4 | e4 <;> rw [e4]
      · exact htr
      · exact htr
    refine ⟨false, s2, hex, stepFor_same s s2 c _ h e1 htr2 e2 ?_ ?_ rfl⟩
    · obtain ⟨x, hx, hid⟩ := h.2.2.2
      exact ⟨x, e3 ▸ hx, hid⟩
    · simp only [AetherServer.queue, e3]
  | writingErrorEvent d err =>
    have hdc : d ≠ c := by simpa [event.disconnects] using hd
    exact ⟨false, s.disconnect d, rfl, stepFor_disconnect s d c _ h hdc rfl⟩
  | readingErrorEvent d err =>
    by_cases ht : err.isTechnical = true
    · have hdc : d ≠ c := by
        intro hh
        simp [event.disconnects, hh, ht] at hd
      refine ⟨false, s.disconnect d, ?_, stepFor_disconnect s d c _ h hdc rfl⟩
      simp only [event.exec, ht, if_true]
    · refine ⟨false, s.enqueueReply d err.toErrorResponse, ?_, stepFor_reply s d c _ _ h rfl rfl⟩
      simp [event.exec, ht]
  | errorAcceptingConnectionEvent err =>
    exact ⟨true, s, rfl, stepFor_same s s c _ h rfl h.2.1 rfl h.2.2.2 rfl rfl⟩
  | sourceCommand cmd => simp [event.isSourceCommand] at hs
  | errorReadingFromMasterEvent err =>
    exact ⟨true, s, rfl, stepFor_same s s c _ h rfl h.2.1 rfl h.2.2.2 rfl rfl⟩
  | ioEvent device kind data =>
    exact ⟨false, _, rfl, stepFor_same s _ c _ h rfl h.2.1 rfl h.2.2.2 rfl rfl⟩
  | connectionLimitReachedEvent =>
    exact ⟨false, s, rfl, stepFor_same s s c _ h rfl h.2.1 rfl h.2.2.2 rfl rfl⟩

/-! ## The event loop, seen from a replica -/

theorem committedWrites_cons (now : clock) (e : event) (done : List (clock × event)) :
    committedWrites ((now, e) :: done) = e.write.toList ++ committedWrites done := by
  simp only [committedWrites, List.filterMap_cons]
  cases e.write <;> rfl

theorem eventLoop_cons (J : jsonLib) (now : clock) (e : event) (rest : List (clock × event))
    (s : AetherServer) (stop : Bool) (s1 : AetherServer)
    (h : e.exec J now { s with eventCount := s.eventCount + 1 } = some (stop, s1)) :
    s.eventLoop J ((now, e) :: rest) =
      if stop then some (s1, [(now, e)])
      else
        match s1.eventLoop J rest with
        | none => none
        | some (s2, done) => some (s2, (now, e) :: done) := by
  cases stop <;> simp only [AetherServer.eventLoop, h] <;> rfl

/-- While the client `c` is a replica of a master and is not disconnected, the loop
does not panic, and the broadcasts enqueued for `c` grow by exactly the write commands
of the events executed. -/
theorem eventLoop_replica (J : jsonLib) (c : Int) (evs : List (clock × event)) :
    ∀ s : AetherServer, s.masterWith c → c ∈ s.replicas →
    (∀ te, te ∈ evs → te.2.disconnects c = false ∧ te.2.isSourceCommand = false) →
    ∃ s2 done, s.eventLoop J evs = some (s2, done) ∧ done <+: evs ∧ c ∈ s2.replicas ∧
      s2.broadcastsTo c = s.broadcastsTo c ++ committedWrites done := by
  induction evs with
  | nil =>
    intro s _ hc _
    exact ⟨s, [], rfl, List.prefix_refl _, hc, by simp [committedWrites]⟩
  | cons te rest ih =>
    intro s h hc hall
    obtain ⟨now, e⟩ := te
    obtain ⟨hd, hsrc⟩ := hall (now, e) (List.mem_cons_self _ _)
    have h0 : ({ s with eventCount := s.eventCount + 1 } : AetherServer).masterWith c :=
      ⟨h.1, h.2.1, h.2.2.1, h.2.2.2⟩
    obtain ⟨stop, s1, hex, hm1, hrep1, hb1⟩ := exec_stepFor J now e _ c h0 hd hsrc
    have hb1b : s1.broadcastsTo c = s.broadcastsTo c ++ e.write.toList := by
      rw [hb1]
      have : c ∈ ({ s with eventCount := s.eventCount + 1 } : AetherServer).replicas := hc
      simp only [this, if_true]
      rfl
    rw [eventLoop_cons J now e rest s stop s1 hex]
    cases stop with
    | true =>
      refine ⟨s1, [(now, e)], rfl, ?_, hrep1 hc, ?_⟩
      · exact List.prefix_iff_eq_append.mpr (by simp)
      · rw [hb1b, committedWrites_cons]
        simp [committedWrites]
    | false =>
      obtain ⟨s2, done, hl, hp, hc2, hb2⟩ := ih s1 hm1 (hrep1 hc)
        (fun x hx => hall x (List.mem_cons_of_mem _ hx))
      refine ⟨s2, (now, e) :: done, ?_, ?_, hc2, ?_⟩
      · simp [hl]
      · exact (List.cons_prefix_cons).mpr ⟨rfl, hp⟩
      · rw [hb2, hb1b, committedWrites_cons, List.append_assoc]

/-! ## Replication order -/

/-- C16. On a master (not a replica, keyspace tracked, replica set without repetition)
the event loop runs a SYNC of the client `c` and then the events `post`, none of which
disconnects `c` or is a command from a master. The loop does not panic; it executes
the SYNC and an initial part `done` of `post` (all of it unless an event stops the loop); and
the commands of the broadcast responses in the queue of `c` afterwards are those that
were there before the SYNC followed by the write commands (SET, RM, RMALL) of the
new-command events of `done`, in the order of execution, each once. For a client with
an empty queue before its SYNC they are exactly these write commands. -/
theorem replication_order (J : jsonLib) (s : AetherServer) (c : Int) (t0 : clock) (sync : command)
    (post : List (clock × event)) (hs : s.masterWith c) (hsync : sync.code = commandSync)
    (hpost : ∀ te, te ∈ post → te.2.disconnects c = false ∧ te.2.isSourceCommand = false) :
    ∃ s2 done,
      s.eventLoop J ((t0, .newCommandEvent c sync) :: post) =
        some (s2, (t0, .newCommandEvent c sync) :: done) ∧
      done <+: post ∧ c ∈ s2.replicas ∧
      s2.broadcastsTo c = s.broadcastsTo c ++ committedWrites done ∧
      (s.queue c = [] → s2.broadcastsTo c = committedWrites done) := by
  have h0 : ({ s with eventCount := s.eventCount + 1 } : AetherServer).masterWith c :=
    ⟨hs.1, hs.2.1, hs.2.2.1, hs.2.2.2⟩
  obtain ⟨s1, hex, ⟨hm1, _, hb1⟩, hin⟩ := exec_newCommand_stepFor J t0 c sync _ c h0
  have hw : (event.newCommandEvent c sync).write = none := by
    simp [event.write, command.isWriteCommand, writeCommands, command.getCode, hsync]
  have hb1b : s1.broadcastsTo c = s.broadcastsTo c := by
    rw [hb1, hw]
    simp only [Option.toList, ite_self, List.append_nil]
    rfl
  obtain ⟨s2, done, hl, hp, hc2, hb2⟩ := eventLoop_replica J c post s1 hm1 (hin hsync) hpost
  have hb : s2.broadcastsTo c = s.broadcastsTo c ++ committedWrites done := by rw [hb2, hb1b]
  refine ⟨s2, done, ?_, hp, hc2, hb, ?_⟩
  · rw [eventLoop_cons J t0 _ post s false s1 hex]
    simp [hl]
  · intro hq
    rw [hb]
    simp [AetherServer.broadcastsTo, hq]

/-- Witness of C16: the first client of a new master sends SYNC and a SET, then the
hundredth heart beat arrives. -/
theorem replication_order_witness :
    ((NewAetherServer false 0).newClient).masterWith 0 ∧
    (∃ s2 done,
      ((NewAetherServer false 0).newClient).eventLoop ⟨fun _ => [], fun _ _ => []⟩
          ((⟨1, 1⟩, .newCommandEvent 0 ⟨commandSync, [], [], 0⟩) ::
            [(⟨2, 1⟩, .newCommandEvent 0 ⟨commandSet, [107], [118], 0⟩), (⟨3, 1⟩, .heartBeat 100)]) =
        some (s2, (⟨1, 1⟩, .newCommandEvent 0 ⟨commandSync, [], [], 0⟩) :: done) ∧
      done <+: [(⟨2, 1⟩, .newCommandEvent 0 ⟨commandSet, [107], [118], 0⟩), (⟨3, 1⟩, .heartBeat 100)] ∧
      (0 : Int) ∈ s2.replicas ∧
      s2.broadcastsTo 0 = ((NewAetherServer false 0).newClient).broadcastsTo 0 ++ committedWrites done ∧
      (((NewAetherServer false 0).newClient).queue 0 = [] → s2.broadcastsTo 0 = committedWrites done)) :=
  ⟨⟨rfl, hashmap.tracked_new, List.nodup_nil, ⟨⟨0, [], false, false⟩, by decide, rfl⟩⟩,
    replication_order ⟨fun _ => [], fun _ _ => []⟩ (NewAetherServer false 0).newClient 0 ⟨1, 1⟩
      ⟨commandSync, [], [], 0⟩
      [(⟨2, 1⟩, .newCommandEvent 0 ⟨commandSet, [107], [118], 0⟩), (⟨3, 1⟩, .heartBeat 100)]
      ⟨rfl, hashmap.tracked_new, List.nodup_nil, ⟨⟨0, [], false, false⟩, by decide, rfl⟩⟩ rfl
      (by decide)⟩

/-! ## Every token yielded is within the size cap -/

theorem tkz_case_wft_sizeOk (t : tokenizer) (ch : Nat) (hA : 1 ≤ t.allowedTokenSize)
    (stp : Step) (hd : t.caseWaitingForToken ch = some stp) : stp.sizeOk t.allowedTokenSize := by
  obtain ⟨src, st, tok, ln, A⟩ := t
  simp only at hA
  simp only [tokenizer.caseWaitingForToken, tokenizer.new, tokenizer.consume, tokenizer.yield,
    tokenizer.setDelimiter, tokenizer.append, token.append, token.is, bind, Option.bind, pure] at hd
  cases hrm : src.rm with
  | none =>
    simp [hrm] at hd
    obtain ⟨_, _, _, _, _, _, _, _, rfl⟩ := hd
    trivial
  | some s2 =>
    simp only [hrm] at hd
    repeat' split at hd
    all_goals cases hd
    all_goals simp [Step.sizeOk, tokenizer.sizeInv, token.within]
    all_goals omega

theorem tkz_case_wse_sizeOk (t : tokenizer) (ch : Nat)
    (stp : Step) (hd : t.caseWaitingSpaceForEos ch = some stp) : stp.sizeOk t.allowedTokenSize := by
  obtain ⟨src, st, tok, ln, A⟩ := t
  simp only [tokenizer.caseWaitingSpaceForEos, pure] at hd
  split at hd
  all_goals cases hd
  all_goals simp [Step.sizeOk, tokenizer.sizeInv]

theorem tkz_case_ri_sizeOk (t : tokenizer) (ch : Nat) (h : t.sizeInv)
    (hs : t.state = tokenizerReadingIdentifier)
    (stp : Step) (hd : t.caseReadingIdentifier ch = some stp) : stp.sizeOk t.allowedTokenSize := by
  obtain ⟨src, st, tok, ln, A⟩ := t
  simp only at hs
  subst hs
  cases tok with
  | none => simp [tokenizer.sizeInv] at h
  | some tk =>
    obtain ⟨ty, d, dl, sz⟩ := tk
    simp only [tokenizer.sizeInv] at h
    simp only [tokenizer.caseReadingIdentifier, tokenizer.reachedSizeLimit, token.getSize,
      tokenizer.consume, tokenizer.yield, tokenizer.delimiter, tokenizer.tokenIs,
      tokenizer.increaseSize, token.increaseSize, ascii2int,
      tokenizer.reachedExpectedSizeOfBinaryString, token.expectedSizeAndDataLenghtIsMatching,
      tokenizer.append, token.append, token.is, bind, Option.bind, pure] at hd
    cases hrm : src.rm <;> (try simp only [hrm] at hd) <;> (repeat' split at hd) <;>
        (try cases hd) <;> (try simp at *) <;>
        (try simp_all [Step.sizeOk, tokenizer.sizeInv, token.within]) <;> (try omega)

theorem tkz_case_rs_sizeOk (t : tokenizer) (ch : Nat) (h : t.sizeInv)
    (hs : t.state = tokenizerReadingString)
    (stp : Step) (hd : t.caseReadingString ch = some stp) : stp.sizeOk t.allowedTokenSize := by
  obtain ⟨src, st, tok, ln, A⟩ := t
  simp only at hs
  subst hs
  cases tok with
  | none => simp [tokenizer.sizeInv] at h
  | some tk =>
    obtain ⟨ty, d, dl, sz⟩ := tk
    simp only [tokenizer.sizeInv] at h
    simp only [tokenizer.caseReadingString, tokenizer.reachedSizeLimit, token.getSize,
      tokenizer.consume, tokenizer.yield, tokenizer.delimiter, tokenizer.tokenIs,
      tokenizer.increaseSize, token.increaseSize, ascii2int,
      tokenizer.reachedExpectedSizeOfBinaryString, token.expectedSizeAndDataLenghtIsMatching,
      tokenizer.append, token.append, token.is, bind, Option.bind, pure] at hd
    by_cases hq : ch = doubleQuote
    · rw [if_pos hq] at hd
      cases hrm : src.rm <;> (try simp only [hrm] at hd) <;> (repeat' split at hd) <;>
        (try cases hd) <;> (try simp at *) <;>
        (try simp_all [Step.sizeOk, tokenizer.sizeInv, token.within]) <;> (try omega)
    · rw [if_neg hq] at hd
      cases hrm : src.rm <;> (try simp only [hrm] at hd) <;> (repeat' split at hd) <;>
        (try cases hd) <;> (try simp at *) <;>
        (try simp_all [Step.sizeOk, tokenizer.sizeInv, token.within]) <;> (try omega)

theorem tkz_case_weol_sizeOk (t : tokenizer) (ch : Nat) (h : t.sizeInv)
    (hs : t.state = tokenizerWaitingEol)
    (stp : Step) (hd : t.caseWaitingEol ch = some stp) : stp.sizeOk t.allowedTokenSize := by
  obtain ⟨src, st, tok, ln, A⟩ := t
  simp only at hs
  subst hs
  cases tok with
  | none => simp [tokenizer.sizeInv] at h
  | some tk =>
    obtain ⟨ty, d, dl, sz⟩ := tk
    simp only [tokenizer.sizeInv] at h
    simp only [tokenizer.caseWaitingEol, tokenizer.reachedSizeLimit, token.getSize,
      tokenizer.consume, tokenizer.yield, tokenizer.delimiter, tokenizer.tokenIs,
      tokenizer.increaseSize, token.increaseSize, ascii2int,
      tokenizer.reachedExpectedSizeOfBinaryString, token.expectedSizeAndDataLenghtIsMatching,
      tokenizer.append, token.append, token.is, bind, Option.bind, pure] at hd
    cases hrm : src.rm <;> (try simp only [hrm] at hd) <;> (repeat' split at hd) <;>
        (try cases hd) <;> (try simp at *) <;>
        (try simp_all [Step.sizeOk, tokenizer.sizeInv, token.within])

theorem tkz_case_rc_sizeOk (t : tokenizer) (ch : Nat) (h : t.sizeInv)
    (hs : t.state = tokenizerReadingComment)
    (stp : Step) (hd : t.caseReadingComment ch = some stp) : stp.sizeOk t.allowedTokenSize := by
  obtain ⟨src, st, tok, ln, A⟩ := t
  simp only at hs
  subst hs
  cases tok with
  | none => simp [tokenizer.sizeInv] at h
  | some tk =>
    obtain ⟨ty, d, dl, sz⟩ := tk
    simp only [tokenizer.sizeInv] at h
    simp only [tokenizer.caseReadingComment, tokenizer.reachedSizeLimit, token.getSize,
      tokenizer.consume, tokenizer.yield, tokenizer.delimiter, tokenizer.tokenIs,
      tokenizer.increaseSize, token.increaseSize, ascii2int,
      tokenizer.reachedExpectedSizeOfBinaryString, token.expectedSizeAndDataLenghtIsMatching,
      tokenizer.append, token.append, token.is, bind, Option.bind, pure] at hd
    cases hrm : src.rm <;> (try simp only [hrm] at hd) <;> (repeat' split at hd) <;>
        (try cases hd) <;> (try simp at *) <;>
        (try simp_all [Step.sizeOk, tokenizer.sizeInv, token.within])

theorem tkz_case_rsize_sizeOk (t : tokenizer) (ch : Nat) (h : t.sizeInv)
    (hs : t.state = tokenizerReadingSize)
    (stp : Step) (hd : t.caseReadingSize ch = some stp) : stp.sizeOk t.allowedTokenSize := by
  obtain ⟨src, st, tok, ln, A⟩ := t
  simp only at hs
  subst hs
  cases tok with
  | none => simp [tokenizer.sizeInv] at h
  | some tk =>
    obtain ⟨ty, d, dl, sz⟩ := tk
    simp only [tokenizer.sizeInv] at h
    simp only [tokenizer.caseReadingSize, tokenizer.reachedSizeLimit, token.getSize,
      tokenizer.consume, tokenizer.yield, tokenizer.delimiter, tokenizer.tokenIs,
      tokenizer.increaseSize, token.increaseSize, ascii2int,
      tokenizer.reachedExpectedSizeOfBinaryString, token.expectedSizeAndDataLenghtIsMatching,
      tokenizer.append, token.append, token.is, bind, Option.bind, pure] at hd
    by_cases hdig : 48 ≤ ch ∧ ch ≤ 57
    · have hdg : asciiDigit ch = true := by
        simp only [asciiDigit, zeroChar, nineChar, Bool.and_eq_true, decide_eq_true_eq]; omega
      simp only [hdg, hdig, and_self, if_true] at hd
      cases hrm : src.rm with
      | none => simp [hrm] at hd
      | some s2 =>
        simp only [hrm] at hd
        cases hd
        simp_all [Step.sizeOk, tokenizer.sizeInv]
    · have hdg : asciiDigit ch = false := by
        simp only [asciiDigit, zeroChar, nineChar, Bool.and_eq_false_iff, decide_eq_false_iff_not]; omega
      simp only [hdg] at hd
      (repeat' split at hd) <;> (try cases hd) <;> (try simp at *) <;>
        (try simp_all [Step.sizeOk, tokenizer.sizeInv, token.within])

theorem tkz_case_rbss_sizeOk (t : tokenizer) (ch : Nat) (h : t.sizeInv)
    (hs : t.state = tokenizerReadingBinStringSeparator)
    (stp : Step) (hd : t.caseReadingBinStringSeparator ch = some stp) : stp.sizeOk t.allowedTokenSize := by
  obtain ⟨src, st, tok, ln, A⟩ := t
  simp only at hs
  subst hs
  cases tok with
  | none => simp [tokenizer.sizeInv] at h
  | some tk =>
    obtain ⟨ty, d, dl, sz⟩ := tk
    simp only [tokenizer.sizeInv] at h
    simp only [tokenizer.caseReadingBinStringSeparator, tokenizer.reachedSizeLimit, token.getSize,
      tokenizer.consume, tokenizer.yield, tokenizer.delimiter, tokenizer.tokenIs,
      tokenizer.increaseSize, token.increaseSize, ascii2int,
      tokenizer.reachedExpectedSizeOfBinaryString, token.expectedSizeAndDataLenghtIsMatching,
      tokenizer.append, token.append, token.is, bind, Option.bind, pure] at hd
    cases hrm : src.rm <;> (try simp only [hrm] at hd) <;> (repeat' split at hd) <;>
        (try cases hd) <;> (try simp at *) <;>
        (try simp_all [Step.sizeOk, tokenizer.sizeInv, token.within])

theorem tkz_case_weobs_sizeOk (t : tokenizer) (ch : Nat) (h : t.sizeInv)
    (hs : t.state = tokenizerWaitingEobs)
    (stp : Step) (hd : t.caseWaitingEobs ch = some stp) : stp.sizeOk t.allowedTokenSize := by
  obtain ⟨src, st, tok, ln, A⟩ := t
  simp only at hs
  subst hs
  cases tok with
  | none => simp [tokenizer.sizeInv] at h
  | some tk =>
    obtain ⟨ty, d, dl, sz⟩ := tk
    simp only [tokenizer.sizeInv] at h
    simp only [tokenizer.caseWaitingEobs, tokenizer.reachedSizeLimit, token.getSize,
      tokenizer.consume, tokenizer.yield, tokenizer.delimiter, tokenizer.tokenIs,
      tokenizer.increaseSize, token.increaseSize, ascii2int,
      tokenizer.reachedExpectedSizeOfBinaryString, token.expectedSizeAndDataLenghtIsMatching,
      tokenizer.append, token.append, token.is, bind, Option.bind, pure] at hd
    cases hrm : src.rm <;> (try simp only [hrm] at hd) <;> (repeat' split at hd) <;>
        (try cases hd) <;> (try simp at *) <;>
        (try simp_all [Step.sizeOk, tokenizer.sizeInv, token.within])
    omega

theorem tkz_case_rbs_sizeOk (t : tokenizer) (ch : Nat) (h : t.sizeInv)
    (hs : t.state = tokenizerReadingBinString)
    (stp : Step) (hd : t.caseReadingBinString ch = some stp) : stp.sizeOk t.allowedTokenSize := by
  obtain ⟨src, st, tok, ln, A⟩ := t
  simp only at hs
  subst hs
  cases tok with
  | none => simp [tokenizer.sizeInv] at h
  | some tk =>
    obtain ⟨ty, d, dl, sz⟩ := tk
    simp only [tokenizer.sizeInv] at h
    simp only [tokenizer.caseReadingBinString, tokenizer.reachedSizeLimit, token.getSize,
      tokenizer.consume, tokenizer.yield, tokenizer.delimiter, tokenizer.tokenIs,
      tokenizer.increaseSize, token.increaseSize, ascii2int,
      tokenizer.reachedExpectedSizeOfBinaryString, token.expectedSizeAndDataLenghtIsMatching,
      tokenizer.append, token.append, token.is, bind, Option.bind, pure] at hd
    cases hrm : src.rm <;> (try simp only [hrm] at hd) <;> (repeat' split at hd) <;>
        (try cases hd) <;> (try simp at *) <;>
        (try simp_all [Step.sizeOk, tokenizer.sizeInv, token.within])

theorem tkz_case_scape_sizeOk (t : tokenizer) (ch : Nat) (h : t.sizeInv)
    (hs : t.state = tokenizerScape)
    (stp : Step) (hd : t.caseScape ch = some stp) : stp.sizeOk t.allowedTokenSize := by
  obtain ⟨src, st, tok, ln, A⟩ := t
  simp only at hs
  subst hs
  cases tok with
  | none => simp [tokenizer.sizeInv] at h
  | some tk =>
    obtain ⟨ty, d, dl, sz⟩ := tk
    simp only [tokenizer.sizeInv] at h
    simp only [tokenizer.caseScape, tokenizer.reachedSizeLimit, token.getSize,
      tokenizer.consume, tokenizer.yield, tokenizer.delimiter, tokenizer.tokenIs,
      tokenizer.increaseSize, token.increaseSize, ascii2int,
      tokenizer.reachedExpectedSizeOfBinaryString, token.expectedSizeAndDataLenghtIsMatching,
      tokenizer.append, token.append, token.is, bind, Option.bind, pure] at hd
    cases hrm : src.rm <;> (try simp only [hrm] at hd) <;> (repeat' split at hd) <;>
        (try cases hd) <;> (try simp at *) <;>
        (try simp_all [Step.sizeOk, tokenizer.sizeInv, token.within])
    omega
theorem tkz_dispatch_sizeOk (t : tokenizer) (ch : Nat) (hA : 1 ≤ t.allowedTokenSize)
    (h : t.sizeInv) (stp : Step) (hd : t.dispatch ch = some stp) :
    stp.sizeOk t.allowedTokenSize := by
  unfold tokenizer.dispatch at hd
  split at hd
  · exact tkz_case_wft_sizeOk t ch hA stp hd
  · exact tkz_case_ri_sizeOk t ch h (by assumption) stp hd
  · exact tkz_case_rs_sizeOk t ch h (by assumption) stp hd
  · exact tkz_case_wse_sizeOk t ch stp hd
  · exact tkz_case_weol_sizeOk t ch h (by assumption) stp hd
  · exact tkz_case_rc_sizeOk t ch h (by assumption) stp hd
  · exact tkz_case_rsize_sizeOk t ch h (by assumption) stp hd
  · exact tkz_case_rbss_sizeOk t ch h (by assumption) stp hd
  · exact tkz_case_weobs_sizeOk t ch h (by assumption) stp hd
  · exact tkz_case_rbs_sizeOk t ch h (by assumption) stp hd
  · exact tkz_case_scape_sizeOk t ch h (by assumption) stp hd

theorem tkz_peek_some (t t1 : tokenizer) (ch bytes : Nat) (err : Option GoError)
    (h : t.peek = some (ch, bytes, err, t1)) : t1 = { t with src := t1.src } := by
  unfold tokenizer.peek at h
  split at h
  · cases h
  · cases h; rfl

/-- A call of the tokenizer loop from a state that satisfies the size invariant, with a
cap of at least 1: a token it returns has a payload within the cap, and the tokenizer
it leaves satisfies the invariant again, whatever the source delivers. -/
theorem tkz_nextLoop_within (f : Nat) : ∀ (t : tokenizer) (io : ioData) (r : tokenizerResult),
    t.sizeInv → 1 ≤ t.allowedTokenSize → tokenizer.nextLoop f t io = Result.done r →
    ∀ tk, r.tok = some tk →
      tk.within t.allowedTokenSize ∧ r.t.sizeInv ∧ r.t.allowedTokenSize = t.allowedTokenSize := by
  induction f with
  | zero => intro t io r _ _ h; simp [tokenizer.nextLoop] at h
  | succ f ih =>
    intro t io r hinv hA h tk htk
    simp only [tokenizer.nextLoop] at h
    cases hp : t.peek with
    | none => simp [hp] at h
    | some v =>
      obtain ⟨ch, bytes, err, t1⟩ := v
      have ht1 := tkz_peek_some t t1 ch bytes err hp
      have hinv1 : t1.sizeInv := by rw [ht1]; exact hinv
      have hA1 : t1.allowedTokenSize = t.allowedTokenSize := by rw [ht1]
      cases err with
      | some e =>
        simp only [hp, Result.done.injEq] at h
        subst h
        cases htk
      | none =>
        simp only [hp] at h
        cases hd : t1.dispatch ch with
        | none => simp [hd] at h
        | some stp =>
          have hok := tkz_dispatch_sizeOk t1 ch (hA1 ▸ hA) hinv1 stp hd
          cases stp with
          | again t2 =>
            simp only [hd] at h
            obtain ⟨hi2, hA2⟩ := hok
            have := ih t2 _ r hi2 (by rw [hA2, hA1]; exact hA) h tk htk
            rw [hA2, hA1] at this
            exact this
          | ret tok err t2 =>
            simp only [hd, Result.done.injEq] at h
            subst h
            simp only at htk
            subst htk
            obtain ⟨hi2, hA2, hw⟩ := hok
            rw [hA1] at hA2 hw
            exact ⟨hw, hi2, hA2⟩

/-- Every IDENTIFIER, STRING or BIN_STRING token that `next` returns from a state that
satisfies the size invariant (a new tokenizer, or one left by calls that returned
tokens) has at most `allowedTokenSize` bytes of payload. -/
theorem tkz_next_within (t : tokenizer) (r : tokenizerResult) (hinv : t.sizeInv)
    (hA : 1 ≤ t.allowedTokenSize) (h : t.next = Result.done r) (tk : token) (htk : r.tok = some tk) :
    ((tk.ttype = tokenIdentifier ∨ tk.ttype = tokenString ∨ tk.ttype = tokenBinString) →
      (tk.data.length : Int) ≤ t.allowedTokenSize) ∧
    r.t.sizeInv ∧ r.t.allowedTokenSize = t.allowedTokenSize :=
  tkz_nextLoop_within _ t newIoData r hinv hA h tk htk

theorem tkz_sizeInv_new (src : source) (A : Int) : (newTokenizer src A).sizeInv := by
  simp [newTokenizer, tokenizer.sizeInv]

/-- An identifier run of more than `A` bytes: `next` returns the fatal "Token is too
big" error at the byte after the first `A`. -/
theorem tkz_next_ident_too_big (s : source) (a : List Nat) (c : Nat) (r : List Nat) (A : Int)
    (h : s.Holds (a ++ c :: r)) (ha : validIdentifier a) (hlen : (a.length : Int) = A)
    (hc : identChar c) (tk : Option token) (ln : Nat) :
    ∃ io2 t2,
      tokenizer.next ⟨s, tokenizerWaitingForToken, tk, ln, A⟩ =
        Result.done ⟨none, io2, some (newTokenizationError
          (bytesOf "Token is too big (max size allowed is " ++ itoa A ++ bytesOf " bytes)")), t2⟩ := by
  cases a with
  | nil => exact absurd ha (by simp [validIdentifier])
  | cons b l =>
    obtain ⟨hb, hl⟩ := ha
    simp only [List.length_cons, Nat.cast_add, Nat.cast_one] at hlen
    have h0 : s.Holds (b :: (l ++ c :: r)) := h
    obtain ⟨s2, io2, h2, run2⟩ := tkz_run_ident (c :: r) 0 ln A l s.step (newIoData.add s.peekBytes)
      [b] 1 (source.step_holds s b _ h0) hl (by omega)
    refine ⟨io2.add s2.peekBytes,
      ⟨s2.afterPeek, tokenizerReadingIdentifier,
        some ⟨tokenIdentifier, [b] ++ l, 0, 1 + (l.length : Int)⟩, ln, A⟩, ?_⟩
    apply tkz_next_of_loop s _ tk ln A (((0 + 1) + l.length) + 1)
    · have := source.fuel_of_holds s _ h0
      simp only [List.length_append, List.length_cons] at this
      omega
    · rw [tkz_pass_ident_start s b _ h0 hb, run2,
        tkz_pass_ident_full s2 c r h2 hc _ 0 _ ln A (by omega)]
      rfl

/-! ## The sink: encodings, buffering, counters -/

theorem sink_write_counters (chunks : List (List Nat)) : ∀ s : sink,
    (s.write chunks).writes = s.writes ∧ (s.write chunks).written = s.written := by
  induction chunks with
  | nil => intro s; exact ⟨rfl, rfl⟩
  | cons c cs ih =>
    intro s
    have := ih { s with buffer := s.buffer ++ c }
    simpa [sink.write] using this

theorem sink_writeStrings_counters (ps : List (List Nat)) : ∀ s : sink,
    (ps.foldl (fun acc chunk => acc.writeAsProtocolString chunk) s).writes = s.writes ∧
      (ps.foldl (fun acc chunk => acc.writeAsProtocolString chunk) s).written = s.written := by
  induction ps with
  | nil => intro s; exact ⟨rfl, rfl⟩
  | cons p ps ih =>
    intro s
    obtain ⟨h1, h2⟩ := ih (s.writeAsProtocolString p)
    obtain ⟨h3, h4⟩ := sink_write_counters
      [[dollar] ++ itoa p.length ++ [carryReturn, lineFeed], p, [carryReturn, lineFeed]] s
    simp only [List.foldl_cons, h1, h2]
    exact ⟨h3, h4⟩

theorem encodeStrings_eq_flatten (ps : List (List Nat)) :
    encodeStrings ps = (ps.map encodeString).flatten := by
  induction ps with
  | nil => rfl
  | cons p ps ih => simp [encodeStrings, ih]

/-- C26. For every sink, byte string `d` and list of byte strings `ps` (also the empty
list): `writeAsProtocolString(d)` leaves the buffer as it was followed by `$`, the length
of `d` in decimal, `\r\n`, `d`, `\r\n`; `writeArrayOfProtocolStrings(ps...)` leaves it as
it was followed by `*`, the number of pieces in decimal, `\r\n` and that encoding of
each piece in order. The decimal text reads back as the number, and neither call
touches the output. -/
theorem protocol_string_encodings (s : sink) (d : List Nat) (ps : List (List Nat)) :
    (s.writeAsProtocolString d).buffer =
      s.buffer ++ ([36] ++ natToDec d.length ++ [13, 10] ++ d ++ [13, 10]) ∧
    (s.writeArrayOfProtocolStrings ps).buffer =
      s.buffer ++ ([42] ++ natToDec ps.length ++ [13, 10] ++
        (ps.map (fun p => [36] ++ natToDec p.length ++ [13, 10] ++ p ++ [13, 10])).flatten) ∧
    digitsValue 0 (natToDec d.length) = some d.length ∧
    digitsValue 0 (natToDec ps.length) = some ps.length ∧
    (s.writeAsProtocolString d).output = s.output ∧
    (s.writeArrayOfProtocolStrings ps).output = s.output := by
  refine ⟨?_, ?_, digitsValue_natToDec _, digitsValue_natToDec _,
    (sink_writeAsProtocolString_output s d).1, (sink_writeArray_output s ps).1⟩
  · rw [sink_writeAsProtocolString_buffer]
    simp [encodeString]
  · rw [sink_writeArray_buffer, encodeArray, encodeStrings_eq_flatten]
    have : encodeString = fun p => [36] ++ natToDec p.length ++ [13, 10] ++ p ++ [13, 10] := by
      funext p
      simp [encodeString]
    rw [this]
    simp

theorem sink_after_payload (s : sink) (c : sinkCall) (h : s.output.reliable) :
    (s.after c).output.reliable ∧ (s.after c).threshold = s.threshold ∧
      (s.after c).output.bytes ++ (s.after c).buffer = s.output.bytes ++ s.buffer ++ c.payload := by
  cases c with
  | write chunks =>
    obtain ⟨h1, h2⟩ := sink_write_output chunks s
    simp only [sink.after, h1, h2, sink_write_buffer, sinkCall.payload, List.append_assoc]
    exact ⟨h, trivial, trivial⟩
  | writeAsProtocolString data =>
    obtain ⟨h1, h2⟩ := sink_writeAsProtocolString_output s data
    simp only [sink.after, h1, h2, sink_writeAsProtocolString_buffer, sinkCall.payload,
      List.append_assoc]
    exact ⟨h, trivial, trivial⟩
  | writeArrayOfProtocolStrings pieces =>
    obtain ⟨h1, h2⟩ := sink_writeArray_output s pieces
    simp only [sink.after, h1, h2, sink_writeArray_buffer, sinkCall.payload, List.append_assoc]
    exact ⟨h, trivial, trivial⟩
  | writeAsRawBytes str =>
    obtain ⟨h1, h2⟩ := sink_write_output [str] s
    simp only [sink.after, sink.writeAsRawBytes, h1, h2, sink_write_buffer, sinkCall.payload,
      List.append_assoc, List.flatten_cons, List.flatten_nil, List.append_nil]
    exact ⟨h, trivial, trivial⟩
  | flush =>
    obtain ⟨d, s2, hf, hb, ht, hr, hby⟩ := sink_flush_reliable s h
    simp only [sink.after, hf, hb, ht, hby, sinkCall.payload, List.append_nil]
    exact ⟨hr, trivial, trivial⟩

theorem sink_afterAll_payload (calls : List sinkCall) : ∀ s : sink, s.output.reliable →
    (s.afterAll calls).output.reliable ∧ (s.afterAll calls).threshold = s.threshold ∧
      (s.afterAll calls).output.bytes ++ (s.afterAll calls).buffer =
        s.output.bytes ++ s.buffer ++ (calls.map sinkCall.payload).flatten := by
  induction calls with
  | nil => intro s h; simp [sink.afterAll, h]
  | cons c cs ih =>
    intro s h
    obtain ⟨h1, h2, h3⟩ := sink_after_payload s c h
    obtain ⟨h4, h5, h6⟩ := ih (s.after c) h1
    simp only [sink.afterAll, List.foldl_cons] at h4 h5 h6 ⊢
    refine ⟨h4, h5.trans h2, ?_⟩
    rw [h6, h3]
    simp

/-- C27. For every sink: `full()` is true exactly when the buffer holds at least
`threshold` bytes; `write` leaves the output untouched and appends its chunks in order;
`flush()` on a non-empty buffer whose `Write` call returns no error leaves the output
as one `Write` call with the whole buffer leaves it, returns `ioData` with the buffer
length as bytes and 1 call and no error, and empties the buffer; `flush()` on an empty
buffer returns `ioData` (0, 0) and changes nothing; and after any calls of the writing
methods and `flush` over a writer that takes everything, ended by a `flush`, the writer
has received, in order, what the sink held and the bytes of every call. -/
theorem sink_buffering (s : sink) (chunks : List (List Nat)) (calls : List sinkCall) :
    (s.full = true ↔ s.threshold ≤ (s.buffer.length : Int)) ∧
    ((s.write chunks).output = s.output ∧ (s.write chunks).buffer = s.buffer ++ chunks.flatten) ∧
    (s.buffer ≠ [] → (s.output.Write s.buffer).2.1 = none →
      s.flush = ((⟨s.buffer.length, 1⟩, none),
        { s with output := (s.output.Write s.buffer).2.2, buffer := [] }) ∧
      (s.output.Write s.buffer).2.2.written = s.output.written ++ [s.buffer]) ∧
    (s.buffer = [] → s.flush = ((⟨0, 0⟩, none), s)) ∧
    (s.output.reliable →
      ((s.afterAll calls).flush.2).buffer = [] ∧
      ((s.afterAll calls).flush.2).output.bytes =
        s.output.bytes ++ s.buffer ++ (calls.map sinkCall.payload).flatten) := by
  refine ⟨?_, ⟨(sink_write_output chunks s).1, sink_write_buffer chunks s⟩, ?_, ?_, ?_⟩
  · simp [sink.full]
  · intro hne hw
    have hlen : 0 < s.buffer.length := List.length_pos.mpr hne
    have hemp : s.empty = false := by
      simp only [sink.empty, decide_eq_false_iff_not]
      omega
    cases hf : s.output.failures with
    | nil =>
      simp [sink.flush, hemp, outputStream.Write, hf, sink.resetBuffer, newIoData, ioData.add, hlen]
    | cons x rest =>
      cases x with
      | none =>
        simp [sink.flush, hemp, outputStream.Write, hf, sink.resetBuffer, newIoData, ioData.add, hlen]
      | some p =>
        simp [outputStream.Write, hf] at hw
  · intro he
    simp [sink.flush, sink.empty, he, newIoData]
  · intro hr
    obtain ⟨h1, _, h3⟩ := sink_afterAll_payload calls s hr
    obtain ⟨d, s2, hf, hb, _, _, hby⟩ := sink_flush_reliable (s.afterAll calls) h1
    rw [hf]
    exact ⟨hb, by rw [hby, h3]⟩

theorem sink_flush_counters (s : sink) :
    s.flush.2.writes = s.writes ∧ s.flush.2.written = s.written := by
  simp only [sink.flush]
  split
  · exact ⟨rfl, rfl⟩
  · split <;> exact ⟨rfl, rfl⟩

theorem sink_after_counters (s : sink) (c : sinkCall) :
    (s.after c).writes = s.writes ∧ (s.after c).written = s.written := by
  cases c with
  | write chunks => exact sink_write_counters chunks s
  | writeAsProtocolString data => exact sink_write_counters _ s
  | writeArrayOfProtocolStrings pieces =>
    obtain ⟨h1, h2⟩ := sink_writeStrings_counters pieces
      (s.write [bprintf [asterisk] (some pieces.length) [carryReturn, lineFeed]])
    obtain ⟨h3, h4⟩ := sink_write_counters
      [bprintf [asterisk] (some pieces.length) [carryReturn, lineFeed]] s
    exact ⟨h1.trans h3, h2.trans h4⟩
  | writeAsRawBytes str => exact sink_write_counters [str] s
  | flush => exact sink_flush_counters s

/-- C28. No method of the sink assigns to `written` or `writes`: after any calls of the
writing methods and `flush` on a new sink, over any writer, `getBytesWritten()` and
`getNumberOfWrites()` are 0. After the calls of `TestWrite` (threshold 10, a writer
that takes everything) the writer has received 17 bytes in 2 `Write` calls, and both
getters still return 0. -/
theorem sink_counters_stay_zero :
    (∀ (o : outputStream) (threshold : Int) (calls : List sinkCall),
      ((newSink o threshold).afterAll calls).getBytesWritten = 0 ∧
      ((newSink o threshold).afterAll calls).getNumberOfWrites = 0) ∧
    (((newSink ⟨[], []⟩ 10).afterAll
        [.write [bytesOf "GET"], .write [bytesOf "  ", [34] ++ bytesOf "KEY_NAME" ++ [34]], .flush,
          .write [[13, 10]], .flush]).output.written =
      [bytesOf "GET  " ++ [34] ++ bytesOf "KEY_NAME" ++ [34], [13, 10]] ∧
    ((newSink ⟨[], []⟩ 10).afterAll
        [.write [bytesOf "GET"], .write [bytesOf "  ", [34] ++ bytesOf "KEY_NAME" ++ [34]], .flush,
          .write [[13, 10]], .flush]).output.bytes.length = 17 ∧
    ((newSink ⟨[], []⟩ 10).afterAll
        [.write [bytesOf "GET"], .write [bytesOf "  ", [34] ++ bytesOf "KEY_NAME" ++ [34]], .flush,
          .write [[13, 10]], .flush]).getBytesWritten = 0 ∧
    ((newSink ⟨[], []⟩ 10).afterAll
        [.write [bytesOf "GET"], .write [bytesOf "  ", [34] ++ bytesOf "KEY_NAME" ++ [34]], .flush,
          .write [[13, 10]], .flush]).getNumberOfWrites = 0) := by
  constructor
  · intro o threshold calls
    have key : ∀ (cs : List sinkCall) (s : sink),
        (s.afterAll cs).writes = s.writes ∧ (s.afterAll cs).written = s.written := by
      intro cs
      induction cs with
      | nil => intro s; exact ⟨rfl, rfl⟩
      | cons c cs ih =>
        intro s
        obtain ⟨h1, h2⟩ := ih (s.after c)
        obtain ⟨h3, h4⟩ := sink_after_counters s c
        simp only [sink.afterAll, List.foldl_cons] at h1 h2 ⊢
        exact ⟨h1.trans h3, h2.trans h4⟩
    obtain ⟨h1, h2⟩ := key calls (newSink o threshold)
    exact ⟨h2, h1⟩
  · decide

/-! ## Statistics of the io events -/

theorem ioStatistics.addAll_eq (evs : List (ioDevice × ioType × ioData)) : ∀ st : ioStatistics,
    st.addAll evs =
      { network :=
          ⟨st.network.In + totalBytes .network .input evs,
           st.network.Out + totalBytes .network .output evs,
           st.network.Reads + totalCalls .network .input evs,
           st.network.Writes + totalCalls .network .output evs⟩,
        disk :=
          ⟨st.disk.In + totalBytes .disk .input evs,
           st.disk.Out + totalBytes .disk .output evs,
           st.disk.Reads + totalCalls .disk .input evs,
           st.disk.Writes + totalCalls .disk .output evs⟩ } := by
  induction evs with
  | nil => intro st; simp [ioStatistics.addAll, totalBytes, totalCalls]
  | cons e evs ih =>
    intro st
    obtain ⟨dev, kind, data⟩ := e
    have h := ih (st.add dev kind data)
    simp only [ioStatistics.addAll, List.foldl_cons] at h ⊢
    rw [h]
    cases dev <;> cases kind <;>
      simp [ioStatistics.add, ioStats.add, totalBytes, totalCalls, List.filter_cons, Nat.add_assoc]

/-- C29. For every list of io events added to the statistics left by an `analyze` (or
to new statistics) and every count `s` of whole seconds elapsed: `analyze` returns for
the network and for the disk the sums of the bytes and of the calls of the added events
of that device and direction, each divided (integer division) by max(1, s); with
`s < 1` these are the sums themselves; the statistics left are all zero, and an
`analyze` right after returns zeros. The last part is `TestAnalyzeIoMetrics`. -/
theorem stats_aggregation (st0 : ioStatistics) (s0 s s2 : Int)
    (evs : List (ioDevice × ioType × ioData)) :
    (∀ start, (start = (st0.analyze s0).2 ∨ start = newIoStatistics) →
      ((start.addAll evs).analyze s).1 =
        (⟨totalBytes .network .input evs / (max 1 s).toNat,
          totalBytes .network .output evs / (max 1 s).toNat,
          totalCalls .network .input evs / (max 1 s).toNat,
          totalCalls .network .output evs / (max 1 s).toNat⟩,
         ⟨totalBytes .disk .input evs / (max 1 s).toNat,
          totalBytes .disk .output evs / (max 1 s).toNat,
          totalCalls .disk .input evs / (max 1 s).toNat,
          totalCalls .disk .output evs / (max 1 s).toNat⟩) ∧
      (s < 1 → ((start.addAll evs).analyze s).1 =
        (⟨totalBytes .network .input evs, totalBytes .network .output evs,
          totalCalls .network .input evs, totalCalls .network .output evs⟩,
         ⟨totalBytes .disk .input evs, totalBytes .disk .output evs,
          totalCalls .disk .input evs, totalCalls .disk .output evs⟩)) ∧
      ((start.addAll evs).analyze s).2 = newIoStatistics ∧
      ((((start.addAll evs).analyze s).2).analyze s2).1 = (⟨0, 0, 0, 0⟩, ⟨0, 0, 0, 0⟩)) ∧
    0 < (max 1 s).toNat ∧
    (let dataPoints : List (ioDevice × ioType × ioData) :=
      [(.disk, .output, ⟨1024, 1⟩), (.network, .input, ⟨241, 2⟩), (.network, .input, ⟨49, 1⟩),
       (.network, .output, ⟨300, 1⟩), (.network, .output, ⟨4, 1⟩), (.network, .input, ⟨12, 1⟩),
       (.disk, .output, ⟨1024, 1⟩), (.network, .input, ⟨16, 1⟩)]
     ((newIoStatistics.addAll dataPoints).analyze 0).1 = (⟨318, 304, 5, 2⟩, ⟨0, 2048, 0, 2⟩) ∧
     ((newIoStatistics.addAll dataPoints).analyze 2).1 = (⟨159, 152, 2, 1⟩, ⟨0, 1024, 0, 1⟩)) := by
  refine ⟨?_, ?_, ?_⟩
  · intro start hstart
    have hz : start = newIoStatistics := by
      rcases hstart with h | h
      · rw [h]; rfl
      · exact h
    subst hz
    have hadd := ioStatistics.addAll_eq evs newIoStatistics
    simp only [newIoStatistics, Nat.zero_add] at hadd
    refine ⟨?_, ?_, ?_, ?_⟩
    · simp only [ioStatistics.analyze, newIoStatistics, hadd, ioStats.average]
    · intro hs
      have h1 : (max 1 s).toNat = 1 := by
        rw [max_eq_left (by omega)]
        rfl
      simp only [ioStatistics.analyze, newIoStatistics, hadd, ioStats.average, h1, Nat.div_one]
    · rfl
    · simp [ioStatistics.analyze, ioStatistics.reset, ioStats.average]
  · have : 1 ≤ max 1 s := le_max_left 1 s
    omega
  · decide

/-- Counterexample of C30: on a new replica the event of a reading error from the master
(here the end of the stream), which is neither the signal event nor the accept-error
event, has an `exec` that returns true. -/
theorem master_error_event_stops :
    event.exec ⟨fun _ => [], fun _ _ => []⟩ ⟨0, 0⟩
        (event.errorReadingFromMasterEvent (newReadingError GoError.EOF)) (NewAetherServer true 0) =
      some (true, NewAetherServer true 0) ∧
    event.errorReadingFromMasterEvent (newReadingError GoError.EOF) ≠ event.signalEvent ∧
    event.errorReadingFromMasterEvent (newReadingError GoError.EOF) ≠
      event.errorAcceptingConnectionEvent GoError.EOF :=
  ⟨rfl, by decide, by decide⟩

/-- C30, amended. For every event, clock reading and server state: the signal event,
the accept-error event and the error-reading-from-master event, and only these, have an
`exec` that returns true (the server is left as it is); the `exec` of every other event
returns false whenever it returns, and it does return when every key of the
transient-keys set (each key in it once) is stored and the event is not a SYNC command
read from the master.
For that event `exec` does not return: the SYNC runner is called with a nil client and
reads its id. -/
theorem exec_stop_flag (J : jsonLib) (now : clock) (e : event) (server : AetherServer) :
    (e.stops = true ↔
      (e = event.signalEvent ∨ (∃ err, e = event.errorAcceptingConnectionEvent err) ∨
        ∃ err, e = event.errorReadingFromMasterEvent err)) ∧
    (e.stops = true → e.exec J now server = some (true, server)) ∧
    (e.stops = false → ∀ b s2, e.exec J now server = some (b, s2) → b = false) ∧
    (e.stops = false → server.hm.transientKeys.Nodup →
      (∀ k, k ∈ server.hm.transientKeys → (server.hm.get k).2 = true) →
      (∀ cmd, e = event.sourceCommand cmd → cmd.getCode ≠ commandCode.commandSync) →
      ∃ s2, e.exec J now server = some (false, s2)) ∧
    (∀ cmd : command, cmd.getCode = commandCode.commandSync →
      (event.sourceCommand cmd).exec J now server = none) := by
  refine ⟨?_, ?_, ?_, ?_, ?_⟩
  · cases e <;> simp [event.stops]
  · cases e <;> simp [event.stops, event.exec]
  · intro hs b s2 h
    cases e with
    | newCommandEvent client command =>
      simp only [event.exec] at h
      split at h
      · simp only [Option.some.injEq, Prod.mk.injEq] at h
        exact h.1.symm
      · split at h
        · cases h
        · split at h <;>
          · simp only [Option.some.injEq, Prod.mk.injEq] at h
            exact h.1.symm
    | heartBeat no =>
      simp only [event.exec] at h
      split at h
      · cases h
      · split at h <;>
        · simp only [Option.some.injEq, Prod.mk.injEq] at h
          exact h.1.symm
    | readingErrorEvent client err =>
      simp only [event.exec] at h
      split at h <;>
      · simp only [Option.some.injEq, Prod.mk.injEq] at h
        exact h.1.symm
    | sourceCommand command =>
      simp only [event.exec] at h
      split at h
      · cases h
      · simp only [Option.some.injEq, Prod.mk.injEq] at h
        exact h.1.symm
    | signalEvent => simp [event.stops] at hs
    | errorAcceptingConnectionEvent err => simp [event.stops] at hs
    | errorReadingFromMasterEvent err => simp [event.stops] at hs
    | newConnectionEvent =>
      simp only [event.exec, Option.some.injEq, Prod.mk.injEq] at h
      exact h.1.symm
    | closeClientEvent client =>
      simp only [event.exec, Option.some.injEq, Prod.mk.injEq] at h
      exact h.1.symm
    | writingErrorEvent client err =>
      simp only [event.exec, Option.some.injEq, Prod.mk.injEq] at h
      exact h.1.symm
    | ioEvent device kind data =>
      simp only [event.exec, Option.some.injEq, Prod.mk.injEq] at h
      exact h.1.symm
    | connectionLimitReachedEvent =>
      simp only [event.exec, Option.some.injEq, Prod.mk.injEq] at h
      exact h.1.symm
  · intro hs hnd hst hsync
    cases e with
    | newCommandEvent client command =>
      simp only [event.exec]
      split
      · exact ⟨_, rfl⟩
      · have : ∃ r s1, commandRunners J now.unix command (some client) server = some (r, s1) := by
          simp only [commandRunners]
          split <;> exact ⟨_, _, rfl⟩
        obtain ⟨r, s1, hrun⟩ := this
        simp only [hrun]
        split <;> exact ⟨_, rfl⟩
    | heartBeat no =>
      obtain ⟨hm2, hf, _⟩ := hashmap.evict_loop now.unix server.hm.transientKeys server.hm hnd hst
      obtain ⟨s2, h2, _⟩ := exec_heartBeat J now no server hm2 hf
      exact ⟨s2, h2⟩
    | readingErrorEvent client err =>
      simp only [event.exec]
      split <;> exact ⟨_, rfl⟩
    | sourceCommand command =>
      have hc := hsync command rfl
      have : ∃ r s1, commandRunners J now.unix command none server = some (r, s1) := by
        simp only [commandRunners]
        split <;> first | exact ⟨_, _, rfl⟩ | (exfalso; apply hc; assumption)
      obtain ⟨r, s1, hrun⟩ := this
      simp only [event.exec, hrun]
      exact ⟨_, rfl⟩
    | signalEvent => simp [event.stops] at hs
    | errorAcceptingConnectionEvent err => simp [event.stops] at hs
    | errorReadingFromMasterEvent err => simp [event.stops] at hs
    | newConnectionEvent => exact ⟨_, rfl⟩
    | closeClientEvent client => exact ⟨_, rfl⟩
    | writingErrorEvent client err => exact ⟨_, rfl⟩
    | ioEvent device kind data => exact ⟨_, rfl⟩
    | connectionLimitReachedEvent => exact ⟨_, rfl⟩
  · intro cmd hc
    simp only [event.exec, commandRunners, hc]

/-! ## The buffered source over a file -/

theorem ceil_div_full (q B : Nat) (hB : 0 < B) : (B * q + B + B - 1) / B = (B * q + B - 1) / B + 1 := by
  have h1 : B * q + B + B - 1 = B * (q + 1) + (B - 1) := by
    rw [Nat.mul_add]; omega
  have h2 : B * q + B - 1 = B * q + (B - 1) := by omega
  rw [h1, h2, Nat.mul_add_div hB, Nat.mul_add_div hB]
  generalize (B - 1) / B = z
  omega

theorem ceil_div_last (q B m : Nat) (hm : 0 < m) (hmB : m ≤ B) :
    (B * q + m + B - 1) / B = (B * q + B - 1) / B + 1 := by
  have hB : 0 < B := by omega
  have h1 : B * q + m + B - 1 = B * (q + 1) + (m - 1) := by
    rw [Nat.mul_add]; omega
  have h2 : B * q + B - 1 = B * q + (B - 1) := by omega
  rw [h1, h2, Nat.mul_add_div hB, Nat.mul_add_div hB, Nat.div_eq_of_lt (by omega : m - 1 < B),
    Nat.div_eq_of_lt (by omega : B - 1 < B)]

theorem source.counted_new (input : List Nat) (B : Nat) (hB : 0 < B) :
    (newBufferedSource (fileReader input) B).counted input B := by
  refine ⟨by simp [newBufferedSource], by simp [newBufferedSource], by simp [newBufferedSource], ?_, ?_⟩
  · simp only [newBufferedSource, Nat.zero_add]
    exact (Nat.div_eq_of_lt (by omega)).symm
  · intro _
    simp [newBufferedSource]

theorem source.counted_adv (s : source) (input : List Nat) (B : Nat) (h : s.counted input B) :
    s.adv.counted input B := h

/-- A refill keeps the counters in step with the file. -/
theorem source.counted_afterPeek (s : source) (input : List Nat) (B : Nat) (c : Nat) (r : List Nat)
    (hB : 0 < B) (h : s.counted input B) (hh : s.Holds (c :: r)) : s.afterPeek.counted input B := by
  cases hu : s.hasUnreadInput
  · obtain ⟨hlen, hfd, hle, hreads, hdiv⟩ := h
    have hun := source.unread_nil_of_not_hasUnread s hu
    obtain ⟨_, hrest⟩ := hh
    simp only [source.rest, hun, List.nil_append, hfd, fileReader] at hrest
    have hne : input.drop s.in_ ≠ [] := by
      intro h0
      simp [h0] at hrest
    have hlt : s.in_ < input.length := by
      by_contra hc
      exact hne (List.drop_eq_nil_of_le (by omega))
    obtain ⟨q, hq⟩ := hdiv hlt
    have hdl : (input.drop s.in_).length = input.length - s.in_ := List.length_drop _ _
    simp only [source.afterPeek, hu, Bool.false_eq_true, if_false]
    by_cases hfit : (input.drop s.in_).length ≤ B
    · have hl : s.loadData.2.2 =
          { s with fd := ⟨[]⟩, buff := input.drop s.in_ ++ s.buff.drop (input.drop s.in_).length,
                   size := (input.drop s.in_).length, pos := 0, reads := s.reads + 1,
                   in_ := s.in_ + (input.drop s.in_).length } := by
        simp only [source.loadData, inputStream.Read, hfd, fileReader, hne, if_false, hlen, hfit,
          if_true]
      rw [hl]
      have hin : s.in_ + (input.drop s.in_).length = input.length := by omega
      refine ⟨?_, ?_, ?_, ?_, ?_⟩
      · simp only [List.length_append, List.length_drop]; omega
      · simp only [hin, List.drop_length, fileReader, if_true]
      · simp only [hin, Nat.le_refl]
      · have hm : 0 < input.length - s.in_ := by omega
        have := ceil_div_last q B (input.length - s.in_) hm (by omega)
        have e1 : B * q + (input.length - s.in_) = input.length := by
          rw [← hq]; omega
        rw [e1] at this
        simp only [hin, hreads]
        rw [this, hq]
      · intro hlt2
        simp only [hin] at hlt2
        exact absurd hlt2 (Nat.lt_irrefl _)
    · have hgt : B < (input.drop s.in_).length := Nat.lt_of_not_le hfit
      have htl : ((input.drop s.in_).take B).length = B := by
        simp only [List.length_take]; omega
      have hl : s.loadData.2.2 =
          { s with fd := ⟨[(input.drop s.in_).drop B]⟩,
                   buff := (input.drop s.in_).take B ++ s.buff.drop ((input.drop s.in_).take B).length,
                   size := ((input.drop s.in_).take B).length, pos := 0, reads := s.reads + 1,
                   in_ := s.in_ + ((input.drop s.in_).take B).length } := by
        simp only [source.loadData, inputStream.Read, hfd, fileReader, hne, if_false, hlen, hfit]
      rw [hl]
      refine ⟨?_, ?_, ?_, ?_, ?_⟩
      · simp only [List.length_append, List.length_drop, htl]; omega
      · have hne2 : input.drop (s.in_ + B) ≠ [] := by
          intro h0
          have := congrArg List.length h0
          simp only [List.length_drop, List.length_nil] at this
          omega
        simp only [htl, fileReader, hne2, if_false, List.drop_drop]
      · simp only [htl]; omega
      · simp only [htl, hreads]
        rw [hq, ceil_div_full q B hB]
      · intro _
        simp only [htl]
        exact ⟨q + 1, by rw [hq, Nat.mul_add, Nat.mul_one]⟩
  · simpa [source.afterPeek, hu] using h

/-- Alternating `peek` and `rm` delivers the bytes a source holds, in order. -/
theorem source.readBytes_of_holds (input : List Nat) (B : Nat) (hB : 0 < B) (a : List Nat) :
    ∀ (s : source) (r : List Nat), s.Holds (a ++ r) → s.counted input B →
      ∃ s2, source.readBytes a.length s = some (a, s2) ∧ s2.Holds r ∧ s2.counted input B := by
  induction a with
  | nil => intro s r hh hc; exact ⟨s, rfl, hh, hc⟩
  | cons c a ih =>
    intro s r hh hc
    have h0 : s.Holds (c :: (a ++ r)) := hh
    obtain ⟨hp, h2, h3⟩ := source.peek_of_holds s c _ h0
    obtain ⟨hrm, h4⟩ := source.rm_of_hasUnread s.afterPeek c _ h2 h3
    obtain ⟨s2, hrun, h5, h6⟩ := ih s.afterPeek.adv r h4
      (source.counted_adv _ input B (source.counted_afterPeek s input B c _ hB hc h0))
    refine ⟨s2, ?_, h5, h6⟩
    simp only [List.length_cons, source.readBytes, hp, hrm, hrun]

theorem source.holds_file (input : List Nat) (B : Nat) (hB : 0 < B) :
    (newBufferedSource (fileReader input) B).Holds input := by
  by_cases h : input = []
  · subst h
    exact source.holds_new [] B hB (fun c hc => absurd hc (List.not_mem_nil _))
  · have := source.holds_new [input] B hB (fun c hc => by
      simp only [List.mem_singleton] at hc
      rw [hc]
      exact h)
    simpa [fileReader, h] using this

/-- The loop of `runSourceTest` over a whole file: the bytes come back in order, the
source is left at the end of the input, and the counters tell the loads and the bytes. -/
theorem source.readBytes_file (input : List Nat) (B : Nat) (hB : 0 < B) :
    ∃ s3,
      source.readBytes input.length (newBufferedSource (fileReader input) B) = some (input, s3) ∧
      s3.Holds [] ∧ s3.reads = (input.length + B - 1) / B ∧ s3.in_ = input.length := by
  obtain ⟨s3, hrun, h3, c3⟩ := source.readBytes_of_holds input B hB input _ []
    (by simpa using source.holds_file input B hB) (source.counted_new input B hB)
  obtain ⟨_, hfd, hle, hreads, _⟩ := c3
  have hin : s3.in_ = input.length := by
    obtain ⟨_, hrest⟩ := h3
    simp only [source.rest, List.append_eq_nil, hfd, fileReader] at hrest
    by_contra hne
    have hd : input.drop s3.in_ ≠ [] := by
      intro h0
      have := congrArg List.length h0
      simp only [List.length_drop, List.length_nil] at this
      omega
    simp [hd] at hrest
  exact ⟨s3, hrun, h3, by rw [hreads, hin], hin⟩

/-- C25. A source with a buffer of `B ≥ 1` bytes over a reader that fills the buffer as
far as the bytes of `input` remain and then reports EOF. For every byte `c` of the
input, after `peek`/`rm` pairs for the bytes `a` before it (which return exactly `a`),
`peek` returns `c` without error, and a `peek` repeated on the source it leaves returns
`c` again, loads nothing and changes nothing. After `peek`/`rm` pairs for all the
bytes, which return the input in order, `peek` returns `io.EOF`, `numOfReads()` is
the ceiling of `len(input) / B` and `bytesIn()` is `len(input)`. -/
theorem buffered_source_delivers (input : List Nat) (B : Nat) (hB : 1 ≤ B) :
    (∀ a c r, input = a ++ c :: r →
      ∃ s1 n s2,
        source.readBytes a.length (newBufferedSource (fileReader input) B) = some (a, s1) ∧
        s1.peek = some (c, n, none, s2) ∧ s2.peek = some (c, 0, none, s2)) ∧
    (∃ s3,
      source.readBytes input.length (newBufferedSource (fileReader input) B) = some (input, s3) ∧
      s3.peek = some (0, 0, some GoError.EOF, s3) ∧
      s3.numOfReads = (input.length + B - 1) / B ∧
      (input.length ≤ B * s3.numOfReads ∧ B * s3.numOfReads < input.length + B) ∧
      s3.bytesIn = input.length) := by
  have h0 := source.holds_file input B hB
  have c0 := source.counted_new input B hB
  constructor
  · intro a c r hin
    subst hin
    obtain ⟨s1, hrun, h1, _⟩ := source.readBytes_of_holds _ B hB a _ (c :: r) h0 c0
    obtain ⟨hp, h2, h3⟩ := source.peek_of_holds s1 c r h1
    exact ⟨s1, s1.peekBytes, s1.afterPeek, hrun, hp, source.peek_of_hasUnread _ c r h2 h3⟩
  · obtain ⟨s3, hrun, h3, hr, hin⟩ := source.readBytes_file input B hB
    refine ⟨s3, hrun, source.peek_of_holds_nil s3 h3, hr, ?_, hin⟩
    simp only [source.numOfReads, hr]
    have h1 := Nat.div_add_mod (input.length + B - 1) B
    have h2 := Nat.mod_lt (input.length + B - 1) hB
    constructor <;> omega

/-- Witness of C25: the input `GET F398BC5672A51D8D \n` of `TestBufferedReadFromSource`
through a buffer of 8 bytes: 22 bytes in 3 reads. -/
theorem buffered_source_delivers_witness :
    1 ≤ 8 ∧
    ∃ s3,
      source.readBytes (bytesOf "GET F398BC5672A51D8D \n").length
          (newBufferedSource (fileReader (bytesOf "GET F398BC5672A51D8D \n")) 8) =
        some (bytesOf "GET F398BC5672A51D8D \n", s3) ∧
      s3.peek = some (0, 0, some GoError.EOF, s3) ∧
      s3.numOfReads = ((bytesOf "GET F398BC5672A51D8D \n").length + 8 - 1) / 8 ∧
      ((bytesOf "GET F398BC5672A51D8D \n").length ≤ 8 * s3.numOfReads ∧
        8 * s3.numOfReads < (bytesOf "GET F398BC5672A51D8D \n").length + 8) ∧
      s3.bytesIn = (bytesOf "GET F398BC5672A51D8D \n").length :=
  ⟨by decide, (buffered_source_delivers (bytesOf "GET F398BC5672A51D8D \n") 8 (by decide)).2⟩

/-! ## Quoted strings -/

/-- Waiting for a token, a quote opens a STRING and becomes its delimiter. -/
theorem tkz_pass_quote (s : source) (c : Nat) (r : List Nat) (h : s.Holds (c :: r))
    (hc : c = 39 ∨ c = 34) (tk : Option token) (ln : Nat) (A : Int) (f : Nat) (io : ioData) :
    tokenizer.nextLoop (f + 1) ⟨s, tokenizerWaitingForToken, tk, ln, A⟩ io =
      tokenizer.nextLoop f ⟨s.step, tokenizerReadingString, some ⟨tokenString, [], c, 0⟩, ln, A⟩
        (io.add s.peekBytes) := by
  rw [tkz_nextLoop_of_holds s c r h]
  rcases hc with hc | hc <;> subst hc <;>
    simp [tokenizer.dispatch, tokenizer.caseWaitingForToken, tokenizer.new, tokenizer.setDelimiter,
      tkz_consume_of_holds s _ r h]

/-- Reading a string below the size cap, a byte that is no end of line, backslash,
delimiter or double quote is appended. -/
theorem tkz_pass_str_plain (s : source) (c : Nat) (r : List Nat) (h : s.Holds (c :: r))
    (d : List Nat) (dl : Nat) (sz : Int) (ln : Nat) (A : Int)
    (hc : c ≠ 13 ∧ c ≠ 10 ∧ c ≠ 92 ∧ c ≠ dl ∧ c ≠ 34) (hsz : sz < A) (f : Nat) (io : ioData) :
    tokenizer.nextLoop (f + 1) ⟨s, tokenizerReadingString, some ⟨tokenString, d, dl, sz⟩, ln, A⟩ io =
      tokenizer.nextLoop f
        ⟨s.step, tokenizerReadingString, some ⟨tokenString, d ++ [c], dl, sz + 1⟩, ln, A⟩
        (io.add s.peekBytes) := by
  rw [tkz_nextLoop_of_holds s c r h]
  obtain ⟨h1, h2, h3, h4, h5⟩ := hc
  have e6 : ¬ (A ≤ sz) := by omega
  simp [tokenizer.dispatch, tokenizer.caseReadingString, tokenizer.reachedSizeLimit,
    tokenizer.delimiter, token.getSize, tokenizer.append, token.append,
    tkz_consume_of_holds s _ r h, h1, h2, h3, h4, h5, e6]

/-- Reading a string whose delimiter is not the double quote, a double quote is
appended after a backslash; the size is checked between the two. -/
theorem tkz_pass_str_dquote (s : source) (r : List Nat) (h : s.Holds (34 :: r))
    (d : List Nat) (dl : Nat) (sz : Int) (ln : Nat) (A : Int)
    (hdl : dl ≠ 34) (hsz : sz + 1 < A) (f : Nat) (io : ioData) :
    tokenizer.nextLoop (f + 1) ⟨s, tokenizerReadingString, some ⟨tokenString, d, dl, sz⟩, ln, A⟩ io =
      tokenizer.nextLoop f
        ⟨s.step, tokenizerReadingString, some ⟨tokenString, d ++ [92, 34], dl, sz + 1 + 1⟩, ln, A⟩
        (io.add s.peekBytes) := by
  rw [tkz_nextLoop_of_holds s 34 r h]
  have e6 : ¬ (A ≤ sz + 1) := by omega
  have e7 : ¬ (34 = dl) := fun e => hdl e.symm
  simp [tokenizer.dispatch, tokenizer.caseReadingString, tokenizer.reachedSizeLimit,
    tokenizer.delimiter, token.getSize, tokenizer.append, token.append,
    tkz_consume_of_holds s _ r h, e6, e7]

/-- Reading a string below the size cap, a backslash is appended and the next byte is
escaped. -/
theorem tkz_pass_str_scape (s : source) (r : List Nat) (h : s.Holds (92 :: r))
    (d : List Nat) (dl : Nat) (sz : Int) (ln : Nat) (A : Int) (hsz : sz < A) (f : Nat) (io : ioData) :
    tokenizer.nextLoop (f + 1) ⟨s, tokenizerReadingString, some ⟨tokenString, d, dl, sz⟩, ln, A⟩ io =
      tokenizer.nextLoop f
        ⟨s.step, tokenizerScape, some ⟨tokenString, d ++ [92], dl, sz + 1⟩, ln, A⟩
        (io.add s.peekBytes) := by
  rw [tkz_nextLoop_of_holds s 92 r h]
  have e6 : ¬ (A ≤ sz) := by omega
  simp [tokenizer.dispatch, tokenizer.caseReadingString, tokenizer.reachedSizeLimit,
    token.getSize, tokenizer.append, token.append, tkz_consume_of_holds s _ r h, e6]

/-- After a backslash and below the size cap, any byte is appended. -/
theorem tkz_pass_scape (s : source) (c : Nat) (r : List Nat) (h : s.Holds (c :: r))
    (d : List Nat) (dl : Nat) (sz : Int) (ln : Nat) (A : Int) (hsz : sz < A) (f : Nat) (io : ioData) :
    tokenizer.nextLoop (f + 1) ⟨s, tokenizerScape, some ⟨tokenString, d, dl, sz⟩, ln, A⟩ io =
      tokenizer.nextLoop f
        ⟨s.step, tokenizerReadingString, some ⟨tokenString, d ++ [c], dl, sz + 1⟩, ln, A⟩
        (io.add s.peekBytes) := by
  rw [tkz_nextLoop_of_holds s c r h]
  have e6 : ¬ (A ≤ sz) := by omega
  simp [tokenizer.dispatch, tokenizer.caseScape, tokenizer.reachedSizeLimit,
    token.getSize, tokenizer.append, token.append, tkz_consume_of_holds s _ r h, e6]

/-- Reading a string, the delimiter is consumed and the token is yielded. -/
theorem tkz_pass_str_close (s : source) (r : List Nat) (d : List Nat) (dl : Nat)
    (h : s.Holds (dl :: r)) (hdl : dl = 39 ∨ dl = 34) (sz : Int) (ln : Nat) (A : Int)
    (f : Nat) (io : ioData) :
    tokenizer.nextLoop (f + 1) ⟨s, tokenizerReadingString, some ⟨tokenString, d, dl, sz⟩, ln, A⟩ io =
      Result.done ⟨some ⟨tokenString, d, dl, sz⟩, io.add s.peekBytes, none,
        ⟨s.step, tokenizerWaitingSpaceForEos, some ⟨tokenString, d, dl, sz⟩, ln, A⟩⟩ := by
  rw [tkz_nextLoop_of_holds s dl r h]
  rcases hdl with hdl | hdl <;> subst hdl <;>
    simp [tokenizer.dispatch, tokenizer.caseReadingString, tokenizer.delimiter, tokenizer.yield,
      token.is, tkz_consume_of_holds s _ r h]

/-- Reading a string, an end of line is the fatal "Unexpected end of line" error. -/
theorem tkz_pass_str_eol (s : source) (c : Nat) (r : List Nat) (h : s.Holds (c :: r))
    (hc : c = 13 ∨ c = 10) (tk : Option token) (ln : Nat) (A : Int) (f : Nat) (io : ioData) :
    tokenizer.nextLoop (f + 1) ⟨s, tokenizerReadingString, tk, ln, A⟩ io =
      Result.done ⟨none, io.add s.peekBytes,
        some (newTokenizationError (bytesOf "Unexpected end of line")),
        ⟨s.afterPeek, tokenizerReadingString, tk, ln, A⟩⟩ := by
  rw [tkz_nextLoop_of_holds s c r h]
  rcases hc with hc | hc <;> subst hc <;>
    simp [tokenizer.dispatch, tokenizer.caseReadingString, tokenizer.unexpectedEol]

/-- After a closing delimiter, a line feed, carry return or space is left in the source
for the state that waits for a token. -/
theorem tkz_pass_eos_ok (s : source) (c : Nat) (r : List Nat) (h : s.Holds (c :: r))
    (hc : c = 10 ∨ c = 13 ∨ c = 32) (tk : Option token) (ln : Nat) (A : Int) (f : Nat) (io : ioData) :
    tokenizer.nextLoop (f + 1) ⟨s, tokenizerWaitingSpaceForEos, tk, ln, A⟩ io =
      tokenizer.nextLoop f ⟨s.afterPeek, tokenizerWaitingForToken, tk, ln, A⟩ (io.add s.peekBytes) := by
  rw [tkz_nextLoop_of_holds s c r h]
  rcases hc with hc | hc | hc <;> subst hc <;>
    simp [tokenizer.dispatch, tokenizer.caseWaitingSpaceForEos]

/-- After a closing delimiter, any other byte is the fatal "Unexpected ... next to EOS"
error. -/
theorem tkz_pass_eos_bad (s : source) (c : Nat) (r : List Nat) (h : s.Holds (c :: r))
    (hc : c ≠ 10 ∧ c ≠ 13 ∧ c ≠ 32) (tk : Option token) (ln : Nat) (A : Int) (f : Nat) (io : ioData) :
    tokenizer.nextLoop (f + 1) ⟨s, tokenizerWaitingSpaceForEos, tk, ln, A⟩ io =
      Result.done ⟨none, io.add s.peekBytes,
        some (newTokenizationError (bytesOf "Unexpected '" ++ natToDec c ++ bytesOf "' next to EOS")),
        ⟨s.afterPeek, tokenizerWaitingSpaceForEos, tk, ln, A⟩⟩ := by
  rw [tkz_nextLoop_of_holds s c r h]
  obtain ⟨h1, h2, h3⟩ := hc
  simp [tokenizer.dispatch, tokenizer.caseWaitingSpaceForEos, tokenizer.unexpectedCharEos, h1, h2, h3]

theorem tkz_run_string (r : List Nat) (dl ln : Nat) (A : Int) (ps : List strPiece) :
    ∀ (s : source) (io : ioData) (d : List Nat) (sz : Int), s.Holds (rawText ps ++ r) →
      (∀ p, p ∈ ps → p.inside dl) → sz + (storedText ps).length ≤ A →
      ∃ s2 io2, s2.Holds r ∧ ∀ f,
        tokenizer.nextLoop (f + (rawText ps).length)
            ⟨s, tokenizerReadingString, some ⟨tokenString, d, dl, sz⟩, ln, A⟩ io =
          tokenizer.nextLoop f
            ⟨s2, tokenizerReadingString,
              some ⟨tokenString, d ++ storedText ps, dl, sz + (storedText ps).length⟩, ln, A⟩ io2 := by
  induction ps with
  | nil =>
    intro s io d sz h _ _
    exact ⟨s, io, h, fun f => by simp [rawText, storedText]⟩
  | cons p ps ih =>
    intro s io d sz h hin hsz
    have hp := hin p (List.mem_cons_self _ _)
    have hrest : ∀ q, q ∈ ps → q.inside dl := fun q hq => hin q (List.mem_cons_of_mem _ hq)
    cases p with
    | plain b =>
      obtain ⟨hb1, hb2, hb3, hb4⟩ := hp
      have h0 : s.Holds (b :: (rawText ps ++ r)) := by
        simpa [rawText, strPiece.raw] using h
      by_cases hb : b = 34
      · subst hb
        have hlen : (storedText (strPiece.plain 34 :: ps)).length = (storedText ps).length + 2 := by
          simp [storedText, strPiece.stored]
        rw [hlen] at hsz
        simp only [Nat.cast_add, Nat.cast_ofNat] at hsz
        obtain ⟨s2, io2, h2, hrun⟩ := ih s.step (io.add s.peekBytes) (d ++ [92, 34]) (sz + 1 + 1)
          (source.step_holds s 34 _ h0) hrest (by omega)
        refine ⟨s2, io2, h2, fun f => ?_⟩
        have e : f + (rawText (strPiece.plain 34 :: ps)).length = (f + (rawText ps).length) + 1 := by
          simp only [rawText, List.map_cons, List.flatten_cons, strPiece.raw, List.length_append,
            List.length_singleton]
          omega
        rw [e, tkz_pass_str_dquote s _ h0 d dl sz ln A (fun e => hb4 e.symm) (by omega), hrun, hlen]
        have e2 : sz + 1 + 1 + ((storedText ps).length : Int) =
            sz + (((storedText ps).length + 2 : Nat) : Int) := by
          simp only [Nat.cast_add, Nat.cast_ofNat]; omega
        rw [e2]
        simp [storedText, strPiece.stored]
      · have hlen : (storedText (strPiece.plain b :: ps)).length = (storedText ps).length + 1 := by
          simp [storedText, strPiece.stored, hb]
        rw [hlen] at hsz
        simp only [Nat.cast_add, Nat.cast_one] at hsz
        obtain ⟨s2, io2, h2, hrun⟩ := ih s.step (io.add s.peekBytes) (d ++ [b]) (sz + 1)
          (source.step_holds s b _ h0) hrest (by omega)
        refine ⟨s2, io2, h2, fun f => ?_⟩
        have e : f + (rawText (strPiece.plain b :: ps)).length = (f + (rawText ps).length) + 1 := by
          simp only [rawText, List.map_cons, List.flatten_cons, strPiece.raw, List.length_append,
            List.length_singleton]
          omega
        rw [e, tkz_pass_str_plain s b _ h0 d dl sz ln A ⟨hb1, hb2, hb3, hb4, hb⟩ (by omega), hrun, hlen]
        have e2 : sz + 1 + ((storedText ps).length : Int) =
            sz + (((storedText ps).length + 1 : Nat) : Int) := by
          simp only [Nat.cast_add, Nat.cast_one]; omega
        rw [e2]
        simp [storedText, strPiece.stored, hb]
    | escaped x =>
      have h0 : s.Holds (92 :: x :: (rawText ps ++ r)) := by
        simpa [rawText, strPiece.raw] using h
      have h1 : s.step.Holds (x :: (rawText ps ++ r)) := source.step_holds s 92 _ h0
      have hlen : (storedText (strPiece.escaped x :: ps)).length = (storedText ps).length + 2 := by
        simp [storedText, strPiece.stored]
      rw [hlen] at hsz
      simp only [Nat.cast_add, Nat.cast_ofNat] at hsz
      obtain ⟨s2, io2, h2, hrun⟩ := ih s.step.step ((io.add s.peekBytes).add s.step.peekBytes)
        (d ++ [92] ++ [x]) (sz + 1 + 1) (source.step_holds s.step x _ h1) hrest (by omega)
      refine ⟨s2, io2, h2, fun f => ?_⟩
      have e : f + (rawText (strPiece.escaped x :: ps)).length = ((f + (rawText ps).length) + 1) + 1 := by
        simp only [rawText, List.map_cons, List.flatten_cons, strPiece.raw, List.length_append,
          List.length_cons, List.length_nil]
        omega
      rw [e, tkz_pass_str_scape s _ h0 d dl sz ln A (by omega),
        tkz_pass_scape s.step x _ h1 (d ++ [92]) dl (sz + 1) ln A (by omega), hrun, hlen]
      have e2 : sz + 1 + 1 + ((storedText ps).length : Int) =
          sz + (((storedText ps).length + 2 : Nat) : Int) := by
        simp only [Nat.cast_add, Nat.cast_ofNat]; omega
      rw [e2]
      simp [storedText, strPiece.stored]

/-- Blanks, a quote, pieces of text and the same quote again: one STRING token, and the
tokenizer waits for what may follow a string. -/
theorem tkz_next_string (s : source) (ws : List Nat) (q : Nat) (ps : List strPiece) (r : List Nat)
    (A : Int) (h : s.Holds (ws ++ q :: (rawText ps ++ q :: r))) (hws : blanks ws)
    (hq : q = 39 ∨ q = 34) (hin : ∀ p, p ∈ ps → p.inside q)
    (hlen : ((storedText ps).length : Int) ≤ A) (tk : Option token) (ln : Nat) :
    ∃ s2 io2, s2.Holds r ∧
      tokenizer.next ⟨s, tokenizerWaitingForToken, tk, ln, A⟩ =
        Result.done ⟨some ⟨tokenString, storedText ps, q, (storedText ps).length⟩, io2, none,
          ⟨s2, tokenizerWaitingSpaceForEos,
            some ⟨tokenString, storedText ps, q, (storedText ps).length⟩, ln, A⟩⟩ := by
  obtain ⟨s1, io1, h1, run1⟩ := tkz_run_blanks (q :: (rawText ps ++ q :: r)) tk ln A ws s newIoData h hws
  obtain ⟨s2, io2, h2, run2⟩ := tkz_run_string (q :: r) q ln A ps s1.step (io1.add s1.peekBytes) [] 0
    (source.step_holds s1 q _ h1) hin (by omega)
  refine ⟨s2.step, io2.add s2.peekBytes, source.step_holds s2 q r h2, ?_⟩
  apply tkz_next_of_loop s _ tk ln A ((((0 + 1) + (rawText ps).length) + 1) + ws.length)
  · have := source.fuel_of_holds s _ h
    simp only [List.length_append, List.length_cons] at this
    omega
  · rw [run1, tkz_pass_quote s1 q _ h1 hq, run2, tkz_pass_str_close s2 r _ q h2 hq]
    simp

/-- Blanks, a quote, pieces of text and an end of line before the closing quote: the
fatal "Unexpected end of line" error. -/
theorem tkz_next_string_eol (s : source) (ws : List Nat) (q : Nat) (ps : List strPiece) (e : Nat)
    (r : List Nat) (A : Int) (h : s.Holds (ws ++ q :: (rawText ps ++ e :: r))) (hws : blanks ws)
    (hq : q = 39 ∨ q = 34) (hin : ∀ p, p ∈ ps → p.inside q)
    (hlen : ((storedText ps).length : Int) ≤ A) (he : e = 13 ∨ e = 10) (tk : Option token) (ln : Nat) :
    ∃ io2 t2,
      tokenizer.next ⟨s, tokenizerWaitingForToken, tk, ln, A⟩ =
        Result.done ⟨none, io2, some (newTokenizationError (bytesOf "Unexpected end of line")), t2⟩ := by
  obtain ⟨s1, io1, h1, run1⟩ := tkz_run_blanks (q :: (rawText ps ++ e :: r)) tk ln A ws s newIoData h hws
  obtain ⟨s2, io2, h2, run2⟩ := tkz_run_string (e :: r) q ln A ps s1.step (io1.add s1.peekBytes) [] 0
    (source.step_holds s1 q _ h1) hin (by omega)
  refine ⟨io2.add s2.peekBytes,
    ⟨s2.afterPeek, tokenizerReadingString,
      some ⟨tokenString, [] ++ storedText ps, q, 0 + ((storedText ps).length : Int)⟩, ln, A⟩, ?_⟩
  apply tkz_next_of_loop s _ tk ln A ((((0 + 1) + (rawText ps).length) + 1) + ws.length)
  · have := source.fuel_of_holds s _ h
    simp only [List.length_append, List.length_cons] at this
    omega
  · rw [run1, tkz_pass_quote s1 q _ h1 hq, run2, tkz_pass_str_eol s2 e r h2 he]

/-- C21. A tokenizer waiting for a token over a source that holds a quote `q` (`'` or
`"`), then pieces of text none of which is an unescaped `\r`, `\n` or `q`, then the byte
`c`, then `r`; the kept text is no longer than the size cap. When `c` is `q`: `next`
returns the STRING with delimiter `q` whose data is the kept text, has taken the bytes
up to and with the closing quote, and waits for what may follow a string. The kept text
has, for a backslash and the byte after it, these two bytes; for a `"` on its own
(which can only be in a string delimited by `'`), a backslash and `"`; for any other
byte, a `'` in a string delimited by `"` among them, that byte. When `c` is `\r` or
`\n`: `next` returns the fatal "Unexpected end of line" error. -/
theorem quoted_string_tokens (s : source) (q : Nat) (ps : List strPiece) (c : Nat) (r : List Nat)
    (A : Int) (h : s.Holds (q :: (rawText ps ++ c :: r))) (hq : q = 39 ∨ q = 34)
    (hin : ∀ p, p ∈ ps → p.inside q) (hlen : ((storedText ps).length : Int) ≤ A)
    (tk : Option token) (ln : Nat) :
    (c = q →
      ∃ s2 io2, s2.Holds r ∧
        tokenizer.next ⟨s, tokenizerWaitingForToken, tk, ln, A⟩ =
          Result.done ⟨some ⟨tokenString, storedText ps, q, (storedText ps).length⟩, io2, none,
            ⟨s2, tokenizerWaitingSpaceForEos,
              some ⟨tokenString, storedText ps, q, (storedText ps).length⟩, ln, A⟩⟩) ∧
    ((c = 13 ∨ c = 10) →
      ∃ io2 t2 e,
        tokenizer.next ⟨s, tokenizerWaitingForToken, tk, ln, A⟩ = Result.done ⟨none, io2, some e, t2⟩ ∧
        e = newTokenizationError (bytesOf "Unexpected end of line") ∧ e.isFatal = true) ∧
    (rawText ps = (ps.map (fun p => match p with
      | .plain b => [b]
      | .escaped x => [92, x])).flatten ∧
     storedText ps = (ps.map (fun p => match p with
      | .plain b => if b = 34 then [92, 34] else [b]
      | .escaped x => [92, x])).flatten ∧
     ∀ b, strPiece.plain b ∈ ps → b = 34 → q = 39) := by
  refine ⟨?_, ?_, ?_, ?_, ?_⟩
  · intro hc
    subst hc
    exact tkz_next_string s [] c ps r A h (fun _ hx => absurd hx (List.not_mem_nil _)) hq hin hlen tk ln
  · intro hc
    obtain ⟨io2, t2, hn⟩ := tkz_next_string_eol s [] q ps c r A h
      (fun _ hx => absurd hx (List.not_mem_nil _)) hq hin hlen hc tk ln
    exact ⟨io2, t2, _, hn, rfl, rfl⟩
  · simp only [rawText]
    congr 2
  · simp only [storedText]
    congr 2
  · intro b hb hb34
    have := hin _ hb
    simp only [strPiece.inside] at this
    rcases hq with hq | hq
    · exact hq
    · exact absurd (hb34.trans hq.symm) this.2.2.2

/-- Witness of C21: the input `'a\'"'` and a space, which gives the STRING with the six
bytes `a\'\"`. -/
theorem quoted_string_tokens_witness :
    (newBufferedSource ⟨[[39, 97, 92, 39, 34, 39, 32]]⟩ 8).Holds
      (39 :: (rawText [.plain 97, .escaped 39, .plain 34] ++ 39 :: [32])) ∧
    (39 = 39 ∨ 39 = 34) ∧
    (∀ p, p ∈ [strPiece.plain 97, .escaped 39, .plain 34] → p.inside 39) ∧
    (((storedText [.plain 97, .escaped 39, .plain 34]).length : Int) ≤ 4096) ∧
    storedText [.plain 97, .escaped 39, .plain 34] = [97, 92, 39, 92, 34] ∧
    (39 = 39 →
      ∃ s2 io2, s2.Holds [32] ∧
        tokenizer.next ⟨newBufferedSource ⟨[[39, 97, 92, 39, 34, 39, 32]]⟩ 8,
            tokenizerWaitingForToken, none, 0, 4096⟩ =
          Result.done ⟨some ⟨tokenString, storedText [.plain 97, .escaped 39, .plain 34], 39,
              (storedText [.plain 97, .escaped 39, .plain 34]).length⟩, io2, none,
            ⟨s2, tokenizerWaitingSpaceForEos,
              some ⟨tokenString, storedText [.plain 97, .escaped 39, .plain 34], 39,
                (storedText [.plain 97, .escaped 39, .plain 34]).length⟩, 0, 4096⟩⟩) :=
  ⟨source.holds_new [[39, 97, 92, 39, 34, 39, 32]] 8 (by decide) (by simp), Or.inl rfl, by decide,
    by decide, by decide,
    (quoted_string_tokens (newBufferedSource ⟨[[39, 97, 92, 39, 34, 39, 32]]⟩ 8) 39
      [.plain 97, .escaped 39, .plain 34] 39 [32] 4096
      (source.holds_new [[39, 97, 92, 39, 34, 39, 32]] 8 (by decide) (by simp)) (Or.inl rfl)
      (by decide) (by decide) none 0).1⟩

/-- After a closing delimiter, a byte other than line feed, carry return and space makes
`next` return the fatal "Unexpected ... next to EOS" error. -/
theorem tkz_next_eos_bad (s : source) (c : Nat) (r : List Nat) (h : s.Holds (c :: r))
    (hc : c ≠ 10 ∧ c ≠ 13 ∧ c ≠ 32) (tk : Option token) (ln : Nat) (A : Int) :
    tokenizer.next ⟨s, tokenizerWaitingSpaceForEos, tk, ln, A⟩ =
      Result.done ⟨none, newIoData.add s.peekBytes,
        some (newTokenizationError (bytesOf "Unexpected '" ++ natToDec c ++ bytesOf "' next to EOS")),
        ⟨s.afterPeek, tokenizerWaitingSpaceForEos, tk, ln, A⟩⟩ := by
  apply tkz_next_of_loop s _ tk ln A (0 + 1)
  · have := source.fuel_of_holds s _ h
    omega
  · rw [tkz_pass_eos_bad s c r h hc]

/-- After a closing delimiter, a line feed, carry return or space makes `next` go on as
when it waits for a token, the byte still in the source. -/
theorem tkz_next_eos_ok (s : source) (c : Nat) (r : List Nat) (h : s.Holds (c :: r))
    (hc : c = 10 ∨ c = 13 ∨ c = 32) (tk : Option token) (ln : Nat) (A : Int) :
    s.afterPeek.Holds (c :: r) ∧
    ∃ f, s.fuel = f + 1 ∧
      tokenizer.next ⟨s, tokenizerWaitingSpaceForEos, tk, ln, A⟩ =
        tokenizer.nextLoop f ⟨s.afterPeek, tokenizerWaitingForToken, tk, ln, A⟩
          (newIoData.add s.peekBytes) := by
  have hf := source.fuel_of_holds s _ h
  refine ⟨source.afterPeek_holds s c r h, s.fuel - 1, by omega, ?_⟩
  have e : s.fuel = (s.fuel - 1) + 1 := by omega
  simp only [tokenizer.next]
  rw [e, tkz_pass_eos_ok s c r h hc]
  simp

/-- C22. After the closing delimiter of a STRING a tab is not accepted: for every
source that holds a tab next, `next` returns the fatal "Unexpected '9' next to EOS"
error. On the input `'a'<TAB>b\n` the first `next` returns the STRING `a` and the
second that error; on `a<TAB>b\n` the two calls return the IDENTIFIERs `a` and `b`. -/
theorem tab_after_string_is_fatal :
    (∀ (s : source) (r : List Nat) (tk : Option token) (ln : Nat) (A : Int), s.Holds (9 :: r) →
      ∃ io2 t2 e,
        tokenizer.next ⟨s, tokenizerWaitingSpaceForEos, tk, ln, A⟩ = Result.done ⟨none, io2, some e, t2⟩ ∧
        e = newTokenizationError (bytesOf "Unexpected '9' next to EOS") ∧ e.isFatal = true) ∧
    (tokenizer.next (newTokenizer (newBufferedSource ⟨[[39, 97, 39, 9, 98, 10]]⟩ 8) 4096) =
      Result.done ⟨some ⟨tokenString, [97], 39, 1⟩, ⟨6, 1⟩, none,
        ⟨⟨⟨[]⟩, [39, 97, 39, 9, 98, 10, 0, 0], 3, 6, 1, 6⟩, tokenizerWaitingSpaceForEos,
          some ⟨tokenString, [97], 39, 1⟩, 0, 4096⟩⟩ ∧
     tokenizer.next ⟨⟨⟨[]⟩, [39, 97, 39, 9, 98, 10, 0, 0], 3, 6, 1, 6⟩, tokenizerWaitingSpaceForEos,
          some ⟨tokenString, [97], 39, 1⟩, 0, 4096⟩ =
      Result.done ⟨none, ⟨0, 0⟩, some (newTokenizationError (bytesOf "Unexpected '9' next to EOS")),
        ⟨⟨⟨[]⟩, [39, 97, 39, 9, 98, 10, 0, 0], 3, 6, 1, 6⟩, tokenizerWaitingSpaceForEos,
          some ⟨tokenString, [97], 39, 1⟩, 0, 4096⟩⟩) ∧
    (tokenizer.next (newTokenizer (newBufferedSource ⟨[[97, 9, 98, 10]]⟩ 8) 4096) =
      Result.done ⟨some ⟨tokenIdentifier, [97], 0, 1⟩, ⟨4, 1⟩, none,
        ⟨⟨⟨[]⟩, [97, 9, 98, 10, 0, 0, 0, 0], 1, 4, 1, 4⟩, tokenizerWaitingForToken,
          some ⟨tokenIdentifier, [97], 0, 1⟩, 0, 4096⟩⟩ ∧
     tokenizer.next ⟨⟨⟨[]⟩, [97, 9, 98, 10, 0, 0, 0, 0], 1, 4, 1, 4⟩, tokenizerWaitingForToken,
          some ⟨tokenIdentifier, [97], 0, 1⟩, 0, 4096⟩ =
      Result.done ⟨some ⟨tokenIdentifier, [98], 0, 1⟩, ⟨0, 0⟩, none,
        ⟨⟨⟨[]⟩, [97, 9, 98, 10, 0, 0, 0, 0], 3, 4, 1, 4⟩, tokenizerWaitingForToken,
          some ⟨tokenIdentifier, [98], 0, 1⟩, 0, 4096⟩⟩) := by
  refine ⟨?_, ?_, ?_⟩
  · intro s r tk ln A h
    exact ⟨_, _, _, tkz_next_eos_bad s 9 r h (by decide) tk ln A, rfl, rfl⟩
  · constructor <;> decide
  · constructor <;> decide

/-! ## A stream of one printable byte -/

/-- One printable byte and then the end of the input: `next` takes the byte into a new
token, which it keeps, and returns the reading error of the end of the input. -/
theorem tkz_next_single_printable (s : source) (c : Nat) (h : s.Holds [c]) (hc : 33 ≤ c ∧ c ≤ 126)
    (tk : Option token) (ln : Nat) (A : Int) :
    ∃ st tok io,
      tokenizer.next ⟨s, tokenizerWaitingForToken, tk, ln, A⟩ =
        Result.done ⟨none, io, some (newReadingError GoError.EOF), ⟨s.step, st, some tok, ln, A⟩⟩ ∧
      (identStart c → st = tokenizerReadingIdentifier ∧ tok = ⟨tokenIdentifier, [c], 0, 1⟩) := by
  have hs : s.step.Holds [] := source.step_holds s c [] h
  have hfuel : (0 + 1) + 1 ≤ s.fuel := by
    have := source.fuel_of_holds s _ h
    simp only [List.length_cons, List.length_nil] at this
    omega
  by_cases h36 : c = 36
  · subst h36
    refine ⟨tokenizerReadingSize, ⟨tokenBinString, [], 0, 0⟩, (newIoData.add s.peekBytes).add 0, ?_, fun hi => absurd rfl hi.2.1⟩
    apply tkz_next_of_loop s _ tk ln A ((0 + 1) + 1) _ hfuel
    rw [tkz_pass_dollar s [] h, tkz_nextLoop_eof s.step hs]
  by_cases h42 : c = 42
  · subst h42
    refine ⟨tokenizerReadingSize, ⟨tokenArray, [], 0, 0⟩, (newIoData.add s.peekBytes).add 0, ?_, fun hi => absurd rfl hi.2.2.1⟩
    apply tkz_next_of_loop s _ tk ln A ((0 + 1) + 1) _ hfuel
    rw [tkz_pass_asterisk s [] h, tkz_nextLoop_eof s.step hs]
  by_cases h35 : c = 35
  · subst h35
    refine ⟨tokenizerReadingComment, ⟨tokenComment, [], 0, 0⟩, (newIoData.add s.peekBytes).add 0, ?_, fun hi => absurd rfl hi.2.2.2⟩
    apply tkz_next_of_loop s _ tk ln A ((0 + 1) + 1) _ hfuel
    rw [tkz_pass_number_sign s [] h, tkz_nextLoop_eof s.step hs]
  by_cases hq : c = 39 ∨ c = 34
  · refine ⟨tokenizerReadingString, ⟨tokenString, [], c, 0⟩, (newIoData.add s.peekBytes).add 0, ?_, fun hi => ?_⟩
    · apply tkz_next_of_loop s _ tk ln A ((0 + 1) + 1) _ hfuel
      rw [tkz_pass_quote s c [] h hq, tkz_nextLoop_eof s.step hs]
    · obtain ⟨⟨_, _, h1, h2⟩, _⟩ := hi
      rcases hq with hq | hq
      · exact absurd hq h2
      · exact absurd hq h1
  · have hi : identStart c := by
      refine ⟨⟨by omega, by omega, fun e => hq (Or.inr e), fun e => hq (Or.inl e)⟩, h36, h42, h35⟩
    refine ⟨tokenizerReadingIdentifier, ⟨tokenIdentifier, [c], 0, 1⟩, (newIoData.add s.peekBytes).add 0, ?_, fun _ => ⟨rfl, rfl⟩⟩
    apply tkz_next_of_loop s _ tk ln A ((0 + 1) + 1) _ hfuel
    rw [tkz_pass_ident_start s c [] h hi, tkz_nextLoop_eof s.step hs]

/-- Counterexample of C24: over the stream `S`, read through a buffer of 8 bytes, the
first `next` returns no token, but the reading error of the end of the input; the
IDENTIFIER `S` stays in the tokenizer. -/
theorem single_byte_stream_yields_no_token :
    tokenizer.next (newTokenizer (newBufferedSource (fileReader [83]) 8) 4096) =
      Result.done ⟨none, ⟨1, 1⟩, some (newReadingError GoError.EOF),
        ⟨⟨⟨[]⟩, [83, 0, 0, 0, 0, 0, 0, 0], 1, 1, 1, 1⟩, tokenizerReadingIdentifier,
          some ⟨tokenIdentifier, [83], 0, 1⟩, 0, 4096⟩⟩ := by
  decide

/-- C24, amended. A stream of exactly one printable byte `c` (33..126), read through a
source with a buffer of `B ≥ 1` bytes. One `peek`/`rm` pair returns the byte, the next
`peek` returns `io.EOF`, after one read of one byte. A new tokenizer over the source
yields no token: `next` returns the reading error EOF and keeps the token it has begun
(for a byte that can start an identifier, the IDENTIFIER of length 1 with that byte), and
the following `next` returns the same error again. When a space, a tab, `\r` or `\n`
follows a byte that can start an identifier, `next` returns that IDENTIFIER of length
1. -/
theorem single_byte_stream (c B : Nat) (A : Int) (hc : 33 ≤ c ∧ c ≤ 126) (hB : 1 ≤ B) :
    (∃ s1,
      source.readBytes 1 (newBufferedSource (fileReader [c]) B) = some ([c], s1) ∧
      s1.peek = some (0, 0, some GoError.EOF, s1) ∧ s1.numOfReads = 1 ∧ s1.bytesIn = 1) ∧
    (∃ io t2,
      tokenizer.next (newTokenizer (newBufferedSource (fileReader [c]) B) A) =
        Result.done ⟨none, io, some (newReadingError GoError.EOF), t2⟩ ∧
      (identStart c →
        t2.state = tokenizerReadingIdentifier ∧ t2.token = some ⟨tokenIdentifier, [c], 0, 1⟩) ∧
      tokenizer.next t2 =
        Result.done ⟨none, newIoData.add 0, some (newReadingError GoError.EOF), t2⟩) ∧
    (∀ t, (t = 13 ∨ t = 10 ∨ t = 32 ∨ t = 9) → identStart c → 1 ≤ A →
      ∃ io t2,
        tokenizer.next (newTokenizer (newBufferedSource (fileReader [c, t]) B) A) =
          Result.done ⟨some ⟨tokenIdentifier, [c], 0, 1⟩, io, none, t2⟩) := by
  refine ⟨?_, ?_, ?_⟩
  · obtain ⟨s3, hrun, h3, hr, hin⟩ := source.readBytes_file [c] B hB
    refine ⟨s3, hrun, source.peek_of_holds_nil s3 h3, ?_, hin⟩
    simp only [source.numOfReads, hr, List.length_singleton]
    rw [Nat.add_sub_cancel_left]
    exact Nat.div_self hB
  · have h0 := source.holds_file [c] B hB
    obtain ⟨st, tok, io, hn, hid⟩ := tkz_next_single_printable _ c h0 hc none 0 A
    refine ⟨io, _, hn, fun hi => ?_, ?_⟩
    · obtain ⟨h1, h2⟩ := hid hi
      exact ⟨h1, by rw [h2]⟩
    · exact tkz_next_eof _ (source.step_holds _ c [] h0) st (some tok) 0 A
  · intro t ht hi hA
    have h0 := source.holds_file [c, t] B hB
    obtain ⟨s2, io2, _, hn⟩ := tkz_next_ident _ [] [c] t [] (by simpa using h0)
      (fun _ hx => absurd hx (List.not_mem_nil _)) ⟨hi, fun _ hx => absurd hx (List.not_mem_nil _)⟩
      (by simpa using hA) ht none 0
    exact ⟨io2, _, hn⟩

/-- Witness of C24: the stream `S` through a buffer of 8 bytes. -/
theorem single_byte_stream_witness :
    (33 ≤ 83 ∧ 83 ≤ 126) ∧ 1 ≤ 8 ∧
    ∃ io t2,
      tokenizer.next (newTokenizer (newBufferedSource (fileReader [83]) 8) 4096) =
        Result.done ⟨none, io, some (newReadingError GoError.EOF), t2⟩ ∧
      (identStart 83 →
        t2.state = tokenizerReadingIdentifier ∧ t2.token = some ⟨tokenIdentifier, [83], 0, 1⟩) ∧
      tokenizer.next t2 =
        Result.done ⟨none, newIoData.add 0, some (newReadingError GoError.EOF), t2⟩ :=
  ⟨by decide, by decide, (single_byte_stream 83 8 4096 (by decide) (by decide)).2.1⟩

/-! ## The array form with ends of line between its elements -/

/-- Reading an array, an IDENTIFIER, STRING or COMMENT is a parsing error. -/
theorem prs_pass_array_bad (U : List Nat → List Nat) (tz : tokenizer)
    (args : List token) (ea : Int) (pio : ioData) (io2 : ioData) (tok : token) (t2 : tokenizer)
    (hty : tok.ttype = tokenIdentifier ∨ tok.ttype = tokenString ∨ tok.ttype = tokenComment)
    (hn : tz.next = Result.done ⟨some tok, io2, none, t2⟩) (f : Nat) :
    parser.nextLoop U (f + 1) ⟨parserReadingArray, tz, args, ea, pio⟩ =
      Result.done ⟨none, pio.merge io2,
        some (newParsingError (bytesOf "unexpected token " ++ tok.ttype.str ++
          bytesOf " while reading an array")),
        ⟨parserReadingArray, t2, args, ea, pio.merge io2⟩⟩ := by
  obtain ⟨ty, d, dl, sz⟩ := tok
  simp only at hty
  rcases hty with hty | hty | hty <;> subst hty <;>
    simp only [parser.nextLoop, hn, token.getType, parser.invalidTokenMiddleOfArray]

/-- Reading an array, an ARRAY is a parsing error. -/
theorem prs_pass_array_array (U : List Nat → List Nat) (tz : tokenizer)
    (args : List token) (ea : Int) (pio : ioData) (io2 : ioData) (tok : token) (t2 : tokenizer)
    (hty : tok.ttype = tokenArray)
    (hn : tz.next = Result.done ⟨some tok, io2, none, t2⟩) (f : Nat) :
    parser.nextLoop U (f + 1) ⟨parserReadingArray, tz, args, ea, pio⟩ =
      Result.done ⟨none, pio.merge io2, some (newParsingError (bytesOf "array inside an array")),
        ⟨parserReadingArray, t2, args, ea, pio.merge io2⟩⟩ := by
  obtain ⟨ty, d, dl, sz⟩ := tok
  simp only at hty
  subst hty
  simp only [parser.nextLoop, hn, token.getType, parser.arrayInsideArray]

theorem eolBytes_length_pos (b : Bool) : 0 < (eolBytes b).length := by
  cases b <;> simp [eolBytes]

theorem gapText_length (g : List Bool) : g.length ≤ (gapText g).length := by
  induction g with
  | nil => simp [gapText]
  | cons b g ih =>
    have := eolBytes_length_pos b
    simp only [gapText, List.map_cons, List.flatten_cons, List.length_append, List.length_cons] at ih ⊢
    omega

theorem elemPasses_le (els : List (List Bool × List Nat)) : elemPasses els ≤ (arrayElems els).length := by
  induction els with
  | nil => simp [elemPasses, arrayElems]
  | cons e els ih =>
    have := gapText_length e.1
    simp only [elemPasses, arrayElems, List.map_cons, List.sum_cons, List.flatten_cons,
      List.length_append, encodeString, List.length_cons] at ih ⊢
    omega

/-- One end of line, read by a tokenizer that waits for a token. -/
theorem tkz_next_eolBytes (s : source) (b : Bool) (r : List Nat) (h : s.Holds (eolBytes b ++ r))
    (tk : Option token) (ln : Nat) (A : Int) :
    ∃ s2 io2, s2.Holds r ∧
      tokenizer.next ⟨s, tokenizerWaitingForToken, tk, ln, A⟩ =
        Result.done ⟨some ⟨tokenEol, [], 0, 0⟩, io2, none,
          ⟨s2, tokenizerWaitingForToken, some ⟨tokenEol, [], 0, 0⟩, ln + 1, A⟩⟩ := by
  cases b with
  | false =>
    exact tkz_next_eol_lf s [] r (by simpa [eolBytes] using h)
      (fun _ hx => absurd hx (List.not_mem_nil _)) tk ln A
  | true =>
    exact tkz_next_eol_crlf s [] r (by simpa [eolBytes] using h)
      (fun _ hx => absurd hx (List.not_mem_nil _)) tk ln A

/-- Reading an array, ends of line are skipped. -/
theorem prs_run_gap (U : List Nat → List Nat) (r : List Nat) (A : Int) (ea : Int)
    (acc : List token) (g : List Bool) :
    ∀ (s : source) (tk : Option token) (ln : Nat) (pio : ioData), s.Holds (gapText g ++ r) →
      ∃ s2 tk2 ln2 pio2, s2.Holds r ∧ ∀ f,
        parser.nextLoop U (f + g.length)
            ⟨parserReadingArray, ⟨s, tokenizerWaitingForToken, tk, ln, A⟩, acc, ea, pio⟩ =
          parser.nextLoop U f
            ⟨parserReadingArray, ⟨s2, tokenizerWaitingForToken, tk2, ln2, A⟩, acc, ea, pio2⟩ := by
  induction g with
  | nil =>
    intro s tk ln pio h
    exact ⟨s, tk, ln, pio, by simpa [gapText] using h, fun f => rfl⟩
  | cons b g ih =>
    intro s tk ln pio h
    have h0 : s.Holds (eolBytes b ++ (gapText g ++ r)) := by
      simpa [gapText, List.append_assoc] using h
    obtain ⟨s1, io1, h1, hn⟩ := tkz_next_eolBytes s b _ h0 tk ln A
    obtain ⟨s2, tk2, ln2, pio2, h2, run2⟩ := ih s1 (some ⟨tokenEol, [], 0, 0⟩) (ln + 1) (pio.merge io1) h1
    refine ⟨s2, tk2, ln2, pio2, h2, fun f => ?_⟩
    have e : f + (b :: g).length = (f + g.length) + 1 := by simp only [List.length_cons]; omega
    rw [e, prs_pass_array_eol U _ acc ea pio io1 [] 0 _ _ hn, run2 f]

/-- Reading an array, elements that do not complete it are collected. -/
theorem prs_run_elems (U : List Nat → List Nat) (r : List Nat) (A : Int) (ea : Int)
    (els : List (List Bool × List Nat)) :
    ∀ (s : source) (tk : Option token) (ln : Nat) (acc : List token) (pio : ioData),
      (∀ e, e ∈ els → (e.2.length : Int) < A ∧ e.2.length < 9223372036854775808) →
      s.Holds (arrayElems els ++ r) → (acc.length : Int) + els.length < ea →
      ∃ s2 tk2 ln2 pio2, s2.Holds r ∧ ∀ f,
        parser.nextLoop U (f + elemPasses els)
            ⟨parserReadingArray, ⟨s, tokenizerWaitingForToken, tk, ln, A⟩, acc, ea, pio⟩ =
          parser.nextLoop U f
            ⟨parserReadingArray, ⟨s2, tokenizerWaitingForToken, tk2, ln2, A⟩,
              acc ++ els.map (fun e => binToken e.2), ea, pio2⟩ := by
  induction els with
  | nil =>
    intro s tk ln acc pio _ h _
    exact ⟨s, tk, ln, pio, by simpa [arrayElems] using h, fun f => by simp [elemPasses]⟩
  | cons e els ih =>
    intro s tk ln acc pio hsz h hea
    obtain ⟨g, p⟩ := e
    obtain ⟨hp1, hp2⟩ := hsz (g, p) (List.mem_cons_self _ _)
    simp only [List.length_cons, Nat.cast_add, Nat.cast_one] at hea
    have h0 : s.Holds (gapText g ++ (encodeString p ++ (arrayElems els ++ r))) := by
      simpa [arrayElems, List.append_assoc] using h
    obtain ⟨s1, tk1, ln1, pio1, h1, run1⟩ := prs_run_gap U _ A ea acc g s tk ln pio h0
    have h1b : s1.Holds (36 :: (natToDec p.length ++ 13 :: 10 :: (p ++ 13 :: 10 :: (arrayElems els ++ r)))) := by
      simpa [encodeString, List.append_assoc] using h1
    obtain ⟨s2, io2, h2, hn⟩ := tkz_next_bin s1 p (arrayElems els ++ r) A h1b hp1 hp2 tk1 ln1
    obtain ⟨s3, tk3, ln3, pio3, h3, run3⟩ := ih s2 (some ⟨tokenBinString, p, 0, p.length⟩) (ln1 + 1 + 1)
      (acc ++ [binToken p]) (pio1.merge io2) (fun q hq => hsz q (List.mem_cons_of_mem _ hq)) h2
      (by simp only [List.length_append, List.length_singleton, Nat.cast_add, Nat.cast_one]; omega)
    refine ⟨s3, tk3, ln3, pio3, h3, fun f => ?_⟩
    have e : f + elemPasses ((g, p) :: els) = ((f + elemPasses els) + 1) + g.length := by
      simp only [elemPasses, List.map_cons, List.sum_cons]; omega
    rw [e, run1, prs_pass_array_bin U _ acc ea pio1 io2 p 0 _ _ hn (by omega)]
    have := run3 f
    simp only [binToken] at this ⊢
    rw [this]
    simp only [List.map_cons, List.append_assoc, List.singleton_append]

/-- Reading an array, the element that completes it finalises the command. -/
theorem prs_run_last_elem (U : List Nat → List Nat) (r : List Nat) (A : Int) (ea : Int)
    (g : List Bool) (p : List Nat) (s : source) (tk : Option token) (ln : Nat) (acc : List token)
    (pio : ioData) (hp : (p.length : Int) < A ∧ p.length < 9223372036854775808)
    (h : s.Holds (gapText g ++ encodeString p ++ r)) (hea : (acc.length : Int) + 1 = ea) :
    ∃ s2 tk2 ln2 pio2, s2.Holds r ∧ ∀ f,
      parser.nextLoop U (f + 1 + g.length)
          ⟨parserReadingArray, ⟨s, tokenizerWaitingForToken, tk, ln, A⟩, acc, ea, pio⟩ =
        parser.finish (parser.parseArgs U
          ⟨parserInit, ⟨s2, tokenizerWaitingForToken, tk2, ln2, A⟩, acc ++ [binToken p], ea, pio2⟩) := by
  have h0 : s.Holds (gapText g ++ (encodeString p ++ r)) := by
    simpa [List.append_assoc] using h
  obtain ⟨s1, tk1, ln1, pio1, h1, run1⟩ := prs_run_gap U _ A ea acc g s tk ln pio h0
  have h1b : s1.Holds (36 :: (natToDec p.length ++ 13 :: 10 :: (p ++ 13 :: 10 :: r))) := by
    simpa [encodeString, List.append_assoc] using h1
  obtain ⟨s2, io2, h2, hn⟩ := tkz_next_bin s1 p r A h1b hp.1 hp.2 tk1 ln1
  refine ⟨s2, some ⟨tokenBinString, p, 0, p.length⟩, ln1 + 1 + 1, pio1.merge io2, h2, fun f => ?_⟩
  rw [run1, prs_pass_array_last U _ acc ea pio1 io2 p 0 _ _ hn hea]
  rfl

/-- Whatever `parseArgs` returns, the deferred `cleanArgs` has emptied the arguments and
nothing else of the parser has changed. -/
theorem prs_parseArgs_leaves (U : List Nat → List Nat) (p : parser) (res : parserResult)
    (h : parser.parseArgs U p = some res) : res.p = p.cleanArgs := by
  simp only [parser.parseArgs, bind, Option.bind, pure] at h
  generalize p.getArg 1 = a1 at h
  generalize p.getArgData 2 = a2 at h
  generalize p.getArg 3 = a3 at h
  generalize p.getArg 4 = a4 at h
  generalize p.readCommand U = rc at h
  cases a1 <;> cases a2 <;> cases a3 <;> cases a4 <;> simp only [] at h <;>
    (repeat' split at h) <;> first | (cases h; rfl) | cases h

theorem arrayElems_append (a b : List (List Bool × List Nat)) :
    arrayElems (a ++ b) = arrayElems a ++ arrayElems b := by
  simp [arrayElems]

theorem elemPasses_append (a b : List (List Bool × List Nat)) :
    elemPasses (a ++ b) = elemPasses a + elemPasses b := by
  simp [elemPasses]

/-- The header `*n` and the end of line after it, from state INIT. -/
theorem prs_run_array_header (U : List Nat → List Nat) (s : source) (n : Nat) (b0 : Bool)
    (r : List Nat) (A : Int) (h : s.Holds (42 :: (natToDec n ++ (eolBytes b0 ++ r))))
    (hn : n < 9223372036854775808) (tk : Option token) (ln : Nat) (args : List token) (ea : Int)
    (pio : ioData) :
    ∃ s2 tk2 ln2 pio2, s2.Holds r ∧ ∀ f,
      parser.nextLoop U (f + 1 + 1)
          ⟨parserInit, ⟨s, tokenizerWaitingForToken, tk, ln, A⟩, args, ea, pio⟩ =
        parser.nextLoop U f
          ⟨parserReadingArray, ⟨s2, tokenizerWaitingForToken, tk2, ln2, A⟩, args, n, pio2⟩ := by
  obtain ⟨t, rest, het, ht⟩ : ∃ t rest, eolBytes b0 = t :: rest ∧ (t = 13 ∨ t = 10) := by
    cases b0
    · exact ⟨10, [], rfl, Or.inr rfl⟩
    · exact ⟨13, [10], rfl, Or.inl rfl⟩
  have h0 : s.Holds (42 :: (natToDec n ++ t :: (rest ++ r))) := by
    simpa [het] using h
  obtain ⟨s1, io1, h1, hn1⟩ := tkz_next_array s n t _ h0 hn ht tk ln A
  have h1b : s1.Holds (gapText [b0] ++ r) := by
    simpa [gapText, het] using h1
  obtain ⟨s2, tk2, ln2, pio2, h2, run2⟩ := prs_run_gap U r A n args [b0] s1
    (some ⟨tokenArray, [], 0, n⟩) ln (pio.merge io1) h1b
  refine ⟨s2, tk2, ln2, pio2, h2, fun f => ?_⟩
  rw [prs_pass_init_array U _ args ea pio io1 [] 0 _ _ hn1]
  exact run2 f

/-- An IDENTIFIER before a blank or an end of line. -/
theorem tokenizesTo_identifier (A : Int) (a : List Nat) (t : Nat) (r : List Nat)
    (ha : validIdentifier a) (hlen : (a.length : Int) ≤ A) (ht : t = 13 ∨ t = 10 ∨ t = 32 ∨ t = 9) :
    tokenizesTo A a (t :: r) ⟨tokenIdentifier, a, 0, a.length⟩ := by
  intro s tk ln h
  obtain ⟨s2, io2, _, hn⟩ := tkz_next_ident s [] a t r (by simpa using h)
    (fun _ hx => absurd hx (List.not_mem_nil _)) ha hlen ht tk ln
  exact ⟨io2, _, hn⟩

/-- A quoted STRING. -/
theorem tokenizesTo_string (A : Int) (q : Nat) (ps : List strPiece) (r : List Nat)
    (hq : q = 39 ∨ q = 34) (hin : ∀ p, p ∈ ps → p.inside q)
    (hlen : ((storedText ps).length : Int) ≤ A) :
    tokenizesTo A (q :: (rawText ps ++ [q])) r
      ⟨tokenString, storedText ps, q, (storedText ps).length⟩ := by
  intro s tk ln h
  obtain ⟨s2, io2, _, hn⟩ := tkz_next_string s [] q ps r A (by simpa using h)
    (fun _ hx => absurd hx (List.not_mem_nil _)) hq hin hlen tk ln
  exact ⟨io2, _, hn⟩

/-- A COMMENT before an end of line. -/
theorem tokenizesTo_comment (A : Int) (l : List Nat) (t : Nat) (r : List Nat)
    (hl : ∀ x, x ∈ l → x ≠ 13 ∧ x ≠ 10) (ht : t = 13 ∨ t = 10) :
    tokenizesTo A (35 :: l) (t :: r) ⟨tokenComment, [], 0, 0⟩ := by
  intro s tk ln h
  obtain ⟨s2, io2, _, hn⟩ := tkz_next_comment s l t r (by simpa using h) hl ht tk ln A
  exact ⟨io2, _, hn⟩

/-- An ARRAY header before an end of line. -/
theorem tokenizesTo_array (A : Int) (m : Nat) (t : Nat) (r : List Nat)
    (hm : m < 9223372036854775808) (ht : t = 13 ∨ t = 10) :
    tokenizesTo A (42 :: natToDec m) (t :: r) ⟨tokenArray, [], 0, m⟩ := by
  intro s tk ln h
  obtain ⟨s2, io2, _, hn⟩ := tkz_next_array s m t r (by simpa using h) hm ht tk ln A
  exact ⟨io2, _, hn⟩

/-- C23. A parser in state INIT with no argument, its tokenizer waiting for a token,
over a source that holds `*n` (`n ≥ 1`), an end of line, then elements, each a run of
ends of line (possibly empty) followed by the protocol string of a payload below the size
cap, then a run of ends of line, the bytes `x` and `r`. With `n` elements: `next`
finalises the command with exactly the `n` payloads as BIN_STRING arguments, in order,
having read up to the end of the `n`-th; what `parseArgs` then returns has the parser in
state INIT with no argument. With fewer than `n` elements, when `x` makes the tokenizer
return an IDENTIFIER, STRING, COMMENT or ARRAY token: `next` returns a parsing error
that is not fatal, "array inside an array" for an ARRAY and "unexpected token ... while
reading an array" for the others. -/
theorem array_form_collects (U : List Nat → List Nat) (s : source) (n : Nat) (b0 : Bool)
    (els : List (List Bool × List Nat)) (g : List Bool) (x r : List Nat) (A : Int)
    (h : s.Holds (42 :: (natToDec n ++ (eolBytes b0 ++ (arrayElems els ++ (gapText g ++ (x ++ r)))))))
    (hn : 1 ≤ n ∧ n < 9223372036854775808)
    (hsz : ∀ e, e ∈ els → (e.2.length : Int) < A ∧ e.2.length < 9223372036854775808)
    (tk : Option token) (ln : Nat) (ea : Int) (pio : ioData) :
    (els.length = n →
      ∃ s2 tk2 ln2 pio2, s2.Holds (gapText g ++ (x ++ r)) ∧
        parser.next U ⟨parserInit, ⟨s, tokenizerWaitingForToken, tk, ln, A⟩, [], ea, pio⟩ =
          parser.finish (parser.parseArgs U
            ⟨parserInit, ⟨s2, tokenizerWaitingForToken, tk2, ln2, A⟩,
              els.map (fun e => binToken e.2), n, pio2⟩) ∧
        ∀ res, parser.parseArgs U
            ⟨parserInit, ⟨s2, tokenizerWaitingForToken, tk2, ln2, A⟩,
              els.map (fun e => binToken e.2), n, pio2⟩ = some res →
          res.p.state = parserInit ∧ res.p.args = [] ∧ res.p.tokenizer.src = s2) ∧
    (els.length < n → ∀ tok, tokenizesTo A x r tok →
      (tok.ttype = tokenIdentifier ∨ tok.ttype = tokenString ∨ tok.ttype = tokenComment ∨
        tok.ttype = tokenArray) →
      ∃ io2 p2 e,
        parser.next U ⟨parserInit, ⟨s, tokenizerWaitingForToken, tk, ln, A⟩, [], ea, pio⟩ =
          Result.done ⟨none, io2, some e, p2⟩ ∧
        e.isFatal = false ∧
        e = (if tok.ttype = tokenArray then newParsingError (bytesOf "array inside an array")
          else newParsingError (bytesOf "unexpected token " ++ tok.ttype.str ++
            bytesOf " while reading an array"))) := by
  have hfuel := source.fuel_of_holds s _ h
  simp only [List.length_cons, List.length_append] at hfuel
  have hb0 := eolBytes_length_pos b0
  have hpass := elemPasses_le els
  have hgap := gapText_length g
  obtain ⟨s1, tk1, ln1, pio1, h1, run1⟩ := prs_run_array_header U s n b0 _ A h hn.2 tk ln [] ea newIoData
  constructor
  · intro hlen
    rcases List.eq_nil_or_concat els with hnil | ⟨L, e, hL⟩
    · subst hnil
      simp only [List.length_nil] at hlen
      omega
    · rw [List.concat_eq_append] at hL
      subst hL
      obtain ⟨gl, pl⟩ := e
      simp only [List.length_append, List.length_singleton] at hlen
      have h1b : s1.Holds (arrayElems L ++ (gapText gl ++ encodeString pl ++ (gapText g ++ (x ++ r)))) := by
        simpa [arrayElems_append, arrayElems, List.append_assoc] using h1
      obtain ⟨s2, tk2, ln2, pio2, h2, run2⟩ := prs_run_elems U _ A n L s1 tk1 ln1 [] pio1
        (fun q hq => hsz q (List.mem_append_left _ hq)) h1b
        (by simp only [List.length_nil, Nat.cast_zero, Int.zero_add]; omega)
      obtain ⟨s3, tk3, ln3, pio3, h3, run3⟩ := prs_run_last_elem U (gapText g ++ (x ++ r)) A n gl pl s2
        tk2 ln2 ([] ++ L.map (fun e => binToken e.2)) pio2
        (hsz (gl, pl) (List.mem_append_right _ (List.mem_singleton_self _))) h2
        (by simp only [List.nil_append, List.length_map]; omega)
      have harg : ([] ++ L.map (fun e => binToken e.2)) ++ [binToken pl] =
          (L ++ [(gl, pl)]).map (fun e => binToken e.2) := by simp
      rw [harg] at run3
      refine ⟨s3, tk3, ln3, pio3, h3, ?_, ?_⟩
      · have hp2 : elemPasses (L ++ [(gl, pl)]) = elemPasses L + (gl.length + 1) := by
          simp [elemPasses]
        obtain ⟨f0, hf0⟩ : ∃ f0, s.fuel = (((f0 + 1 + gl.length) + elemPasses L) + 1 + 1) :=
          ⟨s.fuel - (elemPasses L + gl.length + 3), by omega⟩
        simp only [parser.next, hf0]
        rw [run1, run2, run3]
      · intro res hres
        have := prs_parseArgs_leaves U _ res hres
        rw [this]
        exact ⟨rfl, rfl, rfl⟩
  · intro hlen tok htok hty
    obtain ⟨s2, tk2, ln2, pio2, h2, run2⟩ := prs_run_elems U _ A n els s1 tk1 ln1 [] pio1 hsz h1
      (by simp only [List.length_nil, Nat.cast_zero, Int.zero_add]; omega)
    obtain ⟨s3, tk3, ln3, pio3, h3, run3⟩ := prs_run_gap U (x ++ r) A n
      ([] ++ els.map (fun e => binToken e.2)) g s2 tk2 ln2 pio2 h2
    obtain ⟨io4, t4, hn4⟩ := htok s3 tk3 ln3 h3
    obtain ⟨f0, hf0⟩ : ∃ f0, s.fuel = ((((f0 + 1) + g.length) + elemPasses els) + 1 + 1) :=
      ⟨s.fuel - (elemPasses els + g.length + 3), by omega⟩
    by_cases harr : tok.ttype = tokenArray
    · refine ⟨pio3.merge io4,
        ⟨parserReadingArray, t4, [] ++ els.map (fun e => binToken e.2), n, pio3.merge io4⟩,
        newParsingError (bytesOf "array inside an array"), ?_, ?_, ?_⟩
      · simp only [parser.next, hf0]
        rw [run1, run2, run3, prs_pass_array_array U _ _ n pio3 io4 tok t4 harr hn4]
      · rfl
      · simp only [harr, if_true]
    · have hty2 : tok.ttype = tokenIdentifier ∨ tok.ttype = tokenString ∨ tok.ttype = tokenComment := by
        rcases hty with h | h | h | h
        · exact Or.inl h
        · exact Or.inr (Or.inl h)
        · exact Or.inr (Or.inr h)
        · exact absurd h harr
      refine ⟨pio3.merge io4,
        ⟨parserReadingArray, t4, [] ++ els.map (fun e => binToken e.2), n, pio3.merge io4⟩,
        newParsingError (bytesOf "unexpected token " ++ tok.ttype.str ++
          bytesOf " while reading an array"), ?_, ?_, ?_⟩
      · simp only [parser.next, hf0]
        rw [run1, run2, run3, prs_pass_array_bad U _ _ n pio3 io4 tok t4 hty2 hn4]
      · rfl
      · simp only [harr, if_false]

/-- Witness of C23: the input `*2\r\n\n$3\r\nGET\r\n\r\n$1\r\nk\r\n`, two elements
with an end of line before each, read through a buffer of 8 bytes with the cap 4096. -/
theorem array_form_collects_witness :
    (newBufferedSource
        ⟨[[42, 50, 13, 10, 10, 36, 51, 13, 10, 71, 69, 84, 13, 10, 13, 10, 36, 49, 13, 10, 107, 13, 10]]⟩
        8).Holds
      (42 :: (natToDec 2 ++ (eolBytes true ++
        (arrayElems [([false], [71, 69, 84]), ([true], [107])] ++ (gapText [] ++ ([] ++ [])))))) ∧
    (1 ≤ 2 ∧ 2 < 9223372036854775808) ∧
    (∀ e, e ∈ [(([false] : List Bool), ([71, 69, 84] : List Nat)), ([true], [107])] →
      (e.2.length : Int) < 4096 ∧ e.2.length < 9223372036854775808) ∧
    (([(([false] : List Bool), ([71, 69, 84] : List Nat)), ([true], [107])]).length = 2 →
      ∃ s2 tk2 ln2 pio2, s2.Holds (gapText [] ++ ([] ++ [])) ∧
        parser.next (fun w => w)
            ⟨parserInit,
              ⟨newBufferedSource
                ⟨[[42, 50, 13, 10, 10, 36, 51, 13, 10, 71, 69, 84, 13, 10, 13, 10, 36, 49, 13, 10, 107, 13, 10]]⟩
                8, tokenizerWaitingForToken, none, 0, 4096⟩, [], 0, newIoData⟩ =
          parser.finish (parser.parseArgs (fun w => w)
            ⟨parserInit, ⟨s2, tokenizerWaitingForToken, tk2, ln2, 4096⟩,
              [(([false] : List Bool), ([71, 69, 84] : List Nat)), ([true], [107])].map
                (fun e => binToken e.2), (2 : Nat), pio2⟩) ∧
        ∀ res, parser.parseArgs (fun w => w)
            ⟨parserInit, ⟨s2, tokenizerWaitingForToken, tk2, ln2, 4096⟩,
              [(([false] : List Bool), ([71, 69, 84] : List Nat)), ([true], [107])].map
                (fun e => binToken e.2), (2 : Nat), pio2⟩ = some res →
          res.p.state = parserInit ∧ res.p.args = [] ∧ res.p.tokenizer.src = s2) :=
  ⟨source.holds_new _ 8 (by decide) (by simp), by decide, by decide,
    (array_form_collects (fun w => w)
      (newBufferedSource
        ⟨[[42, 50, 13, 10, 10, 36, 51, 13, 10, 71, 69, 84, 13, 10, 13, 10, 36, 49, 13, 10, 107, 13, 10]]⟩ 8)
      2 true [([false], [71, 69, 84]), ([true], [107])] [] [] [] 4096
      (source.holds_new _ 8 (by decide) (by simp)) (by decide) (by decide) none 0 0 newIoData).1⟩

/-! ## Every pass of the tokenizer loop makes progress -/

theorem tkz_case_wft_paced (s1 s2 : source) (tk : Option token)
    (ln : Nat) (A : Int) (c : Nat) (h1 : s1.rm = some s2) :
    Step.paced s1 s2 tokenizerWaitingForToken tk (tokenizer.caseWaitingForToken ⟨s1, tokenizerWaitingForToken, tk, ln, A⟩ c) := by
  by_cases hc1 : c = dollar
  · rcases tk with _ | ⟨ty, d, dl, sz⟩ <;>
      simp [tokenizer.caseWaitingForToken, tokenizer.new, tokenizer.setDelimiter,
      tokenizer.reachedSizeLimit, token.getSize, tokenizer.consume, tokenizer.yield,
      tokenizer.delimiter, tokenizer.append, token.append, token.is, tokenizer.tokenIs,
      tokenizer.increaseSize, token.increaseSize, ascii2int, asciiDigit,
      tokenizer.reachedExpectedSizeOfBinaryString, token.expectedSizeAndDataLenghtIsMatching,
      tokenizer.unexpectedEol, tokenizer.tokenTooBig, tokenizer.illegalChar,
      tokenizer.unexpectedCharEos, tokenizer.missingLineFeed, tokenizer.unexpectedQuote,
      bind, Option.bind, pure, h1, hc1, Step.paced, tokenizer.proper, tokenizerState.slack]
  by_cases hc2 : c = asterisk
  · rcases tk with _ | ⟨ty, d, dl, sz⟩ <;>
      simp [tokenizer.caseWaitingForToken, tokenizer.new, tokenizer.setDelimiter,
      tokenizer.reachedSizeLimit, token.getSize, tokenizer.consume, tokenizer.yield,
      tokenizer.delimiter, tokenizer.append, token.append, token.is, tokenizer.tokenIs,
      tokenizer.increaseSize, token.increaseSize, ascii2int, asciiDigit,
      tokenizer.reachedExpectedSizeOfBinaryString, token.expectedSizeAndDataLenghtIsMatching,
      tokenizer.unexpectedEol, tokenizer.tokenTooBig, tokenizer.illegalChar,
      tokenizer.unexpectedCharEos, tokenizer.missingLineFeed, tokenizer.unexpectedQuote,
      bind, Option.bind, pure, h1, hc1, hc2, Step.paced, tokenizer.proper, tokenizerState.slack]
  by_cases hc3 : c = numberSign
  · rcases tk with _ | ⟨ty, d, dl, sz⟩ <;>
      simp [tokenizer.caseWaitingForToken, tokenizer.new, tokenizer.setDelimiter,
      tokenizer.reachedSizeLimit, token.getSize, tokenizer.consume, tokenizer.yield,
      tokenizer.delimiter, tokenizer.append, token.append, token.is, tokenizer.tokenIs,
      tokenizer.increaseSize, token.increaseSize, ascii2int, asciiDigit,
      tokenizer.reachedExpectedSizeOfBinaryString, token.expectedSizeAndDataLenghtIsMatching,
      tokenizer.unexpectedEol, tokenizer.tokenTooBig, tokenizer.illegalChar,
      tokenizer.unexpectedCharEos, tokenizer.missingLineFeed, tokenizer.unexpectedQuote,
      bind, Option.bind, pure, h1, hc1, hc2, hc3, Step.paced, tokenizer.proper, tokenizerState.slack]
  by_cases hc4 : c = space ∨ c = tab
  · rcases tk with _ | ⟨ty, d, dl, sz⟩ <;>
      simp [tokenizer.caseWaitingForToken, tokenizer.new, tokenizer.setDelimiter,
      tokenizer.reachedSizeLimit, token.getSize, tokenizer.consume, tokenizer.yield,
      tokenizer.delimiter, tokenizer.append, token.append, token.is, tokenizer.tokenIs,
      tokenizer.increaseSize, token.increaseSize, ascii2int, asciiDigit,
      tokenizer.reachedExpectedSizeOfBinaryString, token.expectedSizeAndDataLenghtIsMatching,
      tokenizer.unexpectedEol, tokenizer.tokenTooBig, tokenizer.illegalChar,
      tokenizer.unexpectedCharEos, tokenizer.missingLineFeed, tokenizer.unexpectedQuote,
      bind, Option.bind, pure, h1, hc1, hc2, hc3, hc4, Step.paced, tokenizer.proper, tokenizerState.slack]
  by_cases hc5 : c = carryReturn
  · rcases tk with _ | ⟨ty, d, dl, sz⟩ <;>
      simp [tokenizer.caseWaitingForToken, tokenizer.new, tokenizer.setDelimiter,
      tokenizer.reachedSizeLimit, token.getSize, tokenizer.consume, tokenizer.yield,
      tokenizer.delimiter, tokenizer.append, token.append, token.is, tokenizer.tokenIs,
      tokenizer.increaseSize, token.increaseSize, ascii2int, asciiDigit,
      tokenizer.reachedExpectedSizeOfBinaryString, token.expectedSizeAndDataLenghtIsMatching,
      tokenizer.unexpectedEol, tokenizer.tokenTooBig, tokenizer.illegalChar,
      tokenizer.unexpectedCharEos, tokenizer.missingLineFeed, tokenizer.unexpectedQuote,
      bind, Option.bind, pure, h1, hc1, hc2, hc3, hc4, hc5, Step.paced, tokenizer.proper, tokenizerState.slack]
  by_cases hc6 : c = lineFeed
  · rcases tk with _ | ⟨ty, d, dl, sz⟩ <;>
      simp [tokenizer.caseWaitingForToken, tokenizer.new, tokenizer.setDelimiter,
      tokenizer.reachedSizeLimit, token.getSize, tokenizer.consume, tokenizer.yield,
      tokenizer.delimiter, tokenizer.append, token.append, token.is, tokenizer.tokenIs,
      tokenizer.increaseSize, token.increaseSize, ascii2int, asciiDigit,
      tokenizer.reachedExpectedSizeOfBinaryString, token.expectedSizeAndDataLenghtIsMatching,
      tokenizer.unexpectedEol, tokenizer.tokenTooBig, tokenizer.illegalChar,
      tokenizer.unexpectedCharEos, tokenizer.missingLineFeed, tokenizer.unexpectedQuote,
      bind, Option.bind, pure, h1, hc1, hc2, hc3, hc4, hc5, hc6, Step.paced, tokenizer.proper, tokenizerState.slack]
  by_cases hc7 : c = singleQuote ∨ c = doubleQuote
  · rcases tk with _ | ⟨ty, d, dl, sz⟩ <;>
      simp [tokenizer.caseWaitingForToken, tokenizer.new, tokenizer.setDelimiter,
      tokenizer.reachedSizeLimit, token.getSize, tokenizer.consume, tokenizer.yield,
      tokenizer.delimiter, tokenizer.append, token.append, token.is, tokenizer.tokenIs,
      tokenizer.increaseSize, token.increaseSize, ascii2int, asciiDigit,
      tokenizer.reachedExpectedSizeOfBinaryString, token.expectedSizeAndDataLenghtIsMatching,
      tokenizer.unexpectedEol, tokenizer.tokenTooBig, tokenizer.illegalChar,
      tokenizer.unexpectedCharEos, tokenizer.missingLineFeed, tokenizer.unexpectedQuote,
      bind, Option.bind, pure, h1, hc1, hc2, hc3, hc4, hc5, hc6, hc7, Step.paced, tokenizer.proper, tokenizerState.slack]
  by_cases hc8 : realPrintable c = true
  · rcases tk with _ | ⟨ty, d, dl, sz⟩ <;>
      simp [tokenizer.caseWaitingForToken, tokenizer.new, tokenizer.setDelimiter,
      tokenizer.reachedSizeLimit, token.getSize, tokenizer.consume, tokenizer.yield,
      tokenizer.delimiter, tokenizer.append, token.append, token.is, tokenizer.tokenIs,
      tokenizer.increaseSize, token.increaseSize, ascii2int, asciiDigit,
      tokenizer.reachedExpectedSizeOfBinaryString, token.expectedSizeAndDataLenghtIsMatching,
      tokenizer.unexpectedEol, tokenizer.tokenTooBig, tokenizer.illegalChar,
      tokenizer.unexpectedCharEos, tokenizer.missingLineFeed, tokenizer.unexpectedQuote,
      bind, Option.bind, pure, h1, hc1, hc2, hc3, hc4, hc5, hc6, hc7, hc8, Step.paced, tokenizer.proper, tokenizerState.slack]
  rcases tk with _ | ⟨ty, d, dl, sz⟩ <;>
    simp [tokenizer.caseWaitingForToken, tokenizer.new, tokenizer.setDelimiter,
      tokenizer.reachedSizeLimit, token.getSize, tokenizer.consume, tokenizer.yield,
      tokenizer.delimiter, tokenizer.append, token.append, token.is, tokenizer.tokenIs,
      tokenizer.increaseSize, token.increaseSize, ascii2int, asciiDigit,
      tokenizer.reachedExpectedSizeOfBinaryString, token.expectedSizeAndDataLenghtIsMatching,
      tokenizer.unexpectedEol, tokenizer.tokenTooBig, tokenizer.illegalChar,
      tokenizer.unexpectedCharEos, tokenizer.missingLineFeed, tokenizer.unexpectedQuote,
      bind, Option.bind, pure, h1, hc1, hc2, hc3, hc4, hc5, hc6, hc7, hc8, Step.paced, tokenizer.proper, tokenizerState.slack]

theorem tkz_case_ri_paced (s1 s2 : source) (tk : Option token)
    (ln : Nat) (A : Int) (c : Nat) (h1 : s1.rm = some s2) :
    Step.paced s1 s2 tokenizerReadingIdentifier tk (tokenizer.caseReadingIdentifier ⟨s1, tokenizerReadingIdentifier, tk, ln, A⟩ c) := by
  by_cases hc1 : c = carryReturn ∨ c = lineFeed ∨ c = space ∨ c = tab
  · rcases tk with _ | ⟨ty, d, dl, sz⟩
    · simp [tokenizer.caseReadingIdentifier, tokenizer.new, tokenizer.setDelimiter,
      tokenizer.reachedSizeLimit, token.getSize, tokenizer.consume, tokenizer.yield,
      tokenizer.delimiter, tokenizer.append, token.append, token.is, tokenizer.tokenIs,
      tokenizer.increaseSize, token.increaseSize, ascii2int, asciiDigit,
      tokenizer.reachedExpectedSizeOfBinaryString, token.expectedSizeAndDataLenghtIsMatching,
      tokenizer.unexpectedEol, tokenizer.tokenTooBig, tokenizer.illegalChar,
      tokenizer.unexpectedCharEos, tokenizer.missingLineFeed, tokenizer.unexpectedQuote,
      bind, Option.bind, pure, h1, hc1, Step.paced, tokenizer.proper, tokenizerState.slack]
    · cases ty <;> 
        simp [tokenizer.caseReadingIdentifier, tokenizer.new, tokenizer.setDelimiter,
      tokenizer.reachedSizeLimit, token.getSize, tokenizer.consume, tokenizer.yield,
      tokenizer.delimiter, tokenizer.append, token.append, token.is, tokenizer.tokenIs,
      tokenizer.increaseSize, token.increaseSize, ascii2int, asciiDigit,
      tokenizer.reachedExpectedSizeOfBinaryString, token.expectedSizeAndDataLenghtIsMatching,
      tokenizer.unexpectedEol, tokenizer.tokenTooBig, tokenizer.illegalChar,
      tokenizer.unexpectedCharEos, tokenizer.missingLineFeed, tokenizer.unexpectedQuote,
      bind, Option.bind, pure, h1, hc1, Step.paced, tokenizer.proper, tokenizerState.slack]
  by_cases hc2 : c = doubleQuote ∨ c = singleQuote
  · rcases tk with _ | ⟨ty, d, dl, sz⟩ <;>
      simp [tokenizer.caseReadingIdentifier, tokenizer.new, tokenizer.setDelimiter,
      tokenizer.reachedSizeLimit, token.getSize, tokenizer.consume, tokenizer.yield,
      tokenizer.delimiter, tokenizer.append, token.append, token.is, tokenizer.tokenIs,
      tokenizer.increaseSize, token.increaseSize, ascii2int, asciiDigit,
      tokenizer.reachedExpectedSizeOfBinaryString, token.expectedSizeAndDataLenghtIsMatching,
      tokenizer.unexpectedEol, tokenizer.tokenTooBig, tokenizer.illegalChar,
      tokenizer.unexpectedCharEos, tokenizer.missingLineFeed, tokenizer.unexpectedQuote,
      bind, Option.bind, pure, h1, hc1, hc2, Step.paced, tokenizer.proper, tokenizerState.slack]
  by_cases hc3 : realPrintable c = true
  · rcases tk with _ | ⟨ty, d, dl, sz⟩
    · simp [tokenizer.caseReadingIdentifier, tokenizer.new, tokenizer.setDelimiter,
      tokenizer.reachedSizeLimit, token.getSize, tokenizer.consume, tokenizer.yield,
      tokenizer.delimiter, tokenizer.append, token.append, token.is, tokenizer.tokenIs,
      tokenizer.increaseSize, token.increaseSize, ascii2int, asciiDigit,
      tokenizer.reachedExpectedSizeOfBinaryString, token.expectedSizeAndDataLenghtIsMatching,
      tokenizer.unexpectedEol, tokenizer.tokenTooBig, tokenizer.illegalChar,
      tokenizer.unexpectedCharEos, tokenizer.missingLineFeed, tokenizer.unexpectedQuote,
      bind, Option.bind, pure, h1, hc1, hc2, hc3, Step.paced, tokenizer.proper, tokenizerState.slack]
    · cases ty <;> by_cases e1 : A ≤ sz <;> 
        simp [tokenizer.caseReadingIdentifier, tokenizer.new, tokenizer.setDelimiter,
      tokenizer.reachedSizeLimit, token.getSize, tokenizer.consume, tokenizer.yield,
      tokenizer.delimiter, tokenizer.append, token.append, token.is, tokenizer.tokenIs,
      tokenizer.increaseSize, token.increaseSize, ascii2int, asciiDigit,
      tokenizer.reachedExpectedSizeOfBinaryString, token.expectedSizeAndDataLenghtIsMatching,
      tokenizer.unexpectedEol, tokenizer.tokenTooBig, tokenizer.illegalChar,
      tokenizer.unexpectedCharEos, tokenizer.missingLineFeed, tokenizer.unexpectedQuote,
      bind, Option.bind, pure, h1, hc1, hc2, hc3, Step.paced, tokenizer.proper, tokenizerState.slack, e1]
  rcases tk with _ | ⟨ty, d, dl, sz⟩ <;>
    simp [tokenizer.caseReadingIdentifier, tokenizer.new, tokenizer.setDelimiter,
      tokenizer.reachedSizeLimit, token.getSize, tokenizer.consume, tokenizer.yield,
      tokenizer.delimiter, tokenizer.append, token.append, token.is, tokenizer.tokenIs,
      tokenizer.increaseSize, token.increaseSize, ascii2int, asciiDigit,
      tokenizer.reachedExpectedSizeOfBinaryString, token.expectedSizeAndDataLenghtIsMatching,
      tokenizer.unexpectedEol, tokenizer.tokenTooBig, tokenizer.illegalChar,
      tokenizer.unexpectedCharEos, tokenizer.missingLineFeed, tokenizer.unexpectedQuote,
      bind, Option.bind, pure, h1, hc1, hc2, hc3, Step.paced, tokenizer.proper, tokenizerState.slack]

theorem tkz_case_rs_paced (s1 s2 : source) (tk : Option token)
    (ln : Nat) (A : Int) (c : Nat) (h1 : s1.rm = some s2) :
    Step.paced s1 s2 tokenizerReadingString tk (tokenizer.caseReadingString ⟨s1, tokenizerReadingString, tk, ln, A⟩ c) := by
  by_cases hq : c = doubleQuote <;> cases tk <;>
    simp only [tokenizer.caseReadingString, tokenizer.reachedSizeLimit, token.getSize,
      tokenizer.consume, tokenizer.yield, tokenizer.delimiter, tokenizer.append, token.append,
      token.is, tokenizer.unexpectedEol, tokenizer.tokenTooBig, tokenizer.illegalChar,
      bind, Option.bind, pure, h1, hq, if_true, if_false] <;>
    (repeat' split) <;> simp_all [Step.paced, tokenizer.proper, tokenizerState.slack]

theorem tkz_case_wse_paced (s1 s2 : source) (tk : Option token)
    (ln : Nat) (A : Int) (c : Nat) (_h1 : s1.rm = some s2) :
    Step.paced s1 s2 tokenizerWaitingSpaceForEos tk (tokenizer.caseWaitingSpaceForEos ⟨s1, tokenizerWaitingSpaceForEos, tk, ln, A⟩ c) := by
  by_cases hc1 : c = lineFeed ∨ c = carryReturn ∨ c = space
  · rcases tk with _ | ⟨ty, d, dl, sz⟩ <;>
      simp [tokenizer.caseWaitingSpaceForEos, tokenizer.new, tokenizer.setDelimiter,
      tokenizer.reachedSizeLimit, token.getSize, tokenizer.consume, tokenizer.yield,
      tokenizer.delimiter, tokenizer.append, token.append, token.is, tokenizer.tokenIs,
      tokenizer.increaseSize, token.increaseSize, ascii2int, asciiDigit,
      tokenizer.reachedExpectedSizeOfBinaryString, token.expectedSizeAndDataLenghtIsMatching,
      tokenizer.unexpectedEol, tokenizer.tokenTooBig, tokenizer.illegalChar,
      tokenizer.unexpectedCharEos, tokenizer.missingLineFeed, tokenizer.unexpectedQuote,
      bind, Option.bind, pure, hc1, Step.paced, tokenizer.proper, tokenizerState.slack]
  rcases tk with _ | ⟨ty, d, dl, sz⟩ <;>
    simp [tokenizer.caseWaitingSpaceForEos, tokenizer.new, tokenizer.setDelimiter,
      tokenizer.reachedSizeLimit, token.getSize, tokenizer.consume, tokenizer.yield,
      tokenizer.delimiter, tokenizer.append, token.append, token.is, tokenizer.tokenIs,
      tokenizer.increaseSize, token.increaseSize, ascii2int, asciiDigit,
      tokenizer.reachedExpectedSizeOfBinaryString, token.expectedSizeAndDataLenghtIsMatching,
      tokenizer.unexpectedEol, tokenizer.tokenTooBig, tokenizer.illegalChar,
      tokenizer.unexpectedCharEos, tokenizer.missingLineFeed, tokenizer.unexpectedQuote,
      bind, Option.bind, pure, hc1, Step.paced, tokenizer.proper, tokenizerState.slack]

theorem tkz_case_weol_paced (s1 s2 : source) (tk : Option token)
    (ln : Nat) (A : Int) (c : Nat) (h1 : s1.rm = some s2) :
    Step.paced s1 s2 tokenizerWaitingEol tk (tokenizer.caseWaitingEol ⟨s1, tokenizerWaitingEol, tk, ln, A⟩ c) := by
  by_cases hc1 : c = lineFeed
  · rcases tk with _ | ⟨ty, d, dl, sz⟩
    · simp [tokenizer.caseWaitingEol, tokenizer.new, tokenizer.setDelimiter,
      tokenizer.reachedSizeLimit, token.getSize, tokenizer.consume, tokenizer.yield,
      tokenizer.delimiter, tokenizer.append, token.append, token.is, tokenizer.tokenIs,
      tokenizer.increaseSize, token.increaseSize, ascii2int, asciiDigit,
      tokenizer.reachedExpectedSizeOfBinaryString, token.expectedSizeAndDataLenghtIsMatching,
      tokenizer.unexpectedEol, tokenizer.tokenTooBig, tokenizer.illegalChar,
      tokenizer.unexpectedCharEos, tokenizer.missingLineFeed, tokenizer.unexpectedQuote,
      bind, Option.bind, pure, h1, hc1, Step.paced, tokenizer.proper, tokenizerState.slack]
    · cases ty <;> 
        simp [tokenizer.caseWaitingEol, tokenizer.new, tokenizer.setDelimiter,
      tokenizer.reachedSizeLimit, token.getSize, tokenizer.consume, tokenizer.yield,
      tokenizer.delimiter, tokenizer.append, token.append, token.is, tokenizer.tokenIs,
      tokenizer.increaseSize, token.increaseSize, ascii2int, asciiDigit,
      tokenizer.reachedExpectedSizeOfBinaryString, token.expectedSizeAndDataLenghtIsMatching,
      tokenizer.unexpectedEol, tokenizer.tokenTooBig, tokenizer.illegalChar,
      tokenizer.unexpectedCharEos, tokenizer.missingLineFeed, tokenizer.unexpectedQuote,
      bind, Option.bind, pure, h1, hc1, Step.paced, tokenizer.proper, tokenizerState.slack]
  rcases tk with _ | ⟨ty, d, dl, sz⟩ <;>
    simp [tokenizer.caseWaitingEol, tokenizer.new, tokenizer.setDelimiter,
      tokenizer.reachedSizeLimit, token.getSize, tokenizer.consume, tokenizer.yield,
      tokenizer.delimiter, tokenizer.append, token.append, token.is, tokenizer.tokenIs,
      tokenizer.increaseSize, token.increaseSize, ascii2int, asciiDigit,
      tokenizer.reachedExpectedSizeOfBinaryString, token.expectedSizeAndDataLenghtIsMatching,
      tokenizer.unexpectedEol, tokenizer.tokenTooBig, tokenizer.illegalChar,
      tokenizer.unexpectedCharEos, tokenizer.missingLineFeed, tokenizer.unexpectedQuote,
      bind, Option.bind, pure, h1, hc1, Step.paced, tokenizer.proper, tokenizerState.slack]

theorem tkz_case_rc_paced (s1 s2 : source) (tk : Option token)
    (ln : Nat) (A : Int) (c : Nat) (h1 : s1.rm = some s2) :
    Step.paced s1 s2 tokenizerReadingComment tk (tokenizer.caseReadingComment ⟨s1, tokenizerReadingComment, tk, ln, A⟩ c) := by
  by_cases hc1 : c = carryReturn ∨ c = lineFeed
  · rcases tk with _ | ⟨ty, d, dl, sz⟩
    · simp [tokenizer.caseReadingComment, tokenizer.new, tokenizer.setDelimiter,
      tokenizer.reachedSizeLimit, token.getSize, tokenizer.consume, tokenizer.yield,
      tokenizer.delimiter, tokenizer.append, token.append, token.is, tokenizer.tokenIs,
      tokenizer.increaseSize, token.increaseSize, ascii2int, asciiDigit,
      tokenizer.reachedExpectedSizeOfBinaryString, token.expectedSizeAndDataLenghtIsMatching,
      tokenizer.unexpectedEol, tokenizer.tokenTooBig, tokenizer.illegalChar,
      tokenizer.unexpectedCharEos, tokenizer.missingLineFeed, tokenizer.unexpectedQuote,
      bind, Option.bind, pure, h1, hc1, Step.paced, tokenizer.proper, tokenizerState.slack]
    · cases ty <;> 
        simp [tokenizer.caseReadingComment, tokenizer.new, tokenizer.setDelimiter,
      tokenizer.reachedSizeLimit, token.getSize, tokenizer.consume, tokenizer.yield,
      tokenizer.delimiter, tokenizer.append, token.append, token.is, tokenizer.tokenIs,
      tokenizer.increaseSize, token.increaseSize, ascii2int, asciiDigit,
      tokenizer.reachedExpectedSizeOfBinaryString, token.expectedSizeAndDataLenghtIsMatching,
      tokenizer.unexpectedEol, tokenizer.tokenTooBig, tokenizer.illegalChar,
      tokenizer.unexpectedCharEos, tokenizer.missingLineFeed, tokenizer.unexpectedQuote,
      bind, Option.bind, pure, h1, hc1, Step.paced, tokenizer.proper, tokenizerState.slack]
  rcases tk with _ | ⟨ty, d, dl, sz⟩ <;>
    simp [tokenizer.caseReadingComment, tokenizer.new, tokenizer.setDelimiter,
      tokenizer.reachedSizeLimit, token.getSize, tokenizer.consume, tokenizer.yield,
      tokenizer.delimiter, tokenizer.append, token.append, token.is, tokenizer.tokenIs,
      tokenizer.increaseSize, token.increaseSize, ascii2int, asciiDigit,
      tokenizer.reachedExpectedSizeOfBinaryString, token.expectedSizeAndDataLenghtIsMatching,
      tokenizer.unexpectedEol, tokenizer.tokenTooBig, tokenizer.illegalChar,
      tokenizer.unexpectedCharEos, tokenizer.missingLineFeed, tokenizer.unexpectedQuote,
      bind, Option.bind, pure, h1, hc1, Step.paced, tokenizer.proper, tokenizerState.slack]

theorem tkz_case_rsize_paced (s1 s2 : source) (tk : Option token)
    (ln : Nat) (A : Int) (c : Nat) (h1 : s1.rm = some s2) :
    Step.paced s1 s2 tokenizerReadingSize tk (tokenizer.caseReadingSize ⟨s1, tokenizerReadingSize, tk, ln, A⟩ c) := by
  by_cases hc1 : 48 ≤ c ∧ c ≤ 57
  · rcases tk with _ | ⟨ty, d, dl, sz⟩ <;>
      simp [tokenizer.caseReadingSize, tokenizer.new, tokenizer.setDelimiter,
      tokenizer.reachedSizeLimit, token.getSize, tokenizer.consume, tokenizer.yield,
      tokenizer.delimiter, tokenizer.append, token.append, token.is, tokenizer.tokenIs,
      tokenizer.increaseSize, token.increaseSize, ascii2int, asciiDigit,
      tokenizer.reachedExpectedSizeOfBinaryString, token.expectedSizeAndDataLenghtIsMatching,
      tokenizer.unexpectedEol, tokenizer.tokenTooBig, tokenizer.illegalChar,
      tokenizer.unexpectedCharEos, tokenizer.missingLineFeed, tokenizer.unexpectedQuote,
      bind, Option.bind, pure, h1, hc1, Step.paced, tokenizer.proper, tokenizerState.slack]
  by_cases hc2 : c = carryReturn ∨ c = lineFeed
  · rcases tk with _ | ⟨ty, d, dl, sz⟩
    · simp [tokenizer.caseReadingSize, tokenizer.new, tokenizer.setDelimiter,
      tokenizer.reachedSizeLimit, token.getSize, tokenizer.consume, tokenizer.yield,
      tokenizer.delimiter, tokenizer.append, token.append, token.is, tokenizer.tokenIs,
      tokenizer.increaseSize, token.increaseSize, ascii2int, asciiDigit,
      tokenizer.reachedExpectedSizeOfBinaryString, token.expectedSizeAndDataLenghtIsMatching,
      tokenizer.unexpectedEol, tokenizer.tokenTooBig, tokenizer.illegalChar,
      tokenizer.unexpectedCharEos, tokenizer.missingLineFeed, tokenizer.unexpectedQuote,
      bind, Option.bind, pure, h1, hc1, hc2, Step.paced, tokenizer.proper, tokenizerState.slack]
    · by_cases e0 : ty = tokenArray <;> by_cases e1 : A ≤ sz <;> 
        simp [tokenizer.caseReadingSize, tokenizer.new, tokenizer.setDelimiter,
      tokenizer.reachedSizeLimit, token.getSize, tokenizer.consume, tokenizer.yield,
      tokenizer.delimiter, tokenizer.append, token.append, token.is, tokenizer.tokenIs,
      tokenizer.increaseSize, token.increaseSize, ascii2int, asciiDigit,
      tokenizer.reachedExpectedSizeOfBinaryString, token.expectedSizeAndDataLenghtIsMatching,
      tokenizer.unexpectedEol, tokenizer.tokenTooBig, tokenizer.illegalChar,
      tokenizer.unexpectedCharEos, tokenizer.missingLineFeed, tokenizer.unexpectedQuote,
      bind, Option.bind, pure, h1, hc1, hc2, Step.paced, tokenizer.proper, tokenizerState.slack, e0, e1]
  rcases tk with _ | ⟨ty, d, dl, sz⟩ <;>
    simp [tokenizer.caseReadingSize, tokenizer.new, tokenizer.setDelimiter,
      tokenizer.reachedSizeLimit, token.getSize, tokenizer.consume, tokenizer.yield,
      tokenizer.delimiter, tokenizer.append, token.append, token.is, tokenizer.tokenIs,
      tokenizer.increaseSize, token.increaseSize, ascii2int, asciiDigit,
      tokenizer.reachedExpectedSizeOfBinaryString, token.expectedSizeAndDataLenghtIsMatching,
      tokenizer.unexpectedEol, tokenizer.tokenTooBig, tokenizer.illegalChar,
      tokenizer.unexpectedCharEos, tokenizer.missingLineFeed, tokenizer.unexpectedQuote,
      bind, Option.bind, pure, h1, hc1, hc2, Step.paced, tokenizer.proper, tokenizerState.slack]

theorem tkz_case_rbss_paced (s1 s2 : source) (tk : Option token)
    (ln : Nat) (A : Int) (c : Nat) (h1 : s1.rm = some s2) :
    Step.paced s1 s2 tokenizerReadingBinStringSeparator tk (tokenizer.caseReadingBinStringSeparator ⟨s1, tokenizerReadingBinStringSeparator, tk, ln, A⟩ c) := by
  by_cases hc1 : c = carryReturn
  · rcases tk with _ | ⟨ty, d, dl, sz⟩ <;>
      simp [tokenizer.caseReadingBinStringSeparator, tokenizer.new, tokenizer.setDelimiter,
      tokenizer.reachedSizeLimit, token.getSize, tokenizer.consume, tokenizer.yield,
      tokenizer.delimiter, tokenizer.append, token.append, token.is, tokenizer.tokenIs,
      tokenizer.increaseSize, token.increaseSize, ascii2int, asciiDigit,
      tokenizer.reachedExpectedSizeOfBinaryString, token.expectedSizeAndDataLenghtIsMatching,
      tokenizer.unexpectedEol, tokenizer.tokenTooBig, tokenizer.illegalChar,
      tokenizer.unexpectedCharEos, tokenizer.missingLineFeed, tokenizer.unexpectedQuote,
      bind, Option.bind, pure, h1, hc1, Step.paced, tokenizer.proper, tokenizerState.slack]
  by_cases hc2 : c = lineFeed
  · rcases tk with _ | ⟨ty, d, dl, sz⟩ <;>
      simp [tokenizer.caseReadingBinStringSeparator, tokenizer.new, tokenizer.setDelimiter,
      tokenizer.reachedSizeLimit, token.getSize, tokenizer.consume, tokenizer.yield,
      tokenizer.delimiter, tokenizer.append, token.append, token.is, tokenizer.tokenIs,
      tokenizer.increaseSize, token.increaseSize, ascii2int, asciiDigit,
      tokenizer.reachedExpectedSizeOfBinaryString, token.expectedSizeAndDataLenghtIsMatching,
      tokenizer.unexpectedEol, tokenizer.tokenTooBig, tokenizer.illegalChar,
      tokenizer.unexpectedCharEos, tokenizer.missingLineFeed, tokenizer.unexpectedQuote,
      bind, Option.bind, pure, h1, hc1, hc2, Step.paced, tokenizer.proper, tokenizerState.slack]
  rcases tk with _ | ⟨ty, d, dl, sz⟩ <;>
    simp [tokenizer.caseReadingBinStringSeparator, tokenizer.new, tokenizer.setDelimiter,
      tokenizer.reachedSizeLimit, token.getSize, tokenizer.consume, tokenizer.yield,
      tokenizer.delimiter, tokenizer.append, token.append, token.is, tokenizer.tokenIs,
      tokenizer.increaseSize, token.increaseSize, ascii2int, asciiDigit,
      tokenizer.reachedExpectedSizeOfBinaryString, token.expectedSizeAndDataLenghtIsMatching,
      tokenizer.unexpectedEol, tokenizer.tokenTooBig, tokenizer.illegalChar,
      tokenizer.unexpectedCharEos, tokenizer.missingLineFeed, tokenizer.unexpectedQuote,
      bind, Option.bind, pure, h1, hc1, hc2, Step.paced, tokenizer.proper, tokenizerState.slack]

theorem tkz_case_weobs_paced (s1 s2 : source) (tk : Option token)
    (ln : Nat) (A : Int) (c : Nat) (h1 : s1.rm = some s2) :
    Step.paced s1 s2 tokenizerWaitingEobs tk (tokenizer.caseWaitingEobs ⟨s1, tokenizerWaitingEobs, tk, ln, A⟩ c) := by
  by_cases hc1 : c = carryReturn
  · rcases tk with _ | ⟨ty, d, dl, sz⟩ <;>
      simp [tokenizer.caseWaitingEobs, tokenizer.new, tokenizer.setDelimiter,
      tokenizer.reachedSizeLimit, token.getSize, tokenizer.consume, tokenizer.yield,
      tokenizer.delimiter, tokenizer.append, token.append, token.is, tokenizer.tokenIs,
      tokenizer.increaseSize, token.increaseSize, ascii2int, asciiDigit,
      tokenizer.reachedExpectedSizeOfBinaryString, token.expectedSizeAndDataLenghtIsMatching,
      tokenizer.unexpectedEol, tokenizer.tokenTooBig, tokenizer.illegalChar,
      tokenizer.unexpectedCharEos, tokenizer.missingLineFeed, tokenizer.unexpectedQuote,
      bind, Option.bind, pure, h1, hc1, Step.paced, tokenizer.proper, tokenizerState.slack]
  by_cases hc2 : c = lineFeed
  · rcases tk with _ | ⟨ty, d, dl, sz⟩
    · simp [tokenizer.caseWaitingEobs, tokenizer.new, tokenizer.setDelimiter,
      tokenizer.reachedSizeLimit, token.getSize, tokenizer.consume, tokenizer.yield,
      tokenizer.delimiter, tokenizer.append, token.append, token.is, tokenizer.tokenIs,
      tokenizer.increaseSize, token.increaseSize, ascii2int, asciiDigit,
      tokenizer.reachedExpectedSizeOfBinaryString, token.expectedSizeAndDataLenghtIsMatching,
      tokenizer.unexpectedEol, tokenizer.tokenTooBig, tokenizer.illegalChar,
      tokenizer.unexpectedCharEos, tokenizer.missingLineFeed, tokenizer.unexpectedQuote,
      bind, Option.bind, pure, h1, hc1, hc2, Step.paced, tokenizer.proper, tokenizerState.slack]
    · cases ty <;> 
        simp [tokenizer.caseWaitingEobs, tokenizer.new, tokenizer.setDelimiter,
      tokenizer.reachedSizeLimit, token.getSize, tokenizer.consume, tokenizer.yield,
      tokenizer.delimiter, tokenizer.append, token.append, token.is, tokenizer.tokenIs,
      tokenizer.increaseSize, token.increaseSize, ascii2int, asciiDigit,
      tokenizer.reachedExpectedSizeOfBinaryString, token.expectedSizeAndDataLenghtIsMatching,
      tokenizer.unexpectedEol, tokenizer.tokenTooBig, tokenizer.illegalChar,
      tokenizer.unexpectedCharEos, tokenizer.missingLineFeed, tokenizer.unexpectedQuote,
      bind, Option.bind, pure, h1, hc1, hc2, Step.paced, tokenizer.proper, tokenizerState.slack]
  rcases tk with _ | ⟨ty, d, dl, sz⟩ <;>
    simp [tokenizer.caseWaitingEobs, tokenizer.new, tokenizer.setDelimiter,
      tokenizer.reachedSizeLimit, token.getSize, tokenizer.consume, tokenizer.yield,
      tokenizer.delimiter, tokenizer.append, token.append, token.is, tokenizer.tokenIs,
      tokenizer.increaseSize, token.increaseSize, ascii2int, asciiDigit,
      tokenizer.reachedExpectedSizeOfBinaryString, token.expectedSizeAndDataLenghtIsMatching,
      tokenizer.unexpectedEol, tokenizer.tokenTooBig, tokenizer.illegalChar,
      tokenizer.unexpectedCharEos, tokenizer.missingLineFeed, tokenizer.unexpectedQuote,
      bind, Option.bind, pure, h1, hc1, hc2, Step.paced, tokenizer.proper, tokenizerState.slack]

theorem tkz_case_rbs_paced (s1 s2 : source) (tk : Option token)
    (ln : Nat) (A : Int) (c : Nat) (h1 : s1.rm = some s2) :
    Step.paced s1 s2 tokenizerReadingBinString tk (tokenizer.caseReadingBinString ⟨s1, tokenizerReadingBinString, tk, ln, A⟩ c) := by
  rcases tk with _ | ⟨ty, d, dl, sz⟩
  · simp [tokenizer.caseReadingBinString, tokenizer.new, tokenizer.setDelimiter,
      tokenizer.reachedSizeLimit, token.getSize, tokenizer.consume, tokenizer.yield,
      tokenizer.delimiter, tokenizer.append, token.append, token.is, tokenizer.tokenIs,
      tokenizer.increaseSize, token.increaseSize, ascii2int, asciiDigit,
      tokenizer.reachedExpectedSizeOfBinaryString, token.expectedSizeAndDataLenghtIsMatching,
      tokenizer.unexpectedEol, tokenizer.tokenTooBig, tokenizer.illegalChar,
      tokenizer.unexpectedCharEos, tokenizer.missingLineFeed, tokenizer.unexpectedQuote,
      bind, Option.bind, pure, h1, Step.paced, tokenizer.proper, tokenizerState.slack]
  · cases ty <;> by_cases e1 : (d.length : Int) = sz <;> 
      simp [tokenizer.caseReadingBinString, tokenizer.new, tokenizer.setDelimiter,
      tokenizer.reachedSizeLimit, token.getSize, tokenizer.consume, tokenizer.yield,
      tokenizer.delimiter, tokenizer.append, token.append, token.is, tokenizer.tokenIs,
      tokenizer.increaseSize, token.increaseSize, ascii2int, asciiDigit,
      tokenizer.reachedExpectedSizeOfBinaryString, token.expectedSizeAndDataLenghtIsMatching,
      tokenizer.unexpectedEol, tokenizer.tokenTooBig, tokenizer.illegalChar,
      tokenizer.unexpectedCharEos, tokenizer.missingLineFeed, tokenizer.unexpectedQuote,
      bind, Option.bind, pure, h1, Step.paced, tokenizer.proper, tokenizerState.slack, e1]

theorem tkz_case_scape_paced (s1 s2 : source) (tk : Option token)
    (ln : Nat) (A : Int) (c : Nat) (h1 : s1.rm = some s2) :
    Step.paced s1 s2 tokenizerScape tk (tokenizer.caseScape ⟨s1, tokenizerScape, tk, ln, A⟩ c) := by
  rcases tk with _ | ⟨ty, d, dl, sz⟩
  · simp [tokenizer.caseScape, tokenizer.new, tokenizer.setDelimiter,
      tokenizer.reachedSizeLimit, token.getSize, tokenizer.consume, tokenizer.yield,
      tokenizer.delimiter, tokenizer.append, token.append, token.is, tokenizer.tokenIs,
      tokenizer.increaseSize, token.increaseSize, ascii2int, asciiDigit,
      tokenizer.reachedExpectedSizeOfBinaryString, token.expectedSizeAndDataLenghtIsMatching,
      tokenizer.unexpectedEol, tokenizer.tokenTooBig, tokenizer.illegalChar,
      tokenizer.unexpectedCharEos, tokenizer.missingLineFeed, tokenizer.unexpectedQuote,
      bind, Option.bind, pure, h1, Step.paced, tokenizer.proper, tokenizerState.slack]
  · cases ty <;> by_cases e1 : A ≤ sz <;> 
      simp [tokenizer.caseScape, tokenizer.new, tokenizer.setDelimiter,
      tokenizer.reachedSizeLimit, token.getSize, tokenizer.consume, tokenizer.yield,
      tokenizer.delimiter, tokenizer.append, token.append, token.is, tokenizer.tokenIs,
      tokenizer.increaseSize, token.increaseSize, ascii2int, asciiDigit,
      tokenizer.reachedExpectedSizeOfBinaryString, token.expectedSizeAndDataLenghtIsMatching,
      tokenizer.unexpectedEol, tokenizer.tokenTooBig, tokenizer.illegalChar,
      tokenizer.unexpectedCharEos, tokenizer.missingLineFeed, tokenizer.unexpectedQuote,
      bind, Option.bind, pure, h1, Step.paced, tokenizer.proper, tokenizerState.slack, e1]

theorem tkz_dispatch_paced (s1 s2 : source) (st : tokenizerState) (tk : Option token)
    (ln : Nat) (A : Int) (c : Nat) (h1 : s1.rm = some s2) :
    Step.paced s1 s2 st tk (tokenizer.dispatch ⟨s1, st, tk, ln, A⟩ c) := by
  cases st
  · exact tkz_case_wft_paced s1 s2 tk ln A c h1
  · exact tkz_case_ri_paced s1 s2 tk ln A c h1
  · exact tkz_case_rs_paced s1 s2 tk ln A c h1
  · exact tkz_case_wse_paced s1 s2 tk ln A c h1
  · exact tkz_case_weol_paced s1 s2 tk ln A c h1
  · exact tkz_case_rc_paced s1 s2 tk ln A c h1
  · exact tkz_case_rsize_paced s1 s2 tk ln A c h1
  · exact tkz_case_rbss_paced s1 s2 tk ln A c h1
  · exact tkz_case_weobs_paced s1 s2 tk ln A c h1
  · exact tkz_case_rbs_paced s1 s2 tk ln A c h1
  · exact tkz_case_scape_paced s1 s2 tk ln A c h1

/-! ## Every call of the tokenizer returns -/

theorem source.holds_length_ne (s1 s2 : source) (c : Nat) (r : List Nat) (h1 : s1.Holds (c :: r))
    (h2 : s2.Holds r) : s1 ≠ s2 := by
  intro e
  subst e
  have := h1.2.symm.trans h2.2
  have := congrArg List.length this
  simp at this

theorem source.rm_of_holds (s : source) (c : Nat) (r : List Nat) (h : s.Holds (c :: r)) :
    s.afterPeek.rm = some s.step ∧ s.afterPeek.Holds (c :: r) ∧ s.step.Holds r := by
  obtain ⟨_, h2, h3⟩ := source.peek_of_holds s c r h
  exact ⟨(source.rm_of_hasUnread s.afterPeek c r h2 h3).1, h2, source.step_holds s c r h⟩

theorem tokenizerState.slack_le (st : tokenizerState) : st.slack ≤ 3 := by
  cases st <;> simp [tokenizerState.slack]

/-- A call of the tokenizer loop over a source in working order, with fuel for every
byte left, for the slack of the state and for one more pass: it does not run out of
fuel; it panics only when the token is missing in a state that reads it; what it
returns is a token without error or an error without token; the source left holds a
tail of the bytes, a proper tail after a token unless the call started in a state that
ends its token on the byte after it, and then the state left starts a token. -/
theorem tkz_nextLoop_outcome (f : Nat) : ∀ (t : tokenizer) (io : ioData) (r : List Nat),
    t.src.Holds r → r.length + t.state.slack + 1 ≤ f →
    tokenizer.nextLoop f t io ≠ Result.outOfFuel ∧
    (tokenizer.nextLoop f t io = Result.panicked → ¬ t.proper) ∧
    (∀ res, tokenizer.nextLoop f t io = Result.done res →
      (t.proper → res.t.proper) ∧
      ∃ r2, res.t.src.Holds r2 ∧ r2.length ≤ r.length ∧
        ((∃ tok, res.tok = some tok ∧ res.err = none ∧
            (res.t.state = tokenizerWaitingForToken ∨
              res.t.state = tokenizerWaitingSpaceForEos) ∧
            (r2.length < r.length ∨ t.state = tokenizerReadingIdentifier ∨
              t.state = tokenizerReadingSize ∨ t.state = tokenizerReadingComment)) ∨
         (res.tok = none ∧ res.err.isSome = true))) := by
  induction f with
  | zero => intro t io r _ hf; omega
  | succ f ih =>
    intro t io r h hf
    obtain ⟨s, st, tk, ln, A⟩ := t
    simp only at h hf
    cases r with
    | nil =>
      rw [tkz_nextLoop_eof s h]
      refine ⟨by simp, by simp, ?_⟩
      intro res hres
      cases hres
      exact ⟨fun hp => hp, [], h, Nat.le_refl _, Or.inr ⟨rfl, rfl⟩⟩
    | cons c r =>
      obtain ⟨hrm, ha, hs⟩ := source.rm_of_holds s c r h
      have hne := source.holds_length_ne _ _ c r ha hs
      have hp := tkz_dispatch_paced s.afterPeek s.step st tk ln A c hrm
      rw [tkz_nextLoop_of_holds s c r h]
      simp only [List.length_cons] at hf
      cases hd : tokenizer.dispatch ⟨s.afterPeek, st, tk, ln, A⟩ c with
      | none =>
        rw [hd] at hp
        simp only [Step.paced] at hp
        refine ⟨by simp, ?_, by simp⟩
        intro _ hprop
        obtain ⟨h1, h2, h3⟩ := hp
        rcases hprop with hq | hq | hq
        · simp [h1] at hq
        · exact h2 hq
        · exact h3 hq
      | some stp =>
        rw [hd] at hp
        cases stp with
        | again t2 =>
          simp only [Step.paced] at hp
          obtain ⟨hprop2, hsrc⟩ := hp
          simp only
          have hbound : ∃ r3, t2.src.Holds r3 ∧ r3.length + t2.state.slack + 1 ≤ f ∧
              r3.length ≤ (c :: r).length ∧
              (r3.length < (c :: r).length ∨
                (t2.state ≠ tokenizerReadingIdentifier ∧ t2.state ≠ tokenizerReadingSize ∧
                  t2.state ≠ tokenizerReadingComment)) := by
            rcases hsrc with ⟨e1, e2⟩ | ⟨e1, e2, _, e4⟩
            · refine ⟨r, by rw [e1]; exact hs, by omega, by simp, Or.inl (by simp)⟩
            · refine ⟨c :: r, by rw [e1]; exact ha, by simp only [List.length_cons]; omega,
                Nat.le_refl _, Or.inr ?_⟩
              rcases e4 with e | e | e <;> simp [e]
          obtain ⟨r3, h3, hb3, hle3, hlt3⟩ := hbound
          obtain ⟨i1, i2, i3⟩ := ih t2 (io.add s.peekBytes) r3 h3 hb3
          refine ⟨i1, fun hpan hprop => i2 hpan (hprop2 hprop), ?_⟩
          intro res hres
          obtain ⟨j1, r2, j2, j3, j4⟩ := i3 res hres
          refine ⟨fun hprop => j1 (hprop2 hprop), r2, j2, by omega, ?_⟩
          rcases j4 with ⟨tok, k1, k2, k3, k4⟩ | j4
          · refine Or.inl ⟨tok, k1, k2, k3, ?_⟩
            rcases hlt3 with hlt | ⟨n1, n2, n3⟩
            · exact Or.inl (by omega)
            · rcases k4 with k | k | k | k
              · exact Or.inl (by omega)
              · exact absurd k n1
              · exact absurd k n2
              · exact absurd k n3
          · exact Or.inr j4
        | ret tok err t2 =>
          simp only
          refine ⟨by simp, by simp, ?_⟩
          intro res hres
          cases hres
          cases tok with
          | none =>
            simp only [Step.paced] at hp
            obtain ⟨e1, e2, e3, e4⟩ := hp
            refine ⟨?_, c :: r, by rw [e2]; exact ha, Nat.le_refl _, Or.inr ⟨rfl, e1⟩⟩
            intro hprop
            rcases hprop with hq | hq | hq
            · exact Or.inl (e4 hq)
            · exact Or.inr (Or.inl (e3.trans hq))
            · exact Or.inr (Or.inr (e3.trans hq))
          | some tok =>
            simp only [Step.paced] at hp
            obtain ⟨e1, e2, e3, e4⟩ := hp
            rcases e4 with e4 | ⟨e4, e5⟩
            · exact ⟨e2, r, by rw [e4]; exact hs, by simp, Or.inl ⟨tok, rfl, e1, e3, Or.inl (by simp)⟩⟩
            · exact ⟨e2, c :: r, by rw [e4]; exact ha, Nat.le_refl _,
                Or.inl ⟨tok, rfl, e1, e3, Or.inr e5⟩⟩

/-! ## One pass of the tokenizer loop does not depend on how the source is buffered -/

theorem tkz_case_wft_alike (s1 s1' s2 s2' : source) (st : tokenizerState) (tk : Option token)
    (ln : Nat) (A : Int) (c : Nat) (h1 : s1.rm = some s2) (h2 : s1'.rm = some s2') :
    Step.alike s1 s1' s2 s2' (tokenizer.caseWaitingForToken ⟨s1, st, tk, ln, A⟩ c)
      (tokenizer.caseWaitingForToken ⟨s1', st, tk, ln, A⟩ c) := by
  by_cases hc1 : c = dollar
  · rcases tk with _ | ⟨ty, d, dl, sz⟩ <;>
      simp [tokenizer.caseWaitingForToken, tokenizer.new, tokenizer.setDelimiter,
      tokenizer.reachedSizeLimit, token.getSize, tokenizer.consume, tokenizer.yield,
      tokenizer.delimiter, tokenizer.append, token.append, token.is, tokenizer.tokenIs,
      tokenizer.increaseSize, token.increaseSize, ascii2int, asciiDigit,
      tokenizer.reachedExpectedSizeOfBinaryString, token.expectedSizeAndDataLenghtIsMatching,
      tokenizer.unexpectedEol, tokenizer.tokenTooBig, tokenizer.illegalChar,
      tokenizer.unexpectedCharEos, tokenizer.missingLineFeed, tokenizer.unexpectedQuote,
      bind, Option.bind, pure, h1, h2, hc1, Step.alike, tokenizer.sameBut]
  by_cases hc2 : c = asterisk
  · rcases tk with _ | ⟨ty, d, dl, sz⟩ <;>
      simp [tokenizer.caseWaitingForToken, tokenizer.new, tokenizer.setDelimiter,
      tokenizer.reachedSizeLimit, token.getSize, tokenizer.consume, tokenizer.yield,
      tokenizer.delimiter, tokenizer.append, token.append, token.is, tokenizer.tokenIs,
      tokenizer.increaseSize, token.increaseSize, ascii2int, asciiDigit,
      tokenizer.reachedExpectedSizeOfBinaryString, token.expectedSizeAndDataLenghtIsMatching,
      tokenizer.unexpectedEol, tokenizer.tokenTooBig, tokenizer.illegalChar,
      tokenizer.unexpectedCharEos, tokenizer.missingLineFeed, tokenizer.unexpectedQuote,
      bind, Option.bind, pure, h1, h2, hc1, hc2, Step.alike, tokenizer.sameBut]
  by_cases hc3 : c = numberSign
  · rcases tk with _ | ⟨ty, d, dl, sz⟩ <;>
      simp [tokenizer.caseWaitingForToken, tokenizer.new, tokenizer.setDelimiter,
      tokenizer.reachedSizeLimit, token.getSize, tokenizer.consume, tokenizer.yield,
      tokenizer.delimiter, tokenizer.append, token.append, token.is, tokenizer.tokenIs,
      tokenizer.increaseSize, token.increaseSize, ascii2int, asciiDigit,
      tokenizer.reachedExpectedSizeOfBinaryString, token.expectedSizeAndDataLenghtIsMatching,
      tokenizer.unexpectedEol, tokenizer.tokenTooBig, tokenizer.illegalChar,
      tokenizer.unexpectedCharEos, tokenizer.missingLineFeed, tokenizer.unexpectedQuote,
      bind, Option.bind, pure, h1, h2, hc1, hc2, hc3, Step.alike, tokenizer.sameBut]
  by_cases hc4 : c = space ∨ c = tab
  · rcases tk with _ | ⟨ty, d, dl, sz⟩ <;>
      simp [tokenizer.caseWaitingForToken, tokenizer.new, tokenizer.setDelimiter,
      tokenizer.reachedSizeLimit, token.getSize, tokenizer.consume, tokenizer.yield,
      tokenizer.delimiter, tokenizer.append, token.append, token.is, tokenizer.tokenIs,
      tokenizer.increaseSize, token.increaseSize, ascii2int, asciiDigit,
      tokenizer.reachedExpectedSizeOfBinaryString, token.expectedSizeAndDataLenghtIsMatching,
      tokenizer.unexpectedEol, tokenizer.tokenTooBig, tokenizer.illegalChar,
      tokenizer.unexpectedCharEos, tokenizer.missingLineFeed, tokenizer.unexpectedQuote,
      bind, Option.bind, pure, h1, h2, hc1, hc2, hc3, hc4, Step.alike, tokenizer.sameBut]
  by_cases hc5 : c = carryReturn
  · rcases tk with _ | ⟨ty, d, dl, sz⟩ <;>
      simp [tokenizer.caseWaitingForToken, tokenizer.new, tokenizer.setDelimiter,
      tokenizer.reachedSizeLimit, token.getSize, tokenizer.consume, tokenizer.yield,
      tokenizer.delimiter, tokenizer.append, token.append, token.is, tokenizer.tokenIs,
      tokenizer.increaseSize, token.increaseSize, ascii2int, asciiDigit,
      tokenizer.reachedExpectedSizeOfBinaryString, token.expectedSizeAndDataLenghtIsMatching,
      tokenizer.unexpectedEol, tokenizer.tokenTooBig, tokenizer.illegalChar,
      tokenizer.unexpectedCharEos, tokenizer.missingLineFeed, tokenizer.unexpectedQuote,
      bind, Option.bind, pure, h1, h2, hc1, hc2, hc3, hc4, hc5, Step.alike, tokenizer.sameBut]
  by_cases hc6 : c = lineFeed
  · rcases tk with _ | ⟨ty, d, dl, sz⟩ <;>
      simp [tokenizer.caseWaitingForToken, tokenizer.new, tokenizer.setDelimiter,
      tokenizer.reachedSizeLimit, token.getSize, tokenizer.consume, tokenizer.yield,
      tokenizer.delimiter, tokenizer.append, token.append, token.is, tokenizer.tokenIs,
      tokenizer.increaseSize, token.increaseSize, ascii2int, asciiDigit,
      tokenizer.reachedExpectedSizeOfBinaryString, token.expectedSizeAndDataLenghtIsMatching,
      tokenizer.unexpectedEol, tokenizer.tokenTooBig, tokenizer.illegalChar,
      tokenizer.unexpectedCharEos, tokenizer.missingLineFeed, tokenizer.unexpectedQuote,
      bind, Option.bind, pure, h1, h2, hc1, hc2, hc3, hc4, hc5, hc6, Step.alike, tokenizer.sameBut]
  by_cases hc7 : c = singleQuote ∨ c = doubleQuote
  · rcases tk with _ | ⟨ty, d, dl, sz⟩ <;>
      simp [tokenizer.caseWaitingForToken, tokenizer.new, tokenizer.setDelimiter,
      tokenizer.reachedSizeLimit, token.getSize, tokenizer.consume, tokenizer.yield,
      tokenizer.delimiter, tokenizer.append, token.append, token.is, tokenizer.tokenIs,
      tokenizer.increaseSize, token.increaseSize, ascii2int, asciiDigit,
      tokenizer.reachedExpectedSizeOfBinaryString, token.expectedSizeAndDataLenghtIsMatching,
      tokenizer.unexpectedEol, tokenizer.tokenTooBig, tokenizer.illegalChar,
      tokenizer.unexpectedCharEos, tokenizer.missingLineFeed, tokenizer.unexpectedQuote,
      bind, Option.bind, pure, h1, h2, hc1, hc2, hc3, hc4, hc5, hc6, hc7, Step.alike, tokenizer.sameBut]
  by_cases hc8 : realPrintable c = true
  · rcases tk with _ | ⟨ty, d, dl, sz⟩ <;>
      simp [tokenizer.caseWaitingForToken, tokenizer.new, tokenizer.setDelimiter,
      tokenizer.reachedSizeLimit, token.getSize, tokenizer.consume, tokenizer.yield,
      tokenizer.delimiter, tokenizer.append, token.append, token.is, tokenizer.tokenIs,
      tokenizer.increaseSize, token.increaseSize, ascii2int, asciiDigit,
      tokenizer.reachedExpectedSizeOfBinaryString, token.expectedSizeAndDataLenghtIsMatching,
      tokenizer.unexpectedEol, tokenizer.tokenTooBig, tokenizer.illegalChar,
      tokenizer.unexpectedCharEos, tokenizer.missingLineFeed, tokenizer.unexpectedQuote,
      bind, Option.bind, pure, h1, h2, hc1, hc2, hc3, hc4, hc5, hc6, hc7, hc8, Step.alike, tokenizer.sameBut]
  rcases tk with _ | ⟨ty, d, dl, sz⟩ <;>
    simp [tokenizer.caseWaitingForToken, tokenizer.new, tokenizer.setDelimiter,
      tokenizer.reachedSizeLimit, token.getSize, tokenizer.consume, tokenizer.yield,
      tokenizer.delimiter, tokenizer.append, token.append, token.is, tokenizer.tokenIs,
      tokenizer.increaseSize, token.increaseSize, ascii2int, asciiDigit,
      tokenizer.reachedExpectedSizeOfBinaryString, token.expectedSizeAndDataLenghtIsMatching,
      tokenizer.unexpectedEol, tokenizer.tokenTooBig, tokenizer.illegalChar,
      tokenizer.unexpectedCharEos, tokenizer.missingLineFeed, tokenizer.unexpectedQuote,
      bind, Option.bind, pure, h1, h2, hc1, hc2, hc3, hc4, hc5, hc6, hc7, hc8, Step.alike, tokenizer.sameBut]

theorem tkz_case_ri_alike (s1 s1' s2 s2' : source) (st : tokenizerState) (tk : Option token)
    (ln : Nat) (A : Int) (c : Nat) (h1 : s1.rm = some s2) (h2 : s1'.rm = some s2') :
    Step.alike s1 s1' s2 s2' (tokenizer.caseReadingIdentifier ⟨s1, st, tk, ln, A⟩ c)
      (tokenizer.caseReadingIdentifier ⟨s1', st, tk, ln, A⟩ c) := by
  by_cases hc1 : c = carryReturn ∨ c = lineFeed ∨ c = space ∨ c = tab
  · rcases tk with _ | ⟨ty, d, dl, sz⟩
    · simp [tokenizer.caseReadingIdentifier, tokenizer.new, tokenizer.setDelimiter,
      tokenizer.reachedSizeLimit, token.getSize, tokenizer.consume, tokenizer.yield,
      tokenizer.delimiter, tokenizer.append, token.append, token.is, tokenizer.tokenIs,
      tokenizer.increaseSize, token.increaseSize, ascii2int, asciiDigit,
      tokenizer.reachedExpectedSizeOfBinaryString, token.expectedSizeAndDataLenghtIsMatching,
      tokenizer.unexpectedEol, tokenizer.tokenTooBig, tokenizer.illegalChar,
      tokenizer.unexpectedCharEos, tokenizer.missingLineFeed, tokenizer.unexpectedQuote,
      bind, Option.bind, pure, h1, h2, hc1, Step.alike, tokenizer.sameBut]
    · cases ty <;> 
        simp [tokenizer.caseReadingIdentifier, tokenizer.new, tokenizer.setDelimiter,
      tokenizer.reachedSizeLimit, token.getSize, tokenizer.consume, tokenizer.yield,
      tokenizer.delimiter, tokenizer.append, token.append, token.is, tokenizer.tokenIs,
      tokenizer.increaseSize, token.increaseSize, ascii2int, asciiDigit,
      tokenizer.reachedExpectedSizeOfBinaryString, token.expectedSizeAndDataLenghtIsMatching,
      tokenizer.unexpectedEol, tokenizer.tokenTooBig, tokenizer.illegalChar,
      tokenizer.unexpectedCharEos, tokenizer.missingLineFeed, tokenizer.unexpectedQuote,
      bind, Option.bind, pure, h1, h2, hc1, Step.alike, tokenizer.sameBut]
  by_cases hc2 : c = doubleQuote ∨ c = singleQuote
  · rcases tk with _ | ⟨ty, d, dl, sz⟩ <;>
      simp [tokenizer.caseReadingIdentifier, tokenizer.new, tokenizer.setDelimiter,
      tokenizer.reachedSizeLimit, token.getSize, tokenizer.consume, tokenizer.yield,
      tokenizer.delimiter, tokenizer.append, token.append, token.is, tokenizer.tokenIs,
      tokenizer.increaseSize, token.increaseSize, ascii2int, asciiDigit,
      tokenizer.reachedExpectedSizeOfBinaryString, token.expectedSizeAndDataLenghtIsMatching,
      tokenizer.unexpectedEol, tokenizer.tokenTooBig, tokenizer.illegalChar,
      tokenizer.unexpectedCharEos, tokenizer.missingLineFeed, tokenizer.unexpectedQuote,
      bind, Option.bind, pure, h1, h2, hc1, hc2, Step.alike, tokenizer.sameBut]
  by_cases hc3 : realPrintable c = true
  · rcases tk with _ | ⟨ty, d, dl, sz⟩
    · simp [tokenizer.caseReadingIdentifier, tokenizer.new, tokenizer.setDelimiter,
      tokenizer.reachedSizeLimit, token.getSize, tokenizer.consume, tokenizer.yield,
      tokenizer.delimiter, tokenizer.append, token.append, token.is, tokenizer.tokenIs,
      tokenizer.increaseSize, token.increaseSize, ascii2int, asciiDigit,
      tokenizer.reachedExpectedSizeOfBinaryString, token.expectedSizeAndDataLenghtIsMatching,
      tokenizer.unexpectedEol, tokenizer.tokenTooBig, tokenizer.illegalChar,
      tokenizer.unexpectedCharEos, tokenizer.missingLineFeed, tokenizer.unexpectedQuote,
      bind, Option.bind, pure, h1, h2, hc1, hc2, hc3, Step.alike, tokenizer.sameBut]
    · cases ty <;> by_cases e1 : A ≤ sz <;> 
        simp [tokenizer.caseReadingIdentifier, tokenizer.new, tokenizer.setDelimiter,
      tokenizer.reachedSizeLimit, token.getSize, tokenizer.consume, tokenizer.yield,
      tokenizer.delimiter, tokenizer.append, token.append, token.is, tokenizer.tokenIs,
      tokenizer.increaseSize, token.increaseSize, ascii2int, asciiDigit,
      tokenizer.reachedExpectedSizeOfBinaryString, token.expectedSizeAndDataLenghtIsMatching,
      tokenizer.unexpectedEol, tokenizer.tokenTooBig, tokenizer.illegalChar,
      tokenizer.unexpectedCharEos, tokenizer.missingLineFeed, tokenizer.unexpectedQuote,
      bind, Option.bind, pure, h1, h2, hc1, hc2, hc3, Step.alike, tokenizer.sameBut, e1]
  rcases tk with _ | ⟨ty, d, dl, sz⟩ <;>
    simp [tokenizer.caseReadingIdentifier, tokenizer.new, tokenizer.setDelimiter,
      tokenizer.reachedSizeLimit, token.getSize, tokenizer.consume, tokenizer.yield,
      tokenizer.delimiter, tokenizer.append, token.append, token.is, tokenizer.tokenIs,
      tokenizer.increaseSize, token.increaseSize, ascii2int, asciiDigit,
      tokenizer.reachedExpectedSizeOfBinaryString, token.expectedSizeAndDataLenghtIsMatching,
      tokenizer.unexpectedEol, tokenizer.tokenTooBig, tokenizer.illegalChar,
      tokenizer.unexpectedCharEos, tokenizer.missingLineFeed, tokenizer.unexpectedQuote,
      bind, Option.bind, pure, h1, h2, hc1, hc2, hc3, Step.alike, tokenizer.sameBut]

theorem tkz_case_rs_alike (s1 s1' s2 s2' : source) (st : tokenizerState) (tk : Option token)
    (ln : Nat) (A : Int) (c : Nat) (h1 : s1.rm = some s2) (h2 : s1'.rm = some s2') :
    Step.alike s1 s1' s2 s2' (tokenizer.caseReadingString ⟨s1, st, tk, ln, A⟩ c)
      (tokenizer.caseReadingString ⟨s1', st, tk, ln, A⟩ c) := by
  by_cases hq : c = doubleQuote <;> cases tk <;>
    simp only [tokenizer.caseReadingString, tokenizer.reachedSizeLimit, token.getSize,
      tokenizer.consume, tokenizer.yield, tokenizer.delimiter, tokenizer.append, token.append,
      token.is, tokenizer.unexpectedEol, tokenizer.tokenTooBig, tokenizer.illegalChar,
      bind, Option.bind, pure, h1, h2, hq, if_true, if_false] <;>
    (repeat' split) <;> simp_all [Step.alike, tokenizer.sameBut]

theorem tkz_case_wse_alike (s1 s1' s2 s2' : source) (st : tokenizerState) (tk : Option token)
    (ln : Nat) (A : Int) (c : Nat) (_h1 : s1.rm = some s2) (_h2 : s1'.rm = some s2') :
    Step.alike s1 s1' s2 s2' (tokenizer.caseWaitingSpaceForEos ⟨s1, st, tk, ln, A⟩ c)
      (tokenizer.caseWaitingSpaceForEos ⟨s1', st, tk, ln, A⟩ c) := by
  by_cases hc1 : c = lineFeed ∨ c = carryReturn ∨ c = space
  · rcases tk with _ | ⟨ty, d, dl, sz⟩ <;>
      simp [tokenizer.caseWaitingSpaceForEos, tokenizer.new, tokenizer.setDelimiter,
      tokenizer.reachedSizeLimit, token.getSize, tokenizer.consume, tokenizer.yield,
      tokenizer.delimiter, tokenizer.append, token.append, token.is, tokenizer.tokenIs,
      tokenizer.increaseSize, token.increaseSize, ascii2int, asciiDigit,
      tokenizer.reachedExpectedSizeOfBinaryString, token.expectedSizeAndDataLenghtIsMatching,
      tokenizer.unexpectedEol, tokenizer.tokenTooBig, tokenizer.illegalChar,
      tokenizer.unexpectedCharEos, tokenizer.missingLineFeed, tokenizer.unexpectedQuote,
      bind, Option.bind, pure, hc1, Step.alike, tokenizer.sameBut]
  rcases tk with _ | ⟨ty, d, dl, sz⟩ <;>
    simp [tokenizer.caseWaitingSpaceForEos, tokenizer.new, tokenizer.setDelimiter,
      tokenizer.reachedSizeLimit, token.getSize, tokenizer.consume, tokenizer.yield,
      tokenizer.delimiter, tokenizer.append, token.append, token.is, tokenizer.tokenIs,
      tokenizer.increaseSize, token.increaseSize, ascii2int, asciiDigit,
      tokenizer.reachedExpectedSizeOfBinaryString, token.expectedSizeAndDataLenghtIsMatching,
      tokenizer.unexpectedEol, tokenizer.tokenTooBig, tokenizer.illegalChar,
      tokenizer.unexpectedCharEos, tokenizer.missingLineFeed, tokenizer.unexpectedQuote,
      bind, Option.bind, pure, hc1, Step.alike, tokenizer.sameBut]

theorem tkz_case_weol_alike (s1 s1' s2 s2' : source) (st : tokenizerState) (tk : Option token)
    (ln : Nat) (A : Int) (c : Nat) (h1 : s1.rm = some s2) (h2 : s1'.rm = some s2') :
    Step.alike s1 s1' s2 s2' (tokenizer.caseWaitingEol ⟨s1, st, tk, ln, A⟩ c)
      (tokenizer.caseWaitingEol ⟨s1', st, tk, ln, A⟩ c) := by
  by_cases hc1 : c = lineFeed
  · rcases tk with _ | ⟨ty, d, dl, sz⟩
    · simp [tokenizer.caseWaitingEol, tokenizer.new, tokenizer.setDelimiter,
      tokenizer.reachedSizeLimit, token.getSize, tokenizer.consume, tokenizer.yield,
      tokenizer.delimiter, tokenizer.append, token.append, token.is, tokenizer.tokenIs,
      tokenizer.increaseSize, token.increaseSize, ascii2int, asciiDigit,
      tokenizer.reachedExpectedSizeOfBinaryString, token.expectedSizeAndDataLenghtIsMatching,
      tokenizer.unexpectedEol, tokenizer.tokenTooBig, tokenizer.illegalChar,
      tokenizer.unexpectedCharEos, tokenizer.missingLineFeed, tokenizer.unexpectedQuote,
      bind, Option.bind, pure, h1, h2, hc1, Step.alike, tokenizer.sameBut]
    · cases ty <;> 
        simp [tokenizer.caseWaitingEol, tokenizer.new, tokenizer.setDelimiter,
      tokenizer.reachedSizeLimit, token.getSize, tokenizer.consume, tokenizer.yield,
      tokenizer.delimiter, tokenizer.append, token.append, token.is, tokenizer.tokenIs,
      tokenizer.increaseSize, token.increaseSize, ascii2int, asciiDigit,
      tokenizer.reachedExpectedSizeOfBinaryString, token.expectedSizeAndDataLenghtIsMatching,
      tokenizer.unexpectedEol, tokenizer.tokenTooBig, tokenizer.illegalChar,
      tokenizer.unexpectedCharEos, tokenizer.missingLineFeed, tokenizer.unexpectedQuote,
      bind, Option.bind, pure, h1, h2, hc1, Step.alike, tokenizer.sameBut]
  rcases tk with _ | ⟨ty, d, dl, sz⟩ <;>
    simp [tokenizer.caseWaitingEol, tokenizer.new, tokenizer.setDelimiter,
      tokenizer.reachedSizeLimit, token.getSize, tokenizer.consume, tokenizer.yield,
      tokenizer.delimiter, tokenizer.append, token.append, token.is, tokenizer.tokenIs,
      tokenizer.increaseSize, token.increaseSize, ascii2int, asciiDigit,
      tokenizer.reachedExpectedSizeOfBinaryString, token.expectedSizeAndDataLenghtIsMatching,
      tokenizer.unexpectedEol, tokenizer.tokenTooBig, tokenizer.illegalChar,
      tokenizer.unexpectedCharEos, tokenizer.missingLineFeed, tokenizer.unexpectedQuote,
      bind, Option.bind, pure, h1, h2, hc1, Step.alike, tokenizer.sameBut]

theorem tkz_case_rc_alike (s1 s1' s2 s2' : source) (st : tokenizerState) (tk : Option token)
    (ln : Nat) (A : Int) (c : Nat) (h1 : s1.rm = some s2) (h2 : s1'.rm = some s2') :
    Step.alike s1 s1' s2 s2' (tokenizer.caseReadingComment ⟨s1, st, tk, ln, A⟩ c)
      (tokenizer.caseReadingComment ⟨s1', st, tk, ln, A⟩ c) := by
  by_cases hc1 : c = carryReturn ∨ c = lineFeed
  · rcases tk with _ | ⟨ty, d, dl, sz⟩
    · simp [tokenizer.caseReadingComment, tokenizer.new, tokenizer.setDelimiter,
      tokenizer.reachedSizeLimit, token.getSize, tokenizer.consume, tokenizer.yield,
      tokenizer.delimiter, tokenizer.append, token.append, token.is, tokenizer.tokenIs,
      tokenizer.increaseSize, token.increaseSize, ascii2int, asciiDigit,
      tokenizer.reachedExpectedSizeOfBinaryString, token.expectedSizeAndDataLenghtIsMatching,
      tokenizer.unexpectedEol, tokenizer.tokenTooBig, tokenizer.illegalChar,
      tokenizer.unexpectedCharEos, tokenizer.missingLineFeed, tokenizer.unexpectedQuote,
      bind, Option.bind, pure, h1, h2, hc1, Step.alike, tokenizer.sameBut]
    · cases ty <;> 
        simp [tokenizer.caseReadingComment, tokenizer.new, tokenizer.setDelimiter,
      tokenizer.reachedSizeLimit, token.getSize, tokenizer.consume, tokenizer.yield,
      tokenizer.delimiter, tokenizer.append, token.append, token.is, tokenizer.tokenIs,
      tokenizer.increaseSize, token.increaseSize, ascii2int, asciiDigit,
      tokenizer.reachedExpectedSizeOfBinaryString, token.expectedSizeAndDataLenghtIsMatching,
      tokenizer.unexpectedEol, tokenizer.tokenTooBig, tokenizer.illegalChar,
      tokenizer.unexpectedCharEos, tokenizer.missingLineFeed, tokenizer.unexpectedQuote,
      bind, Option.bind, pure, h1, h2, hc1, Step.alike, tokenizer.sameBut]
  rcases tk with _ | ⟨ty, d, dl, sz⟩ <;>
    simp [tokenizer.caseReadingComment, tokenizer.new, tokenizer.setDelimiter,
      tokenizer.reachedSizeLimit, token.getSize, tokenizer.consume, tokenizer.yield,
      tokenizer.delimiter, tokenizer.append, token.append, token.is, tokenizer.tokenIs,
      tokenizer.increaseSize, token.increaseSize, ascii2int, asciiDigit,
      tokenizer.reachedExpectedSizeOfBinaryString, token.expectedSizeAndDataLenghtIsMatching,
      tokenizer.unexpectedEol, tokenizer.tokenTooBig, tokenizer.illegalChar,
      tokenizer.unexpectedCharEos, tokenizer.missingLineFeed, tokenizer.unexpectedQuote,
      bind, Option.bind, pure, h1, h2, hc1, Step.alike, tokenizer.sameBut]

theorem tkz_case_rsize_alike (s1 s1' s2 s2' : source) (st : tokenizerState) (tk : Option token)
    (ln : Nat) (A : Int) (c : Nat) (h1 : s1.rm = some s2) (h2 : s1'.rm = some s2') :
    Step.alike s1 s1' s2 s2' (tokenizer.caseReadingSize ⟨s1, st, tk, ln, A⟩ c)
      (tokenizer.caseReadingSize ⟨s1', st, tk, ln, A⟩ c) := by
  by_cases hc1 : 48 ≤ c ∧ c ≤ 57
  · rcases tk with _ | ⟨ty, d, dl, sz⟩ <;>
      simp [tokenizer.caseReadingSize, tokenizer.new, tokenizer.setDelimiter,
      tokenizer.reachedSizeLimit, token.getSize, tokenizer.consume, tokenizer.yield,
      tokenizer.delimiter, tokenizer.append, token.append, token.is, tokenizer.tokenIs,
      tokenizer.increaseSize, token.increaseSize, ascii2int, asciiDigit,
      tokenizer.reachedExpectedSizeOfBinaryString, token.expectedSizeAndDataLenghtIsMatching,
      tokenizer.unexpectedEol, tokenizer.tokenTooBig, tokenizer.illegalChar,
      tokenizer.unexpectedCharEos, tokenizer.missingLineFeed, tokenizer.unexpectedQuote,
      bind, Option.bind, pure, h1, h2, hc1, Step.alike, tokenizer.sameBut]
  by_cases hc2 : c = carryReturn ∨ c = lineFeed
  · rcases tk with _ | ⟨ty, d, dl, sz⟩
    · simp [tokenizer.caseReadingSize, tokenizer.new, tokenizer.setDelimiter,
      tokenizer.reachedSizeLimit, token.getSize, tokenizer.consume, tokenizer.yield,
      tokenizer.delimiter, tokenizer.append, token.append, token.is, tokenizer.tokenIs,
      tokenizer.increaseSize, token.increaseSize, ascii2int, asciiDigit,
      tokenizer.reachedExpectedSizeOfBinaryString, token.expectedSizeAndDataLenghtIsMatching,
      tokenizer.unexpectedEol, tokenizer.tokenTooBig, tokenizer.illegalChar,
      tokenizer.unexpectedCharEos, tokenizer.missingLineFeed, tokenizer.unexpectedQuote,
      bind, Option.bind, pure, h1, h2, hc1, hc2, Step.alike, tokenizer.sameBut]
    · by_cases e0 : ty = tokenArray <;> by_cases e1 : A ≤ sz <;> 
        simp [tokenizer.caseReadingSize, tokenizer.new, tokenizer.setDelimiter,
      tokenizer.reachedSizeLimit, token.getSize, tokenizer.consume, tokenizer.yield,
      tokenizer.delimiter, tokenizer.append, token.append, token.is, tokenizer.tokenIs,
      tokenizer.increaseSize, token.increaseSize, ascii2int, asciiDigit,
      tokenizer.reachedExpectedSizeOfBinaryString, token.expectedSizeAndDataLenghtIsMatching,
      tokenizer.unexpectedEol, tokenizer.tokenTooBig, tokenizer.illegalChar,
      tokenizer.unexpectedCharEos, tokenizer.missingLineFeed, tokenizer.unexpectedQuote,
      bind, Option.bind, pure, h1, h2, hc1, hc2, Step.alike, tokenizer.sameBut, e0, e1]
  rcases tk with _ | ⟨ty, d, dl, sz⟩ <;>
    simp [tokenizer.caseReadingSize, tokenizer.new, tokenizer.setDelimiter,
      tokenizer.reachedSizeLimit, token.getSize, tokenizer.consume, tokenizer.yield,
      tokenizer.delimiter, tokenizer.append, token.append, token.is, tokenizer.tokenIs,
      tokenizer.increaseSize, token.increaseSize, ascii2int, asciiDigit,
      tokenizer.reachedExpectedSizeOfBinaryString, token.expectedSizeAndDataLenghtIsMatching,
      tokenizer.unexpectedEol, tokenizer.tokenTooBig, tokenizer.illegalChar,
      tokenizer.unexpectedCharEos, tokenizer.missingLineFeed, tokenizer.unexpectedQuote,
      bind, Option.bind, pure, h1, h2, hc1, hc2, Step.alike, tokenizer.sameBut]

theorem tkz_case_rbss_alike (s1 s1' s2 s2' : source) (st : tokenizerState) (tk : Option token)
    (ln : Nat) (A : Int) (c : Nat) (h1 : s1.rm = some s2) (h2 : s1'.rm = some s2') :
    Step.alike s1 s1' s2 s2' (tokenizer.caseReadingBinStringSeparator ⟨s1, st, tk, ln, A⟩ c)
      (tokenizer.caseReadingBinStringSeparator ⟨s1', st, tk, ln, A⟩ c) := by
  by_cases hc1 : c = carryReturn
  · rcases tk with _ | ⟨ty, d, dl, sz⟩ <;>
      simp [tokenizer.caseReadingBinStringSeparator, tokenizer.new, tokenizer.setDelimiter,
      tokenizer.reachedSizeLimit, token.getSize, tokenizer.consume, tokenizer.yield,
      tokenizer.delimiter, tokenizer.append, token.append, token.is, tokenizer.tokenIs,
      tokenizer.increaseSize, token.increaseSize, ascii2int, asciiDigit,
      tokenizer.reachedExpectedSizeOfBinaryString, token.expectedSizeAndDataLenghtIsMatching,
      tokenizer.unexpectedEol, tokenizer.tokenTooBig, tokenizer.illegalChar,
      tokenizer.unexpectedCharEos, tokenizer.missingLineFeed, tokenizer.unexpectedQuote,
      bind, Option.bind, pure, h1, h2, hc1, Step.alike, tokenizer.sameBut]
  by_cases hc2 : c = lineFeed
  · rcases tk with _ | ⟨ty, d, dl, sz⟩ <;>
      simp [tokenizer.caseReadingBinStringSeparator, tokenizer.new, tokenizer.setDelimiter,
      tokenizer.reachedSizeLimit, token.getSize, tokenizer.consume, tokenizer.yield,
      tokenizer.delimiter, tokenizer.append, token.append, token.is, tokenizer.tokenIs,
      tokenizer.increaseSize, token.increaseSize, ascii2int, asciiDigit,
      tokenizer.reachedExpectedSizeOfBinaryString, token.expectedSizeAndDataLenghtIsMatching,
      tokenizer.unexpectedEol, tokenizer.tokenTooBig, tokenizer.illegalChar,
      tokenizer.unexpectedCharEos, tokenizer.missingLineFeed, tokenizer.unexpectedQuote,
      bind, Option.bind, pure, h1, h2, hc1, hc2, Step.alike, tokenizer.sameBut]
  rcases tk with _ | ⟨ty, d, dl, sz⟩ <;>
    simp [tokenizer.caseReadingBinStringSeparator, tokenizer.new, tokenizer.setDelimiter,
      tokenizer.reachedSizeLimit, token.getSize, tokenizer.consume, tokenizer.yield,
      tokenizer.delimiter, tokenizer.append, token.append, token.is, tokenizer.tokenIs,
      tokenizer.increaseSize, token.increaseSize, ascii2int, asciiDigit,
      tokenizer.reachedExpectedSizeOfBinaryString, token.expectedSizeAndDataLenghtIsMatching,
      tokenizer.unexpectedEol, tokenizer.tokenTooBig, tokenizer.illegalChar,
      tokenizer.unexpectedCharEos, tokenizer.missingLineFeed, tokenizer.unexpectedQuote,
      bind, Option.bind, pure, h1, h2, hc1, hc2, Step.alike, tokenizer.sameBut]

theorem tkz_case_weobs_alike (s1 s1' s2 s2' : source) (st : tokenizerState) (tk : Option token)
    (ln : Nat) (A : Int) (c : Nat) (h1 : s1.rm = some s2) (h2 : s1'.rm = some s2') :
    Step.alike s1 s1' s2 s2' (tokenizer.caseWaitingEobs ⟨s1, st, tk, ln, A⟩ c)
      (tokenizer.caseWaitingEobs ⟨s1', st, tk, ln, A⟩ c) := by
  by_cases hc1 : c = carryReturn
  · rcases tk with _ | ⟨ty, d, dl, sz⟩ <;>
      simp [tokenizer.caseWaitingEobs, tokenizer.new, tokenizer.setDelimiter,
      tokenizer.reachedSizeLimit, token.getSize, tokenizer.consume, tokenizer.yield,
      tokenizer.delimiter, tokenizer.append, token.append, token.is, tokenizer.tokenIs,
      tokenizer.increaseSize, token.increaseSize, ascii2int, asciiDigit,
      tokenizer.reachedExpectedSizeOfBinaryString, token.expectedSizeAndDataLenghtIsMatching,
      tokenizer.unexpectedEol, tokenizer.tokenTooBig, tokenizer.illegalChar,
      tokenizer.unexpectedCharEos, tokenizer.missingLineFeed, tokenizer.unexpectedQuote,
      bind, Option.bind, pure, h1, h2, hc1, Step.alike, tokenizer.sameBut]
  by_cases hc2 : c = lineFeed
  · rcases tk with _ | ⟨ty, d, dl, sz⟩
    · simp [tokenizer.caseWaitingEobs, tokenizer.new, tokenizer.setDelimiter,
      tokenizer.reachedSizeLimit, token.getSize, tokenizer.consume, tokenizer.yield,
      tokenizer.delimiter, tokenizer.append, token.append, token.is, tokenizer.tokenIs,
      tokenizer.increaseSize, token.increaseSize, ascii2int, asciiDigit,
      tokenizer.reachedExpectedSizeOfBinaryString, token.expectedSizeAndDataLenghtIsMatching,
      tokenizer.unexpectedEol, tokenizer.tokenTooBig, tokenizer.illegalChar,
      tokenizer.unexpectedCharEos, tokenizer.missingLineFeed, tokenizer.unexpectedQuote,
      bind, Option.bind, pure, h1, h2, hc1, hc2, Step.alike, tokenizer.sameBut]
    · cases ty <;> 
        simp [tokenizer.caseWaitingEobs, tokenizer.new, tokenizer.setDelimiter,
      tokenizer.reachedSizeLimit, token.getSize, tokenizer.consume, tokenizer.yield,
      tokenizer.delimiter, tokenizer.append, token.append, token.is, tokenizer.tokenIs,
      tokenizer.increaseSize, token.increaseSize, ascii2int, asciiDigit,
      tokenizer.reachedExpectedSizeOfBinaryString, token.expectedSizeAndDataLenghtIsMatching,
      tokenizer.unexpectedEol, tokenizer.tokenTooBig, tokenizer.illegalChar,
      tokenizer.unexpectedCharEos, tokenizer.missingLineFeed, tokenizer.unexpectedQuote,
      bind, Option.bind, pure, h1, h2, hc1, hc2, Step.alike, tokenizer.sameBut]
  rcases tk with _ | ⟨ty, d, dl, sz⟩ <;>
    simp [tokenizer.caseWaitingEobs, tokenizer.new, tokenizer.setDelimiter,
      tokenizer.reachedSizeLimit, token.getSize, tokenizer.consume, tokenizer.yield,
      tokenizer.delimiter, tokenizer.append, token.append, token.is, tokenizer.tokenIs,
      tokenizer.increaseSize, token.increaseSize, ascii2int, asciiDigit,
      tokenizer.reachedExpectedSizeOfBinaryString, token.expectedSizeAndDataLenghtIsMatching,
      tokenizer.unexpectedEol, tokenizer.tokenTooBig, tokenizer.illegalChar,
      tokenizer.unexpectedCharEos, tokenizer.missingLineFeed, tokenizer.unexpectedQuote,
      bind, Option.bind, pure, h1, h2, hc1, hc2, Step.alike, tokenizer.sameBut]

theorem tkz_case_rbs_alike (s1 s1' s2 s2' : source) (st : tokenizerState) (tk : Option token)
    (ln : Nat) (A : Int) (c : Nat) (h1 : s1.rm = some s2) (h2 : s1'.rm = some s2') :
    Step.alike s1 s1' s2 s2' (tokenizer.caseReadingBinString ⟨s1, st, tk, ln, A⟩ c)
      (tokenizer.caseReadingBinString ⟨s1', st, tk, ln, A⟩ c) := by
  rcases tk with _ | ⟨ty, d, dl, sz⟩
  · simp [tokenizer.caseReadingBinString, tokenizer.new, tokenizer.setDelimiter,
      tokenizer.reachedSizeLimit, token.getSize, tokenizer.consume, tokenizer.yield,
      tokenizer.delimiter, tokenizer.append, token.append, token.is, tokenizer.tokenIs,
      tokenizer.increaseSize, token.increaseSize, ascii2int, asciiDigit,
      tokenizer.reachedExpectedSizeOfBinaryString, token.expectedSizeAndDataLenghtIsMatching,
      tokenizer.unexpectedEol, tokenizer.tokenTooBig, tokenizer.illegalChar,
      tokenizer.unexpectedCharEos, tokenizer.missingLineFeed, tokenizer.unexpectedQuote,
      bind, Option.bind, pure, h1, h2, Step.alike, tokenizer.sameBut]
  · cases ty <;> by_cases e1 : (d.length : Int) = sz <;> 
      simp [tokenizer.caseReadingBinString, tokenizer.new, tokenizer.setDelimiter,
      tokenizer.reachedSizeLimit, token.getSize, tokenizer.consume, tokenizer.yield,
      tokenizer.delimiter, tokenizer.append, token.append, token.is, tokenizer.tokenIs,
      tokenizer.increaseSize, token.increaseSize, ascii2int, asciiDigit,
      tokenizer.reachedExpectedSizeOfBinaryString, token.expectedSizeAndDataLenghtIsMatching,
      tokenizer.unexpectedEol, tokenizer.tokenTooBig, tokenizer.illegalChar,
      tokenizer.unexpectedCharEos, tokenizer.missingLineFeed, tokenizer.unexpectedQuote,
      bind, Option.bind, pure, h1, h2, Step.alike, tokenizer.sameBut, e1]

theorem tkz_case_scape_alike (s1 s1' s2 s2' : source) (st : tokenizerState) (tk : Option token)
    (ln : Nat) (A : Int) (c : Nat) (h1 : s1.rm = some s2) (h2 : s1'.rm = some s2') :
    Step.alike s1 s1' s2 s2' (tokenizer.caseScape ⟨s1, st, tk, ln, A⟩ c)
      (tokenizer.caseScape ⟨s1', st, tk, ln, A⟩ c) := by
  rcases tk with _ | ⟨ty, d, dl, sz⟩
  · simp [tokenizer.caseScape, tokenizer.new, tokenizer.setDelimiter,
      tokenizer.reachedSizeLimit, token.getSize, tokenizer.consume, tokenizer.yield,
      tokenizer.delimiter, tokenizer.append, token.append, token.is, tokenizer.tokenIs,
      tokenizer.increaseSize, token.increaseSize, ascii2int, asciiDigit,
      tokenizer.reachedExpectedSizeOfBinaryString, token.expectedSizeAndDataLenghtIsMatching,
      tokenizer.unexpectedEol, tokenizer.tokenTooBig, tokenizer.illegalChar,
      tokenizer.unexpectedCharEos, tokenizer.missingLineFeed, tokenizer.unexpectedQuote,
      bind, Option.bind, pure, h1, h2, Step.alike, tokenizer.sameBut]
  · cases ty <;> by_cases e1 : A ≤ sz <;> 
      simp [tokenizer.caseScape, tokenizer.new, tokenizer.setDelimiter,
      tokenizer.reachedSizeLimit, token.getSize, tokenizer.consume, tokenizer.yield,
      tokenizer.delimiter, tokenizer.append, token.append, token.is, tokenizer.tokenIs,
      tokenizer.increaseSize, token.increaseSize, ascii2int, asciiDigit,
      tokenizer.reachedExpectedSizeOfBinaryString, token.expectedSizeAndDataLenghtIsMatching,
      tokenizer.unexpectedEol, tokenizer.tokenTooBig, tokenizer.illegalChar,
      tokenizer.unexpectedCharEos, tokenizer.missingLineFeed, tokenizer.unexpectedQuote,
      bind, Option.bind, pure, h1, h2, Step.alike, tokenizer.sameBut, e1]

theorem tkz_dispatch_alike (s1 s1' s2 s2' : source) (st : tokenizerState) (tk : Option token)
    (ln : Nat) (A : Int) (c : Nat) (h1 : s1.rm = some s2) (h2 : s1'.rm = some s2') :
    Step.alike s1 s1' s2 s2' (tokenizer.dispatch ⟨s1, st, tk, ln, A⟩ c)
      (tokenizer.dispatch ⟨s1', st, tk, ln, A⟩ c) := by
  cases st
  · exact tkz_case_wft_alike s1 s1' s2 s2' _ tk ln A c h1 h2
  · exact tkz_case_ri_alike s1 s1' s2 s2' _ tk ln A c h1 h2
  · exact tkz_case_rs_alike s1 s1' s2 s2' _ tk ln A c h1 h2
  · exact tkz_case_wse_alike s1 s1' s2 s2' _ tk ln A c h1 h2
  · exact tkz_case_weol_alike s1 s1' s2 s2' _ tk ln A c h1 h2
  · exact tkz_case_rc_alike s1 s1' s2 s2' _ tk ln A c h1 h2
  · exact tkz_case_rsize_alike s1 s1' s2 s2' _ tk ln A c h1 h2
  · exact tkz_case_rbss_alike s1 s1' s2 s2' _ tk ln A c h1 h2
  · exact tkz_case_weobs_alike s1 s1' s2 s2' _ tk ln A c h1 h2
  · exact tkz_case_rbs_alike s1 s1' s2 s2' _ tk ln A c h1 h2
  · exact tkz_case_scape_alike s1 s1' s2 s2' _ tk ln A c h1 h2

/-! ## Calls of the tokenizer do not depend on how the source is buffered -/

/-- Two calls of the tokenizer loop from tokenizers that differ at most in their
sources, which hold the same bytes, each with fuel enough: both panic, or both return
the same token and error and leave tokenizers that differ at most in their sources,
which hold the same bytes again. -/
theorem tkz_nextLoop_alike (f : Nat) : ∀ (f' : Nat) (t t' : tokenizer) (io io' : ioData)
    (r : List Nat), t.src.Holds r → t'.src.Holds r → t.sameBut t' →
    r.length + t.state.slack + 1 ≤ f → r.length + t.state.slack + 1 ≤ f' →
    (tokenizer.nextLoop f t io = Result.panicked ∧ tokenizer.nextLoop f' t' io' = Result.panicked) ∨
    ∃ x y, tokenizer.nextLoop f t io = Result.done x ∧ tokenizer.nextLoop f' t' io' = Result.done y ∧
      x.tok = y.tok ∧ x.err = y.err ∧ x.t.sameBut y.t ∧
      ∃ r2, x.t.src.Holds r2 ∧ y.t.src.Holds r2 := by
  induction f with
  | zero => intro f' t t' io io' r _ _ _ hf; omega
  | succ f ih =>
    intro f' t t' io io' r h h' hsame hf hf'
    obtain ⟨s, st, tk, ln, A⟩ := t
    obtain ⟨s', st', tk', ln', A'⟩ := t'
    obtain ⟨e1, e2, e3, e4⟩ := hsame
    simp only at e1 e2 e3 e4 h h' hf hf'
    subst e1 e2 e3 e4
    obtain ⟨g', rfl⟩ : ∃ g', f' = g' + 1 := ⟨f' - 1, by omega⟩
    cases r with
    | nil =>
      rw [tkz_nextLoop_eof s h, tkz_nextLoop_eof s' h']
      exact Or.inr ⟨_, _, rfl, rfl, rfl, rfl, ⟨rfl, rfl, rfl, rfl⟩, [], h, h'⟩
    | cons c r =>
      obtain ⟨hrm, ha, hs⟩ := source.rm_of_holds s c r h
      obtain ⟨hrm', ha', hs'⟩ := source.rm_of_holds s' c r h'
      have hne := source.holds_length_ne _ _ c r ha hs
      have hp := tkz_dispatch_paced s.afterPeek s.step st tk ln A c hrm
      have hal := tkz_dispatch_alike s.afterPeek s'.afterPeek s.step s'.step st tk ln A c hrm hrm'
      rw [tkz_nextLoop_of_holds s c r h, tkz_nextLoop_of_holds s' c r h']
      simp only [List.length_cons] at hf hf'
      cases hd : tokenizer.dispatch ⟨s.afterPeek, st, tk, ln, A⟩ c with
      | none =>
        cases hd' : tokenizer.dispatch ⟨s'.afterPeek, st, tk, ln, A⟩ c with
        | none => exact Or.inl ⟨rfl, rfl⟩
        | some stp' =>
          rw [hd, hd'] at hal
          cases stp' <;> simp [Step.alike] at hal
      | some stp =>
        cases hd' : tokenizer.dispatch ⟨s'.afterPeek, st, tk, ln, A⟩ c with
        | none =>
          rw [hd, hd'] at hal
          cases stp <;> simp [Step.alike] at hal
        | some stp' =>
          rw [hd, hd'] at hal
          rw [hd] at hp
          cases stp with
          | again a =>
            cases stp' with
            | ret _ _ _ => simp [Step.alike] at hal
            | again b =>
              simp only [Step.alike] at hal
              simp only [Step.paced] at hp
              obtain ⟨hsb, hsrc⟩ := hal
              obtain ⟨_, hpace⟩ := hp
              have hst : b.state = a.state := hsb.1.symm
              simp only
              rcases hsrc with ⟨q1, q2⟩ | ⟨q1, q2⟩
              · have hsl : a.state.slack < st.slack := by
                  rcases hpace with ⟨p1, _⟩ | ⟨_, p2, _⟩
                  · exact absurd (q1.symm.trans p1) hne
                  · exact p2
                exact ih g' a b _ _ (c :: r) (by rw [q1]; exact ha) (by rw [q2]; exact ha') hsb
                  (by simp only [List.length_cons]; omega) (by simp only [List.length_cons]; omega)
              · have hsl : a.state.slack ≤ st.slack := by
                  rcases hpace with ⟨_, p2⟩ | ⟨_, p2, _⟩
                  · exact p2
                  · exact Nat.le_of_lt p2
                exact ih g' a b _ _ r (by rw [q1]; exact hs) (by rw [q2]; exact hs') hsb
                  (by omega) (by omega)
          | ret tok err a =>
            cases stp' with
            | again _ => simp [Step.alike] at hal
            | ret tok' err' b =>
              simp only [Step.alike] at hal
              obtain ⟨q1, q2, hsb, hsrc⟩ := hal
              refine Or.inr ⟨_, _, rfl, rfl, q1, q2, hsb, ?_⟩
              rcases hsrc with ⟨q3, q4⟩ | ⟨q3, q4⟩
              · exact ⟨c :: r, by rw [q3]; exact ha, by rw [q4]; exact ha'⟩
              · exact ⟨r, by rw [q3]; exact hs, by rw [q4]; exact hs'⟩

theorem source.fuel_slack (s : source) (r : List Nat) (h : s.Holds r) (st : tokenizerState) :
    r.length + st.slack + 1 ≤ s.fuel := by
  have := source.fuel_of_holds s r h
  have := st.slack_le
  omega

/-- Two calls of `tokenizer.next` from tokenizers that differ at most in their sources,
which hold the same bytes. -/
theorem tkz_next_alike (t t' : tokenizer) (r : List Nat) (h : t.src.Holds r) (h' : t'.src.Holds r)
    (hsame : t.sameBut t') :
    (t.next = Result.panicked ∧ t'.next = Result.panicked) ∨
    ∃ x y, t.next = Result.done x ∧ t'.next = Result.done y ∧
      x.tok = y.tok ∧ x.err = y.err ∧ x.t.sameBut y.t ∧
      ∃ r2, x.t.src.Holds r2 ∧ y.t.src.Holds r2 :=
  tkz_nextLoop_alike _ _ t t' newIoData newIoData r h h' hsame
    (source.fuel_slack t.src r h t.state) (hsame.1 ▸ source.fuel_slack t'.src r h' t'.state)

/-- A call of `tokenizer.next` over a source in working order returns or panics, and
panics only when the token is missing in a state that reads it. -/
theorem tkz_next_outcome (t : tokenizer) (r : List Nat) (h : t.src.Holds r) :
    t.next ≠ Result.outOfFuel ∧ (t.next = Result.panicked → ¬ t.proper) ∧
    (∀ res, t.next = Result.done res →
      (t.proper → res.t.proper) ∧
      ∃ r2, res.t.src.Holds r2 ∧ r2.length ≤ r.length ∧
        ((∃ tok, res.tok = some tok ∧ res.err = none ∧
            (res.t.state = tokenizerWaitingForToken ∨
              res.t.state = tokenizerWaitingSpaceForEos) ∧
            (r2.length < r.length ∨ t.state = tokenizerReadingIdentifier ∨
              t.state = tokenizerReadingSize ∨ t.state = tokenizerReadingComment)) ∨
         (res.tok = none ∧ res.err.isSome = true))) :=
  tkz_nextLoop_outcome _ t newIoData r h (source.fuel_slack t.src r h t.state)

/-! ## Every call of the parser returns -/

theorem prs_nextLoop_succ (U : List Nat → List Nat) (f : Nat) (p : parser) :
    parser.nextLoop U (f + 1) p =
      match p.tokenizer.next with
      | Result.panicked => Result.panicked
      | Result.outOfFuel => Result.outOfFuel
      | Result.done r =>
        match r.err with
        | some err =>
          Result.done ⟨none, p.in_.merge r.in_, some err,
            { p with tokenizer := r.t, in_ := p.in_.merge r.in_ }⟩
        | none =>
          match r.tok with
          | none => Result.panicked
          | some tk =>
            match parser.react U { p with tokenizer := r.t, in_ := p.in_.merge r.in_ } tk with
            | .inl res => res
            | .inr p2 => parser.nextLoop U f p2 := by
  obtain ⟨st, tz, args, ea, pio⟩ := p
  simp only [parser.nextLoop]
  cases tz.next with
  | panicked => rfl
  | outOfFuel => rfl
  | done r =>
    obtain ⟨tok, rin, err, t2⟩ := r
    cases err with
    | some e => rfl
    | none =>
      cases tok with
      | none => rfl
      | some tk =>
        obtain ⟨ty, d, dl, sz⟩ := tk
        cases st <;> cases ty <;> try rfl
        simp only [parser.react, token.getType]
        split <;> rfl

theorem prs_react_inr (U : List Nat → List Nat) (p1 p2 : parser) (tk : token)
    (h : parser.react U p1 tk = .inr p2) :
    p2.tokenizer = p1.tokenizer ∧ p2.in_ = p1.in_ := by
  obtain ⟨st, tz, args, ea, pio⟩ := p1
  obtain ⟨ty, d, dl, sz⟩ := tk
  cases st <;> cases ty <;> simp only [parser.react, token.getType, parser.addArgs] at h <;>
    first
    | (cases h; exact ⟨rfl, rfl⟩)
    | cases h
    | (split at h <;> first | (cases h; exact ⟨rfl, rfl⟩) | cases h)

theorem prs_finish_ne (x : Option parserResult) : parser.finish x ≠ Result.outOfFuel := by
  cases x <;> simp [parser.finish]

theorem prs_react_inl (U : List Nat → List Nat) (p1 : parser) (tk : token)
    (res : Result parserResult) (h : parser.react U p1 tk = .inl res) :
    res ≠ Result.outOfFuel := by
  obtain ⟨st, tz, args, ea, pio⟩ := p1
  obtain ⟨ty, d, dl, sz⟩ := tk
  cases st <;> cases ty <;> simp only [parser.react, token.getType, parser.addArgs] at h <;>
    first
    | (cases h; exact prs_finish_ne _)
    | (cases h; simp)
    | cases h
    | (split at h <;> first | (cases h; exact prs_finish_ne _) | cases h)

/-- A call of the parser loop over a source in working order, with fuel for every byte
left and two more passes, does not run out of fuel. -/
theorem prs_nextLoop_returns (U : List Nat → List Nat) (f : Nat) : ∀ (p : parser) (r : List Nat),
    p.tokenizer.src.Holds r → r.length + p.tokenizer.state.extraPass + 1 ≤ f →
    parser.nextLoop U f p ≠ Result.outOfFuel := by
  induction f with
  | zero => intro p r _ hf; omega
  | succ f ih =>
    intro p r h hf
    rw [prs_nextLoop_succ]
    obtain ⟨o1, _, o3⟩ := tkz_next_outcome p.tokenizer r h
    cases hn : p.tokenizer.next with
    | outOfFuel => exact absurd hn o1
    | panicked => simp
    | done res =>
      obtain ⟨_, r2, h2, hle, hcase⟩ := o3 res hn
      simp only
      cases he : res.err with
      | some e => simp
      | none =>
        simp only
        rcases hcase with ⟨tok, k1, _, k3, k4⟩ | ⟨_, k2⟩
        · rw [k1]
          simp only
          cases hr : parser.react U { p with tokenizer := res.t, in_ := p.in_.merge res.in_ } tok with
          | inl x => exact prs_react_inl U _ tok x hr
          | inr p2 =>
            simp only
            obtain ⟨e1, _⟩ := prs_react_inr U _ p2 tok hr
            simp only at e1
            have hx : p2.tokenizer.state.extraPass = 0 := by
              rw [e1]
              simp only [tokenizerState.extraPass, k3, if_true]
            have hy : r2.length + 1 ≤ f := by
              rcases k4 with k | k | k | k
              · omega
              all_goals
                have hz : p.tokenizer.state.extraPass = 1 := by simp [tokenizerState.extraPass, k]
                omega
            exact ih p2 r2 (by rw [e1]; exact h2) (by omega)
        · rw [he] at k2
          cases k2

theorem tokenizerState.extraPass_le (st : tokenizerState) : st.extraPass ≤ 1 := by
  unfold tokenizerState.extraPass
  split <;> omega

/-! ## Calls of the parser do not depend on how the source is buffered -/

theorem prs_parseArgs_alike (U : List Nat → List Nat) (p q : parser) (h : p.sameBut q) :
    (parser.parseArgs U p = none ∧ parser.parseArgs U q = none) ∨
    ∃ x y, parser.parseArgs U p = some x ∧ parser.parseArgs U q = some y ∧
      x.cmd = y.cmd ∧ x.err = y.err ∧ x.p.sameBut y.p ∧
      x.p.tokenizer = p.tokenizer ∧ y.p.tokenizer = q.tokenizer := by
  obtain ⟨st, tz, args, ea, pio⟩ := p
  obtain ⟨st2, tz2, args2, ea2, pio2⟩ := q
  obtain ⟨e1, e2, e3, e4⟩ := h
  simp only at e1 e2 e3 e4
  subst e1 e2 e3
  have hc := prs_parseArgs_congr U st st tz tz2 ea ea pio pio2 args args rfl
  cases hx : parser.parseArgs U ⟨st, tz, args, ea, pio⟩ with
  | none =>
    cases hy : parser.parseArgs U ⟨st, tz2, args, ea, pio2⟩ with
    | none => exact Or.inl ⟨rfl, rfl⟩
    | some y => simp [hx, hy] at hc
  | some x =>
    cases hy : parser.parseArgs U ⟨st, tz2, args, ea, pio2⟩ with
    | none => simp [hx, hy] at hc
    | some y =>
      simp only [hx, hy, Option.map_some', Option.some.injEq, Prod.mk.injEq] at hc
      have lx := prs_parseArgs_leaves U _ x hx
      have ly := prs_parseArgs_leaves U _ y hy
      refine Or.inr ⟨x, y, rfl, rfl, hc.1, hc.2, ?_, by rw [lx]; rfl, by rw [ly]; rfl⟩
      rw [lx, ly]
      exact ⟨rfl, rfl, rfl, e4⟩

theorem prs_finish_alike (U : List Nat → List Nat) (p q : parser) (h : p.sameBut q) :
    (parser.finish (parser.parseArgs U p) = Result.panicked ∧
      parser.finish (parser.parseArgs U q) = Result.panicked) ∨
    ∃ x y, parser.finish (parser.parseArgs U p) = Result.done x ∧
      parser.finish (parser.parseArgs U q) = Result.done y ∧
      x.cmd = y.cmd ∧ x.err = y.err ∧ x.p.sameBut y.p ∧
      x.p.tokenizer = p.tokenizer ∧ y.p.tokenizer = q.tokenizer := by
  rcases prs_parseArgs_alike U p q h with ⟨h1, h2⟩ | ⟨x, y, h1, h2, h3⟩
  · exact Or.inl ⟨by rw [h1]; rfl, by rw [h2]; rfl⟩
  · exact Or.inr ⟨x, y, by rw [h1]; rfl, by rw [h2]; rfl, h3⟩

/-- The switch of the parser loop on two parsers that differ at most in io counters and
sources: both go round again, with parsers that differ as before, or both return alike. -/
theorem prs_react_alike (U : List Nat → List Nat) (p1 q1 : parser) (tk : token)
    (h : p1.sameBut q1) :
    (∃ p2 q2, parser.react U p1 tk = .inr p2 ∧ parser.react U q1 tk = .inr q2 ∧ p2.sameBut q2) ∨
    (∃ a b, parser.react U p1 tk = .inl a ∧ parser.react U q1 tk = .inl b ∧
      ((a = Result.panicked ∧ b = Result.panicked) ∨
        ∃ x y, a = Result.done x ∧ b = Result.done y ∧ x.cmd = y.cmd ∧ x.err = y.err ∧
          x.p.sameBut y.p ∧ x.p.tokenizer = p1.tokenizer ∧ y.p.tokenizer = q1.tokenizer)) := by
  obtain ⟨st, tz, args, ea, pio⟩ := p1
  obtain ⟨st2, tz2, args2, ea2, pio2⟩ := q1
  obtain ⟨e1, e2, e3, e4⟩ := h
  simp only at e1 e2 e3 e4
  subst e1 e2 e3
  obtain ⟨ty, d, dl, sz⟩ := tk
  have sb : ∀ (s : parserState) (a : List token) (e : Int),
      parser.sameBut ⟨s, tz, a, e, pio⟩ ⟨s, tz2, a, e, pio2⟩ := fun _ _ _ => ⟨rfl, rfl, rfl, e4⟩
  have err : ∀ (s : parserState) (e : parsingError),
      ∃ x y, Result.done (⟨none, pio, some e, ⟨s, tz, args, ea, pio⟩⟩ : parserResult) = Result.done x ∧
        Result.done (⟨none, pio2, some e, ⟨s, tz2, args, ea, pio2⟩⟩ : parserResult) = Result.done y ∧
        x.cmd = y.cmd ∧ x.err = y.err ∧ x.p.sameBut y.p ∧ x.p.tokenizer = tz ∧ y.p.tokenizer = tz2 :=
    fun s e => ⟨_, _, rfl, rfl, rfl, rfl, sb s args ea, rfl, rfl⟩
  cases st <;> cases ty <;>
    simp only [parser.react, token.getType, parser.addArgs, parser.binStringBeforeArray,
      parser.arrayMiddleOfLine, parser.invalidTokenMiddleOfArray, parser.arrayInsideArray,
      token.getSize]
  case parserInit.tokenIdentifier => exact Or.inl ⟨_, _, rfl, rfl, sb _ _ _⟩
  case parserInit.tokenString => exact Or.inl ⟨_, _, rfl, rfl, sb _ _ _⟩
  case parserInit.tokenEol => exact Or.inl ⟨_, _, rfl, rfl, sb _ _ _⟩
  case parserInit.tokenComment => exact Or.inl ⟨_, _, rfl, rfl, sb _ _ _⟩
  case parserInit.tokenArray => exact Or.inl ⟨_, _, rfl, rfl, sb _ _ _⟩
  case parserInit.tokenBinString => exact Or.inr ⟨_, _, rfl, rfl, Or.inr (err _ _)⟩
  case parserReadingCommand.tokenIdentifier => exact Or.inl ⟨_, _, rfl, rfl, sb _ _ _⟩
  case parserReadingCommand.tokenString => exact Or.inl ⟨_, _, rfl, rfl, sb _ _ _⟩
  case parserReadingCommand.tokenComment => exact Or.inl ⟨_, _, rfl, rfl, sb _ _ _⟩
  case parserReadingCommand.tokenEol =>
    exact Or.inr ⟨_, _, rfl, rfl, prs_finish_alike U _ _ (sb _ _ _)⟩
  case parserReadingCommand.tokenBinString => exact Or.inr ⟨_, _, rfl, rfl, Or.inr (err _ _)⟩
  case parserReadingCommand.tokenArray => exact Or.inr ⟨_, _, rfl, rfl, Or.inr (err _ _)⟩
  case parserReadingArray.tokenIdentifier => exact Or.inr ⟨_, _, rfl, rfl, Or.inr (err _ _)⟩
  case parserReadingArray.tokenString => exact Or.inr ⟨_, _, rfl, rfl, Or.inr (err _ _)⟩
  case parserReadingArray.tokenComment => exact Or.inr ⟨_, _, rfl, rfl, Or.inr (err _ _)⟩
  case parserReadingArray.tokenArray => exact Or.inr ⟨_, _, rfl, rfl, Or.inr (err _ _)⟩
  case parserReadingArray.tokenEol => exact Or.inl ⟨_, _, rfl, rfl, sb _ _ _⟩
  case parserReadingArray.tokenBinString =>
    split
    · exact Or.inr ⟨_, _, rfl, rfl, prs_finish_alike U _ _ (sb _ _ _)⟩
    · exact Or.inl ⟨_, _, rfl, rfl, sb _ _ _⟩

/-! ## The keyspace states that calls of `set`, `rm`, `rmall` and `evict` reach -/

theorem hashmap.evict_returns (hm : hashmap) (now : Int) (h : hm.tracked) :
    ∃ hm2, hm.evict now = some hm2 ∧ hm2.tracked ∧
      ∀ k, hm2.data.getItem k =
        match hm.data.getItem k with
        | none => none
        | some it =>
          if k ∈ hm.transientKeys ∧ it.isTransient = true ∧ it.hasExpired now = true then none
          else some it := by
  obtain ⟨hm2, h1, h2⟩ := hashmap.evict_loop now hm.transientKeys hm h.1 h.2.1
  exact ⟨hm2, h1, hashmap.tracked_evict hm hm2 now h h1, h2⟩

theorem hashmap.call_tracked (hm : hashmap) (c : keyspaceCall) (h : hm.tracked) :
    ∃ hm2, hm.call c = some hm2 ∧ hm2.tracked := by
  cases c with
  | set k v e now => exact ⟨_, rfl, hashmap.tracked_set_any hm k v e now h⟩
  | rm k => exact ⟨_, rfl, hashmap.tracked_rm hm k h⟩
  | rmall => exact ⟨_, rfl, hashmap.tracked_rmall hm⟩
  | evict now =>
    obtain ⟨hm2, h1, h2, _⟩ := hashmap.evict_returns hm now h
    exact ⟨hm2, h1, h2⟩

theorem hashmap.calls_cons (hm hm1 : hashmap) (c : keyspaceCall) (cs : List keyspaceCall)
    (h : hm.call c = some hm1) : hm.calls (c :: cs) = hm1.calls cs := by
  simp only [hashmap.calls, List.foldlM_cons, h, bind, Option.bind]

theorem hashmap.calls_append (cs ds : List keyspaceCall) :
    ∀ hm hm1 : hashmap, hm.calls cs = some hm1 → hm.calls (cs ++ ds) = hm1.calls ds := by
  intro hm hm1 h
  simp only [hashmap.calls, List.foldlM_append, bind, Option.bind] at h ⊢
  rw [h]

theorem hashmap.calls_tracked (cs : List keyspaceCall) :
    ∀ hm : hashmap, hm.tracked → ∃ hm2, hm.calls cs = some hm2 ∧ hm2.tracked := by
  induction cs with
  | nil => intro hm h; exact ⟨hm, rfl, h⟩
  | cons c cs ih =>
    intro hm h
    obtain ⟨hm1, h1, h2⟩ := hashmap.call_tracked hm c h
    obtain ⟨hm2, h3, h4⟩ := ih hm1 h2
    exact ⟨hm2, by rw [hashmap.calls_cons hm hm1 c cs h1]; exact h3, h4⟩

/-- A call that is no `set` or `rm` of the key, and no `rmall`, leaves a stored item of
expiration 0 as it is. -/
theorem hashmap.call_keeps (hm : hashmap) (c : keyspaceCall) (k : List Nat) (it : item)
    (h : hm.tracked) (hit : hm.data.getItem k = some it) (he : it.expiration = 0)
    (hc : c.changes k = false) :
    ∃ hm2, hm.call c = some hm2 ∧ hm2.tracked ∧ hm2.data.getItem k = some it := by
  cases c with
  | set k2 v e now =>
    have hne : k ≠ k2 := by
      intro e2; simp [keyspaceCall.changes, e2] at hc
    refine ⟨_, rfl, hashmap.tracked_set_any hm k2 v e now h, ?_⟩
    simp only [hashmap.set]
    rw [itemMap.getItem_put_ne _ _ _ _ hne]; exact hit
  | rm k2 =>
    have hne : k ≠ k2 := by
      intro e2; simp [keyspaceCall.changes, e2] at hc
    refine ⟨_, rfl, hashmap.tracked_rm hm k2 h, ?_⟩
    simp only [hashmap.rm]
    rw [itemMap.getItem_remove_ne _ _ _ hne]; exact hit
  | rmall => simp [keyspaceCall.changes] at hc
  | evict now =>
    obtain ⟨hm2, h1, h2, h3⟩ := hashmap.evict_returns hm now h
    refine ⟨hm2, h1, h2, ?_⟩
    rw [h3 k, hit]
    simp [item.isTransient, he]

theorem hashmap.calls_keep (cs : List keyspaceCall) (k : List Nat) (it : item)
    (he : it.expiration = 0) :
    ∀ hm : hashmap, hm.tracked → hm.data.getItem k = some it →
      (∀ c, c ∈ cs → c.changes k = false) →
      ∃ hm2, hm.calls cs = some hm2 ∧ hm2.tracked ∧ hm2.data.getItem k = some it := by
  induction cs with
  | nil => intro hm h hit _; exact ⟨hm, rfl, h, hit⟩
  | cons c cs ih =>
    intro hm h hit hc
    obtain ⟨hm1, h1, h2, h3⟩ := hashmap.call_keeps hm c k it h hit he (hc c (List.mem_cons_self _ _))
    obtain ⟨hm2, h4, h5⟩ := ih hm1 h2 h3 (fun d hd => hc d (List.mem_cons_of_mem _ hd))
    exact ⟨hm2, by rw [hashmap.calls_cons hm hm1 c cs h1]; exact h4, h5⟩

/-- C38. In every keyspace state that calls of `set`, `rm`, `rmall` and `evict` reach from
`newHashmap()`, every key of the transient-keys set is a key of the data map, `get` finds
an item for it, and `evict()` at any instant ends without reading a nil item; no call of
the run that led there did either. -/
theorem evict_finds_every_item (cs : List keyspaceCall) :
    ∃ hm, newHashmap.calls cs = some hm ∧
      (∀ k, k ∈ hm.transientKeys →
        k ∈ hm.getKeys ∧ ∃ it, hm.get k = (some it, true) ∧
          ∀ now, hashmap.evictKey now hm k ≠ none) ∧
      ∀ now, ∃ hm2, hm.evict now = some hm2 := by
  obtain ⟨hm, h1, h2⟩ := hashmap.calls_tracked cs newHashmap hashmap.tracked_new
  refine ⟨hm, h1, ?_, ?_⟩
  · intro k hk
    have hs := h2.2.1 k hk
    refine ⟨(itemMap.getItem_isSome_iff hm.data k).1 hs, ?_⟩
    cases hg : hm.data.getItem k with
    | none => simp [hg] at hs
    | some it =>
      refine ⟨it, by simp [hashmap.get, hg], ?_⟩
      intro now
      simp only [hashmap.evictKey, hashmap.get, hg]
      split <;> simp
  · intro now
    obtain ⟨hm2, h3, _⟩ := hashmap.evict_returns hm now h2
    exact ⟨hm2, h3⟩

/-- C39. After any calls, `set(k, v, e)` with `e ≠ 0` at second `t1` and then
`set(k, w, 0)` at second `t2`, every run of later calls none of which is a `set` or
`rm` of `k` or `rmall` (so: `evict` at any instants, `set` and `rm` of other keys) ends
without a panic and leaves `k` stored: `get(k)` returns the item with value `w`,
expiration 0 and creation `t2`, which is not transient. -/
theorem permanent_overwrite_is_kept (pre cs : List keyspaceCall) (k v w : List Nat)
    (e t1 t2 : Int) (he : e ≠ 0) (hcs : ∀ c, c ∈ cs → c.changes k = false) :
    ∃ hm, newHashmap.calls (pre ++ [.set k v e t1, .set k w 0 t2] ++ cs) = some hm ∧
      hm.get k = (some ⟨k, w, 0, t2⟩, true) ∧
      (∀ it, (hm.get k).1 = some it →
        it.getValue = w ∧ it.getExpiration = 0 ∧ it.isTransient = false) ∧
      k ∈ hm.getKeys := by
  obtain ⟨hm0, h1, h2⟩ := hashmap.calls_tracked pre newHashmap hashmap.tracked_new
  have h3 := hashmap.tracked_set_any (hm0.set k v e t1) k w 0 t2
    (hashmap.tracked_set hm0 k v e t1 h2 he)
  have h4 : ((hm0.set k v e t1).set k w 0 t2).data.getItem k = some ⟨k, w, 0, t2⟩ := by
    simp only [hashmap.set]
    exact itemMap.getItem_put_self _ _ _
  obtain ⟨hm, h5, _, h7⟩ := hashmap.calls_keep cs k ⟨k, w, 0, t2⟩ rfl _ h3 h4 hcs
  refine ⟨hm, ?_, by simp [hashmap.get, h7], ?_, ?_⟩
  · rw [List.append_assoc, hashmap.calls_append pre _ newHashmap hm0 h1]
    rw [List.cons_append, hashmap.calls_cons hm0 (hm0.set k v e t1) (.set k v e t1) _ rfl,
      List.cons_append,
      hashmap.calls_cons (hm0.set k v e t1) ((hm0.set k v e t1).set k w 0 t2) (.set k w 0 t2) _ rfl]
    exact h5
  · intro it hit
    simp only [hashmap.get, h7, Option.some.injEq] at hit
    subst hit
    exact ⟨rfl, rfl, by simp [item.isTransient]⟩
  · exact (itemMap.getItem_isSome_iff hm.data k).1 (by simp [h7])

theorem permanent_overwrite_is_kept_witness :
    (5 : Int) ≠ 0 ∧
    ∃ hm, newHashmap.calls ([.set [97] [49] 7 0] ++ [.set [107] [118] 5 10, .set [107] [119] 0 11] ++
        [.evict 15, .set [97] [50] 0 16, .evict 1000, .rm [97]]) = some hm ∧
      hm.get [107] = (some ⟨[107], [119], 0, 11⟩, true) ∧
      (∀ it, (hm.get [107]).1 = some it →
        it.getValue = [119] ∧ it.getExpiration = 0 ∧ it.isTransient = false) ∧
      [107] ∈ hm.getKeys :=
  ⟨by decide, permanent_overwrite_is_kept [.set [97] [49] 7 0]
    [.evict 15, .set [97] [50] 0 16, .evict 1000, .rm [97]] [107] [118] [119] 5 10 11 (by decide)
    (by decide)⟩

/-! ## The snapshot policy of the heartbeat -/

/-- C31. On a server whose keyspace tracks its transient keys, `heartBeat{n}.exec` returns
false. It first evicts (keyspace `hm1`) and rolls the statistics up (server `s1`, with
keyspace `hm1` and the flags and pending jobs as before). It then starts a snapshot
exactly when `n` is a multiple of 100, the server is no replica, `hm1` is dirty and no
snapshot is in flight: in that case the server is left with the dirty flag false, the
snapshotting flag true, and one more job, which holds the items of `hm1`, the list
taken before the flag was cleared; the items and transient keys are those of `hm1`.
In every other case the server left is `s1`: both flags and the jobs are as before the
snapshot step. -/
theorem heartbeat_snapshot_policy (J : jsonLib) (now : clock) (n : Int) (s : AetherServer)
    (h : s.hm.tracked) :
    ∃ hm1 s1 s2, s.hm.evict now.unix = some hm1 ∧
      s1 = ({ s with hm := hm1 } : AetherServer).updateStatistics now.elapsed ∧
      s1.hm = hm1 ∧ s1.snapshotting = s.snapshotting ∧ s1.replicate = s.replicate ∧
      s1.persisting = s.persisting ∧
      event.exec J now (.heartBeat n) s = some (false, s2) ∧
      ((n % 100 = 0 ∧ s.isAReplica = false ∧ hm1.isDirty = true ∧ s.isSnapshotting = false) →
        s2.dirty = false ∧ s2.isSnapshotting = true ∧
        s2.persisting = s.persisting ++ [hm1.getItens] ∧
        s2 = { s1 with hm := hm1.washClean, snapshotting := true,
                       persisting := s.persisting ++ [hm1.getItens] } ∧
        s2.getItems = hm1.getItens ∧ s2.hm.transientKeys = hm1.transientKeys) ∧
      (¬ (n % 100 = 0 ∧ s.isAReplica = false ∧ hm1.isDirty = true ∧ s.isSnapshotting = false) →
        s2 = s1 ∧ s2.dirty = hm1.isDirty ∧ s2.isSnapshotting = s.isSnapshotting ∧
        s2.persisting = s.persisting) := by
  obtain ⟨hm1, hev, _, _⟩ := hashmap.evict_returns s.hm now.unix h
  have hx : event.exec J now (.heartBeat n) s =
      if (decide (n % 100 = 0) && (!s.replicate && hm1.dirty && !s.snapshotting)) = true then
        some (false,
          { ({ s with hm := hm1 } : AetherServer).updateStatistics now.elapsed with
            hm := hm1.washClean, snapshotting := true,
            persisting := s.persisting ++ [hm1.getItens] })
      else some (false, ({ s with hm := hm1 } : AetherServer).updateStatistics now.elapsed) := by
    simp only [event.exec, AetherServer.evictExpiredKeys, hev]
    rfl
  by_cases hc : n % 100 = 0 ∧ s.isAReplica = false ∧ hm1.isDirty = true ∧ s.isSnapshotting = false
  · refine ⟨hm1, _,
      { ({ s with hm := hm1 } : AetherServer).updateStatistics now.elapsed with
        hm := hm1.washClean, snapshotting := true,
        persisting := s.persisting ++ [hm1.getItens] },
      hev, rfl, rfl, rfl, rfl, rfl, ?_,
      fun _ => ⟨rfl, rfl, rfl, rfl, rfl, rfl⟩, fun hn => absurd hc hn⟩
    obtain ⟨c1, c2, c3, c4⟩ := hc
    simp only [AetherServer.isAReplica, AetherServer.isSnapshotting, hashmap.isDirty] at c2 c3 c4
    rw [hx, if_pos (by simp [c1, c2, c3, c4])]
  · refine ⟨hm1, _, ({ s with hm := hm1 } : AetherServer).updateStatistics now.elapsed,
      hev, rfl, rfl, rfl, rfl, rfl, ?_, fun hy => absurd hy hc,
      fun _ => ⟨rfl, rfl, rfl, rfl⟩⟩
    simp only [AetherServer.isAReplica, AetherServer.isSnapshotting, hashmap.isDirty] at hc
    rw [hx, if_neg]
    intro hb
    simp only [Bool.and_eq_true, decide_eq_true_eq, Bool.not_eq_true'] at hb
    exact hc ⟨hb.1, hb.2.1.1, hb.2.1.2, hb.2.2⟩

/-- Witness of C31: a master whose keyspace holds a permanent item and a transient item
that has expired, dirty and with no snapshot in flight, at beat 200: the beat evicts the
expired item and starts a snapshot of the item that is left. -/
theorem heartbeat_snapshot_policy_witness :
    (({ NewAetherServer false 1 with hm := (newHashmap.set [97] [49] 0 5).set [98] [50] 3 5 } :
      AetherServer)).hm.tracked ∧
    ((newHashmap.set [97] [49] 0 5).set [98] [50] 3 5).evict 100 =
      some ⟨[([97], ⟨[97], [49], 0, 5⟩)], [], true⟩ ∧
    ((200 : Int) % 100 = 0 ∧
      (({ NewAetherServer false 1 with hm := (newHashmap.set [97] [49] 0 5).set [98] [50] 3 5 } :
        AetherServer)).isAReplica = false ∧
      hashmap.isDirty ⟨[([97], ⟨[97], [49], 0, 5⟩)], [], true⟩ = true ∧
      (({ NewAetherServer false 1 with hm := (newHashmap.set [97] [49] 0 5).set [98] [50] 3 5 } :
        AetherServer)).isSnapshotting = false) ∧
    ∃ s2, event.exec ⟨fun _ => [], fun _ _ => []⟩ ⟨100, 1⟩ (.heartBeat 200)
        ({ NewAetherServer false 1 with hm := (newHashmap.set [97] [49] 0 5).set [98] [50] 3 5 } :
          AetherServer) = some (false, s2) ∧
      s2.dirty = false ∧ s2.isSnapshotting = true ∧
      s2.persisting = [[⟨[97], [49], 0, 5⟩]] ∧ s2.getItems = [⟨[97], [49], 0, 5⟩] ∧
      s2.hm.transientKeys = [] := by
  have ht : (({ NewAetherServer false 1 with hm := (newHashmap.set [97] [49] 0 5).set [98] [50] 3 5 } :
      AetherServer)).hm.tracked :=
    hashmap.tracked_set_any _ _ _ _ _ (hashmap.tracked_set_any _ _ _ _ _ hashmap.tracked_new)
  have he : ((newHashmap.set [97] [49] 0 5).set [98] [50] 3 5).evict 100 =
      some ⟨[([97], ⟨[97], [49], 0, 5⟩)], [], true⟩ := by decide
  obtain ⟨hm1, s1, s2, hev, _, _, _, _, _, hexec, hyes, _⟩ :=
    heartbeat_snapshot_policy ⟨fun _ => [], fun _ _ => []⟩ ⟨100, 1⟩ 200
      ({ NewAetherServer false 1 with hm := (newHashmap.set [97] [49] 0 5).set [98] [50] 3 5 } :
        AetherServer) ht
  have e1 : hm1 = ⟨[([97], ⟨[97], [49], 0, 5⟩)], [], true⟩ := by
    have h2 := hev.symm.trans he
    exact Option.some.inj h2
  subst e1
  obtain ⟨a1, a2, a3, _, a5, a6⟩ := hyes ⟨by decide, rfl, rfl, rfl⟩
  exact ⟨ht, he, ⟨by decide, rfl, rfl, rfl⟩, s2, hexec, a1, a2, a3, a5, a6⟩

/-! ## The expiration of the commands the parser returns -/

theorem atoi_isInt64 (s : List Nat) (m : Int) (h : atoi s = some m) : isInt64 m := by
  unfold atoi at h
  simp only at h
  split at h
  · cases h
  · split at h
    · cases h
    · rename_i v _
      split at h
      · split at h
        · cases h
          unfold isInt64
          norm_num
          omega
        · cases h
      · split at h
        · cases h
          unfold isInt64
          norm_num
          omega
        · cases h

/-- A command of `parseArgs` has expiration 0, or it is a SET whose fourth argument is
EXP in some mix of cases and whose fifth argument `strconv.Atoi` reads as that
expiration. -/
theorem prs_parseArgs_exp_arg (U : List Nat → List Nat) (p : parser) (res : parserResult)
    (c : command) (h : parser.parseArgs U p = some res) (hc : res.cmd = some c) :
    c.expiration = 0 ∨
      (c.code = commandSet ∧ ∃ a3 a4, p.getArg 3 = some a3 ∧ toUpper U a3 = expKeyword ∧
        p.getArg 4 = some a4 ∧ atoi a4 = some c.expiration) := by
  simp only [parser.parseArgs, bind, Option.bind, pure] at h
  generalize p.getArg 1 = a1 at h
  generalize p.getArgData 2 = a2 at h
  generalize hg3 : p.getArg 3 = a3 at h
  generalize hg4 : p.getArg 4 = a4 at h
  generalize p.readCommand U = rc at h
  cases a1 <;> cases a2 <;> cases a3 <;> cases a4 <;> simp only [] at h <;>
    (repeat' split at h) <;>
    first
    | (cases h; simp only [Option.some.injEq] at hc; subst hc; exact Or.inl rfl)
    | (cases h; simp only [Option.some.injEq] at hc; subst hc;
        exact Or.inr ⟨rfl, _, _, rfl, by assumption, rfl, by assumption⟩)
    | (cases h; simp at hc)
    | cases h

/-- What a pass returns with a command is what `parseArgs` returned for the arguments
of the parser and at most the token of the pass. -/
theorem prs_react_cmd_args (U : List Nat → List Nat) (p1 : parser) (tk : token)
    (res : parserResult) (c : command) (h : parser.react U p1 tk = .inl (Result.done res))
    (hc : res.cmd = some c) :
    ∃ q toks, parser.parseArgs U q = some res ∧ q.args = p1.args ++ toks := by
  have fin : ∀ (q : parser), parser.finish (parser.parseArgs U q) = Result.done res →
      ∀ (toks : List token), q.args = p1.args ++ toks →
      ∃ q toks, parser.parseArgs U q = some res ∧ q.args = p1.args ++ toks := by
    intro q hq toks hq0
    cases hp : parser.parseArgs U q with
    | none => rw [hp] at hq; cases hq
    | some x => rw [hp] at hq; cases hq; exact ⟨q, toks, hp, hq0⟩
  obtain ⟨st, tz, args, ea, pio⟩ := p1
  obtain ⟨ty, d, dl, sz⟩ := tk
  cases st <;> cases ty <;> simp only [parser.react, token.getType, parser.addArgs] at h <;>
    first
    | exact fin _ (Sum.inl.inj h) [] (List.append_nil _).symm
    | (cases h; simp at hc)
    | cases h
    | (split at h <;> first | exact fin _ (Sum.inl.inj h) [_] rfl | cases h)

theorem prs_react_inr_args (U : List Nat → List Nat) (p1 p2 : parser) (tk : token)
    (h : parser.react U p1 tk = .inr p2) : ∃ toks, p2.args = p1.args ++ toks := by
  obtain ⟨st, tz, args, ea, pio⟩ := p1
  obtain ⟨ty, d, dl, sz⟩ := tk
  cases st <;> cases ty <;> simp only [parser.react, token.getType, parser.addArgs] at h <;>
    first
    | (cases h; exact ⟨[_], rfl⟩)
    | (cases h; exact ⟨[], (List.append_nil _).symm⟩)
    | cases h
    | (split at h <;> first | (cases h; exact ⟨[_], rfl⟩) | cases h)

theorem prs_nextLoop_cmd_args (U : List Nat → List Nat) (f : Nat) :
    ∀ (p : parser) (res : parserResult) (c : command),
      parser.nextLoop U f p = Result.done res → res.cmd = some c →
      ∃ q toks, parser.parseArgs U q = some res ∧ q.args = p.args ++ toks := by
  induction f with
  | zero => intro p res c h _; simp [parser.nextLoop] at h
  | succ f ih =>
    intro p res c h hc
    rw [prs_nextLoop_succ] at h
    cases hn : p.tokenizer.next with
    | outOfFuel => rw [hn] at h; cases h
    | panicked => rw [hn] at h; cases h
    | done r =>
      rw [hn] at h
      simp only at h
      cases he : r.err with
      | some e => rw [he] at h; cases h; cases hc
      | none =>
        rw [he] at h
        simp only at h
        cases ht : r.tok with
        | none => rw [ht] at h; cases h
        | some tk =>
          rw [ht] at h
          simp only at h
          cases hr : parser.react U { p with tokenizer := r.t, in_ := p.in_.merge r.in_ } tk with
          | inl x =>
            rw [hr] at h
            simp only at h
            subst h
            exact prs_react_cmd_args U { p with tokenizer := r.t, in_ := p.in_.merge r.in_ } tk res c
              hr hc
          | inr p2 =>
            rw [hr] at h
            obtain ⟨t1, ht1⟩ := prs_react_inr_args U
              { p with tokenizer := r.t, in_ := p.in_.merge r.in_ } p2 tk hr
            obtain ⟨q, toks, h1, h2⟩ := ih p2 res c h hc
            exact ⟨q, t1 ++ toks, h1, by rw [h2, ht1]; simp⟩

theorem prs_next_returns (U : List Nat → List Nat) (p : parser) (r : List Nat)
    (h : p.tokenizer.src.Holds r) : parser.next U p ≠ Result.outOfFuel := by
  unfold parser.next
  have hf := source.fuel_of_holds p.tokenizer.src r h
  have he := tokenizerState.extraPass_le p.tokenizer.state
  exact prs_nextLoop_returns U _ { p with in_ := newIoData } r h (by simp only; omega)

/-- C33 (counterexample). The line `SET k v EXP -5` parses to a SET command with
expiration -5, and executing it stores an item with expiration -5. -/
theorem negative_expiration_is_parsed_and_stored :
    parser.calls id 1 (newParser (newBufferedSource ⟨[bytesOf "SET k v EXP -5" ++ [10]]⟩ 16)) =
      [(some ⟨commandSet, [107], [118], -5⟩, none)] ∧
    (((runSet ⟨commandSet, [107], [118], -5⟩ (NewAetherServer false 1) 0).2.hm.get [107]).1.map
      item.getExpiration) = some (-5) := by
  decide

/-- The line `SET k v EXP x`, with identifiers for key and value and a text `x` that
`strconv.Atoi` reads as `m`, read by a new parser. -/
theorem prs_calls_set_exp_line (U : List Nat → List Nat) (k v x : List Nat) (m : Int) (B : Nat)
    (chunks : List (List Nat)) (hk : validIdentifier k ∧ k.length ≤ 4096)
    (hv : validIdentifier v ∧ v.length ≤ 4096) (hx : validIdentifier x ∧ x.length ≤ 4096)
    (hm : atoi x = some m) (hB : 0 < B) (hch : ∀ c, c ∈ chunks → c ≠ [])
    (hbytes : chunks.flatten =
      bytesOf "SET" ++ (32 :: k ++ (32 :: v ++ (32 :: bytesOf "EXP" ++ (32 :: x ++ [10]))))) :
    parser.calls U 2 (newParser (newBufferedSource ⟨chunks⟩ B)) =
      [(some ⟨commandSet, k, v, m⟩, none), (none, some (newReadingError GoError.EOF))] := by
  have hsrc := source.holds_new chunks B hB hch
  rw [hbytes] at hsrc
  rw [newParser_eq]
  have hl : List.Forall₂ (fun (l : textLine) c => l.ok 4096 ∧ lineCommand l.words c)
      [⟨bytesOf "SET", [([32], k), ([32], v), ([32], bytesOf "EXP"), ([32], x)], [10]⟩]
      [⟨commandSet, k, v, m⟩] := by
    have hb : blanks [32] := by decide
    have hs : validIdentifier (bytesOf "SET") ∧ (bytesOf "SET").length ≤ 4096 := by decide
    have he : validIdentifier (bytesOf "EXP") ∧ (bytesOf "EXP").length ≤ 4096 := by decide
    refine List.Forall₂.cons ⟨⟨hs, ?_, Or.inl rfl⟩, ?_⟩ List.Forall₂.nil
    · intro p hp
      simp only [List.mem_cons, List.mem_singleton, List.not_mem_nil, or_false] at hp
      rcases hp with e | e | e | e <;> subst e
      · exact ⟨by simp, hb, hk.1, hk.2⟩
      · exact ⟨by simp, hb, hv.1, hv.2⟩
      · exact ⟨by simp, hb, he.1, he.2⟩
      · exact ⟨by simp, hb, hx.1, hx.2⟩
    · exact lineCommand.setExp (bytesOf "SET") k v (bytesOf "EXP") x m
        (by unfold caseVariant; decide) (by unfold caseVariant; decide) hm
  have := prs_calls_lines U _ _ hl (newBufferedSource ⟨chunks⟩ B) none 0 0 newIoData
    (by simpa [textLine.bytes, lineTail] using hsrc)
  simpa using this

/-- A text that `strconv.Atoi` reads is a valid IDENTIFIER: a sign or a digit, then
digits. -/
theorem validIdentifier_of_atoi (x : List Nat) (m : Int) (h : atoi x = some m) :
    validIdentifier x := by
  have hd := atoi_some_isDecimalInteger x m h
  unfold isDecimalInteger at hd
  have dig : ∀ c, 48 ≤ c ∧ c ≤ 57 → identStart c := by
    intro c hc
    unfold identStart identChar
    omega
  simp only at hd
  split at hd
  · exact ⟨by decide, fun y hy => (dig y (hd.2 y hy)).1⟩
  · exact ⟨by decide, fun y hy => (dig y (hd.2 y hy)).1⟩
  · rcases x with _ | ⟨c, l⟩
    · exact absurd rfl hd.1
    · exact ⟨dig c (hd.2 c (List.mem_cons_self _ _)),
        fun y hy => (dig y (hd.2 y (List.mem_cons_of_mem _ hy))).1⟩

/-- C33. A call of `parser.next` over a source in working order ends, and every command
it returns is the one `parseArgs` returned for the arguments the parser had collected
(those held at the start of the call and the tokens read since). Its expiration is an
`int`: it is 0, or the command is a SET, the fourth argument is EXP in some mix of cases
and the expiration is the number `strconv.Atoi` reads from the fifth argument, of either
sign. The item that `set` stores for the command has the expiration of the command.
For identifiers `k` and `v` and every text `x` of at most 4096 bytes that `strconv.Atoi`
reads as `m`, negative ones included, the line `SET k v EXP x` makes a new parser return
the SET with expiration `m`. -/
theorem command_expiration_is_the_exp_argument (U : List Nat → List Nat) (p : parser)
    (r : List Nat) (h : p.tokenizer.src.Holds r) :
    parser.next U p ≠ Result.outOfFuel ∧
    (∀ res c, parser.next U p = Result.done res → res.cmd = some c →
      isInt64 c.expiration ∧
      (∃ q toks, parser.parseArgs U q = some res ∧ q.args = p.args ++ toks ∧
        (c.expiration = 0 ∨
          (c.getCode = commandSet ∧ ∃ a3 a4, q.getArg 3 = some a3 ∧ toUpper U a3 = expKeyword ∧
            q.getArg 4 = some a4 ∧ atoi a4 = some c.expiration))) ∧
      ∀ (hm : hashmap) (now : Int),
        ((hm.set c.getKey c.getValue c.getExpiration now).get c.getKey).1.map item.getExpiration =
          some c.expiration) ∧
    (∀ (k v x : List Nat) (m : Int) (B : Nat) (chunks : List (List Nat)),
      validIdentifier k ∧ k.length ≤ 4096 → validIdentifier v ∧ v.length ≤ 4096 →
      x.length ≤ 4096 → atoi x = some m → 0 < B →
      (∀ c, c ∈ chunks → c ≠ []) →
      chunks.flatten =
        bytesOf "SET" ++ (32 :: k ++ (32 :: v ++ (32 :: bytesOf "EXP" ++ (32 :: x ++ [10])))) →
      parser.calls U 2 (newParser (newBufferedSource ⟨chunks⟩ B)) =
        [(some ⟨commandSet, k, v, m⟩, none), (none, some (newReadingError GoError.EOF))]) := by
  refine ⟨prs_next_returns U p r h, ?_, ?_⟩
  · intro res c hn hc
    obtain ⟨q, toks, hq, hargs⟩ := prs_nextLoop_cmd_args U _ _ res c hn hc
    have hx := prs_parseArgs_exp_arg U q res c hq hc
    refine ⟨?_, ⟨q, toks, hq, hargs, hx⟩, ?_⟩
    · rcases hx with hx | ⟨_, _, a, _, _, _, ha⟩
      · rw [hx]; decide
      · exact atoi_isInt64 a _ ha
    · intro hm now
      simp only [hashmap.get, hashmap.set, itemMap.getItem_put_self, Option.map_some',
        item.getExpiration, command.getExpiration]
  · intro k v x m B chunks hk hv hx hm hB hch hbytes
    exact prs_calls_set_exp_line U k v x m B chunks hk hv ⟨validIdentifier_of_atoi x m hm, hx⟩ hm
      hB hch hbytes

theorem set_exp_line_holds :
    (newParser (newBufferedSource ⟨[bytesOf "SET k v EXP -5" ++ [10]]⟩ 16)).tokenizer.src.Holds
      (bytesOf "SET k v EXP -5" ++ [10]) := by
  have h := source.holds_new [bytesOf "SET k v EXP -5" ++ [10]] 16 (by decide) (by simp [bytesOf])
  simpa using h

theorem command_expiration_is_the_exp_argument_witness :
    (newParser (newBufferedSource ⟨[bytesOf "SET k v EXP -5" ++ [10]]⟩ 16)).tokenizer.src.Holds
      (bytesOf "SET k v EXP -5" ++ [10]) ∧
    parser.calls id 1 (newParser (newBufferedSource ⟨[bytesOf "SET k v EXP -5" ++ [10]]⟩ 16)) =
      [(some ⟨commandSet, [107], [118], -5⟩, none)] ∧
    (parser.next id (newParser (newBufferedSource ⟨[bytesOf "SET k v EXP -5" ++ [10]]⟩ 16)) ≠
        Result.outOfFuel ∧
    (∀ res c, parser.next id (newParser (newBufferedSource ⟨[bytesOf "SET k v EXP -5" ++ [10]]⟩ 16)) =
        Result.done res → res.cmd = some c →
      isInt64 c.expiration ∧
      (∃ q toks, parser.parseArgs id q = some res ∧
        q.args = (newParser (newBufferedSource ⟨[bytesOf "SET k v EXP -5" ++ [10]]⟩ 16)).args ++ toks ∧
        (c.expiration = 0 ∨
          (c.getCode = commandSet ∧ ∃ a3 a4, q.getArg 3 = some a3 ∧ toUpper id a3 = expKeyword ∧
            q.getArg 4 = some a4 ∧ atoi a4 = some c.expiration))) ∧
      ∀ (hm : hashmap) (now : Int),
        ((hm.set c.getKey c.getValue c.getExpiration now).get c.getKey).1.map item.getExpiration =
          some c.expiration) ∧
    (∀ (k v x : List Nat) (m : Int) (B : Nat) (chunks : List (List Nat)),
      validIdentifier k ∧ k.length ≤ 4096 → validIdentifier v ∧ v.length ≤ 4096 →
      x.length ≤ 4096 → atoi x = some m → 0 < B →
      (∀ c, c ∈ chunks → c ≠ []) →
      chunks.flatten =
        bytesOf "SET" ++ (32 :: k ++ (32 :: v ++ (32 :: bytesOf "EXP" ++ (32 :: x ++ [10])))) →
      parser.calls id 2 (newParser (newBufferedSource ⟨chunks⟩ B)) =
        [(some ⟨commandSet, k, v, m⟩, none), (none, some (newReadingError GoError.EOF))])) :=
  ⟨set_exp_line_holds, by decide,
    command_expiration_is_the_exp_argument id _ (bytesOf "SET k v EXP -5" ++ [10])
      set_exp_line_holds⟩

/-! ## A time to live of 0 on the wire -/

/-- The array form of `SET k v EXP m`, read by a new parser. -/
theorem prs_next_set_exp_array (U : List Nat → List Nat) (k v : List Nat) (m : Int) (s : source)
    (hk : k.length < 4096) (hv : v.length < 4096) (hm : isInt64 m)
    (h : s.Holds (encodeArray [commandSet.str, k, v, expKeyword, itoa m] ++ [])) :
    ∃ io p2, parser.next U (newParser s) =
      Result.done ⟨some ⟨commandSet, k, v, m⟩, io, none, p2⟩ := by
  have hl := itoa_length m hm
  obtain ⟨s2, tk2, ln2, pio2, _, hnext⟩ := prs_next_array U [] maxTokenSize
    [commandSet.str, k, v, expKeyword, itoa m] s none 0 0 newIoData (by simp) (by simp)
    (by
      intro p hp
      have hlen : p.length < 4096 := by
        simp only [List.mem_cons, List.mem_singleton, List.not_mem_nil, or_false] at hp
        rcases hp with e | e | e | e | e <;> subst e
        · simp [commandCode.str]
        · exact hk
        · exact hv
        · simp
        · omega
      constructor
      · show (p.length : Int) < 1024 * 4
        omega
      · omega)
    h
  rw [newParser_eq, hnext]
  simp only [List.map_cons, List.map_nil]
  rw [prs_parseArgs_set5 U _ _ _ _ _ _ _ _ _ m (toUpper_set U) (toUpper_exp U) (atoi_itoa _ hm)]
  exact ⟨_, _, rfl⟩

/-- C36. A transient item whose time to live is 0 at the instant of the transfer (it has
expired and is not evicted yet) is sent as `SET k v EXP 0`, and the parser of the replica
returns a SET with expiration 0, which `set` stores as a permanent item: for every such
item, sink and split of the bytes into reads. The item with expiration 5 created at
second 100 is sent at second 104 with `EXP 1` and at second 105 with `EXP 0`; at second
105 it counts as expired on the master and `evict` deletes it, while the replica that
got it at that second keeps it at every later `evict`. -/
theorem zero_ttl_replicates_as_permanent :
    (∀ (U : List Nat → List Nat) (it : item) (now : Int) (out : outputStream) (th : Int) (B : Nat)
        (chunks : List (List Nat)),
      it.key.length < 4096 → it.value.length < 4096 → 0 < B → (∀ c, c ∈ chunks → c ≠ []) →
      chunks.flatten =
        ((newSink out th).writeArrayOfProtocolStrings (it.genSetCommandPieces now)).buffer →
      it.isTransient = true → it.getTimeToLive now = 0 →
      it.hasExpired now = true ∧
      it.genSetCommandPieces now = [commandSet.str, it.key, it.value, expKeyword, [48]] ∧
      ∃ io p2, parser.next U (newParser (newBufferedSource ⟨chunks⟩ B)) =
          Result.done ⟨some ⟨commandSet, it.key, it.value, 0⟩, io, none, p2⟩ ∧
        ∀ (hm : hashmap) (t : Int),
          ((hm.set it.key it.value 0 t).get it.key).1.map item.isTransient = some false) ∧
    item.genSetCommandPieces ⟨[107], [118], 5, 100⟩ 104 = [bytesOf "SET", [107], [118], bytesOf "EXP", [49]] ∧
    item.genSetCommandPieces ⟨[107], [118], 5, 100⟩ 105 = [bytesOf "SET", [107], [118], bytesOf "EXP", [48]] ∧
    parser.calls id 1 (newParser (newBufferedSource
        ⟨[encodeArray (item.genSetCommandPieces ⟨[107], [118], 5, 100⟩ 105)]⟩ 64)) =
      [(some ⟨commandSet, [107], [118], 0⟩, none)] ∧
    (((newHashmap.set [107] [118] 5 100).evict 105).map (fun hm => (hm.get [107]).2)) = some false ∧
    (∀ now, ((newHashmap.set [107] [118] 0 105).evict now).map (fun hm => (hm.get [107]).2) =
      some true) := by
  refine ⟨?_, by decide, by decide, by decide, by decide, ?_⟩
  · intro U it now out th B chunks hk hv hB hch hbytes ht h0
    have hp : it.genSetCommandPieces now = [commandSet.str, it.key, it.value, expKeyword, itoa 0] := by
      simp only [item.genSetCommandPieces, ht, if_true, h0]
      rfl
    have hsrc := source.holds_new chunks B hB hch
    rw [hbytes, sink_writeArray_buffer, hp] at hsrc
    simp only [newSink, List.nil_append] at hsrc
    obtain ⟨io, p2, hn⟩ := prs_next_set_exp_array U it.key it.value 0 (newBufferedSource ⟨chunks⟩ B)
      hk hv (by decide) (by simpa using hsrc)
    refine ⟨by simp [item.hasExpired, h0], hp, io, p2, hn, ?_⟩
    intro hm t
    simp only [hashmap.get, hashmap.set, itemMap.getItem_put_self, Option.map_some',
      item.isTransient]
    simp
  · intro now
    rfl

/-! ## What an error returned by the loop of `parser.next` leaves behind -/

/-- C35. The errors that the loop of `parser.next` returns itself (binary string before an
array, array in the middle of a line, invalid token in the middle of an array, array
inside an array) are not fatal and leave the state and the arguments of the parser as
they are; only a return through `parseArgs` leaves state INIT and no argument. On the
input `RMALL *1\n` the first call returns the error of the array in the middle of the
line and leaves state READING_COMMAND with the argument RMALL; the second call returns
the command RMALL, while a new parser on the rest of the input, `\n`, returns no
command. On `PING *1\nPING\n` the calls after the error return PING twice, a new parser
on the rest `\nPING\n` once. -/
theorem loop_errors_keep_state_and_args :
    (∀ (U : List Nat → List Nat) (p1 : parser) (tk : token) (res : parserResult),
      parser.react U p1 tk = .inl (Result.done res) →
        (res.p.state = parserInit ∧ res.p.args = []) ∨
        (res.p = p1 ∧ res.cmd = none ∧ ∃ e, res.err = some e ∧ e.isFatal = false)) ∧
    parser.next id (newParser (newBufferedSource ⟨[bytesOf "RMALL *1" ++ [10]]⟩ 16)) =
      Result.done ⟨none, ⟨9, 1⟩,
        some (newParsingError (bytesOf "unexpected array in the middle of a command line")),
        ⟨parserReadingCommand,
          ⟨⟨⟨[]⟩, bytesOf "RMALL *1" ++ [10, 0, 0, 0, 0, 0, 0, 0], 8, 9, 1, 9⟩,
            tokenizerWaitingForToken, some ⟨tokenArray, [], 0, 1⟩, 0, 4096⟩,
          [⟨tokenIdentifier, bytesOf "RMALL", 0, 5⟩], 0, ⟨9, 1⟩⟩⟩ ∧
    (newParsingError (bytesOf "unexpected array in the middle of a command line")).isFatal = false ∧
    source.rest ⟨⟨[]⟩, bytesOf "RMALL *1" ++ [10, 0, 0, 0, 0, 0, 0, 0], 8, 9, 1, 9⟩ = [10] ∧
    parser.calls id 3 (newParser (newBufferedSource ⟨[bytesOf "RMALL *1" ++ [10]]⟩ 16)) =
      [(none, some (newParsingError (bytesOf "unexpected array in the middle of a command line"))),
        (some ⟨commandRmall, [], [], 0⟩, none), (none, some (newReadingError GoError.EOF))] ∧
    parser.calls id 2 (newParser (newBufferedSource ⟨[[10]]⟩ 16)) =
      [(none, some (newReadingError GoError.EOF)), (none, some (newReadingError GoError.EOF))] ∧
    parser.calls id 4 (newParser (newBufferedSource ⟨[bytesOf "PING *1" ++ [10] ++ bytesOf "PING" ++ [10]]⟩ 16)) =
      [(none, some (newParsingError (bytesOf "unexpected array in the middle of a command line"))),
        (some ⟨commandPing, [], [], 0⟩, none), (some ⟨commandPing, [], [], 0⟩, none),
        (none, some (newReadingError GoError.EOF))] ∧
    parser.calls id 2 (newParser (newBufferedSource ⟨[[10] ++ bytesOf "PING" ++ [10]]⟩ 16)) =
      [(some ⟨commandPing, [], [], 0⟩, none), (none, some (newReadingError GoError.EOF))] := by
  refine ⟨?_, by decide, by decide, by decide, by decide, by decide, by decide, by decide⟩
  · intro U p1 tk res h
    have fin : ∀ q : parser, q.state = parserInit →
        parser.finish (parser.parseArgs U q) = Result.done res →
        res.p.state = parserInit ∧ res.p.args = [] := by
      intro q hs hq
      cases hp : parser.parseArgs U q with
      | none => rw [hp] at hq; cases hq
      | some x =>
        rw [hp] at hq
        cases hq
        rw [prs_parseArgs_leaves U q _ hp]
        exact ⟨hs, rfl⟩
    obtain ⟨st, tz, args, ea, pio⟩ := p1
    obtain ⟨ty, d, dl, sz⟩ := tk
    cases st <;> cases ty <;> simp only [parser.react, token.getType, parser.addArgs] at h <;>
      first
      | exact Or.inl (fin _ rfl (Sum.inl.inj h))
      | (cases h; exact Or.inr ⟨rfl, rfl, _, rfl, rfl⟩)
      | cases h
      | (split at h <;> first | exact Or.inl (fin _ rfl (Sum.inl.inj h)) | cases h)

theorem source.holds_unique (s : source) (r r2 : List Nat) (h : s.Holds r) (h2 : s.Holds r2) :
    r = r2 := h.2.symm.trans h2.2

/-- Two runs of the parser loop on parsers that differ at most in io counters and
sources, over sources that hold the same bytes: both panic, or both return, with the
same command and error, and leave parsers and sources that agree in the same way. -/
theorem prs_nextLoop_alike (U : List Nat → List Nat) (f : Nat) :
    ∀ (f' : Nat) (p q : parser) (r : List Nat),
      p.tokenizer.src.Holds r → q.tokenizer.src.Holds r → p.sameBut q →
      r.length + p.tokenizer.state.extraPass + 1 ≤ f →
      r.length + p.tokenizer.state.extraPass + 1 ≤ f' →
      (parser.nextLoop U f p = Result.panicked ∧ parser.nextLoop U f' q = Result.panicked) ∨
      ∃ x y, parser.nextLoop U f p = Result.done x ∧ parser.nextLoop U f' q = Result.done y ∧
        x.cmd = y.cmd ∧ x.err = y.err ∧ x.p.sameBut y.p ∧
        ∃ r2, x.p.tokenizer.src.Holds r2 ∧ y.p.tokenizer.src.Holds r2 := by
  induction f with
  | zero => intro f' p q r _ _ _ hf; omega
  | succ f ih =>
    intro f' p q r h h' hs hf hf'
    obtain ⟨g, rfl⟩ : ∃ g, f' = g + 1 := ⟨f' - 1, by omega⟩
    rw [prs_nextLoop_succ, prs_nextLoop_succ]
    rcases tkz_next_alike p.tokenizer q.tokenizer r h h' hs.2.2.2 with ⟨k1, k2⟩ | ⟨x, y, k1, k2, ktok, kerr, ksame, r2, hx, hy⟩
    · rw [k1, k2]
      exact Or.inl ⟨rfl, rfl⟩
    · obtain ⟨_, _, o3⟩ := tkz_next_outcome p.tokenizer r h
      obtain ⟨_, r3, h3, hle, hcase⟩ := o3 x k1
      have e3 := source.holds_unique _ _ _ h3 hx
      subst e3
      rw [k1, k2]
      simp only
      rw [← kerr, ← ktok]
      have sb : parser.sameBut { p with tokenizer := x.t, in_ := p.in_.merge x.in_ }
          { q with tokenizer := y.t, in_ := q.in_.merge y.in_ } := ⟨hs.1, hs.2.1, hs.2.2.1, ksame⟩
      cases he : x.err with
      | some e =>
        exact Or.inr ⟨_, _, rfl, rfl, rfl, rfl, sb, r3, hx, hy⟩
      | none =>
        simp only
        rcases hcase with ⟨tok, c1, _, c3, c4⟩ | ⟨_, c2⟩
        · rw [c1]
          simp only
          rcases prs_react_alike U _ _ tok sb with ⟨p2, q2, e1, e2, sb2⟩ | ⟨a, b, e1, e2, hab⟩
          · rw [e1, e2]
            simp only
            obtain ⟨t1, _⟩ := prs_react_inr U _ p2 tok e1
            obtain ⟨t2, _⟩ := prs_react_inr U _ q2 tok e2
            simp only at t1 t2
            have hx0 : p2.tokenizer.state.extraPass = 0 := by
              rw [t1]
              simp only [tokenizerState.extraPass, c3, if_true]
            have hy0 : r3.length + 1 ≤ f ∧ r3.length + 1 ≤ g := by
              rcases c4 with k | k | k | k
              · omega
              all_goals
                have hz : p.tokenizer.state.extraPass = 1 := by simp [tokenizerState.extraPass, k]
                omega
            exact ih g p2 q2 r3 (by rw [t1]; exact hx) (by rw [t2]; exact hy) sb2
              (by omega) (by omega)
          · rw [e1, e2]
            simp only
            rcases hab with ⟨a1, b1⟩ | ⟨u, v, a1, b1, d1, d2, d3, d4, d5⟩
            · exact Or.inl ⟨a1, b1⟩
            · simp only at d4 d5
              exact Or.inr ⟨u, v, a1, b1, d1, d2, d3, r3, by rw [d4]; exact hx, by rw [d5]; exact hy⟩
        · rw [he] at c2
          cases c2

theorem prs_next_alike (U : List Nat → List Nat) (p q : parser) (r : List Nat)
    (h : p.tokenizer.src.Holds r) (h' : q.tokenizer.src.Holds r) (hs : p.sameBut q) :
    (parser.next U p = Result.panicked ∧ parser.next U q = Result.panicked) ∨
    ∃ x y, parser.next U p = Result.done x ∧ parser.next U q = Result.done y ∧
      x.cmd = y.cmd ∧ x.err = y.err ∧ x.p.sameBut y.p ∧
      ∃ r2, x.p.tokenizer.src.Holds r2 ∧ y.p.tokenizer.src.Holds r2 := by
  unfold parser.next
  have hf := source.fuel_of_holds p.tokenizer.src r h
  have hf' := source.fuel_of_holds q.tokenizer.src r h'
  have he := tokenizerState.extraPass_le p.tokenizer.state
  exact prs_nextLoop_alike U _ _ { p with in_ := newIoData } { q with in_ := newIoData } r h h'
    ⟨hs.1, hs.2.1, hs.2.2.1, hs.2.2.2⟩ (by simp only; omega) (by simp only; omega)

theorem tkz_calls_alike (n : Nat) : ∀ (t t' : tokenizer) (r : List Nat),
    t.src.Holds r → t'.src.Holds r → t.sameBut t' → tokenizer.calls n t = tokenizer.calls n t' := by
  induction n with
  | zero => intro _ _ _ _ _ _; rfl
  | succ n ih =>
    intro t t' r h h' hs
    rcases tkz_next_alike t t' r h h' hs with ⟨k1, k2⟩ | ⟨x, y, k1, k2, ktok, kerr, ksame, r2, hx, hy⟩
    · simp only [tokenizer.calls, k1, k2]
    · simp only [tokenizer.calls, k1, k2, ktok, kerr]
      rw [ih x.t y.t r2 hx hy ksame]

theorem prs_calls_alike (U : List Nat → List Nat) (n : Nat) : ∀ (p q : parser) (r : List Nat),
    p.tokenizer.src.Holds r → q.tokenizer.src.Holds r → p.sameBut q →
    parser.calls U n p = parser.calls U n q := by
  induction n with
  | zero => intro _ _ _ _ _ _; rfl
  | succ n ih =>
    intro p q r h h' hs
    rcases prs_next_alike U p q r h h' hs with ⟨k1, k2⟩ | ⟨x, y, k1, k2, kc, kerr, ksame, r2, hx, hy⟩
    · simp only [parser.calls, k1, k2]
    · simp only [parser.calls, k1, k2, kc, kerr]
      rw [ih x.p y.p r2 hx hy ksame]

/-- C37. For every input, every two buffer sizes of at least 1, every two ways the reader
splits the input into non-empty chunks, every size cap and every number of calls: the
tokens and errors that successive calls of `tokenizer.next` return over the one source
are those they return over the other, and so are the commands and errors that successive
calls of `parser.next` return; a call that panics over the one panics over the other. -/
theorem buffering_does_not_change_results (U : List Nat → List Nat) (input : List Nat)
    (chunks1 chunks2 : List (List Nat)) (B1 B2 : Nat) (A : Int) (n : Nat)
    (hB1 : 1 ≤ B1) (hB2 : 1 ≤ B2)
    (hc1 : ∀ c, c ∈ chunks1 → c ≠ []) (hc2 : ∀ c, c ∈ chunks2 → c ≠ [])
    (hf1 : chunks1.flatten = input) (hf2 : chunks2.flatten = input) :
    tokenizer.calls n (newTokenizer (newBufferedSource ⟨chunks1⟩ B1) A) =
      tokenizer.calls n (newTokenizer (newBufferedSource ⟨chunks2⟩ B2) A) ∧
    parser.calls U n (newParser (newBufferedSource ⟨chunks1⟩ B1)) =
      parser.calls U n (newParser (newBufferedSource ⟨chunks2⟩ B2)) := by
  have h1 := source.holds_new chunks1 B1 hB1 hc1
  have h2 := source.holds_new chunks2 B2 hB2 hc2
  rw [hf1] at h1
  rw [hf2] at h2
  exact ⟨tkz_calls_alike n _ _ input h1 h2 ⟨rfl, rfl, rfl, rfl⟩,
    prs_calls_alike U n _ _ input h1 h2 ⟨rfl, rfl, rfl, ⟨rfl, rfl, rfl, rfl⟩⟩⟩

theorem buffering_does_not_change_results_witness :
    1 ≤ 1 ∧ 1 ≤ 64 ∧
    (∀ c, c ∈ [bytesOf "SET k ", bytesOf "'v' # one", [10], bytesOf "$"] → c ≠ []) ∧
    (∀ c, c ∈ [bytesOf "SET k 'v' # one" ++ [10] ++ bytesOf "$"] → c ≠ []) ∧
    [bytesOf "SET k ", bytesOf "'v' # one", [10], bytesOf "$"].flatten =
      bytesOf "SET k 'v' # one" ++ [10] ++ bytesOf "$" ∧
    [bytesOf "SET k 'v' # one" ++ [10] ++ bytesOf "$"].flatten =
      bytesOf "SET k 'v' # one" ++ [10] ++ bytesOf "$" ∧
    (tokenizer.calls 7 (newTokenizer (newBufferedSource
          ⟨[bytesOf "SET k ", bytesOf "'v' # one", [10], bytesOf "$"]⟩ 1) 4096) =
      tokenizer.calls 7 (newTokenizer (newBufferedSource
          ⟨[bytesOf "SET k 'v' # one" ++ [10] ++ bytesOf "$"]⟩ 64) 4096) ∧
    parser.calls id 7 (newParser (newBufferedSource
          ⟨[bytesOf "SET k ", bytesOf "'v' # one", [10], bytesOf "$"]⟩ 1)) =
      parser.calls id 7 (newParser (newBufferedSource
          ⟨[bytesOf "SET k 'v' # one" ++ [10] ++ bytesOf "$"]⟩ 64))) :=
  ⟨by decide, by decide, by decide, by decide, by decide, by decide,
    buffering_does_not_change_results id (bytesOf "SET k 'v' # one" ++ [10] ++ bytesOf "$")
      [bytesOf "SET k ", bytesOf "'v' # one", [10], bytesOf "$"]
      [bytesOf "SET k 'v' # one" ++ [10] ++ bytesOf "$"] 1 64 4096 7
      (by decide) (by decide) (by decide) (by decide) (by decide) (by decide)⟩

/-! ## Invariants of the parser loop -/

/-- What `next` returns leaves the tokenizer that the switch was entered with. -/
theorem prs_react_tokenizer (U : List Nat → List Nat) (p1 : parser) (tk : token)
    (res : parserResult) (h : parser.react U p1 tk = .inl (Result.done res)) :
    res.p.tokenizer = p1.tokenizer := by
  rcases prs_react_alike U p1 p1 tk ⟨rfl, rfl, rfl, rfl, rfl, rfl, rfl⟩ with
    ⟨p2, _, e1, _⟩ | ⟨a, b, e1, _, hab⟩
  · rw [h] at e1; cases e1
  · rw [h] at e1
    cases e1
    rcases hab with ⟨a1, _⟩ | ⟨x, _, a1, _, _, _, _, d4, _⟩
    · cases a1
    · cases a1; exact d4

/-- An invariant `J` of state, arguments and expected size that every pass keeps, and a
property `Q` of what is returned: a call of the loop over a source in working order,
with a tokenizer that holds a token or is between tokens, returns a result with `Q`,
or panics in `parseArgs` where `P` holds. -/
theorem prs_nextLoop_inv (U : List Nat → List Nat) (J : parserState → List token → Int → Prop)
    (Q : parserResult → Prop) (P : Prop)
    (hstep : ∀ (p1 : parser) (tk : token), J p1.state p1.args p1.expectedArgs →
      p1.tokenizer.proper → (∃ r2, p1.tokenizer.src.Holds r2) →
      match parser.react U p1 tk with
      | .inr p2 => J p2.state p2.args p2.expectedArgs
      | .inl (Result.done res) => Q res
      | .inl Result.panicked => P
      | .inl Result.outOfFuel => True)
    (herr : ∀ (p1 : parser) (e : parsingError), J p1.state p1.args p1.expectedArgs →
      p1.tokenizer.proper → (∃ r2, p1.tokenizer.src.Holds r2) → Q ⟨none, p1.in_, some e, p1⟩)
    (f : Nat) : ∀ (p : parser) (r : List Nat), p.tokenizer.src.Holds r →
      r.length + p.tokenizer.state.extraPass + 1 ≤ f → p.tokenizer.proper →
      J p.state p.args p.expectedArgs →
      (∃ res, parser.nextLoop U f p = Result.done res ∧ Q res) ∨
        (parser.nextLoop U f p = Result.panicked ∧ P) := by
  induction f with
  | zero => intro p r _ hf; omega
  | succ f ih =>
    intro p r h hf hpr hJ
    rw [prs_nextLoop_succ]
    obtain ⟨o1, o2, o3⟩ := tkz_next_outcome p.tokenizer r h
    cases hn : p.tokenizer.next with
    | outOfFuel => exact absurd hn o1
    | panicked => exact absurd hpr (o2 hn)
    | done res =>
      obtain ⟨hp2, r2, h2, hle, hcase⟩ := o3 res hn
      have hp3 := hp2 hpr
      simp only
      cases he : res.err with
      | some e =>
        exact Or.inl ⟨_, rfl, herr { p with tokenizer := res.t, in_ := p.in_.merge res.in_ } e hJ hp3
          ⟨r2, h2⟩⟩
      | none =>
        simp only
        rcases hcase with ⟨tok, k1, _, k3, k4⟩ | ⟨_, k2⟩
        · rw [k1]
          simp only
          have hs := hstep { p with tokenizer := res.t, in_ := p.in_.merge res.in_ } tok hJ hp3 ⟨r2, h2⟩
          cases hr : parser.react U { p with tokenizer := res.t, in_ := p.in_.merge res.in_ } tok with
          | inl x =>
            rw [hr] at hs
            simp only
            cases x with
            | done y => exact Or.inl ⟨y, rfl, hs⟩
            | panicked => exact Or.inr ⟨rfl, hs⟩
            | outOfFuel => exact absurd rfl (prs_react_inl U _ tok _ hr)
          | inr p2 =>
            rw [hr] at hs
            simp only at hs ⊢
            obtain ⟨e1, _⟩ := prs_react_inr U _ p2 tok hr
            simp only at e1
            have hx : p2.tokenizer.state.extraPass = 0 := by
              rw [e1]
              simp only [tokenizerState.extraPass, k3, if_true]
            have hy : r2.length + 1 ≤ f := by
              rcases k4 with k | k | k | k
              · omega
              all_goals
                have hz : p.tokenizer.state.extraPass = 1 := by simp [tokenizerState.extraPass, k]
                omega
            exact ih p2 r2 (by rw [e1]; exact h2) (by omega) (by rw [e1]; exact hp3) hs
        · rw [he] at k2
          cases k2

theorem prs_next_inv (U : List Nat → List Nat) (J : parserState → List token → Int → Prop)
    (Q : parserResult → Prop) (P : Prop)
    (hstep : ∀ (p1 : parser) (tk : token), J p1.state p1.args p1.expectedArgs →
      p1.tokenizer.proper → (∃ r2, p1.tokenizer.src.Holds r2) →
      match parser.react U p1 tk with
      | .inr p2 => J p2.state p2.args p2.expectedArgs
      | .inl (Result.done res) => Q res
      | .inl Result.panicked => P
      | .inl Result.outOfFuel => True)
    (herr : ∀ (p1 : parser) (e : parsingError), J p1.state p1.args p1.expectedArgs →
      p1.tokenizer.proper → (∃ r2, p1.tokenizer.src.Holds r2) → Q ⟨none, p1.in_, some e, p1⟩)
    (p : parser) (r : List Nat) (h : p.tokenizer.src.Holds r) (hpr : p.tokenizer.proper)
    (hJ : J p.state p.args p.expectedArgs) :
    (∃ res, parser.next U p = Result.done res ∧ Q res) ∨ (parser.next U p = Result.panicked ∧ P) := by
  unfold parser.next
  have hf := source.fuel_of_holds p.tokenizer.src r h
  have he := tokenizerState.extraPass_le p.tokenizer.state
  exact prs_nextLoop_inv U J Q P hstep herr _ { p with in_ := newIoData } r h
    (by simp only; omega) hpr hJ

/-! ## An array header of size 0 -/

/-- Reading an array of expected size 0, every pass goes round again in the same state or
returns an error, and no pass returns a command. -/
theorem prs_react_array_zero (U : List Nat → List Nat) (p1 : parser) (tk : token)
    (hJ : p1.state = parserReadingArray ∧ p1.expectedArgs = 0) (hpr : p1.tokenizer.proper)
    (hh : ∃ r2, p1.tokenizer.src.Holds r2) :
    match parser.react U p1 tk with
    | .inr p2 => p2.state = parserReadingArray ∧ p2.expectedArgs = 0
    | .inl (Result.done res) =>
      res.cmd = none ∧ res.err.isSome = true ∧
        (res.p.state = parserReadingArray ∧ res.p.expectedArgs = 0) ∧ res.p.tokenizer.proper ∧
        ∃ r2, res.p.tokenizer.src.Holds r2
    | .inl Result.panicked => False
    | .inl Result.outOfFuel => True := by
  obtain ⟨st, tz, args, ea, pio⟩ := p1
  obtain ⟨ty, d, dl, sz⟩ := tk
  obtain ⟨h1, h2⟩ := hJ
  simp only at h1 h2 hpr hh
  subst h1 h2
  cases ty <;> simp only [parser.react, token.getType, parser.addArgs]
  case tokenEol => exact ⟨trivial, trivial⟩
  case tokenBinString =>
    have hne : ¬ (((args ++ [(⟨tokenBinString, d, dl, sz⟩ : token)]).length : Int) = 0) := by
      simp only [List.length_append, List.length_singleton]
      omega
    rw [if_neg hne]
    exact ⟨rfl, rfl⟩
  all_goals exact ⟨trivial, rfl, ⟨trivial, trivial⟩, hpr, hh⟩

theorem prs_next_array_zero (U : List Nat → List Nat) (p : parser) (r : List Nat)
    (h : p.tokenizer.src.Holds r) (hpr : p.tokenizer.proper)
    (hJ : p.state = parserReadingArray ∧ p.expectedArgs = 0) :
    ∃ res, parser.next U p = Result.done res ∧ res.cmd = none ∧ res.err.isSome = true ∧
      (res.p.state = parserReadingArray ∧ res.p.expectedArgs = 0) ∧ res.p.tokenizer.proper ∧
      ∃ r2, res.p.tokenizer.src.Holds r2 := by
  rcases prs_next_inv U (fun st _ ea => st = parserReadingArray ∧ ea = 0)
    (fun res => res.cmd = none ∧ res.err.isSome = true ∧
      (res.p.state = parserReadingArray ∧ res.p.expectedArgs = 0) ∧ res.p.tokenizer.proper ∧
      ∃ r2, res.p.tokenizer.src.Holds r2) False
    (fun p1 tk hJ1 hp1 hh1 => prs_react_array_zero U p1 tk hJ1 hp1 hh1)
    (fun p1 e hJ1 hp1 hh1 => ⟨rfl, rfl, hJ1, hp1, hh1⟩) p r h hpr hJ with hx | ⟨_, hf⟩
  · exact hx
  · exact absurd hf id

theorem prs_calls_array_zero (U : List Nat → List Nat) (n : Nat) : ∀ (p : parser) (r : List Nat),
    p.tokenizer.src.Holds r → p.tokenizer.proper →
    p.state = parserReadingArray ∧ p.expectedArgs = 0 →
    (parser.calls U n p).length = n ∧
      ∀ x, x ∈ parser.calls U n p → x.1 = none ∧ x.2.isSome = true := by
  induction n with
  | zero => intro p r _ _ _; exact ⟨rfl, fun x hx => by cases hx⟩
  | succ n ih =>
    intro p r h hpr hJ
    obtain ⟨res, h1, h2, h3, h4, h5, r2, h6⟩ := prs_next_array_zero U p r h hpr hJ
    obtain ⟨i1, i2⟩ := ih res.p r2 h6 h5 h4
    rw [prs_calls_succ U n p res h1]
    refine ⟨by simp [i1], ?_⟩
    intro x hx
    rcases List.mem_cons.1 hx with hx | hx
    · subst hx; exact ⟨h2, h3⟩
    · exact i2 x hx

/-- C34. A parser in state INIT whose tokenizer waits for a token, over a source that
holds `*0\r\n` and then any bytes: every call of `next` from then on returns, and what
it returns is an error and no command, whatever the continuation of the input and
however many calls are made. -/
theorem zero_length_array_never_finalises (U : List Nat → List Nat) (s : source)
    (rest : List Nat) (tk : Option token) (ln : Nat) (A : Int) (args : List token) (ea : Int)
    (pio : ioData) (n : Nat) (h : s.Holds ([42, 48, 13, 10] ++ rest)) :
    (parser.calls U n ⟨parserInit, ⟨s, tokenizerWaitingForToken, tk, ln, A⟩, args, ea, pio⟩).length = n ∧
    ∀ x, x ∈ parser.calls U n ⟨parserInit, ⟨s, tokenizerWaitingForToken, tk, ln, A⟩, args, ea, pio⟩ →
      x.1 = none ∧ x.2.isSome = true := by
  cases n with
  | zero => exact ⟨rfl, fun x hx => by cases hx⟩
  | succ n =>
    obtain ⟨s2, io2, h2, hn⟩ := tkz_next_array s 0 13 (10 :: rest)
      (by simpa [natToDec] using h) (by decide) (Or.inl rfl) tk ln A
    have hfuel := source.fuel_of_holds s _ h
    simp only [List.length_append, List.length_cons, List.length_nil] at hfuel
    obtain ⟨f0, hf0⟩ : ∃ f0, s.fuel = f0 + 1 := ⟨s.fuel - 1, by omega⟩
    have hfirst : parser.next U ⟨parserInit, ⟨s, tokenizerWaitingForToken, tk, ln, A⟩, args, ea, pio⟩ =
        parser.nextLoop U f0 ⟨parserReadingArray,
          ⟨s2, tokenizerWaitingForToken, some ⟨tokenArray, [], 0, 0⟩, ln, A⟩, args, 0,
          newIoData.merge io2⟩ := by
      simp only [parser.next, hf0]
      exact prs_pass_init_array U _ args ea newIoData io2 [] 0 0 _ hn f0
    rcases prs_nextLoop_inv U (fun st _ ea => st = parserReadingArray ∧ ea = 0)
      (fun res => res.cmd = none ∧ res.err.isSome = true ∧
        (res.p.state = parserReadingArray ∧ res.p.expectedArgs = 0) ∧ res.p.tokenizer.proper ∧
        ∃ r2, res.p.tokenizer.src.Holds r2) False
      (fun p1 tk hJ1 hp1 hh1 => prs_react_array_zero U p1 tk hJ1 hp1 hh1)
      (fun p1 e hJ1 hp1 hh1 => ⟨rfl, rfl, hJ1, hp1, hh1⟩) f0
      ⟨parserReadingArray, ⟨s2, tokenizerWaitingForToken, some ⟨tokenArray, [], 0, 0⟩, ln, A⟩, args, 0,
        newIoData.merge io2⟩ (13 :: 10 :: rest) h2
      (by simp only [tokenizerState.extraPass, List.length_cons]; simp; omega)
      (Or.inl rfl) ⟨rfl, rfl⟩ with ⟨res, h3, h4, h5, h6, h7, r2, h8⟩ | ⟨_, hf⟩
    · obtain ⟨i1, i2⟩ := prs_calls_array_zero U n res.p r2 h8 h7 h6
      rw [prs_calls_succ U n _ res (hfirst.trans h3)]
      refine ⟨by simp [i1], ?_⟩
      intro x hx
      rcases List.mem_cons.1 hx with hx | hx
      · subst hx; exact ⟨h4, h5⟩
      · exact i2 x hx
    · exact absurd hf id

theorem zero_header_source_holds :
    (newBufferedSource ⟨[[42, 48, 13, 10] ++ bytesOf "PING\n*1\r\n$4\r\nPING\r\n"]⟩ 8).Holds
      ([42, 48, 13, 10] ++ bytesOf "PING\n*1\r\n$4\r\nPING\r\n") := by
  have h := source.holds_new [[42, 48, 13, 10] ++ bytesOf "PING\n*1\r\n$4\r\nPING\r\n"] 8
    (by decide) (by simp)
  simpa using h

theorem zero_length_array_never_finalises_witness :
    (newBufferedSource ⟨[[42, 48, 13, 10] ++ bytesOf "PING\n*1\r\n$4\r\nPING\r\n"]⟩ 8).Holds
      ([42, 48, 13, 10] ++ bytesOf "PING\n*1\r\n$4\r\nPING\r\n") ∧
    (parser.calls id 5 ⟨parserInit,
        ⟨newBufferedSource ⟨[[42, 48, 13, 10] ++ bytesOf "PING\n*1\r\n$4\r\nPING\r\n"]⟩ 8,
          tokenizerWaitingForToken, none, 0, 4096⟩, [], 0, ⟨0, 0⟩⟩).length = 5 ∧
    ∀ x, x ∈ parser.calls id 5 ⟨parserInit,
        ⟨newBufferedSource ⟨[[42, 48, 13, 10] ++ bytesOf "PING\n*1\r\n$4\r\nPING\r\n"]⟩ 8,
          tokenizerWaitingForToken, none, 0, 4096⟩, [], 0, ⟨0, 0⟩⟩ →
      x.1 = none ∧ x.2.isSome = true :=
  ⟨zero_header_source_holds,
    zero_length_array_never_finalises id _ (bytesOf "PING\n*1\r\n$4\r\nPING\r\n") none 0 4096 [] 0
      ⟨0, 0⟩ 5 zero_header_source_holds⟩

/-! ## Every call of `next` ends -/

/-- The only lists of arguments on which `parseArgs` panics: none at all, and four of
them (SET, key, value and an EXP with nothing after it). -/
theorem prs_parseArgs_none (U : List Nat → List Nat) (p : parser)
    (h : parser.parseArgs U p = none) : p.args = [] ∨ p.args.length = 4 := by
  obtain ⟨st, tz, args, ea, pio⟩ := p
  rcases args with _ | ⟨t0, _ | ⟨t1, _ | ⟨t2, _ | ⟨t3, _ | ⟨t4, rest⟩⟩⟩⟩⟩
  · exact Or.inl rfl
  · exfalso
    simp only [parser.parseArgs, parser.readCommand, parser.getArg, parser.getArgData,
      List.getElem?_cons_zero, List.length_singleton, bind, Option.bind, pure] at h
    revert h
    cases commandCodes.find? (fun code => decide (toUpper U t0.value = code.str)) with
    | none => simp
    | some code => cases code <;> simp
  · exfalso
    simp only [parser.parseArgs, parser.readCommand, parser.getArg, parser.getArgData,
      List.getElem?_cons_zero, List.getElem?_cons_succ, List.length_cons, List.length_nil,
      bind, Option.bind, pure] at h
    revert h
    cases commandCodes.find? (fun code => decide (toUpper U t0.value = code.str)) with
    | none => simp
    | some code => cases code <;> simp
  · exfalso
    simp only [parser.parseArgs, parser.readCommand, parser.getArg, parser.getArgData,
      List.getElem?_cons_zero, List.getElem?_cons_succ, List.length_cons, List.length_nil,
      bind, Option.bind, pure] at h
    revert h
    cases commandCodes.find? (fun code => decide (toUpper U t0.value = code.str)) with
    | none => simp
    | some code => cases code <;> simp
  · exact Or.inr rfl
  · exfalso
    simp only [parser.parseArgs, parser.readCommand, parser.getArg, parser.getArgData,
      List.getElem?_cons_zero, List.getElem?_cons_succ, List.length_cons,
      bind, Option.bind, pure] at h
    revert h
    cases commandCodes.find? (fun code => decide (toUpper U t0.value = code.str)) with
    | none => simp
    | some code => cases code <;> simp <;> (repeat' split) <;> simp

theorem prs_finish_proper (U : List Nat → List Nat) (q : parser) (hne : q.args ≠ [])
    (hs : q.state = parserInit) (hpr : q.tokenizer.proper) (hh : ∃ r2, q.tokenizer.src.Holds r2) :
    (∃ res, parser.finish (parser.parseArgs U q) = Result.done res ∧ res.p.proper ∧
      ∃ r2, res.p.tokenizer.src.Holds r2) ∨
    (parser.finish (parser.parseArgs U q) = Result.panicked ∧
      ∃ q2 : parser, q2.args.length = 4 ∧ parser.parseArgs U q2 = none) := by
  cases hq : parser.parseArgs U q with
  | none =>
    rcases prs_parseArgs_none U q hq with h0 | h4
    · exact absurd h0 hne
    · exact Or.inr ⟨rfl, q, h4, hq⟩
  | some x =>
    have hl := prs_parseArgs_leaves U q x hq
    refine Or.inl ⟨x, rfl, ?_, ?_⟩
    · rw [hl]
      refine ⟨hpr, ?_⟩
      intro hc
      simp only [parser.cleanArgs] at hc
      rw [hs] at hc
      cases hc
    · rw [hl]; exact hh

/-- One pass of the parser loop keeps the parser as the calls leave it; what it returns
leaves such a parser too, and it panics in `parseArgs` on four arguments only. -/
theorem prs_react_proper (U : List Nat → List Nat) (p1 : parser) (tk : token)
    (hJ : p1.state = parserReadingCommand → p1.args ≠ []) (hpr : p1.tokenizer.proper)
    (hh : ∃ r2, p1.tokenizer.src.Holds r2) :
    match parser.react U p1 tk with
    | .inr p2 => p2.state = parserReadingCommand → p2.args ≠ []
    | .inl (Result.done res) => res.p.proper ∧ ∃ r2, res.p.tokenizer.src.Holds r2
    | .inl Result.panicked => ∃ q2 : parser, q2.args.length = 4 ∧ parser.parseArgs U q2 = none
    | .inl Result.outOfFuel => True := by
  obtain ⟨st, tz, args, ea, pio⟩ := p1
  obtain ⟨ty, d, dl, sz⟩ := tk
  simp only at hJ hpr hh
  have fin : ∀ q : parser, q.args ≠ [] → q.state = parserInit → q.tokenizer = tz →
      match (Sum.inl (parser.finish (parser.parseArgs U q)) : Result parserResult ⊕ parser) with
      | .inr p2 => p2.state = parserReadingCommand → p2.args ≠ []
      | .inl (Result.done res) => res.p.proper ∧ ∃ r2, res.p.tokenizer.src.Holds r2
      | .inl Result.panicked => ∃ q2 : parser, q2.args.length = 4 ∧ parser.parseArgs U q2 = none
      | .inl Result.outOfFuel => True := by
    intro q hne hs ht
    rcases prs_finish_proper U q hne hs (ht ▸ hpr) (ht ▸ hh) with ⟨res, h1, h2⟩ | ⟨h1, h2⟩
    · rw [h1]; exact h2
    · rw [h1]; exact h2
  cases st <;> cases ty <;> simp only [parser.react, token.getType, parser.addArgs]
  case parserInit.tokenIdentifier => intro _; simp
  case parserInit.tokenString => intro _; simp
  case parserInit.tokenEol => intro hc; cases hc
  case parserInit.tokenComment => intro hc; cases hc
  case parserInit.tokenArray => intro hc; cases hc
  case parserInit.tokenBinString => exact ⟨⟨hpr, hJ⟩, hh⟩
  case parserReadingCommand.tokenIdentifier => intro _; simp
  case parserReadingCommand.tokenString => intro _; simp
  case parserReadingCommand.tokenComment => exact fun _ => hJ rfl
  case parserReadingCommand.tokenEol => exact fin _ (hJ rfl) rfl rfl
  case parserReadingCommand.tokenBinString => exact ⟨⟨hpr, hJ⟩, hh⟩
  case parserReadingCommand.tokenArray => exact ⟨⟨hpr, hJ⟩, hh⟩
  case parserReadingArray.tokenIdentifier => exact ⟨⟨hpr, hJ⟩, hh⟩
  case parserReadingArray.tokenString => exact ⟨⟨hpr, hJ⟩, hh⟩
  case parserReadingArray.tokenComment => exact ⟨⟨hpr, hJ⟩, hh⟩
  case parserReadingArray.tokenArray => exact ⟨⟨hpr, hJ⟩, hh⟩
  case parserReadingArray.tokenEol => intro hc; cases hc
  case parserReadingArray.tokenBinString =>
    by_cases hc : ((args ++ [(⟨tokenBinString, d, dl, sz⟩ : token)]).length : Int) = ea
    · rw [if_pos hc]; exact fin _ (by simp) rfl rfl
    · rw [if_neg hc]; intro hc2; cases hc2

theorem prs_next_proper (U : List Nat → List Nat) (p : parser) (r : List Nat)
    (h : p.tokenizer.src.Holds r) (hp : p.proper) :
    (∃ res, parser.next U p = Result.done res ∧ res.p.proper ∧ ∃ r2, res.p.tokenizer.src.Holds r2) ∨
    (parser.next U p = Result.panicked ∧
      ∃ q2 : parser, q2.args.length = 4 ∧ parser.parseArgs U q2 = none) :=
  prs_next_inv U (fun st args _ => st = parserReadingCommand → args ≠ [])
    (fun res => res.p.proper ∧ ∃ r2, res.p.tokenizer.src.Holds r2)
    (∃ q2 : parser, q2.args.length = 4 ∧ parser.parseArgs U q2 = none)
    (fun p1 tk hJ1 hp1 hh1 => prs_react_proper U p1 tk hJ1 hp1 hh1)
    (fun _ _ hJ1 hp1 hh1 => ⟨⟨hp1, hJ1⟩, hh1⟩) p r h hp.1 hp.2

/-- A pass of the tokenizer loop that goes round again has taken a byte from the source,
or has left the source as it is and entered a state whose pass, if it goes round again,
takes a byte. -/
theorem tkz_dispatch_progress (s1 s2 : source) (st : tokenizerState) (tk : Option token)
    (ln : Nat) (A : Int) (c : Nat) (h1 : s1.rm = some s2) (t2 : tokenizer)
    (hd : tokenizer.dispatch ⟨s1, st, tk, ln, A⟩ c = some (.again t2)) :
    t2.src = s2 ∨ (t2.src = s1 ∧
      ∀ (tk2 : Option token) (ln2 : Nat) (A2 : Int) (c2 : Nat) (t3 : tokenizer),
        tokenizer.dispatch ⟨s1, t2.state, tk2, ln2, A2⟩ c2 = some (.again t3) → t3.src = s2) := by
  have hp := tkz_dispatch_paced s1 s2 st tk ln A c h1
  rw [hd] at hp
  obtain ⟨_, hq⟩ := hp
  rcases hq with ⟨e1, _⟩ | ⟨e1, _, _, e4⟩
  · exact Or.inl e1
  · refine Or.inr ⟨e1, ?_⟩
    intro tk2 ln2 A2 c2 t3 hd2
    have hp2 := tkz_dispatch_paced s1 s2 t2.state tk2 ln2 A2 c2 h1
    rw [hd2] at hp2
    obtain ⟨_, hq2⟩ := hp2
    rcases hq2 with ⟨g1, _⟩ | ⟨_, _, g3, _⟩
    · exact g1
    · rcases e4 with e | e | e <;> rw [e] at g3 <;> simp at g3

/-- C40. Over a source in working order that will deliver the bytes `r` and then report
the end of the input, a call of `tokenizer.next` from any tokenizer state ends: the loop
makes at most `r.length + 4` passes, and from a state that calls of `next` on a new
tokenizer reach (a token is held, or the tokenizer is between tokens) the call returns
and leaves such a state. A call of `parser.next` from any parser state ends as well: its
loop makes at most `rp.length + 2` passes; from a state that calls on a new parser
reach it returns and leaves such a state, or it panics in `parseArgs` on four arguments.
Every pass of the tokenizer loop that goes round again has taken a byte from the source,
or has left the source as it is and entered a state whose pass returns or takes a byte. -/
theorem calls_end_after_finitely_many_passes (U : List Nat → List Nat) (t : tokenizer)
    (p : parser) (r rp : List Nat) (s1 s2 : source) (st : tokenizerState) (tk : Option token)
    (ln : Nat) (A : Int) (c : Nat)
    (ht : t.src.Holds r) (hp : p.tokenizer.src.Holds rp) (h1 : s1.rm = some s2) :
    ((∀ f io, r.length + 4 ≤ f → tokenizer.nextLoop f t io ≠ Result.outOfFuel) ∧
      t.next ≠ Result.outOfFuel ∧
      (t.proper → ∃ res, t.next = Result.done res ∧ res.t.proper)) ∧
    ((∀ f, rp.length + 2 ≤ f → parser.nextLoop U f p ≠ Result.outOfFuel) ∧
      parser.next U p ≠ Result.outOfFuel ∧
      (p.proper →
        (∃ res, parser.next U p = Result.done res ∧ res.p.proper) ∨
        (parser.next U p = Result.panicked ∧
          ∃ q : parser, q.args.length = 4 ∧ parser.parseArgs U q = none))) ∧
    (∀ t2, tokenizer.dispatch ⟨s1, st, tk, ln, A⟩ c = some (.again t2) →
      t2.src = s2 ∨ (t2.src = s1 ∧
        ∀ (tk2 : Option token) (ln2 : Nat) (A2 : Int) (c2 : Nat) (t3 : tokenizer),
          tokenizer.dispatch ⟨s1, t2.state, tk2, ln2, A2⟩ c2 = some (.again t3) → t3.src = s2)) := by
  refine ⟨⟨?_, ?_, ?_⟩, ⟨?_, prs_next_returns U p rp hp, ?_⟩, ?_⟩
  · intro f io hf
    have hs := tokenizerState.slack_le t.state
    exact (tkz_nextLoop_outcome f t io r ht (by omega)).1
  · exact (tkz_next_outcome t r ht).1
  · intro hpr
    obtain ⟨o1, o2, o3⟩ := tkz_next_outcome t r ht
    cases hn : t.next with
    | outOfFuel => exact absurd hn o1
    | panicked => exact absurd hpr (o2 hn)
    | done res => exact ⟨res, rfl, (o3 res hn).1 hpr⟩
  · intro f hf
    have he := tokenizerState.extraPass_le p.tokenizer.state
    exact prs_nextLoop_returns U f p rp hp (by omega)
  · intro hpr
    rcases prs_next_proper U p rp hp hpr with ⟨res, h2, h3, _⟩ | h2
    · exact Or.inl ⟨res, h2, h3⟩
    · exact Or.inr h2
  · intro t2 hd
    exact tkz_dispatch_progress s1 s2 st tk ln A c h1 t2 hd

theorem ping_source_holds :
    (newBufferedSource ⟨[bytesOf "PING\n"]⟩ 8).Holds (bytesOf "PING\n") := by
  have h := source.holds_new [bytesOf "PING\n"] 8 (by decide) (by decide)
  simpa using h

theorem calls_end_after_finitely_many_passes_witness :
    (newTokenizer (newBufferedSource ⟨[bytesOf "PING\n"]⟩ 8) 4096).src.Holds (bytesOf "PING\n") ∧
    (newParser (newBufferedSource ⟨[bytesOf "PING\n"]⟩ 8)).tokenizer.src.Holds (bytesOf "PING\n") ∧
    source.rm ⟨⟨[]⟩, [80, 73, 78, 71, 10, 0, 0, 0], 0, 5, 1, 5⟩ =
      some ⟨⟨[]⟩, [80, 73, 78, 71, 10, 0, 0, 0], 1, 5, 1, 5⟩ ∧
    ((∀ f io, (bytesOf "PING\n").length + 4 ≤ f →
        tokenizer.nextLoop f (newTokenizer (newBufferedSource ⟨[bytesOf "PING\n"]⟩ 8) 4096) io ≠
          Result.outOfFuel) ∧
      (newTokenizer (newBufferedSource ⟨[bytesOf "PING\n"]⟩ 8) 4096).next ≠ Result.outOfFuel ∧
      ((newTokenizer (newBufferedSource ⟨[bytesOf "PING\n"]⟩ 8) 4096).proper →
        ∃ res, (newTokenizer (newBufferedSource ⟨[bytesOf "PING\n"]⟩ 8) 4096).next = Result.done res ∧
          res.t.proper)) ∧
    ((∀ f, (bytesOf "PING\n").length + 2 ≤ f →
        parser.nextLoop id f (newParser (newBufferedSource ⟨[bytesOf "PING\n"]⟩ 8)) ≠ Result.outOfFuel) ∧
      parser.next id (newParser (newBufferedSource ⟨[bytesOf "PING\n"]⟩ 8)) ≠ Result.outOfFuel ∧
      ((newParser (newBufferedSource ⟨[bytesOf "PING\n"]⟩ 8)).proper →
        (∃ res, parser.next id (newParser (newBufferedSource ⟨[bytesOf "PING\n"]⟩ 8)) = Result.done res ∧
          res.p.proper) ∨
        (parser.next id (newParser (newBufferedSource ⟨[bytesOf "PING\n"]⟩ 8)) = Result.panicked ∧
          ∃ q : parser, q.args.length = 4 ∧ parser.parseArgs id q = none))) ∧
    (∀ t2, tokenizer.dispatch ⟨⟨⟨[]⟩, [80, 73, 78, 71, 10, 0, 0, 0], 0, 5, 1, 5⟩,
        tokenizerWaitingForToken, none, 0, 4096⟩ 80 = some (.again t2) →
      t2.src = ⟨⟨[]⟩, [80, 73, 78, 71, 10, 0, 0, 0], 1, 5, 1, 5⟩ ∨
      (t2.src = ⟨⟨[]⟩, [80, 73, 78, 71, 10, 0, 0, 0], 0, 5, 1, 5⟩ ∧
        ∀ (tk2 : Option token) (ln2 : Nat) (A2 : Int) (c2 : Nat) (t3 : tokenizer),
          tokenizer.dispatch ⟨⟨⟨[]⟩, [80, 73, 78, 71, 10, 0, 0, 0], 0, 5, 1, 5⟩, t2.state, tk2, ln2, A2⟩ c2 =
            some (.again t3) →
          t3.src = ⟨⟨[]⟩, [80, 73, 78, 71, 10, 0, 0, 0], 1, 5, 1, 5⟩)) :=
  ⟨ping_source_holds, ping_source_holds, by decide,
    calls_end_after_finitely_many_passes id
      (newTokenizer (newBufferedSource ⟨[bytesOf "PING\n"]⟩ 8) 4096)
      (newParser (newBufferedSource ⟨[bytesOf "PING\n"]⟩ 8)) (bytesOf "PING\n") (bytesOf "PING\n")
      ⟨⟨[]⟩, [80, 73, 78, 71, 10, 0, 0, 0], 0, 5, 1, 5⟩
      ⟨⟨[]⟩, [80, 73, 78, 71, 10, 0, 0, 0], 1, 5, 1, 5⟩ tokenizerWaitingForToken none 0 4096 80
      ping_source_holds ping_source_holds (by decide)⟩

/-! ## Command lines with blanks around them -/

theorem lineTail_head_padded (more : List (List Nat × List Nat)) (trail eol r : List Nat)
    (hm : ∀ p, p ∈ more → p.1 ≠ [] ∧ blanks p.1) (ht : blanks trail)
    (he : eol = [10] ∨ eol = [13, 10]) :
    ∃ t rest, lineTail more ++ (trail ++ (eol ++ r)) = t :: rest ∧
      (t = 13 ∨ t = 10 ∨ t = 32 ∨ t = 9) := by
  cases more with
  | nil =>
    cases trail with
    | nil =>
      rcases he with he | he <;> subst he
      · exact ⟨10, r, rfl, Or.inr (Or.inl rfl)⟩
      · exact ⟨13, 10 :: r, rfl, Or.inl rfl⟩
    | cons c cs =>
      refine ⟨c, cs ++ (eol ++ r), rfl, ?_⟩
      rcases ht c (List.mem_cons_self _ _) with h | h
      · exact Or.inr (Or.inr (Or.inl h))
      · exact Or.inr (Or.inr (Or.inr h))
  | cons p more =>
    obtain ⟨hne, hb⟩ := hm p (List.mem_cons_self _ _)
    obtain ⟨c, cs, hc⟩ := List.exists_cons_of_ne_nil hne
    refine ⟨c, cs ++ (p.2 ++ lineTail more) ++ (trail ++ (eol ++ r)), ?_, ?_⟩
    · simp [lineTail, hc]
    · have := hb c (by rw [hc]; exact List.mem_cons_self _ _)
      rcases this with h | h
      · exact Or.inr (Or.inr (Or.inl h))
      · exact Or.inr (Or.inr (Or.inr h))

theorem prs_run_line_tail_padded (U : List Nat → List Nat) (r : List Nat) (A : Int) (ea : Int)
    (trail eol : List Nat) (ht : blanks trail) (he : eol = [10] ∨ eol = [13, 10])
    (more : List (List Nat × List Nat)) :
    ∀ (s : source) (tk : Option token) (ln : Nat) (acc : List token) (pio : ioData),
      (∀ p, p ∈ more → p.1 ≠ [] ∧ blanks p.1 ∧ validIdentifier p.2 ∧ (p.2.length : Int) ≤ A) →
      s.Holds (lineTail more ++ (trail ++ (eol ++ r))) →
      ∃ s2 tk2 ln2 pio2, s2.Holds r ∧ ∀ f,
        parser.nextLoop U (f + more.length + 1)
            ⟨parserReadingCommand, ⟨s, tokenizerWaitingForToken, tk, ln, A⟩, acc, ea, pio⟩ =
          parser.finish (parser.parseArgs U
            ⟨parserInit, ⟨s2, tokenizerWaitingForToken, tk2, ln2, A⟩,
              acc ++ more.map (fun p => identToken p.2), ea, pio2⟩) := by
  induction more with
  | nil =>
    intro s tk ln acc pio _ h
    simp only [lineTail, List.nil_append] at h
    rcases he with he | he <;> subst he
    · obtain ⟨s2, io2, h2, hn⟩ := tkz_next_eol_lf s trail r (by simpa using h) ht tk ln A
      refine ⟨s2, some ⟨tokenEol, [], 0, 0⟩, ln + 1, pio.merge io2, h2, fun f => ?_⟩
      rw [show f + ([] : List (List Nat × List Nat)).length + 1 = f + 1 from rfl,
        prs_pass_line_eol U _ acc ea pio io2 [] 0 0 _ hn]
      simp
    · obtain ⟨s2, io2, h2, hn⟩ := tkz_next_eol_crlf s trail r (by simpa using h) ht tk ln A
      refine ⟨s2, some ⟨tokenEol, [], 0, 0⟩, ln + 1, pio.merge io2, h2, fun f => ?_⟩
      rw [show f + ([] : List (List Nat × List Nat)).length + 1 = f + 1 from rfl,
        prs_pass_line_eol U _ acc ea pio io2 [] 0 0 _ hn]
      simp
  | cons p more ih =>
    intro s tk ln acc pio hm h
    obtain ⟨hne, hb, hv, hl⟩ := hm p (List.mem_cons_self _ _)
    have hm2 : ∀ q, q ∈ more → q.1 ≠ [] ∧ blanks q.1 ∧ validIdentifier q.2 ∧ (q.2.length : Int) ≤ A :=
      fun q hq => hm q (List.mem_cons_of_mem _ hq)
    obtain ⟨t, rest, hrest, ht2⟩ := lineTail_head_padded more trail eol r
      (fun q hq => ⟨(hm2 q hq).1, (hm2 q hq).2.1⟩) ht he
    have h0 : s.Holds (p.1 ++ (p.2 ++ t :: rest)) := by
      rw [← hrest]
      simpa [lineTail, List.append_assoc] using h
    obtain ⟨s1, io1, h1, hn⟩ := tkz_next_ident s p.1 p.2 t rest h0 hb hv hl ht2 tk ln
    rw [← hrest] at h1
    obtain ⟨s2, tk2, ln2, pio2, h2, run2⟩ := ih s1 (some ⟨tokenIdentifier, p.2, 0, p.2.length⟩) ln
      (acc ++ [identToken p.2]) (pio.merge io1) hm2 h1
    refine ⟨s2, tk2, ln2, pio2, h2, fun f => ?_⟩
    have e : f + (p :: more).length + 1 = (f + more.length + 1) + 1 := by
      simp only [List.length_cons]; omega
    rw [e, prs_pass_line_ident U _ acc ea pio io1 p.2 0 _ _ hn (f + more.length + 1)]
    have := run2 f
    simp only [identToken] at this ⊢
    rw [this]
    simp only [List.map_cons, List.append_assoc, List.singleton_append, identToken]

/-- A call of `parser.next` on a command line with blanks around it: the words reach
`parseArgs` as IDENTIFIER tokens. -/
theorem prs_next_padded_line (U : List Nat → List Nat) (r : List Nat) (l : paddedLine)
    (s : source) (tk : Option token) (ln : Nat) (ea : Int) (pio : ioData)
    (hok : l.ok 4096) (h : s.Holds (l.bytes ++ r)) :
    ∃ s2 tk2 ln2 pio2, s2.Holds r ∧
      parser.next U ⟨parserInit, ⟨s, tokenizerWaitingForToken, tk, ln, maxTokenSize⟩, [], ea, pio⟩ =
        parser.finish (parser.parseArgs U
          ⟨parserInit, ⟨s2, tokenizerWaitingForToken, tk2, ln2, maxTokenSize⟩,
            l.line.words.map identToken, ea, pio2⟩) := by
  obtain ⟨hlead, ⟨⟨hv, hl⟩, hm, he⟩, htrail⟩ := hok
  have hm2 : ∀ p, p ∈ l.line.more →
      p.1 ≠ [] ∧ blanks p.1 ∧ validIdentifier p.2 ∧ (p.2.length : Int) ≤ maxTokenSize := by
    intro p hp
    obtain ⟨a, b, c, d⟩ := hm p hp
    refine ⟨a, b, c, ?_⟩
    show (p.2.length : Int) ≤ 1024 * 4
    omega
  obtain ⟨t, rest, hrest, ht⟩ := lineTail_head_padded l.line.more l.trail l.line.eol r
    (fun q hq => ⟨(hm2 q hq).1, (hm2 q hq).2.1⟩) htrail he
  have h0 : s.Holds (l.lead ++ (l.line.first ++ t :: rest)) := by
    rw [← hrest]
    simpa [paddedLine.bytes, List.append_assoc] using h
  obtain ⟨s1, io1, h1, hn⟩ := tkz_next_ident s l.lead l.line.first t rest h0 hlead hv
    (show (l.line.first.length : Int) ≤ maxTokenSize by
      show (l.line.first.length : Int) ≤ 1024 * 4
      omega) ht tk ln
  rw [← hrest] at h1
  obtain ⟨s2, tk2, ln2, pio2, h2, run2⟩ := prs_run_line_tail_padded U r maxTokenSize ea l.trail
    l.line.eol htrail he l.line.more s1
    (some ⟨tokenIdentifier, l.line.first, 0, l.line.first.length⟩) ln [identToken l.line.first]
    (newIoData.merge io1) hm2 h1
  refine ⟨s2, tk2, ln2, pio2, h2, ?_⟩
  have hfuel := source.fuel_of_holds s _ h
  have hlen := lineTail_length l.line.more (fun q hq => (hm2 q hq).1)
  simp only [paddedLine.bytes, List.length_append] at hfuel
  obtain ⟨f0, hf0⟩ : ∃ f0, s.fuel = (f0 + l.line.more.length + 1) + 1 :=
    ⟨s.fuel - (l.line.more.length + 2), by omega⟩
  simp only [parser.next, hf0]
  rw [prs_pass_init_ident U _ [] ea newIoData io1 l.line.first 0 _ _ hn (f0 + l.line.more.length + 1)]
  have := run2 f0
  simp only [identToken, List.nil_append] at this ⊢
  rw [this]
  simp only [textLine.words, List.map_cons, List.map_map, List.singleton_append, identToken]
  rfl

theorem prs_calls_padded_lines (U : List Nat → List Nat) (lines : List paddedLine)
    (cmds : List command)
    (hl : List.Forall₂ (fun (l : paddedLine) c => l.ok 4096 ∧ lineCommand l.line.words c) lines cmds) :
    ∀ (s : source) (tk : Option token) (ln : Nat) (ea : Int) (pio : ioData),
      s.Holds (lines.map paddedLine.bytes).flatten →
      parser.calls U (cmds.length + 1)
          ⟨parserInit, ⟨s, tokenizerWaitingForToken, tk, ln, maxTokenSize⟩, [], ea, pio⟩ =
        cmds.map (fun c => (some c, none)) ++ [(none, some (newReadingError GoError.EOF))] := by
  induction hl with
  | nil =>
    intro s tk ln ea pio h
    obtain ⟨io, p2, hn⟩ := prs_next_eof U s (by simpa using h) tk ln maxTokenSize [] ea pio parserInit
    rw [show ([] : List command).length + 1 = 0 + 1 from rfl, prs_calls_succ U _ _ _ hn]
    rfl
  | @cons l c lines cmds hlc _ ih =>
    intro s tk ln ea pio h
    obtain ⟨hok, hcmd⟩ := hlc
    obtain ⟨s2, tk2, ln2, pio2, h2, hnext⟩ := prs_next_padded_line U
      (lines.map paddedLine.bytes).flatten l s tk ln ea pio hok (by simpa using h)
    rw [prs_parseArgs_lineCommand U l.line.words c hcmd] at hnext
    have := ih s2 tk2 ln2 ea pio2 h2
    rw [show (c :: cmds).length + 1 = (cmds.length + 1) + 1 from rfl,
      prs_calls_succ U _ _ _ hnext, this]
    rfl

/-- C4. Line-form parsing, and where it breaks. For every sequence of well-formed
line-form commands written as identifiers (SET key value, SET key value EXP n, GET key,
RM key and the commands without argument, name and EXP in any mix of cases), each line
with any run of spaces and tabs before the first word, non-empty runs of spaces and tabs
between the words, any run of spaces and tabs before the end of line, and ended by `\n`
or `\r\n`, successive calls of `parser.next()` on a new parser return the commands in
order and then the error whose cause is EOF, whatever the buffer size and the split into
reads; the input of `TestParseOfMultiplesCommands` gives its four commands. A quoted
value is taken when a space follows it or a tab precedes it, but on
`SET k 'v'<TAB>EXP 5` the call returns the fatal error "Unexpected '9' next to EOS" and
no command. -/
theorem line_form_breaks_on_tab_after_quote :
    (∀ (U : List Nat → List Nat) (lines : List paddedLine) (cmds : List command) (B : Nat)
        (chunks : List (List Nat)),
      List.Forall₂ (fun (l : paddedLine) c => l.ok 4096 ∧ lineCommand l.line.words c) lines cmds →
      0 < B → (∀ c, c ∈ chunks → c ≠ []) →
      chunks.flatten = (lines.map paddedLine.bytes).flatten →
      parser.calls U (cmds.length + 1) (newParser (newBufferedSource ⟨chunks⟩ B)) =
        cmds.map (fun c => (some c, none)) ++ [(none, some (newReadingError GoError.EOF))]) ∧
    parser.calls id 5 (newParser (newBufferedSource (fileReader (bytesOf
        "GET F398BC5672A51D8D\nset key0 F398BC5672A51D8D exp 360\r\n\trm key_0\nPING\r\n")) 8)) =
      [(some ⟨commandGet, bytesOf "F398BC5672A51D8D", [], 0⟩, none),
        (some ⟨commandSet, bytesOf "key0", bytesOf "F398BC5672A51D8D", 360⟩, none),
        (some ⟨commandRm, bytesOf "key_0", [], 0⟩, none),
        (some ⟨commandPing, [], [], 0⟩, none),
        (none, some (newReadingError GoError.EOF))] ∧
    parser.calls id 2 (newParser (newBufferedSource (fileReader (bytesOf
        "SET k 'v' EXP 5\n")) 8)) =
      [(some ⟨commandSet, [107], [118], 5⟩, none), (none, some (newReadingError GoError.EOF))] ∧
    parser.calls id 2 (newParser (newBufferedSource (fileReader (bytesOf
        "SET k\t'v' \tEXP 5\n")) 8)) =
      [(some ⟨commandSet, [107], [118], 5⟩, none), (none, some (newReadingError GoError.EOF))] ∧
    parser.calls id 1 (newParser (newBufferedSource (fileReader (bytesOf
        "SET k 'v'\tEXP 5\n")) 8)) =
      [(none, some (newTokenizationError (bytesOf "Unexpected '9' next to EOS")))] ∧
    (newTokenizationError (bytesOf "Unexpected '9' next to EOS")).isFatal = true := by
  refine ⟨?_, by decide, by decide, by decide, by decide, by decide⟩
  intro U lines cmds B chunks hl hB hch hbytes
  have hsrc := source.holds_new chunks B hB hch
  rw [hbytes] at hsrc
  rw [newParser_eq]
  exact prs_calls_padded_lines U lines cmds hl _ none 0 0 newIoData hsrc

/-- C9. On a keyspace where every transient key is stored, `evict()` at second `now` ends
and removes exactly the keys whose item is transient and has a time to live, computed in
64 bits, of at most 0; with all seconds and expirations away from the 64-bit limits these
are the keys with non-zero expiration and `creation + expiration ≤ now`, and every other
item is left as it was. The item set with expiration -9223372036854775808 at second 100
(the parser returns that expiration for `SET k v EXP -9223372036854775808`) has
`creation + expiration ≤ 101`, yet `evict()` at second 101 keeps it: the subtraction in
`getTimeToLive` wraps to 9223372036854775807. At second 100 `evict()` removes it. -/
theorem evict_keeps_item_with_wrapped_ttl :
    (∀ (hm : hashmap) (now : Int), hm.tracked →
      ∃ hm2, hm.evict now = some hm2 ∧
        ∀ k, (hm2.get k).1 =
          match (hm.get k).1 with
          | none => none
          | some it => if it.isTransient = true ∧ it.hasExpired now = true then none else some it) ∧
    (∀ (hm : hashmap) (now : Int), hm.tracked → hm.timesInRange → timeRange now →
      ∃ hm2, hm.evict now = some hm2 ∧ ∀ k, hm2.get k = afterEvict (hm.get k).1 now) ∧
    parser.calls id 1 (newParser (newBufferedSource
        ⟨[bytesOf "SET k v EXP -9223372036854775808" ++ [10]]⟩ 16)) =
      [(some ⟨commandSet, [107], [118], -9223372036854775808⟩, none)] ∧
    ((-9223372036854775808 : Int) ≠ 0 ∧ (100 : Int) + -9223372036854775808 ≤ 101) ∧
    item.getTimeToLive ⟨[107], [118], -9223372036854775808, 100⟩ 101 = 9223372036854775807 ∧
    ((newHashmap.set [107] [118] (-9223372036854775808) 100).evict 101).map
        (fun hm => hm.get [107]) =
      some (some ⟨[107], [118], -9223372036854775808, 100⟩, true) ∧
    ((newHashmap.set [107] [118] (-9223372036854775808) 100).evict 100).map
        (fun hm => hm.get [107]) = some (none, false) := by
  refine ⟨?_, ?_, by decide, by decide, by decide, by decide, by decide⟩
  · intro hm now h
    obtain ⟨hm2, h1, _, h3⟩ := hashmap.evict_returns hm now h
    refine ⟨hm2, h1, ?_⟩
    intro k
    simp only [hashmap.get, h3 k]
    cases hit : hm.data.getItem k with
    | none => rfl
    | some it =>
      simp only
      by_cases hc : it.isTransient = true ∧ it.hasExpired now = true
      · have hk : k ∈ hm.transientKeys :=
          h.2.2 k it hit (by simpa [item.isTransient] using hc.1)
        rw [if_pos ⟨hk, hc⟩, if_pos hc]
      · rw [if_neg hc, if_neg (fun hx => hc hx.2)]
  · intro hm now h hr hn
    exact hashmap.evict_get hm now h hr hn

/-! ## `set` with expiration 0 over a transient key -/

theorem keySet.mem_removeKey_of_ne (s : keySet) (a k : List Nat) (h : k ∈ s) (hne : k ≠ a) :
    k ∈ s.removeKey a := by
  simp only [keySet.removeKey, List.mem_filter, decide_eq_true_eq]
  exact ⟨h, hne⟩

/-- One pass of the loop of `evict` leaves a key of the transient set in it when the
stored item of the key has expiration 0. -/
theorem hashmap.evictKey_keeps_key (now : Int) (hm hm1 : hashmap) (a k : List Nat) (it : item)
    (h : hashmap.evictKey now hm a = some hm1) (hk : k ∈ hm.transientKeys)
    (hit : hm.data.getItem k = some it) (he : it.expiration = 0) :
    k ∈ hm1.transientKeys ∧ hm1.data.getItem k = some it := by
  simp only [hashmap.evictKey, hashmap.get] at h
  split at h
  · cases h
  · rename_i x _ hx
    split at h
    · rename_i hc
      cases h
      have hne : k ≠ a := by
        intro e
        subst e
        simp only [Prod.mk.injEq] at hx
        rw [hit] at hx
        have := hx.1
        cases this
        simp [item.isTransient, he] at hc
      exact ⟨keySet.mem_removeKey_of_ne _ _ _ hk hne, by
        simp only [hashmap.rm]
        rw [itemMap.getItem_remove_ne _ _ _ hne]; exact hit⟩
    · cases h
      exact ⟨hk, hit⟩

theorem hashmap.evict_loop_keeps_key (now : Int) (k : List Nat) (it : item)
    (he : it.expiration = 0) (L : List (List Nat)) :
    ∀ hm hm2 : hashmap, L.foldlM (hashmap.evictKey now) hm = some hm2 → k ∈ hm.transientKeys →
      hm.data.getItem k = some it → k ∈ hm2.transientKeys ∧ hm2.data.getItem k = some it := by
  induction L with
  | nil =>
    intro hm hm2 h hk hit
    simp only [List.foldlM_nil, pure, Option.some.injEq] at h
    subst h
    exact ⟨hk, hit⟩
  | cons a L ih =>
    intro hm hm2 h hk hit
    simp only [List.foldlM_cons, bind, Option.bind] at h
    cases hs : hashmap.evictKey now hm a with
    | none => simp [hs] at h
    | some hm1 =>
      simp only [hs] at h
      obtain ⟨h1, h2⟩ := hashmap.evictKey_keeps_key now hm hm1 a k it hs hk hit he
      exact ih hm1 hm2 h h1 h2

/-- A call that is no `set` or `rm` of the key, and no `rmall`, leaves the key in the
transient set when it is there with a stored item of expiration 0. -/
theorem hashmap.call_keeps_key (hm : hashmap) (c : keyspaceCall) (k : List Nat) (it : item)
    (h : hm.tracked) (hk : k ∈ hm.transientKeys) (hit : hm.data.getItem k = some it)
    (he : it.expiration = 0) (hc : c.changes k = false) :
    ∃ hm2, hm.call c = some hm2 ∧ hm2.tracked ∧ k ∈ hm2.transientKeys ∧
      hm2.data.getItem k = some it := by
  cases c with
  | set k2 v e now =>
    have hne : k ≠ k2 := by
      intro e2; simp [keyspaceCall.changes, e2] at hc
    refine ⟨_, rfl, hashmap.tracked_set_any hm k2 v e now h, ?_, ?_⟩
    · simp only [hashmap.set]
      split
      · simp only [keySet.insertKey]
        split
        · exact hk
        · exact List.mem_append_left _ hk
      · exact hk
    · simp only [hashmap.set]
      rw [itemMap.getItem_put_ne _ _ _ _ hne]; exact hit
  | rm k2 =>
    have hne : k ≠ k2 := by
      intro e2; simp [keyspaceCall.changes, e2] at hc
    refine ⟨_, rfl, hashmap.tracked_rm hm k2 h, keySet.mem_removeKey_of_ne _ _ _ hk hne, ?_⟩
    simp only [hashmap.rm]
    rw [itemMap.getItem_remove_ne _ _ _ hne]; exact hit
  | rmall => simp [keyspaceCall.changes] at hc
  | evict now =>
    obtain ⟨hm2, h1, h2, _⟩ := hashmap.evict_returns hm now h
    obtain ⟨h3, h4⟩ := hashmap.evict_loop_keeps_key now k it he hm.transientKeys hm hm2 h1 hk hit
    exact ⟨hm2, h1, h2, h3, h4⟩

theorem hashmap.calls_keep_key (cs : List keyspaceCall) (k : List Nat) (it : item)
    (he : it.expiration = 0) :
    ∀ hm : hashmap, hm.tracked → k ∈ hm.transientKeys → hm.data.getItem k = some it →
      (∀ c, c ∈ cs → c.changes k = false) →
      ∃ hm2, hm.calls cs = some hm2 ∧ k ∈ hm2.transientKeys ∧ hm2.data.getItem k = some it := by
  induction cs with
  | nil => intro hm _ hk hit _; exact ⟨hm, rfl, hk, hit⟩
  | cons c cs ih =>
    intro hm h hk hit hc
    obtain ⟨hm1, h1, h2, h3, h4⟩ := hashmap.call_keeps_key hm c k it h hk hit he
      (hc c (List.mem_cons_self _ _))
    obtain ⟨hm2, h5, h6⟩ := ih hm1 h2 h3 h4 (fun d hd => hc d (List.mem_cons_of_mem _ hd))
    exact ⟨hm2, by rw [hashmap.calls_cons hm hm1 c cs h1]; exact h5, h6⟩

/-- C32. Method `set` called with expiration 0 leaves the transient-keys set as it is,
also when it overwrites a transient item, while its sibling `rm` deletes the key from
the set. So after any calls, `set(k, v, e)` with `e ≠ 0` and then `set(k, w, 0)`, the key
`k` is in the transient-keys set although its stored item has expiration 0, and it stays
there through every run of later calls among which there is no `set` or `rm` of `k` and
no `rmall`; on a new keyspace, `set(k, v, 5)` and `set(k, w, 0)` leave the set `{k}` and
a stored expiration of 0. In every state reached by calls of `set`, `rm`, `rmall` and
`evict` the set still holds every key whose stored item has a non-zero expiration,
holds each key once, and holds stored keys only. -/
theorem set_without_expiration_keeps_transient_key :
    (∀ (hm : hashmap) (k v : List Nat) (now : Int),
      (hm.set k v 0 now).transientKeys = hm.transientKeys) ∧
    (∀ (hm : hashmap) (k : List Nat), k ∉ (hm.rm k).transientKeys) ∧
    (∀ (pre cs : List keyspaceCall) (k v w : List Nat) (e t1 t2 : Int), e ≠ 0 →
      (∀ c, c ∈ cs → c.changes k = false) →
      ∃ hm, newHashmap.calls (pre ++ [.set k v e t1, .set k w 0 t2] ++ cs) = some hm ∧
        k ∈ hm.transientKeys ∧ (hm.get k).1 = some ⟨k, w, 0, t2⟩ ∧
        ¬ (k ∈ hm.transientKeys ↔ ∃ it, (hm.get k).1 = some it ∧ it.getExpiration ≠ 0)) ∧
    (newHashmap.calls [.set [107] [118] 5 0, .set [107] [119] 0 0]).map
        (fun hm => (hm.transientKeys, (hm.get [107]).1.map item.getExpiration)) =
      some ([[107]], some 0) ∧
    (∀ cs : List keyspaceCall, ∃ hm, newHashmap.calls cs = some hm ∧
      (∀ k it, (hm.get k).1 = some it → it.getExpiration ≠ 0 → k ∈ hm.transientKeys) ∧
      hm.transientKeys.Nodup ∧
      (∀ k, k ∈ hm.transientKeys → (hm.get k).2 = true)) := by
  refine ⟨?_, ?_, ?_, by decide, ?_⟩
  · intro hm k v now
    simp [hashmap.set]
  · intro hm k hk
    simp [hashmap.rm, keySet.removeKey] at hk
  · intro pre cs k v w e t1 t2 he hcs
    obtain ⟨hm0, h1, h2⟩ := hashmap.calls_tracked pre newHashmap hashmap.tracked_new
    have h3 := hashmap.tracked_set_any (hm0.set k v e t1) k w 0 t2
      (hashmap.tracked_set hm0 k v e t1 h2 he)
    have h4 : ((hm0.set k v e t1).set k w 0 t2).data.getItem k = some ⟨k, w, 0, t2⟩ := by
      simp only [hashmap.set]
      exact itemMap.getItem_put_self _ _ _
    have h5 : k ∈ ((hm0.set k v e t1).set k w 0 t2).transientKeys := by
      have : k ∈ (hm0.set k v e t1).transientKeys := by
        simp only [hashmap.set, he, ne_eq, not_false_eq_true, if_true, keySet.insertKey]
        split
        · assumption
        · simp
      simpa [hashmap.set] using this
    obtain ⟨hm, h6, h7, h8⟩ := hashmap.calls_keep_key cs k ⟨k, w, 0, t2⟩ rfl _ h3 h5 h4 hcs
    refine ⟨hm, ?_, h7, by simp [hashmap.get, h8], ?_⟩
    · rw [List.append_assoc, hashmap.calls_append pre _ newHashmap hm0 h1]
      rw [List.cons_append, hashmap.calls_cons hm0 (hm0.set k v e t1) (.set k v e t1) _ rfl,
        List.cons_append,
        hashmap.calls_cons (hm0.set k v e t1) ((hm0.set k v e t1).set k w 0 t2) (.set k w 0 t2) _ rfl]
      exact h6
    · intro hiff
      obtain ⟨it, hit, hne⟩ := hiff.1 h7
      simp only [hashmap.get, h8, Option.some.injEq] at hit
      subst hit
      exact hne rfl
  · intro cs
    obtain ⟨hm, h1, h2, h3, h4⟩ := hashmap.calls_tracked cs newHashmap hashmap.tracked_new
    exact ⟨hm, h1, h4, h2, h3⟩

end Aetherg
